import Mathlib

/-!
# mc-sync: a shallow embedding of the wire protocol, the tree serializer,
the tree materializer and the storage manager

Bytes are natural numbers (a real byte is below 256).  A C buffer is a list of
bytes; a C string is the part of a buffer that precedes its first NUL byte.
The process state is threaded explicitly through every operation.
-/

namespace McSync

/-! ## Bytes and C strings -/

/-- One byte of a buffer, of a file or of the connection. -/
abbrev Byte := Nat

/-- The constant `PATH_MAX` of `platform.h` / `limits.h`. -/
def PATH_MAX : Nat := 4096

/-- The constant `MCSYNC_MAX_LINE` of `common.h`. -/
def MCSYNC_MAX_LINE : Nat := 1024

/-- The constant `FILE_CHUNK_SIZE` of `fs_utils.c`. -/
def FILE_CHUNK_SIZE : Nat := 65536

/-- Bytes of an ASCII string literal. -/
def lit (s : String) : List Byte := s.toList.map Char.toNat

/-- The C string held by a buffer: the bytes before the first NUL. -/
def cstr : List Byte → List Byte
  | [] => []
  | c :: cs => if c = 0 then [] else c :: cstr cs

/-- The libc function `strlen`. -/
def strlen (s : List Byte) : Nat := (cstr s).length

/-- Whether `needle` starts the byte list. -/
def startsWith : List Byte → List Byte → Bool
  | _, [] => true
  | [], _ :: _ => false
  | c :: cs, n :: ns => decide (c = n) && startsWith cs ns

/-- Scan used by `strstr`: does `needle` occur somewhere in the bytes. -/
def occursIn (needle : List Byte) : List Byte → Bool
  | [] => startsWith [] needle
  | c :: cs => startsWith (c :: cs) needle || occursIn needle cs

/-- The libc call `strstr(hay, needle) != NULL` on C strings. -/
def strstr (hay needle : List Byte) : Bool := occursIn (cstr needle) (cstr hay)

/-- The libc call `strcmp(a, b) == 0`. -/
def strcmp_eq (a b : List Byte) : Bool := decide (cstr a = cstr b)

/-- The libc call `strncmp(a, b, n) == 0`. -/
def strncmp_eq (a b : List Byte) (n : Nat) : Bool :=
  decide ((cstr a).take n = (cstr b).take n)

/-- The libc function `isalnum` in the "C" locale. -/
def isalnum (c : Byte) : Bool :=
  (48 ≤ c && c ≤ 57) || (65 ≤ c && c ≤ 90) || (97 ≤ c && c ≤ 122)

/-- The libc function `isspace` in the "C" locale. -/
def isspace (c : Byte) : Bool :=
  c = 32 || (9 ≤ c && c ≤ 13)

/-- The libc function `isdigit`. -/
def isdigit (c : Byte) : Bool := 48 ≤ c && c ≤ 57

/-- The character test in the loop of `sanitize_name`. -/
def nameCharOk (c : Byte) : Bool :=
  isalnum c || c = 45 || c = 95 || c = 46

/-- The `for` loop of `sanitize_name`: walks the string up to its NUL. -/
def sanitize_loop : List Byte → Int
  | [] => 0
  | c :: cs => if c = 0 then 0 else if !nameCharOk c then -1 else sanitize_loop cs

/-- The function `sanitize_name` of `fs_utils.c`: `0` accepts, `-1` rejects. -/
def sanitize_name (name : List Byte) : Int :=
  if name.head? = none ∨ name.head? = some 0 then -1
  else if strstr name (lit "..") then -1
  else sanitize_loop name

/-! ## The WorldName of the specification -/

/-- An ASCII letter or digit, as the specification words it. -/
def IsAsciiAlnum (c : Byte) : Prop :=
  (48 ≤ c ∧ c ≤ 57) ∨ (65 ≤ c ∧ c ≤ 90) ∨ (97 ≤ c ∧ c ≤ 122)

/-- The WorldName of the specification: non-empty, only alphanumerics, `-`,
`_`, `.`, and never `..` as a substring. -/
def IsWorldName (s : List Byte) : Prop :=
  s ≠ [] ∧ (∀ c ∈ s, IsAsciiAlnum c ∨ c = 45 ∨ c = 95 ∨ c = 46) ∧ ¬ ([46, 46] <:+: s)

instance : DecidablePred IsAsciiAlnum := fun c => by
  unfold IsAsciiAlnum
  infer_instance

instance : DecidablePred IsWorldName := fun s => by
  unfold IsWorldName
  infer_instance

/-! ## The process state -/

/-- The error numbers the program sets or tests. -/
inductive Errno where
  | EACCES | ENOENT | EEXIST | ENOTDIR | EISDIR | ENOTEMPTY | EINVAL
  | ENAMETOOLONG | EMSGSIZE | EPROTO | ENOMEM | ECONNRESET
deriving DecidableEq, Repr

/-- A node of the file system: a regular file with its bytes, or a directory
with its entries in listing order. -/
inductive Node where
  | file (data : List Byte)
  | dir (kids : List (List Byte × Node))
deriving Repr

mutual
/-- Equality of two nodes is decidable. -/
def Node.decEq : (a b : Node) → Decidable (a = b)
  | .file a, .file b =>
    if h : a = b then isTrue (by rw [h]) else isFalse (fun e => h (Node.file.inj e))
  | .dir a, .dir b =>
    match kidsDecEq a b with
    | isTrue h => isTrue (by rw [h])
    | isFalse h => isFalse (fun e => h (Node.dir.inj e))
  | .file _, .dir _ => isFalse (fun e => Node.noConfusion e)
  | .dir _, .file _ => isFalse (fun e => Node.noConfusion e)
/-- Equality of two entry lists is decidable. -/
def kidsDecEq : (a b : List (List Byte × Node)) → Decidable (a = b)
  | [], [] => isTrue rfl
  | [], _ :: _ => isFalse (fun e => List.noConfusion e)
  | _ :: _, [] => isFalse (fun e => List.noConfusion e)
  | (n, k) :: ks, (n1, k1) :: ks1 =>
    if hn : n = n1 then
      match Node.decEq k k1 with
      | isTrue hk =>
        match kidsDecEq ks ks1 with
        | isTrue hks => isTrue (by rw [hn, hk, hks])
        | isFalse hks => isFalse (fun e => hks (List.cons.inj e).2)
      | isFalse hk => isFalse (fun e => hk (Prod.mk.inj (List.cons.inj e).1).2)
    else isFalse (fun e => hn (Prod.mk.inj (List.cons.inj e).1).1)
end

instance : DecidableEq Node := Node.decEq

/-- The state of one process: its file system, the bytes the peer has sent
and that are not read yet, the bytes written to the connection so far, the
environment's decisions (which system calls fail, which suffix `mkdtemp`
picks), the sizes passed to `malloc`, the number of connections opened and
the path strings with which a file or directory was created or truncated. -/
structure World where
  fs : Node
  inp : List Byte
  out : List Byte
  faults : List Bool
  tmpSuffix : List Byte
  allocs : List Nat
  conns : Nat
  created : List (List Byte)
deriving DecidableEq

/-- A result together with the state the call leaves behind. -/
abbrev Res (α : Type) := Except Errno α × World

/-- The outcomes of a call that returns nothing but success or an error
can be compared. -/
instance : DecidableEq (Except Errno Unit) := fun a b =>
  match a, b with
  | .ok (), .ok () => isTrue rfl
  | .error x, .error y =>
    if h : x = y then isTrue (by rw [h]) else isFalse (fun e => h (Except.error.inj e))
  | .ok _, .error _ => isFalse (fun e => Except.noConfusion e)
  | .error _, .ok _ => isFalse (fun e => Except.noConfusion e)

/-- The environment decides whether the next system call fails; an empty
schedule means that none fails. -/
def World.fault (w : World) : Bool × World :=
  match w.faults with
  | [] => (false, w)
  | f :: rest => (f, { w with faults := rest })

/-! ## Framing layer (`common.c`) -/

/-- The system call `recv(sock, buf, n, 0)`: the bytes the peer has sent are
delivered in order, at most `n` at a time; nothing left means the peer closed. -/
def recv (n : Nat) (w : World) : List Byte × World :=
  (w.inp.take n, { w with inp := w.inp.drop n })

/-- The system call `send`: the connection accepts every byte. -/
def send (data : List Byte) (w : World) : World :=
  { w with out := w.out ++ data }

/-- The function `send_all` of `common.c`. -/
def send_all (data : List Byte) (w : World) : Res Unit :=
  (.ok (), send data w)

/-- The loop of `recv_all`; `fuel` bounds the iterations. -/
def recv_all_loop : Nat → Nat → List Byte → World → Res (List Byte)
  | 0, _, got, w => (.ok got, w)
  | fuel + 1, length, got, w =>
    if got.length < length then
      match recv (length - got.length) w with
      | ([], w1) => (.error .ECONNRESET, w1)
      | (chunk, w1) => recv_all_loop fuel length (got ++ chunk) w1
    else (.ok got, w)

/-- The function `recv_all` of `common.c`: exactly `length` bytes or failure. -/
def recv_all (length : Nat) (w : World) : Res (List Byte) :=
  recv_all_loop (length + 1) length [] w

/-- The loop of `recv_line`; the first argument is `max_len - 1 - pos`. -/
def recv_line_loop : Nat → List Byte → World → Res (List Byte)
  | 0, _, w => (.error .EMSGSIZE, w)
  | room + 1, buf, w =>
    match recv 1 w with
    | (c :: _, w1) => if c = 10 then (.ok buf, w1) else recv_line_loop room (buf ++ [c]) w1
    | ([], w1) => (.error .ECONNRESET, w1)

/-- The function `recv_line` of `common.c`; the result is the buffer up to
the NUL the function stores. -/
def recv_line (max_len : Nat) (w : World) : Res (List Byte) :=
  recv_line_loop (max_len - 1) [] w

/-- Digits of `n` put in front of `ds`, most significant first. -/
def decimal_loop : Nat → Nat → List Byte → List Byte
  | 0, _, ds => ds
  | fuel + 1, n, ds =>
    if n / 10 = 0 then (48 + n % 10) :: ds
    else decimal_loop fuel (n / 10) ((48 + n % 10) :: ds)

/-- Decimal digits of a number, as `%zu`, `%lu` and `%lld` print it. -/
def decimal (n : Nat) : List Byte := decimal_loop (n + 1) n []

/-- The function `send_fmt` of `common.c` applied to the already formatted
text: it refuses text that does not fit the line buffer. -/
def send_fmt (text : List Byte) (w : World) : Res Unit :=
  if text.length ≥ MCSYNC_MAX_LINE then (.error .EMSGSIZE, w)
  else send_all text w

/-! ## `sscanf` conversions -/

/-- Skip white space, as a white-space directive and every numeric conversion do. -/
def skip_ws : List Byte → List Byte
  | [] => []
  | c :: cs => if isspace c then skip_ws cs else c :: cs

/-- The leading decimal digits and what follows them. -/
def take_digits : List Byte → List Byte × List Byte
  | [] => ([], [])
  | c :: cs =>
    if isdigit c then
      let r := take_digits cs
      (c :: r.1, r.2)
    else ([], c :: cs)

/-- Value of a run of decimal digits. -/
def digits_value (ds : List Byte) : Nat :=
  ds.foldl (fun acc d => acc * 10 + (d - 48)) 0

/-- The text of a number: optional sign, then at least one digit. -/
def scan_number (s : List Byte) : Option (Bool × Nat × List Byte) :=
  let s1 := skip_ws s
  let signed : Bool × List Byte :=
    match s1 with
    | c :: cs => if c = 45 then (true, cs) else if c = 43 then (false, cs) else (false, c :: cs)
    | [] => (false, [])
  let r := take_digits signed.2
  if r.1 = [] then none else some (signed.1, digits_value r.1, r.2)

/-- The conversions `%lu` and `%llu` (64 bits): `strtoul` semantics, a value
out of range becomes the largest one and a minus sign negates modulo 2^64. -/
def scan_ulong (s : List Byte) : Option (Nat × List Byte) :=
  match scan_number s with
  | none => none
  | some (neg, v, rest) =>
    if v ≥ 2 ^ 64 then some (2 ^ 64 - 1, rest)
    else if neg then some ((2 ^ 64 - v) % 2 ^ 64, rest)
    else some (v, rest)

/-- The conversion `%d`: `strtol` semantics on 64 bits, then the cast to `int`. -/
def scan_int (s : List Byte) : Option (Int × List Byte) :=
  match scan_number s with
  | none => none
  | some (neg, v, rest) =>
    let l : Int :=
      if neg then (if v ≥ 2 ^ 63 then -(2 ^ 63 : Int) else -(v : Int))
      else (if v ≥ 2 ^ 63 then (2 ^ 63 : Int) - 1 else (v : Int))
    some (((l + 2 ^ 31) % 2 ^ 32) - 2 ^ 31, rest)

/-- Match the ordinary characters of a format against the input. -/
def scan_literal : List Byte → List Byte → Option (List Byte)
  | [], s => some s
  | _ :: _, [] => none
  | f :: fs, c :: cs => if f = c then scan_literal fs cs else none

/-- The call `sscanf(line, "PUSH %lu", &name_len) == 1`, and the same call
for `PULL`, `COUNT` and `WORLD`: the value when the conversion succeeds. -/
def sscanf_word_lu (word : String) (line : List Byte) : Option Nat :=
  match scan_literal (lit word) (cstr line) with
  | none => none
  | some s => (scan_ulong s).map Prod.fst

/-- The call `sscanf(line, "ENTRY %d %lu %llu", ...) == 3`: the three values
when all three conversions succeed. -/
def sscanf_entry (line : List Byte) : Option (Int × Nat × Nat) :=
  match scan_literal (lit "ENTRY") (cstr line) with
  | none => none
  | some s0 =>
    match scan_int s0 with
    | none => none
    | some (type, s1) =>
      match scan_ulong s1 with
      | none => none
      | some (path_len, s2) =>
        match scan_ulong s2 with
        | none => none
        | some (size, _) => some (type, path_len, size)

/-! ## File system

Paths are resolved from the root of the modelled tree, which is also the
working directory: a path is cut at `/`, empty components and `.` are
dropped and `..` steps back to the parent.  There are no symbolic links and
no special files. -/

/-- Cut a string at every `/`. -/
def splitSlash : List Byte → List (List Byte)
  | [] => [[]]
  | c :: cs =>
    if c = 47 then [] :: splitSlash cs
    else
      match splitSlash cs with
      | [] => [[c]]
      | h :: t => (c :: h) :: t

/-- Follow the components of a path from the directory `cur`. -/
def walk : List (List Byte) → List (List Byte) → List (List Byte)
  | cur, [] => cur
  | cur, c :: cs =>
    if c = [] ∨ c = [46] then walk cur cs
    else if c = [46, 46] then walk cur.dropLast cs
    else walk (cur ++ [c]) cs

/-- The names that lead from the root to what the path string denotes. -/
def resolve (path : List Byte) : List (List Byte) :=
  walk [] (splitSlash (cstr path))

/-- The entry of a directory with the given name. -/
def kidsGet (name : List Byte) : List (List Byte × Node) → Option Node
  | [] => none
  | (n, k) :: rest => if n = name then some k else kidsGet name rest

/-- Replace the entry with the given name, or add it at the end. -/
def kidsSet (name : List Byte) (v : Node) : List (List Byte × Node) → List (List Byte × Node)
  | [] => [(name, v)]
  | (n, k) :: rest => if n = name then (n, v) :: rest else (n, k) :: kidsSet name v rest

/-- Drop the entry with the given name. -/
def kidsDel (name : List Byte) : List (List Byte × Node) → List (List Byte × Node)
  | [] => []
  | (n, k) :: rest => if n = name then rest else (n, k) :: kidsDel name rest

/-- The node found by following the names from a node. -/
def Node.get : Node → List (List Byte) → Option Node
  | n, [] => some n
  | .file _, _ :: _ => none
  | .dir kids, c :: cs =>
    match kidsGet c kids with
    | some k => k.get cs
    | none => none

/-- Store a node under the names; every directory on the way must exist. -/
def Node.put : Node → List (List Byte) → Node → Option Node
  | _, [], v => some v
  | .file _, _ :: _, _ => none
  | .dir kids, c :: cs, v =>
    match kidsGet c kids with
    | some k =>
      match k.put cs v with
      | some k1 => some (.dir (kidsSet c k1 kids))
      | none => none
    | none => if cs = [] then some (.dir (kidsSet c v kids)) else none

/-- Remove what the names denote, which must exist. -/
def Node.del : Node → List (List Byte) → Option Node
  | _, [] => none
  | .file _, _ :: _ => none
  | .dir kids, c :: cs =>
    match kidsGet c kids with
    | some k =>
      if cs = [] then some (.dir (kidsDel c kids))
      else
        match k.del cs with
        | some k1 => some (.dir (kidsSet c k1 kids))
        | none => none
    | none => none

mutual
/-- Nesting depth of a tree. -/
def Node.depth : Node → Nat
  | .file _ => 0
  | .dir kids => kidsDepth kids + 1
/-- Largest nesting depth among the entries of a directory. -/
def kidsDepth : List (List Byte × Node) → Nat
  | [] => 0
  | (_, k) :: ks => max k.depth (kidsDepth ks)
end

/-- A name a directory entry can have: not empty, without `/` and NUL, and
neither `.` nor `..`. -/
def validName (n : List Byte) : Bool :=
  decide (n ≠ []) && decide (47 ∉ n) && decide (0 ∉ n) && decide (n ≠ [46]) && decide (n ≠ [46, 46])

mutual
/-- A well-formed tree: every entry has a valid name and no directory lists
a name twice. -/
def Node.wf : Node → Bool
  | .file _ => true
  | .dir kids => kidsWf kids
/-- Well-formed entries of a directory. -/
def kidsWf : List (List Byte × Node) → Bool
  | [] => true
  | (n, k) :: ks => validName n && (kidsGet n ks).isNone && k.wf && kidsWf ks
end

/-- Two locations neither of which lies inside the other. -/
def Indep (p q : List (List Byte)) : Prop := ¬ p <+: q ∧ ¬ q <+: p

/-- Whether a node is a directory. -/
def Node.isDir : Node → Bool
  | .dir _ => true
  | .file _ => false

/-- Whether an entry list holds a directory under the name. -/
def kidIsDir (kids : List (List Byte × Node)) (name : List Byte) : Bool :=
  match kidsGet name kids with
  | some k => k.isDir
  | none => false

/-- The names of the entries of a directory that are directories, in
listing order. -/
def subdirNames (kids : List (List Byte × Node)) : List (List Byte) :=
  (kids.filter (fun e => e.2.isDir)).map Prod.fst

/-- What `stat` reports about a node: `S_ISDIR` and `st_size`. -/
structure Stat where
  is_dir : Bool
  st_size : Nat
deriving DecidableEq, Repr

/-- The system call `mkdir` once the environment lets it proceed. -/
def mkdir_at (path : List Byte) (w : World) : Res Unit :=
  if strlen path ≥ PATH_MAX then (.error .ENAMETOOLONG, w)
  else
    match w.fs.get (resolve path) with
    | some _ => (.error .EEXIST, w)
    | none =>
      match w.fs.get (resolve path).dropLast with
      | some (.dir _) =>
        match w.fs.put (resolve path) (.dir []) with
        | some fs1 => (.ok (), { w with fs := fs1, created := w.created ++ [cstr path] })
        | none => (.error .ENOENT, w)
      | some (.file _) => (.error .ENOTDIR, w)
      | none => (.error .ENOENT, w)

/-- The system call `mkdir(path, mode)`. -/
def sys_mkdir (path : List Byte) (w : World) : Res Unit :=
  match w.fault with
  | (true, w1) => (.error .EACCES, w1)
  | (false, w1) => mkdir_at path w1

/-- The system call `stat(path, &st)`; `lstat` is the same without links. -/
def sys_stat (path : List Byte) (w : World) : Res Stat :=
  match w.fault with
  | (true, w1) => (.error .EACCES, w1)
  | (false, w1) =>
    if strlen path ≥ PATH_MAX then (.error .ENAMETOOLONG, w1)
    else
      match w1.fs.get (resolve path) with
      | some (.dir _) => (.ok ⟨true, 0⟩, w1)
      | some (.file data) => (.ok ⟨false, data.length⟩, w1)
      | none => (.error .ENOENT, w1)

/-- The calls `opendir(path)` and `readdir` until it returns `NULL`: the
`d_name` of every entry in listing order, `.` and `..` first. -/
def sys_opendir (path : List Byte) (w : World) : Res (List (List Byte)) :=
  match w.fault with
  | (true, w1) => (.error .EACCES, w1)
  | (false, w1) =>
    if strlen path ≥ PATH_MAX then (.error .ENAMETOOLONG, w1)
    else
      match w1.fs.get (resolve path) with
      | some (.dir kids) => (.ok ([46] :: [46, 46] :: kids.map Prod.fst), w1)
      | some (.file _) => (.error .ENOTDIR, w1)
      | none => (.error .ENOENT, w1)

/-- The call `open(path, O_RDONLY)`: the descriptor gives the file's bytes. -/
def sys_open_read (path : List Byte) (w : World) : Res (List Byte) :=
  match w.fault with
  | (true, w1) => (.error .EACCES, w1)
  | (false, w1) =>
    if strlen path ≥ PATH_MAX then (.error .ENAMETOOLONG, w1)
    else
      match w1.fs.get (resolve path) with
      | some (.file data) => (.ok data, w1)
      | some (.dir _) => (.error .EISDIR, w1)
      | none => (.error .ENOENT, w1)

/-- The call `open(path, O_WRONLY | O_CREAT | O_TRUNC, 0644)`: the
descriptor is the resolved location of the emptied file. -/
def sys_open_trunc (path : List Byte) (w : World) : Res (List (List Byte)) :=
  match w.fault with
  | (true, w1) => (.error .EACCES, w1)
  | (false, w1) =>
    if strlen path ≥ PATH_MAX then (.error .ENAMETOOLONG, w1)
    else
      match w1.fs.get (resolve path) with
      | some (.dir _) => (.error .EISDIR, w1)
      | _ =>
        match w1.fs.get (resolve path).dropLast with
        | some (.dir _) =>
          match w1.fs.put (resolve path) (.file []) with
          | some fs1 =>
            (.ok (resolve path), { w1 with fs := fs1, created := w1.created ++ [cstr path] })
          | none => (.error .ENOENT, w1)
        | some (.file _) => (.error .ENOTDIR, w1)
        | none => (.error .ENOENT, w1)

/-- The call `write(fd, buffer, n)` returning `n`: the bytes are appended. -/
def sys_write (fd : List (List Byte)) (data : List Byte) (w : World) : Res Unit :=
  match w.fault with
  | (true, w1) => (.error .EACCES, w1)
  | (false, w1) =>
    match w1.fs.get fd with
    | some (.file old) =>
      match w1.fs.put fd (.file (old ++ data)) with
      | some fs1 => (.ok (), { w1 with fs := fs1 })
      | none => (.error .EACCES, w1)
    | _ => (.error .EACCES, w1)

/-- The system call `unlink(path)`. -/
def sys_unlink (path : List Byte) (w : World) : Res Unit :=
  match w.fault with
  | (true, w1) => (.error .EACCES, w1)
  | (false, w1) =>
    if strlen path ≥ PATH_MAX then (.error .ENAMETOOLONG, w1)
    else
      match w1.fs.get (resolve path) with
      | some (.file _) =>
        match w1.fs.del (resolve path) with
        | some fs1 => (.ok (), { w1 with fs := fs1 })
        | none => (.error .ENOENT, w1)
      | some (.dir _) => (.error .EISDIR, w1)
      | none => (.error .ENOENT, w1)

/-- The system call `rmdir(path)`. -/
def sys_rmdir (path : List Byte) (w : World) : Res Unit :=
  match w.fault with
  | (true, w1) => (.error .EACCES, w1)
  | (false, w1) =>
    if strlen path ≥ PATH_MAX then (.error .ENAMETOOLONG, w1)
    else if (splitSlash (cstr path)).getLast? = some [46] then (.error .EINVAL, w1)
    else
      match w1.fs.get (resolve path) with
      | some (.dir []) =>
        match w1.fs.del (resolve path) with
        | some fs1 => (.ok (), { w1 with fs := fs1 })
        | none => (.error .EINVAL, w1)
      | some (.dir (_ :: _)) => (.error .ENOTEMPTY, w1)
      | some (.file _) => (.error .ENOTDIR, w1)
      | none => (.error .ENOENT, w1)

/-- Move the node at `ps` to `pd`, the checks of `rename` being done. -/
def rename_move (ps pd : List (List Byte)) (node : Node) (w : World) : Res Unit :=
  match w.fs.del ps with
  | none => (.error .EINVAL, w)
  | some fs1 =>
    match fs1.get pd.dropLast with
    | some (.dir _) =>
      match fs1.put pd node with
      | some fs2 => (.ok (), { w with fs := fs2 })
      | none => (.error .ENOENT, w)
    | some (.file _) => (.error .ENOTDIR, w)
    | none => (.error .ENOENT, w)

/-- The system call `rename(src, dst)`. -/
def sys_rename (src dst : List Byte) (w : World) : Res Unit :=
  match w.fault with
  | (true, w1) => (.error .EACCES, w1)
  | (false, w1) =>
    if strlen src ≥ PATH_MAX ∨ strlen dst ≥ PATH_MAX then (.error .ENAMETOOLONG, w1)
    else
      match w1.fs.get (resolve src) with
      | none => (.error .ENOENT, w1)
      | some node =>
        if resolve src = resolve dst then (.ok (), w1)
        else if (resolve src).isPrefixOf (resolve dst) then (.error .EINVAL, w1)
        else if (resolve dst).isPrefixOf (resolve src) then (.error .ENOTEMPTY, w1)
        else
          match w1.fs.get (resolve dst), node with
          | some (.dir (_ :: _)), _ => (.error .ENOTEMPTY, w1)
          | some (.dir []), .file _ => (.error .EISDIR, w1)
          | some (.file _), .dir _ => (.error .ENOTDIR, w1)
          | _, _ => rename_move (resolve src) (resolve dst) node w1

/-- The libc function `mkdtemp(template)`: the six `X` are replaced by the
suffix the environment picks and the directory is created. -/
def sys_mkdtemp (template : List Byte) (w : World) : Res (List Byte) :=
  match w.fault with
  | (true, w1) => (.error .EACCES, w1)
  | (false, w1) =>
    if (cstr template).length < 6 ∨
        (cstr template).drop ((cstr template).length - 6) ≠ lit "XXXXXX" then
      (.error .EINVAL, w1)
    else if w1.tmpSuffix.length ≠ 6 ∨ w1.tmpSuffix.all isalnum = false then
      (.error .EEXIST, w1)
    else
      match mkdir_at ((cstr template).take ((cstr template).length - 6) ++ w1.tmpSuffix) w1 with
      | (.ok _, w2) => (.ok ((cstr template).take ((cstr template).length - 6) ++ w1.tmpSuffix), w2)
      | (.error e, w2) => (.error e, w2)

/-- The libc function `malloc(size)`. -/
def sys_malloc (size : Nat) (w : World) : Res Unit :=
  match w.fault with
  | (true, w1) => (.error .ENOMEM, w1)
  | (false, w1) => (.ok (), { w1 with allocs := w1.allocs ++ [size] })

/-! ## `fs_utils.c` -/

/-- The function `join_paths`: `a/b`, refused when it does not fit `out_len`. -/
def join_paths (a b : List Byte) (out_len : Nat) : Except Errno (List Byte) :=
  if (cstr a ++ 47 :: cstr b).length ≥ out_len then .error .ENAMETOOLONG
  else .ok (cstr a ++ 47 :: cstr b)

/-- The `for` loop of `ensure_parent_dirs`, from index `i` for `n` rounds. -/
def ensure_parent_dirs_loop (buffer : List Byte) : Nat → Nat → World → Res Unit
  | 0, _, w => (.ok (), w)
  | n + 1, i, w =>
    if buffer.get? i = some 47 then
      match sys_mkdir (buffer.take i) w with
      | (.ok _, w1) => ensure_parent_dirs_loop buffer n (i + 1) w1
      | (.error e, w1) =>
        if e ≠ .EEXIST then (.error e, w1)
        else ensure_parent_dirs_loop buffer n (i + 1) w1
    else ensure_parent_dirs_loop buffer n (i + 1) w

/-- The function `ensure_parent_dirs` of `fs_utils.c`. -/
def ensure_parent_dirs (path : List Byte) (w : World) : Res Unit :=
  if strlen path = 0 ∨ strlen path ≥ PATH_MAX then (.error .ENAMETOOLONG, w)
  else ensure_parent_dirs_loop (cstr path) (strlen path - 1) 1 w

/-- The function `ensure_directory` of `fs_utils.c`. -/
def ensure_directory (path : List Byte) (w : World) : Res Unit :=
  match sys_mkdir path w with
  | (.ok _, w1) => (.ok (), w1)
  | (.error e, w1) =>
    if e = .EEXIST then
      match sys_stat path w1 with
      | (.error e2, w2) => (.error e2, w2)
      | (.ok st, w2) => if !st.is_dir then (.error .ENOTDIR, w2) else (.ok (), w2)
    else (.error e, w1)

/-- The `while` loop of `remove_recursive` over the entries of a directory;
`self` is the recursive call. -/
def remove_children (self : List Byte → World → Res Unit) (path : List Byte) :
    List (List Byte) → World → Res Unit
  | [], w => (.ok (), w)
  | d_name :: rest, w =>
    if strcmp_eq d_name (lit ".") ∨ strcmp_eq d_name (lit "..") then
      remove_children self path rest w
    else
      match join_paths path d_name PATH_MAX with
      | .error e => (.error e, w)
      | .ok child =>
        match self child w with
        | (.error e, w1) => (.error e, w1)
        | (.ok _, w1) => remove_children self path rest w1

/-- The function `remove_recursive` with a bound on the depth of its recursion. -/
def remove_rec : Nat → List Byte → World → Res Unit
  | 0, _, w => (.error .ENOMEM, w)
  | depth + 1, path, w =>
    match sys_stat path w with
    | (.error e, w1) => if e = .ENOENT then (.ok (), w1) else (.error e, w1)
    | (.ok st, w1) =>
      if st.is_dir then
        match sys_opendir path w1 with
        | (.error e, w2) => (.error e, w2)
        | (.ok entries, w2) =>
          match remove_children (remove_rec depth) path entries w2 with
          | (.error e, w3) => (.error e, w3)
          | (.ok _, w3) => sys_rmdir path w3
      else sys_unlink path w1

/-- The function `remove_recursive` of `fs_utils.c`; the recursion is as deep
as the tree. -/
def remove_recursive (path : List Byte) (w : World) : Res Unit :=
  remove_rec (w.fs.depth + 1) path w

/-- The `read`/`send_all` loop that copies an open file to the connection. -/
def send_file_loop : Nat → List Byte → World → Res Unit
  | 0, _, w => (.ok (), w)
  | fuel + 1, rest, w =>
    if rest.take FILE_CHUNK_SIZE = [] then (.ok (), w)
    else
      match send_all (rest.take FILE_CHUNK_SIZE) w with
      | (.error e, w1) => (.error e, w1)
      | (.ok _, w1) => send_file_loop fuel (rest.drop FILE_CHUNK_SIZE) w1

/-- The text of the line `ENTRY <type> <path_len> <size>`. -/
def entry_line (type path_len size : Nat) : List Byte :=
  lit "ENTRY " ++ decimal type ++ 32 :: decimal path_len ++ 32 :: decimal size ++ [10]

/-- The `while` loop of `send_directory_recursive` over the entries of the
directory `full_path`; `self` is the recursive call on a relative path. -/
def send_children (self : List Byte → World → Res Unit)
    (full_path relative_path : List Byte) : List (List Byte) → World → Res Unit
  | [], w => (.ok (), w)
  | d_name :: rest, w =>
    if strcmp_eq d_name (lit ".") ∨ strcmp_eq d_name (lit "..") then
      send_children self full_path relative_path rest w
    else
      match (if relative_path.head? = none ∨ relative_path.head? = some 0
              then Except.ok ((cstr d_name).take (PATH_MAX - 1))
              else join_paths relative_path d_name PATH_MAX) with
      | .error e => (.error e, w)
      | .ok child_relative =>
        match join_paths full_path d_name PATH_MAX with
        | .error e => (.error e, w)
        | .ok child_full =>
          match sys_stat child_full w with
          | (.error e, w1) => (.error e, w1)
          | (.ok st, w1) =>
            if st.is_dir then
              match send_fmt (entry_line 2 (strlen child_relative) 0) w1 with
              | (.error e, w2) => (.error e, w2)
              | (.ok _, w2) =>
                match send_all (child_relative.take (strlen child_relative)) w2 with
                | (.error e, w3) => (.error e, w3)
                | (.ok _, w3) =>
                  match self child_relative w3 with
                  | (.error e, w4) => (.error e, w4)
                  | (.ok _, w4) => send_children self full_path relative_path rest w4
            else
              match send_fmt (entry_line 1 (strlen child_relative) st.st_size) w1 with
              | (.error e, w2) => (.error e, w2)
              | (.ok _, w2) =>
                match send_all (child_relative.take (strlen child_relative)) w2 with
                | (.error e, w3) => (.error e, w3)
                | (.ok _, w3) =>
                  match sys_open_read child_full w3 with
                  | (.error e, w4) => (.error e, w4)
                  | (.ok data, w4) =>
                    match send_file_loop (data.length + 1) data w4 with
                    | (.error e, w5) => (.error e, w5)
                    | (.ok _, w5) => send_children self full_path relative_path rest w5

/-- The function `send_directory_recursive` with a bound on the depth of
its recursion. -/
def send_directory_rec : Nat → List Byte → List Byte → World → Res Unit
  | 0, _, _, w => (.error .ENOMEM, w)
  | depth + 1, base_dir, relative_path, w =>
    match (if relative_path.head? = none ∨ relative_path.head? = some 0
            then Except.ok ((cstr base_dir).take (PATH_MAX - 1))
            else join_paths base_dir relative_path PATH_MAX) with
    | .error e => (.error e, w)
    | .ok full_path =>
      match sys_opendir full_path w with
      | (.error e, w1) => (.error e, w1)
      | (.ok entries, w1) =>
        send_children (send_directory_rec depth base_dir) full_path relative_path entries w1

/-- The function `send_directory_entries` of `fs_utils.c`. -/
def send_directory_entries (base_dir : List Byte) (w : World) : Res Unit :=
  send_directory_rec (w.fs.depth + 1) base_dir [] w

/-- The chunk loop of `receive_world_entries` that copies `remaining` bytes
from the connection to the open file. -/
def recv_file_loop : Nat → List (List Byte) → Nat → World → Res Unit
  | 0, _, _, w => (.ok (), w)
  | fuel + 1, fd, remaining, w =>
    if remaining > 0 then
      match recv_all (if remaining < FILE_CHUNK_SIZE then remaining else FILE_CHUNK_SIZE) w with
      | (.error e, w1) => (.error e, w1)
      | (.ok buffer, w1) =>
        match sys_write fd buffer w1 with
        | (.error e, w2) => (.error e, w2)
        | (.ok _, w2) =>
          recv_file_loop fuel fd
            (remaining - (if remaining < FILE_CHUNK_SIZE then remaining else FILE_CHUNK_SIZE)) w2
    else (.ok (), w)

/-- One round of the `while (1)` loop of `receive_world_entries`, after the
line has been read: `some r` ends the loop with `r`, `none` continues. -/
def receive_entry (target_dir line : List Byte) (w : World) : Option (Except Errno Unit) × World :=
  if strcmp_eq line (lit "END") then (some (.ok ()), w)
  else
    match sscanf_entry line with
    | none => (some (.error .EPROTO), w)
    | some (type, path_len, size) =>
      if path_len = 0 ∨ path_len ≥ PATH_MAX then (some (.error .ENAMETOOLONG), w)
      else
        match sys_malloc (path_len + 1) w with
        | (.error e, w1) => (some (.error e), w1)
        | (.ok _, w1) =>
          match recv_all path_len w1 with
          | (.error e, w2) => (some (.error e), w2)
          | (.ok path_buffer, w2) =>
            if strstr path_buffer (lit "..") then (some (.error .EINVAL), w2)
            else
              match join_paths target_dir path_buffer PATH_MAX with
              | .error e => (some (.error e), w2)
              | .ok full_path =>
                if type = 2 then
                  match ensure_directory full_path w2 with
                  | (.error e, w3) => (some (.error e), w3)
                  | (.ok _, w3) => (none, w3)
                else if type = 1 then
                  match ensure_parent_dirs full_path w2 with
                  | (.error e, w3) => (some (.error e), w3)
                  | (.ok _, w3) =>
                    match sys_open_trunc full_path w3 with
                    | (.error e, w4) => (some (.error e), w4)
                    | (.ok fd, w4) =>
                      match recv_file_loop (w4.inp.length + 1) fd size w4 with
                      | (.error e, w5) => (some (.error e), w5)
                      | (.ok _, w5) => (none, w5)
                else (some (.error .EPROTO), w2)

/-- The `while (1)` loop of `receive_world_entries`; every round consumes at
least one byte of the connection, which bounds the rounds. -/
def receive_loop : Nat → List Byte → World → Res Unit
  | 0, _, w => (.error .ECONNRESET, w)
  | fuel + 1, target_dir, w =>
    match recv_line MCSYNC_MAX_LINE w with
    | (.error e, w1) => (.error e, w1)
    | (.ok line, w1) =>
      match receive_entry target_dir line w1 with
      | (some r, w2) => (r, w2)
      | (none, w2) => receive_loop fuel target_dir w2

/-- The function `receive_world_entries` of `fs_utils.c`. -/
def receive_world_entries (target_dir : List Byte) (w : World) : Res Unit :=
  receive_loop (w.inp.length + 1) target_dir w

/-- A path string has a `..` segment when one of its parts between
slashes is `..`. -/
def hasDotDotSegment (p : List Byte) : Prop := [46, 46] ∈ splitSlash p

instance : DecidablePred hasDotDotSegment := fun p => by
  unfold hasDotDotSegment
  infer_instance

/-- The path strings `receive_world_entries` may create for a target:
`target_dir/p` with no `..` anywhere in `p`, or a leading part of
`target_dir` itself. -/
def SafeCreated (target_dir q : List Byte) : Prop :=
  (∃ p, q = cstr target_dir ++ 47 :: p ∧ ¬ [46, 46] <:+: p) ∨ (∃ i, q = (cstr target_dir).take i)

/-- Every path string created between two states satisfies `S`. -/
def CreatedWithin (S : List Byte → Prop) (w w1 : World) : Prop :=
  ∀ q ∈ w1.created, q ∈ w.created ∨ S q

/-! ## `mcsync_server.c` -/

/-- The C return value of a call that leaves its result to the caller. -/
def ret (r : Res Unit) : Int × World :=
  match r with
  | (.ok _, w) => (0, w)
  | (.error _, w) => (-1, w)

/-- The function `send_error` of `mcsync_server.c`. -/
def send_error (message : String) (w : World) : Res Unit :=
  send_fmt (lit "ERR " ++ lit message ++ [10]) w

/-- The text `snprintf` builds for the staging directory template. -/
def tmp_template (storage_dir world_name : List Byte) : List Byte :=
  cstr storage_dir ++ lit "/." ++ cstr world_name ++ lit ".tmpXXXXXX"

/-- The part of `handle_push` that follows a successful materialization:
activation of the staged tree. -/
def push_activate (storage_dir world_name tmp_dir : List Byte) (w : World) : Int × World :=
  match join_paths storage_dir world_name PATH_MAX with
  | .error _ => (-1, (remove_recursive tmp_dir (send_error "ServerError" w).2).2)
  | .ok world_path =>
    match remove_recursive world_path w with
    | (.error _, w1) => (-1, (remove_recursive tmp_dir (send_error "ServerError" w1).2).2)
    | (.ok _, w1) =>
      match sys_rename tmp_dir world_path w1 with
      | (.error _, w2) => (-1, (remove_recursive tmp_dir (send_error "ServerError" w2).2).2)
      | (.ok _, w2) =>
        match send_fmt (lit "DONE\n") w2 with
        | (.error _, w3) => (-1, w3)
        | (.ok _, w3) => (0, w3)

/-- The part of `handle_push` that follows the validation of the name. -/
def push_store (storage_dir world_name : List Byte) (w : World) : Int × World :=
  match send_fmt (lit "OK\n") w with
  | (.error _, w1) => (-1, w1)
  | (.ok _, w1) =>
    if (tmp_template storage_dir world_name).length ≥ PATH_MAX then
      (-1, (send_error "ServerError" w1).2)
    else
      match ensure_directory storage_dir w1 with
      | (.error _, w2) => (-1, (send_error "ServerError" w2).2)
      | (.ok _, w2) =>
        match sys_mkdtemp (tmp_template storage_dir world_name) w2 with
        | (.error _, w3) => (-1, (send_error "ServerError" w3).2)
        | (.ok tmp_dir, w3) =>
          match receive_world_entries tmp_dir w3 with
          | (.error _, w4) => (-1, (remove_recursive tmp_dir (send_error "ReceiveFailed" w4).2).2)
          | (.ok _, w4) => push_activate storage_dir world_name tmp_dir w4

/-- The function `handle_push` of `mcsync_server.c`. -/
def handle_push (storage_dir line : List Byte) (w : World) : Int × World :=
  match sscanf_word_lu "PUSH" line with
  | none => ret (send_error "InvalidCommand" w)
  | some name_len =>
    if name_len = 0 ∨ name_len ≥ PATH_MAX then ret (send_error "InvalidName" w)
    else
      match sys_malloc (name_len + 1) w with
      | (.error _, w1) => ret (send_error "OutOfMemory" w1)
      | (.ok _, w1) =>
        match recv_all name_len w1 with
        | (.error _, w2) => (-1, w2)
        | (.ok world_name, w2) =>
          if sanitize_name world_name < 0 then (-1, (send_error "InvalidName" w2).2)
          else push_store storage_dir world_name w2

/-- The function `handle_pull` of `mcsync_server.c`. -/
def handle_pull (storage_dir line : List Byte) (w : World) : Int × World :=
  match sscanf_word_lu "PULL" line with
  | none => ret (send_error "InvalidCommand" w)
  | some name_len =>
    if name_len = 0 ∨ name_len ≥ PATH_MAX then ret (send_error "InvalidName" w)
    else
      match sys_malloc (name_len + 1) w with
      | (.error _, w1) => ret (send_error "OutOfMemory" w1)
      | (.ok _, w1) =>
        match recv_all name_len w1 with
        | (.error _, w2) => (-1, w2)
        | (.ok world_name, w2) =>
          if sanitize_name world_name < 0 then (-1, (send_error "InvalidName" w2).2)
          else
            match join_paths storage_dir world_name PATH_MAX with
            | .error _ => (-1, (send_error "ServerError" w2).2)
            | .ok world_path =>
              match sys_stat world_path w2 with
              | (.error _, w3) => (-1, (send_error "NotFound" w3).2)
              | (.ok st, w3) =>
                if !st.is_dir then (-1, (send_error "NotFound" w3).2)
                else
                  match send_fmt (lit "FOUND\n") w3 with
                  | (.error _, w4) => (-1, w4)
                  | (.ok _, w4) =>
                    match send_directory_entries world_path w4 with
                    | (.error _, w5) => (-1, w5)
                    | (.ok _, w5) =>
                      match send_fmt (lit "END\nDONE\n") w5 with
                      | (.error _, w6) => (-1, w6)
                      | (.ok _, w6) => (0, w6)

/-- The first `while` loop of `handle_list`: counts the entries that are
directories; `none` when a joined path does not fit. -/
def list_count (storage_dir : List Byte) : List (List Byte) → Nat → World → Option Nat × World
  | [], count, w => (some count, w)
  | d_name :: rest, count, w =>
    if strcmp_eq d_name (lit ".") ∨ strcmp_eq d_name (lit "..") then
      list_count storage_dir rest count w
    else
      match join_paths storage_dir d_name PATH_MAX with
      | .error _ => (none, w)
      | .ok full_path =>
        match sys_stat full_path w with
        | (.ok st, w1) =>
          if st.is_dir then list_count storage_dir rest (count + 1) w1
          else list_count storage_dir rest count w1
        | (.error _, w1) => list_count storage_dir rest count w1

/-- The second `while` loop of `handle_list`: sends one record for every
entry that is a directory; the result is the value `handle_list` returns
when the loop leaves the function, `none` when it runs to its end. -/
def list_send (storage_dir : List Byte) : List (List Byte) → World → Option Int × World
  | [], w => (none, w)
  | d_name :: rest, w =>
    if strcmp_eq d_name (lit ".") ∨ strcmp_eq d_name (lit "..") then
      list_send storage_dir rest w
    else
      match join_paths storage_dir d_name PATH_MAX with
      | .error _ => (some (ret (send_error "ServerError" w)).1, (send_error "ServerError" w).2)
      | .ok full_path =>
        match sys_stat full_path w with
        | (.ok st, w1) =>
          if st.is_dir then
            match send_fmt (lit "WORLD " ++ decimal (min (strlen d_name) PATH_MAX) ++ [10]) w1 with
            | (.error _, w2) => (some (-1), w2)
            | (.ok _, w2) =>
              match send_all (d_name.take (min (strlen d_name) PATH_MAX)) w2 with
              | (.error _, w3) => (some (-1), w3)
              | (.ok _, w3) => list_send storage_dir rest w3
          else list_send storage_dir rest w1
        | (.error _, w1) => list_send storage_dir rest w1

/-- The function `handle_list` of `mcsync_server.c`. -/
def handle_list (storage_dir : List Byte) (w : World) : Int × World :=
  match ensure_directory storage_dir w with
  | (.error _, w1) => ret (send_error "ServerError" w1)
  | (.ok _, w1) =>
    match sys_opendir storage_dir w1 with
    | (.error _, w2) => ret (send_error "ServerError" w2)
    | (.ok entries, w2) =>
      match list_count storage_dir entries 0 w2 with
      | (none, w3) => ret (send_error "ServerError" w3)
      | (some count, w3) =>
        match send_fmt (lit "COUNT " ++ decimal count ++ [10]) w3 with
        | (.error _, w4) => (-1, w4)
        | (.ok _, w4) =>
          match list_send storage_dir entries w4 with
          | (some r, w5) => (r, w5)
          | (none, w5) =>
            match send_fmt (lit "DONE\n") w5 with
            | (.error _, w6) => (-1, w6)
            | (.ok _, w6) => (0, w6)

/-- One record of a listing as the protocol words it: the line
`WORLD <len>` and the `len` bytes of the name. -/
def world_record (name : List Byte) : List Byte :=
  lit "WORLD " ++ decimal name.length ++ [10] ++ name

/-- The records of a listing, one after the other. -/
def world_records : List (List Byte) → List Byte
  | [] => []
  | name :: rest => world_record name ++ world_records rest

/-- The function `handle_client` of `mcsync_server.c`. -/
def handle_client (storage_dir : List Byte) (w : World) : World :=
  match recv_line MCSYNC_MAX_LINE w with
  | (.error _, w1) => w1
  | (.ok line, w1) =>
    if strncmp_eq line (lit "PUSH ") 5 then (handle_push storage_dir line w1).2
    else if strncmp_eq line (lit "PULL ") 5 then (handle_pull storage_dir line w1).2
    else if strcmp_eq line (lit "LIST") then (handle_list storage_dir w1).2
    else (send_error "UnknownCommand" w1).2

/-! ## `mcsync_client.c` -/

/-- The function `connect_to_remote`: whether the connection is established
is the environment's decision. -/
def connect_to_remote (w : World) : Res Unit :=
  match w.fault with
  | (true, w1) => (.error .ECONNRESET, w1)
  | (false, w1) => (.ok (), { w1 with conns := w1.conns + 1 })

/-- The function `basename_safely`: the string from the start of its last
component on. -/
def basename_safely (path : List Byte) : List Byte :=
  if ((cstr path).reverse.dropWhile (fun c => c = 47)).length = 0 then cstr path
  else
    (cstr path).drop
      (((cstr path).reverse.dropWhile (fun c => c = 47)).length -
        (((cstr path).reverse.dropWhile (fun c => c = 47)).takeWhile (fun c => c ≠ 47)).length)

/-- The function `wait_for_done_or_error` of `mcsync_client.c`. -/
def wait_for_done_or_error (w : World) : Int × World :=
  match recv_line MCSYNC_MAX_LINE w with
  | (.error _, w1) => (-1, w1)
  | (.ok line, w1) =>
    if strncmp_eq line (lit "ERR ") 4 then (-1, w1)
    else if strcmp_eq line (lit "DONE") then (0, w1)
    else (-1, w1)

/-- The function `cmd_push` of `mcsync_client.c`; `none` is the `NULL`
name override. -/
def cmd_push (world_dir : List Byte) (world_name_override : Option (List Byte)) (w : World) :
    Int × World :=
  match sys_stat world_dir w with
  | (.error _, w1) => (-1, w1)
  | (.ok st, w1) =>
    if !st.is_dir then (-1, w1)
    else if sanitize_name (world_name_override.getD (basename_safely world_dir)) < 0 then (-1, w1)
    else
      match connect_to_remote w1 with
      | (.error _, w2) => (-1, w2)
      | (.ok _, w2) =>
        match send_fmt (lit "PUSH " ++
            decimal (strlen (world_name_override.getD (basename_safely world_dir))) ++ [10]) w2 with
        | (.error _, w3) => (-1, w3)
        | (.ok _, w3) =>
          match send_all (cstr (world_name_override.getD (basename_safely world_dir))) w3 with
          | (.error _, w4) => (-1, w4)
          | (.ok _, w4) =>
            match recv_line MCSYNC_MAX_LINE w4 with
            | (.error _, w5) => (-1, w5)
            | (.ok line, w5) =>
              if strncmp_eq line (lit "ERR ") 4 then (-1, w5)
              else if !strcmp_eq line (lit "OK") then (-1, w5)
              else
                match send_directory_entries world_dir w5 with
                | (.error _, w6) => (-1, w6)
                | (.ok _, w6) =>
                  match send_fmt (lit "END\n") w6 with
                  | (.error _, w7) => (-1, w7)
                  | (.ok _, w7) => wait_for_done_or_error w7

/-- The function `cmd_pull` of `mcsync_client.c`. -/
def cmd_pull (world_name destination_dir : List Byte) (w : World) : Int × World :=
  if sanitize_name world_name < 0 then (-1, w)
  else
    match ensure_directory destination_dir w with
    | (.error _, w1) => (-1, w1)
    | (.ok _, w1) =>
      match connect_to_remote w1 with
      | (.error _, w2) => (-1, w2)
      | (.ok _, w2) =>
        match send_fmt (lit "PULL " ++ decimal (strlen world_name) ++ [10]) w2 with
        | (.error _, w3) => (-1, w3)
        | (.ok _, w3) =>
          match send_all (cstr world_name) w3 with
          | (.error _, w4) => (-1, w4)
          | (.ok _, w4) =>
            match recv_line MCSYNC_MAX_LINE w4 with
            | (.error _, w5) => (-1, w5)
            | (.ok line, w5) =>
              if strncmp_eq line (lit "ERR ") 4 then (-1, w5)
              else if !strcmp_eq line (lit "FOUND") then (-1, w5)
              else
                match receive_world_entries destination_dir w5 with
                | (.error _, w6) => (-1, w6)
                | (.ok _, w6) => wait_for_done_or_error w6

/-! ## Properties used in the statements -/

/-- A change of the file system that stores a well-formed node at a
location inside `σ`, or no change at all. -/
def PutUnder (σ : List (List Byte)) (fs fs1 : Node) : Prop :=
  fs1 = fs ∨ ∃ ρ v, σ <+: ρ ∧ (∀ c ∈ ρ, validName c = true) ∧ v.wf = true ∧
    fs.put ρ v = some fs1

/-- A change of the file system that removes a location inside `σ`, or no
change at all. -/
def DelUnder (σ : List (List Byte)) (fs fs1 : Node) : Prop :=
  fs1 = fs ∨ ∃ ρ, σ <+: ρ ∧ fs.del ρ = some fs1

/-- The file system `fs` is well formed and agrees with `fs0` on every
location that is neither inside `σ` nor an ancestor of `σ`. -/
def Kept (σ : List (List Byte)) (fs0 fs : Node) : Prop :=
  fs.wf = true ∧ ∀ q, Indep σ q → fs.get q = fs0.get q

/-- No part of the path string between slashes is `..`. -/
def noDotDot (s : List Byte) : Prop := [46, 46] ∉ splitSlash (cstr s)

instance : DecidablePred noDotDot := fun s => by
  unfold noDotDot
  infer_instance

/-- The invariant of a materialization into the directory at `σ`: the
directory exists, the tree is well formed and nothing outside `σ` differs
from `fs0`. -/
def Staged (σ : List (List Byte)) (fs0 fs : Node) : Prop :=
  Kept σ fs0 fs ∧ (fs.get σ).isSome = true

/-- The relative path of an entry named `n` in the directory whose
relative path is `rel` (empty for the root of the tree). -/
def child_rel (rel n : List Byte) : List Byte :=
  if rel = [] then n else rel ++ 47 :: n

mutual
/-- The entry stream of one entry of a tree: its `ENTRY` line, its relative
path and, for a file, its bytes, for a directory, the entries below it. -/
def ser_node (rel : List Byte) : Node → List Byte
  | .file data => entry_line 1 rel.length data.length ++ rel ++ data
  | .dir kids => entry_line 2 rel.length 0 ++ rel ++ ser_kids rel kids
/-- The entry stream of the entries of a directory, in listing order. -/
def ser_kids (rel : List Byte) : List (List Byte × Node) → List Byte
  | [] => []
  | (n, k) :: rest => ser_node (child_rel rel n) k ++ ser_kids rel rest
end

mutual
/-- Number of entries of a tree, the node itself included. -/
def Node.count : Node → Nat
  | .file _ => 1
  | .dir kids => kidsCount kids + 1
/-- Number of entries below a directory. -/
def kidsCount : List (List Byte × Node) → Nat
  | [] => 0
  | (_, k) :: rest => k.count + kidsCount rest
end

mutual
/-- Every relative path of the tree, joined to a directory path of length
`budget - 1`, is shorter than `PATH_MAX`, every file is shorter than 2^64
bytes and no name contains `..`. -/
def Node.fits (budget : Nat) (rel : List Byte) : Node → Prop
  | .file data => budget + rel.length < PATH_MAX ∧ data.length < 2 ^ 64
  | .dir kids => budget + rel.length < PATH_MAX ∧ kidsFit budget rel kids
/-- The entries of a directory fit, see `Node.fits`. -/
def kidsFit (budget : Nat) (rel : List Byte) : List (List Byte × Node) → Prop
  | [] => True
  | (n, k) :: rest =>
    ¬ [46, 46] <:+: n ∧ k.fits budget (child_rel rel n) ∧ kidsFit budget rel rest
end

/-- The path string of the directory with relative path `rel` under the
directory `τ`. -/
def fullOf (τ rel : List Byte) : List Byte :=
  if rel = [] then τ else τ ++ 47 :: rel

/-- The relative path string `rel` denotes the location `ρ` inside the
directory `τ`, which is at `σ`. -/
def RelAt (τ : List Byte) (σ : List (List Byte)) (rel : List Byte) (ρ : List (List Byte)) :
    Prop :=
  0 ∉ rel ∧ ¬ [46, 46] <:+: rel ∧ resolve (fullOf τ rel) = σ ++ ρ

/-- The text of an `ENTRY` line without its newline. -/
def entry_text (type path_len size : Nat) : List Byte :=
  lit "ENTRY" ++ 32 :: (decimal type ++ 32 :: (decimal path_len ++ 32 :: (decimal size ++ [])))


/-- Reading back the entry stream of the node `k`, stored under the name
`n` in a directory of the tree below `target`, adds exactly that node to the
directory and leaves the rest of the stream. -/
def RecvNode (target : List Byte) (σ : List (List Byte)) (k : Node) : Prop :=
  ∀ (rel n rest : List Byte) (ρ : List (List Byte)) (done : List (List Byte × Node))
    (w : World) (fs1 : Node) (fuel : Nat),
    w.faults = [] → RelAt (cstr target) σ rel ρ → validName n = true → ¬ [46, 46] <:+: n →
    k.wf = true → k.fits ((cstr target).length + 1) (child_rel rel n) →
    w.inp = ser_node (child_rel rel n) k ++ rest →
    w.fs.get (σ ++ ρ) = some (.dir done) → kidsGet n done = none →
    w.fs.put (σ ++ ρ) (.dir (done ++ [(n, k)])) = some fs1 →
    ∃ w1, receive_loop (fuel + k.count) target w = receive_loop fuel target w1 ∧
      w1.faults = [] ∧ w1.inp = rest ∧ w1.fs = fs1

/-- Reading back the entry stream of the entries `kids` of a directory of
the tree below `target` appends them to the entries `done` read before. -/
def RecvKids (target : List Byte) (σ : List (List Byte)) (kids : List (List Byte × Node)) :
    Prop :=
  ∀ (rel rest : List Byte) (ρ : List (List Byte)) (done : List (List Byte × Node))
    (w : World) (fs1 : Node) (fuel : Nat),
    w.faults = [] → RelAt (cstr target) σ rel ρ → kidsWf kids = true →
    kidsFit ((cstr target).length + 1) rel kids →
    w.inp = ser_kids rel kids ++ rest →
    w.fs.get (σ ++ ρ) = some (.dir done) →
    (∀ m, (kidsGet m done).isSome = true → kidsGet m kids = none) →
    w.fs.put (σ ++ ρ) (.dir (done ++ kids)) = some fs1 →
    ∃ w1, receive_loop (fuel + kidsCount kids) target w = receive_loop fuel target w1 ∧
      w1.faults = [] ∧ w1.inp = rest ∧ w1.fs = fs1

/-- The tree `X` once a directory is asked for at `ρ`: unchanged when
something is there already, with a new empty directory otherwise. -/
def Node.withDir (X : Node) (ρ : List (List Byte)) : Option Node :=
  match X.get ρ with
  | some _ => some X
  | none => X.put ρ (.dir [])

/-- Two states whose connections hold the same bytes and whose trees at
`σA` and at `σB` are the same tree. -/
def Coupled (σA σB : List (List Byte)) (wA wB : World) : Prop :=
  wA.inp = wB.inp ∧ ∃ X, wA.fs.get σA = some X ∧ wB.fs.get σB = some X

/-- What a look at the location `q` shows: nothing, a directory, or a file
with its bytes. -/
def look (fs : Node) (q : List (List Byte)) : Option (Option (List Byte)) :=
  match fs.get q with
  | none => none
  | some (.dir _) => some none
  | some (.file data) => some (some data)

/-- The copy of a file's bytes as the specification words it: read exactly
`size` bytes from the stream and write them verbatim, in a single step. -/
def copy_in_one_step (fd : List (List Byte)) (size : Nat) (w : World) : Res Unit :=
  match recv_all size w with
  | (.error e, w1) => (.error e, w1)
  | (.ok buffer, w1) => sys_write fd buffer w1

/-- A call that went from `w` to `w1` with result `r` has left the file
system alone and has sent a leading part of the bytes `full`, all of them
when it reports success. -/
def Emits (w w1 : World) (r : Except Errno Unit) (full : List Byte) : Prop :=
  w1.fs = w.fs ∧ ∃ em, w1.out = w.out ++ em ∧ em <+: full ∧ (r = .ok () → em = full)

/-- One entry of an entry stream: its kind (1 for a regular file, 2 for a
directory), its location as the names from the root of the tree, and the
content bytes (none for a directory). -/
structure Entry where
  kind : Nat
  loc : List (List Byte)
  data : List Byte
deriving DecidableEq

/-- The path string of a location relative to the root of the tree: its
names with `/` between them. -/
def rel_path (ρ : List (List Byte)) : List Byte := ρ.foldl child_rel []

mutual
/-- The entries of the node at `ρ` in pre-order: the node itself, then what
is below it. -/
def node_entries (ρ : List (List Byte)) : Node → List Entry
  | .file data => [⟨1, ρ, data⟩]
  | .dir kids => ⟨2, ρ, []⟩ :: kids_entries ρ kids
/-- The entries below the directory at `ρ`, in listing order. -/
def kids_entries (ρ : List (List Byte)) : List (List Byte × Node) → List Entry
  | [] => []
  | (n, k) :: rest => node_entries (ρ ++ [n]) k ++ kids_entries ρ rest
end

/-- The bytes of one entry on the wire: the line `ENTRY <kind> <pathLen>
<byteSize>`, the path and the content bytes. -/
def entry_bytes (e : Entry) : List Byte :=
  entry_line e.kind (rel_path e.loc).length e.data.length ++ rel_path e.loc ++ e.data

/-- The bytes of a sequence of entries, one after the other. -/
def entries_bytes : List Entry → List Byte
  | [] => []
  | e :: rest => entry_bytes e ++ entries_bytes rest

mutual
/-- The serializer can send the node: its path below a directory path of
length `budget - 1` is shorter than `PATH_MAX` and every file is shorter
than 2^64 bytes. -/
def Node.sendable (budget : Nat) (rel : List Byte) : Node → Prop
  | .file data => budget + rel.length < PATH_MAX ∧ data.length < 2 ^ 64
  | .dir kids => budget + rel.length < PATH_MAX ∧ kidsSendable budget rel kids
/-- The serializer can send the entries of a directory, see `Node.sendable`. -/
def kidsSendable (budget : Nat) (rel : List Byte) : List (List Byte × Node) → Prop
  | [] => True
  | (n, k) :: rest => k.sendable budget (child_rel rel n) ∧ kidsSendable budget rel rest
end

/-- The entry `e` announces what the tree `X` holds at `r`: a directory, with
kind 2 and no content, or a regular file, with kind 1 and the file's bytes. -/
def EntryOf (X : Node) (r : List (List Byte)) (e : Entry) : Prop :=
  (e.kind = 2 ∧ e.data = [] ∧ ∃ ks, X.get r = some (.dir ks)) ∨
  (e.kind = 1 ∧ X.get r = some (.file e.data))
/-! ## Theorems -/

theorem cstr_of_no_nul : ∀ (s : List Byte), 0 ∉ s → cstr s = s
  | [], _ => rfl
  | c :: cs, h => by
    have hc : c ≠ 0 := fun e => h (by simp [e])
    have hcs : 0 ∉ cs := fun e => h (by simp [e])
    simp [cstr, hc, cstr_of_no_nul cs hcs]

theorem cstr_no_nul : ∀ (s : List Byte), 0 ∉ cstr s
  | [] => by simp [cstr]
  | c :: cs => by
    by_cases hc : c = 0
    · simp [cstr, hc]
    · have := cstr_no_nul cs
      simp [cstr, hc, this]; exact fun e => hc e.symm

theorem cstr_idem (s : List Byte) : cstr (cstr s) = cstr s :=
  cstr_of_no_nul _ (cstr_no_nul s)

theorem startsWith_iff : ∀ (s n : List Byte), startsWith s n = true ↔ n <+: s
  | _, [] => by simp [startsWith]
  | [], _ :: _ => by simp [startsWith]
  | c :: cs, n :: ns => by
    simp only [startsWith, Bool.and_eq_true, decide_eq_true_eq, startsWith_iff cs ns,
      List.cons_prefix_cons]
    constructor
    · rintro ⟨h1, h2⟩; exact ⟨h1.symm, h2⟩
    · rintro ⟨h1, h2⟩; exact ⟨h1.symm, h2⟩

theorem occursIn_iff (n : List Byte) : ∀ (s : List Byte), occursIn n s = true ↔ n <:+: s
  | [] => by
    simp [occursIn, startsWith_iff]
  | c :: cs => by
    simp only [occursIn, Bool.or_eq_true, startsWith_iff, occursIn_iff n cs]
    constructor
    · rintro (h | h)
      · exact h.isInfix
      · exact h.trans (List.suffix_cons c cs).isInfix
    · intro h
      rw [List.infix_cons_iff] at h
      exact h

theorem lit_dotdot : lit ".." = [46, 46] := by decide

theorem strstr_dotdot_iff (s : List Byte) :
    strstr s (lit "..") = true ↔ [46, 46] <:+: cstr s := by
  have h : cstr (lit "..") = [46, 46] := by decide
  simp [strstr, h, occursIn_iff]

theorem sanitize_loop_values : ∀ (s : List Byte), sanitize_loop s = 0 ∨ sanitize_loop s = -1
  | [] => by simp [sanitize_loop]
  | c :: cs => by
    simp only [sanitize_loop]
    split
    · simp
    · split
      · simp
      · exact sanitize_loop_values cs

theorem sanitize_loop_iff : ∀ (s : List Byte),
    sanitize_loop s = 0 ↔ ∀ c ∈ cstr s, nameCharOk c = true
  | [] => by simp [sanitize_loop, cstr]
  | c :: cs => by
    by_cases hc : c = 0
    · simp [sanitize_loop, cstr, hc]
    · by_cases hk : nameCharOk c = true
      · simp [sanitize_loop, cstr, hc, hk, sanitize_loop_iff cs]
      · simp [sanitize_loop, cstr, hc, hk]

theorem nameCharOk_iff (c : Byte) :
    nameCharOk c = true ↔ (IsAsciiAlnum c ∨ c = 45 ∨ c = 95 ∨ c = 46) := by
  simp [nameCharOk, isalnum, IsAsciiAlnum, or_assoc]

theorem cstr_eq_nil_iff (s : List Byte) :
    cstr s = [] ↔ (s.head? = none ∨ s.head? = some 0) := by
  cases s with
  | nil => simp [cstr]
  | cons c cs => by_cases hc : c = 0 <;> simp [cstr, hc]

/-- The function accepts exactly the buffers whose C string is a WorldName. -/
theorem sanitize_name_iff (s : List Byte) :
    sanitize_name s = 0 ↔ IsWorldName (cstr s) := by
  unfold sanitize_name IsWorldName
  by_cases h1 : s.head? = none ∨ s.head? = some 0
  · have : cstr s = [] := (cstr_eq_nil_iff s).2 h1
    rw [if_pos h1]
    simp [this]
  · have hne : cstr s ≠ [] := fun e => h1 ((cstr_eq_nil_iff s).1 e)
    rw [if_neg h1]
    by_cases h2 : strstr s (lit "..") = true
    · have := (strstr_dotdot_iff s).1 h2
      simp [h2, this]
    · have h2' : ¬ ([46, 46] <:+: cstr s) := fun e => h2 ((strstr_dotdot_iff s).2 e)
      rw [if_neg h2, sanitize_loop_iff]
      simp only [nameCharOk_iff]
      exact ⟨fun h => ⟨hne, h, h2'⟩, fun h => h.2.1⟩

theorem sanitize_name_values (s : List Byte) : sanitize_name s = 0 ∨ sanitize_name s = -1 := by
  unfold sanitize_name
  split
  · simp
  · split
    · simp
    · exact sanitize_loop_values s

/-- C4: for every string `s` (a C string, so without a NUL byte),
`sanitize_name s` returns `0` exactly when `s` is non-empty, made only of ASCII
alphanumerics, `-`, `_`, `.`, and does not contain `..`; otherwise it
returns `-1`. -/
theorem sanitize_name_characterises (s : List Byte) (hs : 0 ∉ s) :
    (sanitize_name s = 0 ↔
      (s ≠ [] ∧ (∀ c ∈ s, IsAsciiAlnum c ∨ c = 45 ∨ c = 95 ∨ c = 46) ∧ ¬ ([46, 46] <:+: s))) ∧
    (¬ (s ≠ [] ∧ (∀ c ∈ s, IsAsciiAlnum c ∨ c = 45 ∨ c = 95 ∨ c = 46) ∧ ¬ ([46, 46] <:+: s)) →
      sanitize_name s = -1) := by
  have h := sanitize_name_iff s
  rw [cstr_of_no_nul s hs] at h
  refine ⟨h, fun hn => ?_⟩
  rcases sanitize_name_values s with h0 | h1
  · exact absurd (h.1 h0) hn
  · exact h1

theorem sanitize_name_characterises_witness :
    (0 ∉ lit "my-world_1.0") ∧
    ((sanitize_name (lit "my-world_1.0") = 0 ↔
      (lit "my-world_1.0" ≠ [] ∧
        (∀ c ∈ lit "my-world_1.0", IsAsciiAlnum c ∨ c = 45 ∨ c = 95 ∨ c = 46) ∧
        ¬ ([46, 46] <:+: lit "my-world_1.0"))) ∧
    (¬ (lit "my-world_1.0" ≠ [] ∧
        (∀ c ∈ lit "my-world_1.0", IsAsciiAlnum c ∨ c = 45 ∨ c = 95 ∨ c = 46) ∧
        ¬ ([46, 46] <:+: lit "my-world_1.0")) →
      sanitize_name (lit "my-world_1.0") = -1)) :=
  ⟨by decide, sanitize_name_characterises (lit "my-world_1.0") (by decide)⟩

/-! ### Framing layer -/

theorem fault_nil (w : World) (h : w.faults = []) : w.fault = (false, w) := by
  simp [World.fault, h]

theorem send_fmt_short (text : List Byte) (w : World) (h : text.length < MCSYNC_MAX_LINE) :
    send_fmt text w = (.ok (), { w with out := w.out ++ text }) := by
  simp [send_fmt, send_all, send, Nat.not_le.2 h]

theorem send_error_eq (message : String) (w : World)
    (h : (lit "ERR " ++ lit message ++ [10]).length < MCSYNC_MAX_LINE) :
    send_error message w =
      (.ok (), { w with out := w.out ++ (lit "ERR " ++ lit message ++ [10]) }) :=
  send_fmt_short _ w h

/-- C10: a `PUSH` or `PULL` line whose parsed length is `0` or at least
`PATH_MAX` is answered with `ERR InvalidName`; nothing else changes: no byte
of the connection is consumed, no buffer is allocated and the file system
is left as it was. -/
theorem name_length_bound (storage_dir push_line pull_line : List Byte) (w : World) (n m : Nat)
    (hpush : sscanf_word_lu "PUSH" push_line = some n) (hn : n = 0 ∨ n ≥ PATH_MAX)
    (hpull : sscanf_word_lu "PULL" pull_line = some m) (hm : m = 0 ∨ m ≥ PATH_MAX) :
    handle_push storage_dir push_line w =
      (0, { w with out := w.out ++ lit "ERR InvalidName\n" }) ∧
    handle_pull storage_dir pull_line w =
      (0, { w with out := w.out ++ lit "ERR InvalidName\n" }) := by
  have hs := send_error_eq "InvalidName" w (by decide)
  have hl : lit "ERR " ++ lit "InvalidName" ++ [10] = lit "ERR InvalidName\n" := by decide
  constructor
  · simp only [handle_push, hpush, hn, if_true, hs, ret, hl]
  · simp only [handle_pull, hpull, hm, if_true, hs, ret, hl]

theorem name_length_bound_witness :
    handle_push (lit "store") (lit "PUSH 4096")
        ⟨.dir [], lit "abc", [], [], [], [], 0, []⟩ =
      (0, ⟨.dir [], lit "abc", lit "ERR InvalidName\n", [], [], [], 0, []⟩) ∧
    handle_pull (lit "store") (lit "PULL 0")
        ⟨.dir [], lit "abc", [], [], [], [], 0, []⟩ =
      (0, ⟨.dir [], lit "abc", lit "ERR InvalidName\n", [], [], [], 0, []⟩) :=
  name_length_bound (lit "store") (lit "PUSH 4096") (lit "PULL 0")
    ⟨.dir [], lit "abc", [], [], [], [], 0, []⟩ 4096 0
    (by decide) (Or.inr (by decide)) (by decide) (Or.inl rfl)

/-! ### Printing and scanning numbers -/

theorem decimal_loop_acc : ∀ (fuel n : Nat) (ds : List Byte),
    decimal_loop fuel n ds = decimal_loop fuel n [] ++ ds := by
  intro fuel
  induction fuel with
  | zero => intro n ds; simp [decimal_loop]
  | succ f ih =>
    intro n ds
    simp only [decimal_loop]
    split
    · simp
    · rw [ih (n / 10) ((48 + n % 10) :: ds), ih (n / 10) [48 + n % 10]]
      simp

theorem decimal_loop_fuel : ∀ (fuel n : Nat) (ds : List Byte), n < fuel →
    decimal_loop fuel n ds = decimal_loop (n + 1) n ds := by
  intro fuel
  induction fuel using Nat.strong_induction_on with
  | _ fuel ih =>
    intro n ds hn
    obtain ⟨f, rfl⟩ : ∃ f, fuel = f + 1 := ⟨fuel - 1, by omega⟩
    simp only [decimal_loop]
    split
    · rfl
    · rename_i h10
      have hlt : n / 10 < n := Nat.div_lt_self (by omega) (by omega)
      by_cases hfn : n = f
      · rw [hfn]
      · rw [ih f (by omega) (n / 10) _ (by omega), ih n (by omega) (n / 10) _ hlt]

theorem decimal_rec (n : Nat) :
    decimal n = if n < 10 then [48 + n] else decimal (n / 10) ++ [48 + n % 10] := by
  have e : decimal n = decimal_loop (n + 1) n [] := rfl
  rw [e]
  simp only [decimal_loop]
  by_cases h : n < 10
  · have h0 : n / 10 = 0 := Nat.div_eq_of_lt h
    simp [h, h0, Nat.mod_eq_of_lt h]
  · have h0 : ¬ n / 10 = 0 := by
      intro e
      have := (Nat.div_eq_zero_iff (by decide : 0 < 10)).1 e
      omega
    have hlt : n / 10 < n := Nat.div_lt_self (by omega) (by omega)
    rw [if_neg h0, if_neg h, decimal_loop_acc, decimal_loop_fuel n (n / 10) [] hlt]
    rfl

theorem decimal_all_digits (n : Nat) : ∀ c ∈ decimal n, isdigit c = true := by
  induction n using Nat.strong_induction_on with
  | _ n ih =>
    rw [decimal_rec]
    by_cases h : n < 10
    · simp only [h, if_true, List.mem_singleton]
      intro c hc
      subst hc
      simp only [isdigit, Bool.and_eq_true, decide_eq_true_eq]
      exact ⟨Nat.le_add_right 48 n, Nat.add_le_add_left (Nat.le_of_lt_succ h) 48⟩
    · simp only [h, if_false, List.mem_append, List.mem_singleton]
      have hlt : n / 10 < n := Nat.div_lt_self (by omega) (by omega)
      rintro c (hc | hc)
      · exact ih _ hlt c hc
      · subst hc
        have := Nat.mod_lt n (by decide : 10 > 0)
        simp only [isdigit, Bool.and_eq_true, decide_eq_true_eq]
        exact ⟨Nat.le_add_right 48 _, Nat.add_le_add_left (Nat.le_of_lt_succ this) 48⟩

theorem decimal_ne_nil (n : Nat) : decimal n ≠ [] := by
  rw [decimal_rec]
  split <;> simp

theorem digits_value_append (xs : List Byte) (d : Byte) :
    digits_value (xs ++ [d]) = digits_value xs * 10 + (d - 48) := by
  simp [digits_value, List.foldl_append]

theorem digits_value_decimal (n : Nat) : digits_value (decimal n) = n := by
  induction n using Nat.strong_induction_on with
  | _ n ih =>
    rw [decimal_rec]
    by_cases h : n < 10
    · simp [h, digits_value]
    · have hlt : n / 10 < n := Nat.div_lt_self (by omega) (by omega)
      rw [if_neg h, digits_value_append, ih _ hlt]
      have := Nat.div_add_mod n 10
      omega

theorem decimal_length_le (k : Nat) : ∀ (n : Nat), n < 10 ^ (k + 1) → (decimal n).length ≤ k + 1 := by
  induction k with
  | zero =>
    intro n hn
    rw [decimal_rec]
    simp at hn
    simp [hn]
  | succ k ih =>
    intro n hn
    rw [decimal_rec]
    by_cases h : n < 10
    · simp [h]
    · have : n / 10 < 10 ^ (k + 1) := by
        rw [Nat.div_lt_iff_lt_mul (by decide)]
        rw [pow_succ] at hn
        exact hn
      have := ih _ this
      simp [h]
      omega

/-- A number that fits 64 bits prints with at most twenty digits. -/
theorem decimal_length_u64 (n : Nat) (h : n < 2 ^ 64) : (decimal n).length ≤ 20 :=
  decimal_length_le 19 n (lt_trans h (by norm_num))

theorem take_digits_append : ∀ (ds rest : List Byte), (∀ c ∈ ds, isdigit c = true) →
    (∀ c, rest.head? = some c → isdigit c = false) → take_digits (ds ++ rest) = (ds, rest)
  | [], rest, _, hr => by
    cases rest with
    | nil => rfl
    | cons c cs => simp [take_digits, hr c rfl]
  | d :: ds, rest, hd, hr => by
    have h1 : isdigit d = true := hd d (by simp)
    have ih := take_digits_append ds rest (fun c hc => hd c (by simp [hc])) hr
    simp [take_digits, h1, ih]

theorem decimal_head (n : Nat) : ∃ d ds, decimal n = d :: ds ∧ isdigit d = true := by
  cases h : decimal n with
  | nil => exact absurd h (decimal_ne_nil n)
  | cons d ds => exact ⟨d, ds, rfl, decimal_all_digits n d (by rw [h]; simp)⟩

theorem isdigit_not_space (d : Byte) (h : isdigit d = true) :
    isspace d = false ∧ d ≠ 45 ∧ d ≠ 43 := by
  simp only [isdigit, Bool.and_eq_true, decide_eq_true_eq] at h
  obtain ⟨h1, h2⟩ := h
  refine ⟨?_, ?_, ?_⟩
  · simp only [isspace, Bool.or_eq_false_iff, decide_eq_false_iff_not, Bool.and_eq_false_iff,
      not_le]
    refine ⟨?_, Or.inr ?_⟩
    · intro e; subst e; exact absurd h1 (by decide)
    · exact lt_of_lt_of_le (by decide) h1
  · intro e; subst e; exact absurd h1 (by decide)
  · intro e; subst e; exact absurd h1 (by decide)

/-- Scanning a printed number that follows one blank gives the number. -/
theorem scan_number_decimal (n : Nat) (rest : List Byte)
    (hr : ∀ c, rest.head? = some c → isdigit c = false) :
    scan_number (32 :: (decimal n ++ rest)) = some (false, n, rest) := by
  obtain ⟨d, ds, hd, hdig⟩ := decimal_head n
  obtain ⟨h1, h2, h3⟩ := isdigit_not_space d hdig
  have htd := take_digits_append (decimal n) rest (decimal_all_digits n) hr
  have hsp : isspace 32 = true := by decide
  have hskip : skip_ws (32 :: (decimal n ++ rest)) = decimal n ++ rest := by
    simp [skip_ws, hsp, hd, h1]
  unfold scan_number
  rw [hskip]
  have hsign : (match decimal n ++ rest with
      | c :: cs => if c = 45 then (true, cs) else if c = 43 then (false, cs) else (false, c :: cs)
      | [] => (false, [])) = (false, decimal n ++ rest) := by
    rw [hd]
    simp [h2, h3]
  simp only [hsign, htd, decimal_ne_nil, if_false, digits_value_decimal]

theorem scan_ulong_decimal (n : Nat) (rest : List Byte) (hn : n < 2 ^ 64)
    (hr : ∀ c, rest.head? = some c → isdigit c = false) :
    scan_ulong (32 :: (decimal n ++ rest)) = some (n, rest) := by
  have h : ¬ n ≥ 2 ^ 64 := by omega
  unfold scan_ulong
  rw [scan_number_decimal n rest hr]
  dsimp only
  rw [if_neg h]
  simp

theorem scan_int_decimal (n : Nat) (rest : List Byte) (hn : n < 2 ^ 31)
    (hr : ∀ c, rest.head? = some c → isdigit c = false) :
    scan_int (32 :: (decimal n ++ rest)) = some ((n : Int), rest) := by
  have h : ¬ n ≥ 2 ^ 63 := by
    have : (2 : Nat) ^ 31 < 2 ^ 63 := by norm_num
    omega
  unfold scan_int
  rw [scan_number_decimal n rest hr]
  dsimp only
  rw [if_neg h]
  have e31 : (2 : Int) ^ 31 = 2147483648 := by norm_num
  have e32 : (2 : Int) ^ 32 = 4294967296 := by norm_num
  have n31 : (2 : Nat) ^ 31 = 2147483648 := by norm_num
  have h31 : (n : Int) < 2147483648 := by
    rw [n31] at hn
    exact_mod_cast hn
  have h0 : (0 : Int) ≤ n := Int.ofNat_nonneg n
  have hm : ((n : Int) + 2147483648) % 4294967296 = (n : Int) + 2147483648 :=
    Int.emod_eq_of_lt (by omega) (by omega)
  simp only [Bool.false_eq_true, if_false, e31, e32, hm]
  congr 2
  omega

/-! ### Lines and command dispatch -/

theorem recv_line_loop_ok (l rest : List Byte) (hl : 10 ∉ l) :
    ∀ (room : Nat) (buf : List Byte) (w : World), l.length < room → w.inp = l ++ 10 :: rest →
      recv_line_loop room buf w = (.ok (buf ++ l), { w with inp := rest }) := by
  induction l with
  | nil =>
    intro room buf w hroom hinp
    obtain ⟨r, rfl⟩ : ∃ r, room = r + 1 := ⟨room - 1, by simp at hroom; omega⟩
    simp [recv_line_loop, recv, hinp]
  | cons c cs ih =>
    intro room buf w hroom hinp
    obtain ⟨r, rfl⟩ : ∃ r, room = r + 1 := ⟨room - 1, by simp at hroom; omega⟩
    have hc : c ≠ 10 := fun e => hl (by simp [e])
    have hcs : 10 ∉ cs := fun e => hl (by simp [e])
    have := ih hcs r (buf ++ [c]) { w with inp := cs ++ 10 :: rest }
      (by simp at hroom; omega) rfl
    simp [recv_line_loop, recv, hinp, hc, this]

/-- A line shorter than the buffer and ended by a newline is read whole. -/
theorem recv_line_ok (l rest : List Byte) (w : World) (hl : 10 ∉ l)
    (hlen : l.length + 1 < MCSYNC_MAX_LINE) (hinp : w.inp = l ++ 10 :: rest) :
    recv_line MCSYNC_MAX_LINE w = (.ok l, { w with inp := rest }) := by
  have := recv_line_loop_ok l rest hl (MCSYNC_MAX_LINE - 1) [] w (by omega) hinp
  simpa [recv_line] using this

theorem strncmp_eq_iff (line : List Byte) (p : List Byte) (hp : 0 ∉ p) :
    strncmp_eq line p p.length = true ↔ p <+: cstr line := by
  simp only [strncmp_eq, decide_eq_true_eq, cstr_of_no_nul p hp, List.take_length]
  rw [List.prefix_iff_eq_take]
  exact eq_comm

theorem strcmp_eq_iff (line : List Byte) (p : List Byte) (hp : 0 ∉ p) :
    strcmp_eq line p = true ↔ cstr line = p := by
  simp [strcmp_eq, cstr_of_no_nul p hp]

/-- The dispatch of `handle_client` once the first line is in the buffer. -/
theorem handle_client_dispatch (storage_dir l : List Byte) (w w1 : World)
    (h : recv_line MCSYNC_MAX_LINE w = (.ok l, w1)) :
    handle_client storage_dir w =
      if lit "PUSH " <+: cstr l then (handle_push storage_dir l w1).2
      else if lit "PULL " <+: cstr l then (handle_pull storage_dir l w1).2
      else if cstr l = lit "LIST" then (handle_list storage_dir w1).2
      else { w1 with out := w1.out ++ lit "ERR UnknownCommand\n" } := by
  have h1 := strncmp_eq_iff l (lit "PUSH ") (by decide)
  have h2 := strncmp_eq_iff l (lit "PULL ") (by decide)
  have h3 := strcmp_eq_iff l (lit "LIST") (by decide)
  have e5 : (lit "PUSH ").length = 5 := by decide
  have e5' : (lit "PULL ").length = 5 := by decide
  rw [e5] at h1
  rw [e5'] at h2
  have hs := send_error_eq "UnknownCommand" w1 (by decide)
  have hl : lit "ERR " ++ lit "UnknownCommand" ++ [10] = lit "ERR UnknownCommand\n" := by decide
  simp only [handle_client, h, h1, h2, h3, hs, hl]

/-- C9 (as amended): the first line is the bytes before the first newline;
what decides is the C string it leaves in the buffer (its bytes before a
NUL, if it has one).  A line beginning with `PUSH ` goes to `handle_push`,
one beginning with `PULL ` to `handle_pull`, a line whose C string is exactly
`LIST` to `handle_list`; every other line is answered with exactly
`ERR UnknownCommand` and nothing else changes. -/
theorem command_dispatch (storage_dir l rest : List Byte) (w : World) (hl : 10 ∉ l)
    (hlen : l.length + 1 < MCSYNC_MAX_LINE) (hinp : w.inp = l ++ 10 :: rest) :
    handle_client storage_dir w =
      if lit "PUSH " <+: cstr l then (handle_push storage_dir l { w with inp := rest }).2
      else if lit "PULL " <+: cstr l then (handle_pull storage_dir l { w with inp := rest }).2
      else if cstr l = lit "LIST" then (handle_list storage_dir { w with inp := rest }).2
      else { w with inp := rest, out := w.out ++ lit "ERR UnknownCommand\n" } :=
  handle_client_dispatch storage_dir l w _ (recv_line_ok l rest w hl hlen hinp)

theorem command_dispatch_witness :
    handle_client (lit "store") ⟨.dir [], lit "LIST now\nxyz", [], [], [], [], 0, []⟩ =
      if lit "PUSH " <+: cstr (lit "LIST now") then
        (handle_push (lit "store") (lit "LIST now")
          { (⟨.dir [], lit "LIST now\nxyz", [], [], [], [], 0, []⟩ : World) with
            inp := lit "xyz" }).2
      else if lit "PULL " <+: cstr (lit "LIST now") then
        (handle_pull (lit "store") (lit "LIST now")
          { (⟨.dir [], lit "LIST now\nxyz", [], [], [], [], 0, []⟩ : World) with
            inp := lit "xyz" }).2
      else if cstr (lit "LIST now") = lit "LIST" then
        (handle_list (lit "store")
          { (⟨.dir [], lit "LIST now\nxyz", [], [], [], [], 0, []⟩ : World) with
            inp := lit "xyz" }).2
      else
        { (⟨.dir [], lit "LIST now\nxyz", [], [], [], [], 0, []⟩ : World) with
          inp := lit "xyz", out := [] ++ lit "ERR UnknownCommand\n" } :=
  command_dispatch (lit "store") (lit "LIST now") (lit "xyz")
    ⟨.dir [], lit "LIST now\nxyz", [], [], [], [], 0, []⟩ (by decide) (by decide) (by decide)

/-- C9 (counterexample): the line `LIST`, NUL, `x` is not the line `LIST`,
yet it is handled by `handle_list`: the storage directory is created and the
answer is the listing, not `ERR UnknownCommand`. -/
theorem command_dispatch_counterexample :
    lit "LIST" ++ [0, 120] ≠ lit "LIST" ∧
    ¬ (lit "PUSH " <+: lit "LIST" ++ [0, 120]) ∧ ¬ (lit "PULL " <+: lit "LIST" ++ [0, 120]) ∧
    (handle_client (lit "store")
        ⟨.dir [], lit "LIST" ++ [0, 120, 10], [], [], [], [], 0, []⟩).out =
      lit "COUNT 0\nDONE\n" ∧
    (handle_client (lit "store")
        ⟨.dir [], lit "LIST" ++ [0, 120, 10], [], [], [], [], 0, []⟩).fs =
      .dir [(lit "store", .dir [])] := by
  refine ⟨by decide, by decide, by decide, by decide, rfl⟩

/-! ### Name validation on both sides -/

theorem recv_all_eq (n : Nat) (w : World) :
    recv_all n w =
      if n ≤ w.inp.length then (.ok (w.inp.take n), { w with inp := w.inp.drop n })
      else (.error .ECONNRESET, { w with inp := [] }) := by
  cases n with
  | zero => simp [recv_all, recv_all_loop]
  | succ k =>
    cases hi : w.inp with
    | nil => simp [recv_all, recv_all_loop, recv, hi]
    | cons c cs =>
      by_cases hle : k + 1 ≤ (c :: cs).length
      · have hlen : ((c :: cs).take (k + 1)).length = k + 1 := by
          rw [List.length_take]; omega
        simp only [recv_all, recv_all_loop, recv, hi, List.length_nil, Nat.zero_lt_succ,
          if_true, Nat.sub_zero, List.take_succ_cons, List.nil_append, List.drop_succ_cons,
          if_pos hle]
        simp only [List.take_succ_cons] at hlen
        simp [hlen]
      · have hlt : (c :: cs).length < k + 1 := Nat.not_le.1 hle
        have hlen : ((c :: cs).take (k + 1)).length = (c :: cs).length := by
          rw [List.length_take]; omega
        have hd : (c :: cs).drop (k + 1) = [] := List.drop_eq_nil_of_le (by omega)
        simp only [recv_all, recv_all_loop, recv, hi, List.length_nil, Nat.zero_lt_succ,
          if_true, Nat.sub_zero, List.take_succ_cons, List.nil_append, List.drop_succ_cons,
          if_neg hle]
        simp only [List.take_succ_cons, List.drop_succ_cons] at hlen hd
        simp only [List.length_cons] at hlt
        have h2 : (c :: List.take k cs).length < k + 1 := by rw [hlen]; simpa using hlt
        simp [h2, hd]
        omega

theorem recv_all_ok (data rest : List Byte) (w : World) (h : w.inp = data ++ rest) :
    recv_all data.length w = (.ok data, { w with inp := rest }) := by
  rw [recv_all_eq]
  simp [h]

theorem recv_all_mk (data rest : List Byte) (fs : Node) (out : List Byte) (faults : List Bool)
    (tmp : List Byte) (allocs : List Nat) (conns : Nat) (created : List (List Byte)) :
    recv_all data.length ⟨fs, data ++ rest, out, faults, tmp, allocs, conns, created⟩ =
      (.ok data, ⟨fs, rest, out, faults, tmp, allocs, conns, created⟩) :=
  recv_all_ok data rest _ rfl

theorem sanitize_name_neg_iff (s : List Byte) : sanitize_name s < 0 ↔ ¬ IsWorldName (cstr s) := by
  rw [← sanitize_name_iff]
  rcases sanitize_name_values s with h | h <;> simp [h]

theorem sys_malloc_ok (size : Nat) (w : World) (h : w.faults = []) :
    sys_malloc size w = (.ok (), { w with allocs := w.allocs ++ [size] }) := by
  simp [sys_malloc, fault_nil w h]

theorem handle_push_invalid (storage_dir line name rest : List Byte) (w : World)
    (hbad : ¬ IsWorldName (cstr name)) (hline : sscanf_word_lu "PUSH" line = some name.length)
    (hinp : w.inp = name ++ rest) (hf : w.faults = []) :
    (handle_push storage_dir line w).2 =
      if name.length = 0 ∨ name.length ≥ PATH_MAX then
        { w with out := w.out ++ lit "ERR InvalidName\n" }
      else
        { w with inp := rest, out := w.out ++ lit "ERR InvalidName\n",
                 allocs := w.allocs ++ [name.length + 1] } := by
  have hl : lit "ERR " ++ lit "InvalidName" ++ [10] = lit "ERR InvalidName\n" := by decide
  by_cases hn : name.length = 0 ∨ name.length ≥ PATH_MAX
  · have hs := send_error_eq "InvalidName" w (by decide)
    simp only [handle_push, hline, hn, if_true, hs, ret, hl]
  · have hr := recv_all_ok name rest { w with allocs := w.allocs ++ [name.length + 1] } hinp
    have hs := send_error_eq "InvalidName"
      { w with inp := rest, allocs := w.allocs ++ [name.length + 1] } (by decide)
    simp only [handle_push, hline, hn, if_false, sys_malloc_ok _ w hf, hr,
      (sanitize_name_neg_iff name).2 hbad, if_true, hs, hl]

theorem handle_pull_invalid (storage_dir line name rest : List Byte) (w : World)
    (hbad : ¬ IsWorldName (cstr name)) (hline : sscanf_word_lu "PULL" line = some name.length)
    (hinp : w.inp = name ++ rest) (hf : w.faults = []) :
    (handle_pull storage_dir line w).2 =
      if name.length = 0 ∨ name.length ≥ PATH_MAX then
        { w with out := w.out ++ lit "ERR InvalidName\n" }
      else
        { w with inp := rest, out := w.out ++ lit "ERR InvalidName\n",
                 allocs := w.allocs ++ [name.length + 1] } := by
  have hl : lit "ERR " ++ lit "InvalidName" ++ [10] = lit "ERR InvalidName\n" := by decide
  by_cases hn : name.length = 0 ∨ name.length ≥ PATH_MAX
  · have hs := send_error_eq "InvalidName" w (by decide)
    simp only [handle_pull, hline, hn, if_true, hs, ret, hl]
  · have hr := recv_all_ok name rest { w with allocs := w.allocs ++ [name.length + 1] } hinp
    have hs := send_error_eq "InvalidName"
      { w with inp := rest, allocs := w.allocs ++ [name.length + 1] } (by decide)
    simp only [handle_pull, hline, hn, if_false, sys_malloc_ok _ w hf, hr,
      (sanitize_name_neg_iff name).2 hbad, if_true, hs, hl]

theorem cmd_push_invalid (world_dir : List Byte) (override : Option (List Byte)) (w : World)
    (hbad : ¬ IsWorldName (cstr (override.getD (basename_safely world_dir)))) :
    (cmd_push world_dir override w).1 = -1 ∧
    (cmd_push world_dir override w).2.conns = w.conns ∧
    (cmd_push world_dir override w).2.out = w.out ∧
    (cmd_push world_dir override w).2.fs = w.fs := by
  have hneg := (sanitize_name_neg_iff _).2 hbad
  have hst : (sys_stat world_dir w).2.conns = w.conns ∧ (sys_stat world_dir w).2.out = w.out ∧
      (sys_stat world_dir w).2.fs = w.fs := by
    unfold sys_stat World.fault
    cases w.faults with
    | nil => dsimp only; split <;> [simp; (split <;> simp)]
    | cons f fs => cases f <;> dsimp only <;> [(split <;> [simp; (split <;> simp)]); simp]
  unfold cmd_push
  rcases hres : sys_stat world_dir w with ⟨r, w1⟩
  rw [hres] at hst
  cases r with
  | error e => exact ⟨by simp, hst⟩
  | ok st =>
    dsimp only
    by_cases hd : st.is_dir = true
    · simp only [hd, Bool.not_true, Bool.false_eq_true, if_false, hneg, if_true]
      exact ⟨by simp, hst⟩
    · simp only [hd, Bool.not_false, if_true]
      exact ⟨by simp, hst⟩

/-- C5 (as amended): a name is judged by the C string it leaves in the
buffer (its bytes before a NUL, if it has one).  When that string is empty,
contains `..` or has a character outside alphanumerics, `-`, `_`, `.`:
`cmd_push` and `cmd_pull` fail without opening a connection or sending a
byte, and `handle_push` and `handle_pull` answer exactly `ERR InvalidName`,
leave the file system as it was and do not read past the name. -/
theorem invalid_name_no_transfer (storage_dir push_line pull_line world_dir dest name rest :
      List Byte) (override : Option (List Byte)) (wc ws : World)
    (hbad : ¬ IsWorldName (cstr name))
    (hname : override.getD (basename_safely world_dir) = name)
    (hpush : sscanf_word_lu "PUSH" push_line = some name.length)
    (hpull : sscanf_word_lu "PULL" pull_line = some name.length)
    (hinp : ws.inp = name ++ rest) (hf : ws.faults = []) :
    ((cmd_push world_dir override wc).1 = -1 ∧
      (cmd_push world_dir override wc).2.conns = wc.conns ∧
      (cmd_push world_dir override wc).2.out = wc.out ∧
      (cmd_push world_dir override wc).2.fs = wc.fs) ∧
    cmd_pull name dest wc = (-1, wc) ∧
    (handle_push storage_dir push_line ws).2 =
      (if name.length = 0 ∨ name.length ≥ PATH_MAX then
        { ws with out := ws.out ++ lit "ERR InvalidName\n" }
      else
        { ws with inp := rest, out := ws.out ++ lit "ERR InvalidName\n",
                  allocs := ws.allocs ++ [name.length + 1] }) ∧
    (handle_pull storage_dir pull_line ws).2 =
      (if name.length = 0 ∨ name.length ≥ PATH_MAX then
        { ws with out := ws.out ++ lit "ERR InvalidName\n" }
      else
        { ws with inp := rest, out := ws.out ++ lit "ERR InvalidName\n",
                  allocs := ws.allocs ++ [name.length + 1] }) := by
  refine ⟨cmd_push_invalid world_dir override wc (by rw [hname]; exact hbad), ?_,
    handle_push_invalid storage_dir push_line name rest ws hbad hpush hinp hf,
    handle_pull_invalid storage_dir pull_line name rest ws hbad hpull hinp hf⟩
  simp [cmd_pull, (sanitize_name_neg_iff name).2 hbad]

theorem invalid_name_no_transfer_witness :
    ((cmd_push (lit "saves/w1") (some (lit "../evil"))
        ⟨.dir [(lit "saves", .dir [(lit "w1", .dir [])])], [], [], [], [], [], 0, []⟩).1 = -1 ∧
      (cmd_push (lit "saves/w1") (some (lit "../evil"))
        ⟨.dir [(lit "saves", .dir [(lit "w1", .dir [])])], [], [], [], [], [], 0, []⟩).2.conns
          = 0 ∧
      (cmd_push (lit "saves/w1") (some (lit "../evil"))
        ⟨.dir [(lit "saves", .dir [(lit "w1", .dir [])])], [], [], [], [], [], 0, []⟩).2.out
          = [] ∧
      (cmd_push (lit "saves/w1") (some (lit "../evil"))
        ⟨.dir [(lit "saves", .dir [(lit "w1", .dir [])])], [], [], [], [], [], 0, []⟩).2.fs
          = .dir [(lit "saves", .dir [(lit "w1", .dir [])])]) ∧
    cmd_pull (lit "../evil") (lit "dest")
        ⟨.dir [(lit "saves", .dir [(lit "w1", .dir [])])], [], [], [], [], [], 0, []⟩ =
      (-1, ⟨.dir [(lit "saves", .dir [(lit "w1", .dir [])])], [], [], [], [], [], 0, []⟩) ∧
    (handle_push (lit "store") (lit "PUSH 7")
        ⟨.dir [], lit "../evil" ++ lit "END\n", [], [], lit "AbC123", [], 0, []⟩).2 =
      (if (lit "../evil").length = 0 ∨ (lit "../evil").length ≥ PATH_MAX then
        ⟨.dir [], lit "../evil" ++ lit "END\n", [] ++ lit "ERR InvalidName\n", [],
          lit "AbC123", [], 0, []⟩
      else
        ⟨.dir [], lit "END\n", [] ++ lit "ERR InvalidName\n", [], lit "AbC123",
          [] ++ [(lit "../evil").length + 1], 0, []⟩) ∧
    (handle_pull (lit "store") (lit "PULL 7")
        ⟨.dir [], lit "../evil" ++ lit "END\n", [], [], lit "AbC123", [], 0, []⟩).2 =
      (if (lit "../evil").length = 0 ∨ (lit "../evil").length ≥ PATH_MAX then
        ⟨.dir [], lit "../evil" ++ lit "END\n", [] ++ lit "ERR InvalidName\n", [],
          lit "AbC123", [], 0, []⟩
      else
        ⟨.dir [], lit "END\n", [] ++ lit "ERR InvalidName\n", [], lit "AbC123",
          [] ++ [(lit "../evil").length + 1], 0, []⟩) :=
  invalid_name_no_transfer (lit "store") (lit "PUSH 7") (lit "PULL 7") (lit "saves/w1")
    (lit "dest") (lit "../evil") (lit "END\n") (some (lit "../evil"))
    ⟨.dir [(lit "saves", .dir [(lit "w1", .dir [])])], [], [], [], [], [], 0, []⟩
    ⟨.dir [], lit "../evil" ++ lit "END\n", [], [], lit "AbC123", [], 0, []⟩
    (by decide) rfl (by decide) (by decide) rfl rfl

/-- C5 (counterexample): the three name bytes `a`, NUL, `/` hold characters
outside the allowed set, yet `handle_push` answers `OK`, reads the entry
stream and stores a world `a`, and `handle_pull` answers `FOUND`. -/
theorem invalid_name_no_transfer_counterexample :
    (∃ c ∈ [97, 0, 47], ¬ (IsAsciiAlnum c ∨ c = 45 ∨ c = 95 ∨ c = 46)) ∧
    (handle_push (lit "store") (lit "PUSH 3")
        ⟨.dir [], [97, 0, 47] ++ lit "END\n", [], [], lit "AbC123", [], 0, []⟩).2.out =
      lit "OK\nDONE\n" ∧
    (handle_push (lit "store") (lit "PUSH 3")
        ⟨.dir [], [97, 0, 47] ++ lit "END\n", [], [], lit "AbC123", [], 0, []⟩).2.fs =
      .dir [(lit "store", .dir [(lit "a", .dir [])])] ∧
    (handle_pull (lit "store") (lit "PULL 3")
        ⟨.dir [(lit "store", .dir [(lit "a", .dir [])])], [97, 0, 47], [], [], [], [], 0, []⟩).2.out =
      lit "FOUND\nEND\nDONE\n" := by
  refine ⟨⟨47, by simp, by unfold IsAsciiAlnum; decide⟩, by decide!, by decide!, by decide!⟩

/-! ### Pulling a world that is not stored -/

theorem worldName_no_nul (name : List Byte) (h : IsWorldName name) : 0 ∉ name := by
  intro h0
  have := h.2.1 0 h0
  simp [IsAsciiAlnum] at this

theorem join_paths_ok (a b : List Byte) (n : Nat) (h : (cstr a).length + 1 + (cstr b).length < n) :
    join_paths a b n = .ok (cstr a ++ 47 :: cstr b) := by
  have : ¬ ((cstr a ++ 47 :: cstr b).length ≥ n) := by
    simp only [List.length_append, List.length_cons]; omega
  simp only [join_paths, if_neg this]

theorem cstr_append_of_no_nul : ∀ (a b : List Byte), 0 ∉ a → cstr (a ++ b) = a ++ cstr b
  | [], _, _ => rfl
  | c :: cs, b, h => by
    have hc : c ≠ 0 := fun e => h (by simp [e])
    have hcs : 0 ∉ cs := fun e => h (by simp [e])
    simp [cstr, hc, cstr_append_of_no_nul cs b hcs]

theorem cstr_join (a b : List Byte) : cstr (cstr a ++ 47 :: cstr b) = cstr a ++ 47 :: cstr b := by
  apply cstr_of_no_nul
  intro h
  rcases List.mem_append.1 h with h | h
  · exact cstr_no_nul a h
  · rcases List.mem_cons.1 h with h | h
    · exact absurd h (by decide)
    · exact cstr_no_nul b h

theorem handle_pull_not_found (storage_dir line name rest : List Byte) (ws : World)
    (hvalid : IsWorldName name) (hline : sscanf_word_lu "PULL" line = some name.length)
    (hfit : (cstr storage_dir).length + 1 + name.length < PATH_MAX)
    (hinp : ws.inp = name ++ rest) (hf : ws.faults = [])
    (habsent : ∀ kids, ws.fs.get (resolve (cstr storage_dir ++ 47 :: name)) ≠ some (.dir kids)) :
    handle_pull storage_dir line ws =
      (-1, { ws with inp := rest, out := ws.out ++ lit "ERR NotFound\n",
                     allocs := ws.allocs ++ [name.length + 1] }) := by
  obtain ⟨fs, inp, out, faults, tmp, allocs, conns, created⟩ := ws
  dsimp only at hinp hf habsent
  subst hinp hf
  have hnn := worldName_no_nul name hvalid
  have hc : cstr name = name := cstr_of_no_nul name hnn
  have hl : lit "ERR " ++ lit "NotFound" ++ [10] = lit "ERR NotFound\n" := by decide
  have hn : ¬ (name.length = 0 ∨ name.length ≥ PATH_MAX) := by
    have : name ≠ [] := hvalid.1
    have : name.length ≠ 0 := fun e => this (List.length_eq_zero.1 e)
    omega
  have hsan : ¬ sanitize_name name < 0 := by
    rw [sanitize_name_neg_iff, hc]; exact fun h => h hvalid
  have hj := join_paths_ok storage_dir name PATH_MAX (by rw [hc]; exact hfit)
  rw [hc] at hj
  have hsl : ¬ strlen (cstr storage_dir ++ 47 :: name) ≥ PATH_MAX := by
    have := cstr_join storage_dir name
    rw [hc] at this
    simp only [strlen, this, List.length_append, List.length_cons]
    omega
  simp only [handle_pull, hline, hn, if_false, sys_malloc, World.fault, recv_all_mk,
    hsan, hj, sys_stat, hsl]
  cases hg : fs.get (resolve (cstr storage_dir ++ 47 :: name)) with
  | none => simp [send_error_eq "NotFound" _ (by decide), hl]
  | some node =>
    cases node with
    | dir kids => exact absurd hg (habsent kids)
    | file data => simp [send_error_eq "NotFound" _ (by decide), hl]

theorem cmd_pull_not_found (name dest rest : List Byte) (wc wc1 : World)
    (hvalid : IsWorldName name) (hlen : name.length < PATH_MAX)
    (hdest : ensure_directory dest wc = (.ok (), wc1)) (hf : wc1.faults = [])
    (hinp : wc1.inp = lit "ERR NotFound\n" ++ rest) :
    cmd_pull name dest wc =
      (-1, { wc1 with conns := wc1.conns + 1, inp := rest,
                      out := wc1.out ++ (lit "PULL " ++ decimal name.length ++ [10]) ++ name }) := by
  have hnn := worldName_no_nul name hvalid
  have hc : cstr name = name := cstr_of_no_nul name hnn
  have hsan : ¬ sanitize_name name < 0 := by
    rw [sanitize_name_neg_iff, hc]; exact fun h => h hvalid
  have hd := decimal_length_le 3 name.length (lt_of_lt_of_le hlen (by decide))
  have hfmt : (lit "PULL " ++ decimal name.length ++ [10]).length < MCSYNC_MAX_LINE := by
    have e : (lit "PULL ").length = 5 := by decide
    simp only [List.length_append, e, List.length_singleton, MCSYNC_MAX_LINE]
    omega
  have hline := recv_line_ok (lit "ERR NotFound") rest
    { wc1 with conns := wc1.conns + 1,
               out := wc1.out ++ (lit "PULL " ++ decimal name.length ++ [10]) ++ name }
    (by decide) (by decide)
    (by
      have e : lit "ERR NotFound\n" = lit "ERR NotFound" ++ [10] := by decide
      simp only [hinp, e, List.append_assoc, List.singleton_append])
  have herr : strncmp_eq (lit "ERR NotFound") (lit "ERR ") 4 = true := by decide
  obtain ⟨fs, inp, out, faults, tmp, allocs, conns, created⟩ := wc1
  dsimp only at hinp hf hline
  subst hf
  simp only [cmd_pull, hsan, if_false, hdest, connect_to_remote, World.fault, strlen, hc,
    send_fmt_short _ _ hfmt, send_all, send, hline, herr, if_true]

/-! ### Trees: lookup, update and removal -/

theorem kidsGet_kidsSet_self (c : List Byte) (v : Node) :
    ∀ kids, kidsGet c (kidsSet c v kids) = some v
  | [] => by simp [kidsSet, kidsGet]
  | (n, k) :: rest => by
    by_cases h : n = c
    · simp [kidsSet, kidsGet, h]
    · simp [kidsSet, kidsGet, h, kidsGet_kidsSet_self c v rest]

theorem kidsGet_kidsSet_ne (c d : List Byte) (v : Node) (h : c ≠ d) :
    ∀ kids, kidsGet d (kidsSet c v kids) = kidsGet d kids
  | [] => by simp [kidsSet, kidsGet, h]
  | (n, k) :: rest => by
    by_cases hn : n = c
    · subst hn
      simp [kidsSet, kidsGet, h]
    · by_cases hd : n = d
      · subst hd
        simp [kidsSet, kidsGet, hn]
      · simp [kidsSet, kidsGet, hn, hd, kidsGet_kidsSet_ne c d v h rest]

theorem kidsGet_kidsDel_ne (c d : List Byte) (h : c ≠ d) :
    ∀ kids, kidsGet d (kidsDel c kids) = kidsGet d kids
  | [] => by simp [kidsDel, kidsGet]
  | (n, k) :: rest => by
    by_cases hn : n = c
    · subst hn
      simp [kidsDel, kidsGet, h]
    · by_cases hd : n = d
      · subst hd
        simp [kidsDel, kidsGet, hn]
      · simp [kidsDel, kidsGet, hn, hd, kidsGet_kidsDel_ne c d h rest]

theorem kidsSet_new (c : List Byte) (v : Node) :
    ∀ kids, kidsGet c kids = none → kidsSet c v kids = kids ++ [(c, v)]
  | [], _ => rfl
  | (n, k) :: rest, h => by
    by_cases hn : n = c
    · simp [kidsGet, hn] at h
    · simp only [kidsGet, hn, if_false] at h
      simp [kidsSet, hn, kidsSet_new c v rest h]

theorem kidsGet_append (c : List Byte) (ys : List (List Byte × Node)) :
    ∀ xs, kidsGet c (xs ++ ys) = match kidsGet c xs with
      | some k => some k
      | none => kidsGet c ys
  | [] => by simp [kidsGet]
  | (n, k) :: rest => by
    by_cases hn : n = c
    · simp [kidsGet, hn]
    · simp [kidsGet, hn, kidsGet_append c ys rest]

theorem kidsSet_last (c : List Byte) (u v : Node) :
    ∀ kids, kidsGet c kids = none → kidsSet c v (kids ++ [(c, u)]) = kids ++ [(c, v)]
  | [], _ => by simp [kidsSet]
  | (n, k) :: rest, h => by
    by_cases hn : n = c
    · simp [kidsGet, hn] at h
    · simp only [kidsGet, hn, if_false] at h
      simp [kidsSet, hn, kidsSet_last c u v rest h]

theorem kidsDel_last (c : List Byte) (u : Node) :
    ∀ kids, kidsGet c kids = none → kidsDel c (kids ++ [(c, u)]) = kids
  | [], _ => by simp [kidsDel]
  | (n, k) :: rest, h => by
    by_cases hn : n = c
    · simp [kidsGet, hn] at h
    · simp only [kidsGet, hn, if_false] at h
      simp [kidsDel, hn, kidsDel_last c u rest h]

theorem Node.get_nil (fs : Node) : fs.get [] = some fs := by
  cases fs <;> rfl

theorem Node.put_nil (fs v : Node) : fs.put [] v = some v := by
  cases fs <;> rfl

theorem Node.get_append : ∀ (p q : List (List Byte)) (fs : Node),
    fs.get (p ++ q) = match fs.get p with
      | some t => t.get q
      | none => none
  | [], q, fs => by simp [Node.get_nil]
  | c :: cs, q, .file _ => by simp [Node.get]
  | c :: cs, q, .dir kids => by
    simp only [List.cons_append, Node.get]
    cases kidsGet c kids with
    | none => rfl
    | some k => exact Node.get_append cs q k

theorem Node.get_put_self : ∀ (p : List (List Byte)) (fs v fs1 : Node),
    fs.put p v = some fs1 → fs1.get p = some v
  | [], fs, v, fs1, h => by
    rw [Node.put_nil] at h
    cases h
    exact Node.get_nil v
  | c :: cs, .file _, v, fs1, h => by simp [Node.put] at h
  | c :: cs, .dir kids, v, fs1, h => by
    simp only [Node.put] at h
    cases hk : kidsGet c kids with
    | none =>
      rw [hk] at h
      by_cases hcs : cs = []
      · subst hcs
        simp only [if_true, Option.some.injEq] at h
        subst h
        simp [Node.get, kidsGet_kidsSet_self, Node.get_nil]
      · simp [hcs] at h
    | some k =>
      rw [hk] at h
      cases hp : k.put cs v with
      | none => simp [hp] at h
      | some k1 =>
        simp only [hp, Option.some.injEq] at h
        subst h
        simp only [Node.get, kidsGet_kidsSet_self]
        exact Node.get_put_self cs k v k1 hp

theorem Indep.symm {p q : List (List Byte)} (h : Indep p q) : Indep q p := ⟨h.2, h.1⟩

theorem Indep.cons {c : List Byte} {p q : List (List Byte)} (h : Indep (c :: p) (c :: q)) :
    Indep p q := by
  constructor
  · intro hp; exact h.1 ((List.prefix_cons_inj c).2 hp)
  · intro hp; exact h.2 ((List.prefix_cons_inj c).2 hp)

theorem Node.get_put_indep : ∀ (p q : List (List Byte)) (fs v fs1 : Node),
    fs.put p v = some fs1 → Indep p q → fs1.get q = fs.get q
  | [], q, fs, v, fs1, _, hi => absurd (List.nil_prefix) hi.1
  | _ :: _, [], fs, v, fs1, _, hi => absurd (List.nil_prefix) hi.2
  | c :: cs, d :: ds, .file _, v, fs1, h, _ => by simp [Node.put] at h
  | c :: cs, d :: ds, .dir kids, v, fs1, h, hi => by
    simp only [Node.put] at h
    by_cases hcd : c = d
    · subst hcd
      have hi2 : Indep cs ds := hi.cons
      cases hk : kidsGet c kids with
      | none =>
        rw [hk] at h
        by_cases hcs : cs = []
        · subst hcs
          exact absurd (List.nil_prefix) hi2.1
        · simp [hcs] at h
      | some k =>
        rw [hk] at h
        cases hp : k.put cs v with
        | none => simp [hp] at h
        | some k1 =>
          simp only [hp, Option.some.injEq] at h
          subst h
          simp only [Node.get, kidsGet_kidsSet_self, hk]
          exact Node.get_put_indep cs ds k v k1 hp hi2
    · have hget : ∀ x, kidsGet d (kidsSet c x kids) = kidsGet d kids :=
        fun x => kidsGet_kidsSet_ne c d x hcd kids
      cases hk : kidsGet c kids with
      | none =>
        rw [hk] at h
        by_cases hcs : cs = []
        · simp only [hcs, if_true, Option.some.injEq] at h
          subst h
          simp only [Node.get, hget]
        · simp [hcs] at h
      | some k =>
        rw [hk] at h
        cases hp : k.put cs v with
        | none => simp [hp] at h
        | some k1 =>
          simp only [hp, Option.some.injEq] at h
          subst h
          simp only [Node.get, hget]

/-! ### Path strings -/

theorem splitSlash_ne_nil : ∀ (s : List Byte), splitSlash s ≠ []
  | [] => by simp [splitSlash]
  | c :: cs => by
    unfold splitSlash
    split
    · simp
    · split <;> simp

theorem splitSlash_no_slash : ∀ (s : List Byte), 47 ∉ s → splitSlash s = [s]
  | [], _ => rfl
  | c :: cs, h => by
    have hc : c ≠ 47 := fun e => h (by simp [e])
    have hcs : 47 ∉ cs := fun e => h (by simp [e])
    simp [splitSlash, hc, splitSlash_no_slash cs hcs]

theorem splitSlash_append (b : List Byte) : ∀ (a : List Byte),
    splitSlash (a ++ 47 :: b) = splitSlash a ++ splitSlash b
  | [] => by simp [splitSlash]
  | c :: cs => by
    by_cases hc : c = 47
    · simp [splitSlash, hc, splitSlash_append b cs]
    · have ih := splitSlash_append b cs
      simp only [List.cons_append, splitSlash, hc, if_false]
      change (match splitSlash (cs ++ 47 :: b) with
        | [] => [[c]]
        | h :: t => (c :: h) :: t) = _
      rw [ih]
      cases hs : splitSlash cs with
      | nil => exact absurd hs (splitSlash_ne_nil cs)
      | cons h t => simp

theorem walk_append : ∀ (xs ys cur : List (List Byte)),
    walk cur (xs ++ ys) = walk (walk cur xs) ys
  | [], ys, cur => by simp [walk]
  | x :: xs, ys, cur => by
    simp only [List.cons_append, walk]
    split
    · exact walk_append xs ys cur
    · split
      · exact walk_append xs ys _
      · exact walk_append xs ys _

theorem validName_iff (n : List Byte) :
    validName n = true ↔ n ≠ [] ∧ 47 ∉ n ∧ 0 ∉ n ∧ n ≠ [46] ∧ n ≠ [46, 46] := by
  simp [validName, and_assoc]

theorem walk_valid (cur : List (List Byte)) (n : List Byte) (h : validName n = true) :
    walk cur [n] = cur ++ [n] := by
  obtain ⟨h1, _, _, h4, h5⟩ := (validName_iff n).1 h
  simp [walk, h1, h4, h5]

/-- Joining a valid entry name to a path descends by exactly that name. -/
theorem resolve_join_valid (a n : List Byte) (h : validName n = true) :
    resolve (cstr a ++ 47 :: n) = resolve a ++ [n] := by
  obtain ⟨_, h2, h3, _, _⟩ := (validName_iff n).1 h
  have hc : cstr (cstr a ++ 47 :: n) = cstr a ++ 47 :: n := by
    have := cstr_join a n
    rwa [cstr_of_no_nul n h3] at this
  unfold resolve
  rw [hc, splitSlash_append, walk_append, splitSlash_no_slash n h2, walk_valid _ _ h]

/-! ### System calls -/

theorem fault_eq (w : World) :
    w.fault = (w.faults.head?.getD false, { w with faults := w.faults.tail }) := by
  obtain ⟨fs, inp, out, faults, tmp, allocs, conns, created⟩ := w
  cases faults <;> rfl

/-- What `mkdir` can do: create the empty directory where nothing was,
or fail and leave everything as it is. -/
theorem mkdir_at_cases (path : List Byte) (w : World) :
    (∃ fs1, w.fs.get (resolve path) = none ∧ w.fs.put (resolve path) (.dir []) = some fs1 ∧
        mkdir_at path w = (.ok (), { w with fs := fs1, created := w.created ++ [cstr path] })) ∨
    (∃ e, mkdir_at path w = (.error e, w) ∧
      (e = .EEXIST → ∃ t, w.fs.get (resolve path) = some t)) := by
  unfold mkdir_at
  split
  · exact Or.inr ⟨_, rfl, by simp⟩
  · cases hg : w.fs.get (resolve path) with
    | some t => exact Or.inr ⟨_, rfl, fun _ => ⟨t, rfl⟩⟩
    | none =>
      dsimp only
      cases hp : w.fs.get (resolve path).dropLast with
      | none => exact Or.inr ⟨_, rfl, by simp⟩
      | some par =>
        cases par with
        | file d => exact Or.inr ⟨_, rfl, by simp⟩
        | dir kids =>
          dsimp only
          cases hq : w.fs.put (resolve path) (.dir []) with
          | none => exact Or.inr ⟨_, rfl, by simp⟩
          | some fs1 => exact Or.inl ⟨fs1, rfl, rfl, rfl⟩

theorem sys_mkdir_cases (path : List Byte) (w : World) :
    (∃ fs1, w.fs.get (resolve path) = none ∧ w.fs.put (resolve path) (.dir []) = some fs1 ∧
        sys_mkdir path w = (.ok (), { w with fs := fs1, faults := w.faults.tail,
                                             created := w.created ++ [cstr path] })) ∨
    (∃ e, sys_mkdir path w = (.error e, { w with faults := w.faults.tail }) ∧
      (e = .EEXIST → ∃ t, w.fs.get (resolve path) = some t)) := by
  unfold sys_mkdir
  rw [fault_eq]
  cases w.faults.head?.getD false with
  | true => exact Or.inr ⟨_, rfl, by simp⟩
  | false =>
    dsimp only
    rcases mkdir_at_cases path { w with faults := w.faults.tail } with ⟨fs1, h1, h2, h3⟩ | ⟨e, h1, h2⟩
    · exact Or.inl ⟨fs1, h1, h2, h3⟩
    · exact Or.inr ⟨e, h1, h2⟩

theorem sys_stat_world (path : List Byte) (w : World) :
    (sys_stat path w).2 = { w with faults := w.faults.tail } := by
  unfold sys_stat
  rw [fault_eq]
  cases w.faults.head?.getD false with
  | true => rfl
  | false =>
    dsimp only
    split
    · rfl
    · split <;> rfl

/-- A successful `ensure_directory` on a path where nothing was leaves an
empty directory there. -/
theorem ensure_directory_fresh (path : List Byte) (w w1 : World)
    (h : ensure_directory path w = (.ok (), w1)) (hnone : w.fs.get (resolve path) = none) :
    w1.fs.get (resolve path) = some (.dir []) := by
  unfold ensure_directory at h
  rcases sys_mkdir_cases path w with ⟨fs1, _, h2, h3⟩ | ⟨e, h1, h2⟩
  · rw [h3] at h
    simp only [Prod.mk.injEq, true_and] at h
    subst h
    exact Node.get_put_self _ _ _ _ h2
  · rw [h1] at h
    dsimp only at h
    by_cases he : e = .EEXIST
    · obtain ⟨t, ht⟩ := h2 he
      rw [hnone] at ht
      cases ht
    · simp [he] at h

theorem sys_stat_ok (path : List Byte) (w w1 : World) (st : Stat)
    (h : sys_stat path w = (.ok st, w1)) :
    w1 = { w with faults := w.faults.tail } ∧
    ((st.is_dir = true ∧ ∃ kids, w.fs.get (resolve path) = some (.dir kids)) ∨
     (st.is_dir = false ∧ ∃ data, w.fs.get (resolve path) = some (.file data) ∧
        st.st_size = data.length)) := by
  unfold sys_stat at h
  rw [fault_eq] at h
  cases hb : w.faults.head?.getD false with
  | true => simp [hb] at h
  | false =>
    simp only [hb] at h
    split at h
    · simp at h
    · cases hg : w.fs.get (resolve path) with
      | none => simp [hg] at h
      | some t =>
        cases t with
        | file data =>
          simp only [hg, Prod.mk.injEq, Except.ok.injEq] at h
          obtain ⟨h1, h2⟩ := h
          subst h1 h2
          exact ⟨rfl, Or.inr ⟨rfl, data, rfl, rfl⟩⟩
        | dir kids =>
          simp only [hg, Prod.mk.injEq, Except.ok.injEq] at h
          obtain ⟨h1, h2⟩ := h
          subst h1 h2
          exact ⟨rfl, Or.inl ⟨rfl, kids, rfl⟩⟩

/-- A successful `ensure_directory` either found a directory and changed
nothing, or created an empty directory where nothing was. -/
theorem ensure_directory_ok (path : List Byte) (w w1 : World)
    (h : ensure_directory path w = (.ok (), w1)) :
    (w1.fs = w.fs ∧ w1.created = w.created ∧ ∃ kids, w.fs.get (resolve path) = some (.dir kids)) ∨
    (w.fs.get (resolve path) = none ∧ w1.fs.get (resolve path) = some (.dir []) ∧
      w.fs.put (resolve path) (.dir []) = some w1.fs ∧
      w1.created = w.created ++ [cstr path]) := by
  unfold ensure_directory at h
  rcases sys_mkdir_cases path w with ⟨fs1, h1, h2, h3⟩ | ⟨e, h1, _⟩
  · rw [h3] at h
    simp only [Prod.mk.injEq, true_and] at h
    subst h
    exact Or.inr ⟨h1, Node.get_put_self _ _ _ _ h2, h2, rfl⟩
  · rw [h1] at h
    dsimp only at h
    by_cases he : e = .EEXIST
    · simp only [he, if_true] at h
      rcases hs : sys_stat path { w with faults := w.faults.tail } with ⟨r, w2⟩
      rw [hs] at h
      cases r with
      | error e2 => simp at h
      | ok st =>
        obtain ⟨hw2, hcase⟩ := sys_stat_ok _ _ _ _ hs
        rcases hcase with ⟨_, kids, hk⟩ | ⟨hd, _⟩
        · by_cases hd : st.is_dir = true
          · simp only [hd, Bool.not_true, Bool.false_eq_true, if_false, Prod.mk.injEq,
              true_and] at h
            subst h hw2
            exact Or.inl ⟨rfl, rfl, kids, hk⟩
          · simp [hd] at h
        · simp [hd] at h
    · simp [he] at h

/-- C6 (as amended): for a valid world name whose joined path
`storage_dir/name` fits `PATH_MAX` and is not a stored directory,
`handle_pull` reads the name and sends exactly the line `ERR NotFound`,
nothing else; `cmd_pull`, on receiving that line, fails right after it and
never calls the materializer: its file system is the one `ensure_directory`
left, where the destination is either the directory it already was or a new
empty one. -/
theorem pull_not_found (storage_dir line name rest dest rest_c : List Byte) (ws wc wc1 : World)
    (hvalid : IsWorldName name) (hline : sscanf_word_lu "PULL" line = some name.length)
    (hfit : (cstr storage_dir).length + 1 + name.length < PATH_MAX)
    (hinp : ws.inp = name ++ rest) (hf : ws.faults = [])
    (habsent : ∀ kids, ws.fs.get (resolve (cstr storage_dir ++ 47 :: name)) ≠ some (.dir kids))
    (hdest : ensure_directory dest wc = (.ok (), wc1)) (hcf : wc1.faults = [])
    (hcinp : wc1.inp = lit "ERR NotFound\n" ++ rest_c) :
    handle_pull storage_dir line ws =
      (-1, { ws with inp := rest, out := ws.out ++ lit "ERR NotFound\n",
                     allocs := ws.allocs ++ [name.length + 1] }) ∧
    cmd_pull name dest wc =
      (-1, { wc1 with conns := wc1.conns + 1, inp := rest_c,
                      out := wc1.out ++ (lit "PULL " ++ decimal name.length ++ [10]) ++ name }) ∧
    ((wc1.fs = wc.fs ∧ ∃ kids, wc.fs.get (resolve dest) = some (.dir kids)) ∨
      (wc.fs.get (resolve dest) = none ∧ wc1.fs.get (resolve dest) = some (.dir []))) := by
  have hlen : name.length < PATH_MAX := by omega
  refine ⟨handle_pull_not_found storage_dir line name rest ws hvalid hline hfit hinp hf habsent,
    cmd_pull_not_found name dest rest_c wc wc1 hvalid hlen hdest hcf hcinp, ?_⟩
  rcases ensure_directory_ok dest wc wc1 hdest with ⟨h1, _, h2⟩ | ⟨h1, h2, _⟩
  · exact Or.inl ⟨h1, h2⟩
  · exact Or.inr ⟨h1, h2⟩

theorem pull_not_found_witness :
    handle_pull (lit "store") (lit "PULL 11")
        ⟨.dir [(lit "store", .dir [])], lit "nosuchworld", [], [], [], [], 0, []⟩ =
      (-1, ⟨.dir [(lit "store", .dir [])], [], [] ++ lit "ERR NotFound\n", [], [],
        [] ++ [(lit "nosuchworld").length + 1], 0, []⟩) ∧
    cmd_pull (lit "nosuchworld") (lit "dest")
        ⟨.dir [], lit "ERR NotFound\n", [], [], [], [], 0, []⟩ =
      (-1, ⟨.dir [(lit "dest", .dir [])], [],
        [] ++ (lit "PULL " ++ decimal (lit "nosuchworld").length ++ [10]) ++ lit "nosuchworld",
        [], [], [], 0 + 1, [lit "dest"]⟩) ∧
    (((.dir [(lit "dest", .dir [])] : Node) = .dir [] ∧
        ∃ kids, (Node.dir []).get (resolve (lit "dest")) = some (.dir kids)) ∨
      ((Node.dir []).get (resolve (lit "dest")) = none ∧
        (Node.dir [(lit "dest", .dir [])]).get (resolve (lit "dest")) = some (.dir []))) :=
  pull_not_found (lit "store") (lit "PULL 11") (lit "nosuchworld") [] (lit "dest") []
    ⟨.dir [(lit "store", .dir [])], lit "nosuchworld", [], [], [], [], 0, []⟩
    ⟨.dir [], lit "ERR NotFound\n", [], [], [], [], 0, []⟩
    ⟨.dir [(lit "dest", .dir [])], lit "ERR NotFound\n", [], [], [], [], 0, [lit "dest"]⟩
    (by decide) (by decide) (by decide) (by decide) rfl
    (by
      have e : (Node.dir [(lit "store", .dir [])]).get
          (resolve (cstr (lit "store") ++ 47 :: lit "nosuchworld")) = none := by decide
      intro kids
      dsimp only
      rw [e]
      simp)
    (by rfl) rfl (by decide)

/-- C6 (counterexample): a valid name of 4094 letters `a` is not stored
under `s`, yet `handle_pull` answers `ERR ServerError`, not `ERR NotFound`:
the joined path does not fit `PATH_MAX`. -/
theorem pull_not_found_counterexample :
    sanitize_name (List.replicate 4094 97) = 0 ∧
    (Node.dir [(lit "s", .dir [])]).get (resolve (lit "s/" ++ List.replicate 4094 97)) = none ∧
    (handle_pull (lit "s") (lit "PULL 4094")
        ⟨.dir [(lit "s", .dir [])], List.replicate 4094 97, [], [], [], [], 0, []⟩).2.out =
      lit "ERR ServerError\n" := by
  decide!

/-! ### Listing -/

theorem validName_strcmp (n : List Byte) (h : validName n = true) :
    strcmp_eq n (lit ".") = false ∧ strcmp_eq n (lit "..") = false := by
  obtain ⟨_, _, h3, h4, h5⟩ := (validName_iff n).1 h
  have e1 : cstr (lit ".") = [46] := by decide
  have e2 : cstr (lit "..") = [46, 46] := by decide
  simp [strcmp_eq, cstr_of_no_nul n h3, e1, e2, h4, h5]

theorem validName_cstr (n : List Byte) (h : validName n = true) : cstr n = n :=
  cstr_of_no_nul n ((validName_iff n).1 h).2.2.1

theorem strlen_join (a n : List Byte) (h : validName n = true) :
    strlen (cstr a ++ 47 :: n) = (cstr a).length + 1 + n.length := by
  have := cstr_join a n
  rw [validName_cstr n h] at this
  simp only [strlen, this, List.length_append, List.length_cons]
  omega

/-- The outcome of `stat` on an entry of a directory, nothing failing. -/
theorem sys_stat_entry (a n : List Byte) (w : World) (kids : List (List Byte × Node))
    (hf : w.faults = []) (hn : validName n = true)
    (hfit : (cstr a).length + 1 + n.length < PATH_MAX)
    (hdir : w.fs.get (resolve a) = some (.dir kids)) :
    sys_stat (cstr a ++ 47 :: n) w =
      match kidsGet n kids with
      | some (.dir _) => (.ok ⟨true, 0⟩, w)
      | some (.file data) => (.ok ⟨false, data.length⟩, w)
      | none => (.error .ENOENT, w) := by
  have hl : ¬ strlen (cstr a ++ 47 :: n) ≥ PATH_MAX := by rw [strlen_join a n hn]; omega
  have hg : w.fs.get (resolve (cstr a ++ 47 :: n)) = kidsGet n kids := by
    rw [resolve_join_valid a n hn, Node.get_append, hdir]
    simp only [Node.get]
    cases kidsGet n kids with
    | none => rfl
    | some k => rfl
  simp only [sys_stat, fault_nil w hf, hl, if_false, hg]

theorem list_count_spec (storage_dir : List Byte) (w : World) (kids : List (List Byte × Node))
    (hf : w.faults = []) (hdir : w.fs.get (resolve storage_dir) = some (.dir kids)) :
    ∀ (names : List (List Byte)) (count : Nat),
      (∀ n ∈ names, validName n = true ∧ (cstr storage_dir).length + 1 + n.length < PATH_MAX) →
      list_count storage_dir names count w =
        (some (count + (names.filter (kidIsDir kids)).length), w) := by
  intro names
  induction names with
  | nil => intro count _; simp [list_count]
  | cons n rest ih =>
    intro count h
    obtain ⟨hv, hfit⟩ := h n (by simp)
    have hrest := fun c => ih c (fun m hm => h m (by simp [hm]))
    obtain ⟨s1, s2⟩ := validName_strcmp n hv
    have hj := join_paths_ok storage_dir n PATH_MAX (by rw [validName_cstr n hv]; exact hfit)
    rw [validName_cstr n hv] at hj
    have hst := sys_stat_entry storage_dir n w kids hf hv hfit hdir
    simp only [list_count, s1, s2, Bool.false_eq_true, or_self, if_false, hj, hst]
    cases hk : kidsGet n kids with
    | none => simp [hrest, List.filter_cons, kidIsDir, hk]
    | some k =>
      cases k with
      | file data => simp [hrest, List.filter_cons, kidIsDir, hk, Node.isDir]
      | dir ks =>
        simp [hrest, List.filter_cons, kidIsDir, hk, Node.isDir]
        omega

theorem list_send_spec (storage_dir : List Byte) (kids : List (List Byte × Node)) :
    ∀ (names : List (List Byte)) (w : World),
      w.faults = [] → w.fs.get (resolve storage_dir) = some (.dir kids) →
      (∀ n ∈ names, validName n = true ∧ (cstr storage_dir).length + 1 + n.length < PATH_MAX) →
      list_send storage_dir names w =
        (none, { w with out := w.out ++ world_records (names.filter (kidIsDir kids)) }) := by
  intro names
  induction names with
  | nil => intro w _ _ _; simp [list_send, world_records]
  | cons n rest ih =>
    intro w hf hdir h
    obtain ⟨hv, hfit⟩ := h n (by simp)
    have hrest := fun w1 h1 h2 => ih w1 h1 h2 (fun m hm => h m (by simp [hm]))
    obtain ⟨s1, s2⟩ := validName_strcmp n hv
    have hc := validName_cstr n hv
    have hj := join_paths_ok storage_dir n PATH_MAX (by rw [hc]; exact hfit)
    rw [hc] at hj
    have hst := sys_stat_entry storage_dir n w kids hf hv hfit hdir
    have hlen : n.length < PATH_MAX := by omega
    have hmin : min (strlen n) PATH_MAX = n.length := by
      simp only [strlen, hc]; omega
    have hd := decimal_length_le 3 n.length (lt_of_lt_of_le hlen (by decide))
    have hfmt : (lit "WORLD " ++ decimal n.length ++ [10]).length < MCSYNC_MAX_LINE := by
      have e : (lit "WORLD ").length = 6 := by decide
      simp only [List.length_append, e, List.length_singleton, MCSYNC_MAX_LINE]
      omega
    simp only [list_send, s1, s2, Bool.false_eq_true, or_self, if_false, hj, hst, hmin]
    cases hk : kidsGet n kids with
    | none =>
      have hr := hrest w hf hdir
      simp [hr, List.filter_cons, kidIsDir, hk]
    | some k =>
      cases k with
      | file data =>
        have hr := hrest w hf hdir
        simp [hr, List.filter_cons, kidIsDir, hk, Node.isDir]
      | dir ks =>
        have hr := hrest
          { w with out := w.out ++ (lit "WORLD " ++ decimal n.length ++ [10]) ++ n.take n.length }
          hf hdir
        simp only [if_true, send_fmt_short _ _ hfmt, send_all, send, hr]
        simp [List.filter_cons, kidIsDir, hk, Node.isDir, world_records, world_record]

theorem kidsGet_mem_none (c : List Byte) :
    ∀ (kids : List (List Byte × Node)), c ∉ kids.map Prod.fst → kidsGet c kids = none
  | [], _ => rfl
  | (n, k) :: rest, h => by
    have h1 : n ≠ c := fun e => h (by simp [e])
    have h2 : c ∉ rest.map Prod.fst := fun e => h (by simp at e ⊢; exact Or.inr e)
    simp [kidsGet, h1, kidsGet_mem_none c rest h2]

theorem filter_kidIsDir (pre : List (List Byte × Node)) :
    ∀ (kids : List (List Byte × Node)), (∀ e ∈ kids, kidsGet e.1 pre = none) →
      (kids.map Prod.fst).Nodup →
      (kids.map Prod.fst).filter (kidIsDir (pre ++ kids)) = subdirNames kids := by
  intro kids
  induction kids generalizing pre with
  | nil => intro _ _; rfl
  | cons e rest ih =>
    intro hpre hnd
    obtain ⟨n, k⟩ := e
    simp only [List.map_cons, List.nodup_cons] at hnd
    have hn0 : kidsGet n pre = none := hpre (n, k) (by simp)
    have hhead : kidIsDir (pre ++ (n, k) :: rest) n = k.isDir := by
      simp [kidIsDir, kidsGet_append, hn0, kidsGet]
    have htail := ih (pre ++ [(n, k)])
      (by
        intro e he
        have hne : n ≠ e.1 := fun heq => hnd.1 (by rw [heq]; exact List.mem_map_of_mem _ he)
        rw [kidsGet_append, hpre e (by simp [he])]
        simp [kidsGet, hne])
      hnd.2
    rw [List.append_assoc, List.singleton_append] at htail
    simp only [List.map_cons, List.filter_cons, hhead, htail, subdirNames]
    cases k.isDir <;> simp

theorem subdirNames_nodup (kids : List (List Byte × Node)) (h : (kids.map Prod.fst).Nodup) :
    (subdirNames kids).Nodup := by
  unfold subdirNames
  exact (List.Nodup.sublist ((List.filter_sublist _).map Prod.fst) h)

theorem mem_subdirNames (kids : List (List Byte × Node)) (n : List Byte) :
    n ∈ subdirNames kids ↔ ∃ ks, (n, Node.dir ks) ∈ kids := by
  unfold subdirNames
  simp only [List.mem_map, List.mem_filter, Prod.exists, exists_and_right, exists_eq_right]
  constructor
  · rintro ⟨k, hk, hd⟩
    cases k with
    | file d => simp [Node.isDir] at hd
    | dir ks => exact ⟨ks, hk⟩
  · rintro ⟨ks, hk⟩
    exact ⟨_, hk, rfl⟩

theorem ensure_directory_existing (path : List Byte) (w : World)
    (kids : List (List Byte × Node)) (hf : w.faults = []) (hlen : strlen path < PATH_MAX)
    (hdir : w.fs.get (resolve path) = some (.dir kids)) :
    ensure_directory path w = (.ok (), w) := by
  have hl : ¬ strlen path ≥ PATH_MAX := by omega
  simp [ensure_directory, sys_mkdir, mkdir_at, sys_stat, fault_nil w hf, hl, hdir]

theorem sys_opendir_ok (path : List Byte) (w : World)
    (kids : List (List Byte × Node)) (hf : w.faults = []) (hlen : strlen path < PATH_MAX)
    (hdir : w.fs.get (resolve path) = some (.dir kids)) :
    sys_opendir path w = (.ok ([46] :: [46, 46] :: kids.map Prod.fst), w) := by
  have hl : ¬ strlen path ≥ PATH_MAX := by omega
  simp [sys_opendir, fault_nil w hf, hl, hdir]

theorem handle_list_spec (storage_dir : List Byte) (w : World) (kids : List (List Byte × Node))
    (hf : w.faults = []) (hlen : strlen storage_dir < PATH_MAX)
    (hdir : w.fs.get (resolve storage_dir) = some (.dir kids))
    (hnames : ∀ e ∈ kids, validName e.1 = true) (hnodup : (kids.map Prod.fst).Nodup)
    (hfit : ∀ e ∈ kids, (cstr storage_dir).length + 1 + e.1.length < PATH_MAX)
    (hcount : kids.length < 2 ^ 64) :
    handle_list storage_dir w =
      (0, { w with out := w.out ++ (lit "COUNT " ++ decimal (subdirNames kids).length ++ [10]) ++
                          world_records (subdirNames kids) ++ lit "DONE\n" }) := by
  have hall : ∀ n ∈ kids.map Prod.fst,
      validName n = true ∧ (cstr storage_dir).length + 1 + n.length < PATH_MAX := by
    intro n hn
    obtain ⟨e, he, rfl⟩ := List.mem_map.1 hn
    exact ⟨hnames e he, hfit e he⟩
  have hfil : (kids.map Prod.fst).filter (kidIsDir kids) = subdirNames kids := by
    have := filter_kidIsDir [] kids (fun _ _ => rfl) hnodup
    simpa using this
  have hcnt := list_count_spec storage_dir w kids hf hdir (kids.map Prod.fst) 0 hall
  rw [hfil, Nat.zero_add] at hcnt
  have hle : (subdirNames kids).length ≤ kids.length := by
    unfold subdirNames
    rw [List.length_map]
    exact List.length_filter_le _ _
  have hd := decimal_length_u64 (subdirNames kids).length (by omega)
  have hfmt : (lit "COUNT " ++ decimal (subdirNames kids).length ++ [10]).length
      < MCSYNC_MAX_LINE := by
    have e : (lit "COUNT ").length = 6 := by decide
    simp only [List.length_append, e, List.length_singleton, MCSYNC_MAX_LINE]
    omega
  have hsend := list_send_spec storage_dir kids (kids.map Prod.fst)
    { w with out := w.out ++ (lit "COUNT " ++ decimal (subdirNames kids).length ++ [10]) }
    hf hdir hall
  rw [hfil] at hsend
  have d1 : strcmp_eq [46] (lit ".") = true := by decide
  have d2 : strcmp_eq [46, 46] (lit "..") = true := by decide
  have hdone : (lit "DONE\n").length < MCSYNC_MAX_LINE := by decide
  simp only [handle_list, ensure_directory_existing storage_dir w kids hf hlen hdir,
    sys_opendir_ok storage_dir w kids hf hlen hdir, list_count, d1, d2, true_or, or_true,
    if_true, hcnt, send_fmt_short _ _ hfmt, list_send, hsend, send_fmt_short _ _ hdone]

/-- C7 (as amended): when every joined path `storage_dir/name` fits
`PATH_MAX`, `handle_list` sends `COUNT n`, then one record `WORLD len` plus
`len` name bytes for each immediate subdirectory of the storage root, then
`DONE`, where `n` is the number of these subdirectories; the names sent are
exactly the names of the subdirectories, none repeated, and nothing else
changes. -/
theorem listing_exact (storage_dir : List Byte) (w : World) (kids : List (List Byte × Node))
    (hf : w.faults = []) (hlen : strlen storage_dir < PATH_MAX)
    (hdir : w.fs.get (resolve storage_dir) = some (.dir kids))
    (hnames : ∀ e ∈ kids, validName e.1 = true) (hnodup : (kids.map Prod.fst).Nodup)
    (hfit : ∀ e ∈ kids, (cstr storage_dir).length + 1 + e.1.length < PATH_MAX)
    (hcount : kids.length < 2 ^ 64) :
    handle_list storage_dir w =
      (0, { w with out := w.out ++ (lit "COUNT " ++ decimal (subdirNames kids).length ++ [10]) ++
                          world_records (subdirNames kids) ++ lit "DONE\n" }) ∧
    (subdirNames kids).Nodup ∧
    (∀ n, n ∈ subdirNames kids ↔ ∃ ks, (n, Node.dir ks) ∈ kids) :=
  ⟨handle_list_spec storage_dir w kids hf hlen hdir hnames hnodup hfit hcount,
    subdirNames_nodup kids hnodup, mem_subdirNames kids⟩

theorem listing_exact_witness :
    handle_list (lit "store")
        ⟨.dir [(lit "store", .dir [(lit "a", .dir [(lit "f", .file [1, 2])]),
            (lit "note", .file [7]), (lit "bb", .dir [])])], [], [], [], [], [], 0, []⟩ =
      (0, ⟨.dir [(lit "store", .dir [(lit "a", .dir [(lit "f", .file [1, 2])]),
            (lit "note", .file [7]), (lit "bb", .dir [])])], [],
        [] ++ (lit "COUNT " ++ decimal (subdirNames [(lit "a", .dir [(lit "f", .file [1, 2])]),
            (lit "note", .file [7]), (lit "bb", .dir [])]).length ++ [10]) ++
          world_records (subdirNames [(lit "a", .dir [(lit "f", .file [1, 2])]),
            (lit "note", .file [7]), (lit "bb", .dir [])]) ++ lit "DONE\n",
        [], [], [], 0, []⟩) ∧
    (subdirNames [(lit "a", .dir [(lit "f", .file [1, 2])]),
      (lit "note", .file [7]), (lit "bb", .dir [])]).Nodup ∧
    (∀ n, n ∈ subdirNames [(lit "a", .dir [(lit "f", .file [1, 2])]),
        (lit "note", .file [7]), (lit "bb", .dir [])] ↔
      ∃ ks, (n, Node.dir ks) ∈ [(lit "a", Node.dir [(lit "f", .file [1, 2])]),
        (lit "note", .file [7]), (lit "bb", .dir [])]) :=
  listing_exact (lit "store")
    ⟨.dir [(lit "store", .dir [(lit "a", .dir [(lit "f", .file [1, 2])]),
      (lit "note", .file [7]), (lit "bb", .dir [])])], [], [], [], [], [], 0, []⟩
    [(lit "a", .dir [(lit "f", .file [1, 2])]), (lit "note", .file [7]), (lit "bb", .dir [])]
    rfl (by decide) (by decide) (by decide) (by decide) (by decide) (by decide)

/-- C7 (counterexample): the storage root `s` followed by 4093 slashes is
the directory `s`, which holds the world `w`; `handle_list` answers
`ERR ServerError` and no listing, because `s////…/w` does not fit
`PATH_MAX`. -/
theorem listing_exact_counterexample :
    (Node.dir [(lit "s", .dir [(lit "w", .dir [])])]).get
        (resolve (lit "s" ++ List.replicate 4093 47)) = some (.dir [(lit "w", .dir [])]) ∧
    strlen (lit "s" ++ List.replicate 4093 47) < PATH_MAX ∧
    (handle_list (lit "s" ++ List.replicate 4093 47)
        ⟨.dir [(lit "s", .dir [(lit "w", .dir [])])], [], [], [], [], [], 0, []⟩).2.out =
      lit "ERR ServerError\n" := by
  decide!

/-! ### What the materializer creates -/

theorem recv_line_loop_world : ∀ (room : Nat) (buf : List Byte) (w : World),
    ∃ inp1, (recv_line_loop room buf w).2 = { w with inp := inp1 } := by
  intro room
  induction room with
  | zero => intro buf w; exact ⟨w.inp, rfl⟩
  | succ r ih =>
    intro buf w
    simp only [recv_line_loop, recv]
    cases hi : w.inp with
    | nil => exact ⟨[], by simp⟩
    | cons c cs =>
      simp only [List.take_succ_cons, List.take_zero, List.drop_succ_cons, List.drop_zero]
      by_cases hc : c = 10
      · exact ⟨cs, by simp [hc]⟩
      · obtain ⟨i, hi2⟩ := ih (buf ++ [c]) { w with inp := cs }
        exact ⟨i, by simp [hc, hi2]⟩

theorem recv_line_world (n : Nat) (w : World) :
    ∃ inp1, (recv_line n w).2 = { w with inp := inp1 } :=
  recv_line_loop_world _ _ _

theorem recv_all_world (n : Nat) (w : World) :
    ∃ inp1, (recv_all n w).2 = { w with inp := inp1 } := by
  rw [recv_all_eq]
  split
  · exact ⟨_, rfl⟩
  · exact ⟨_, rfl⟩

theorem sys_malloc_world (n : Nat) (w : World) :
    ∃ a, (sys_malloc n w).2 = { w with faults := w.faults.tail, allocs := a } := by
  unfold sys_malloc
  rw [fault_eq]
  cases w.faults.head?.getD false with
  | true => exact ⟨w.allocs, rfl⟩
  | false => exact ⟨_, rfl⟩

theorem seg_within (c : List Byte) : ∀ (s : List Byte), c ∈ splitSlash s → c <:+: s
  | [], h => by
    simp only [splitSlash, List.mem_singleton] at h
    subst h
    exact List.infix_refl _
  | x :: xs, h => by
    unfold splitSlash at h
    by_cases hx : x = 47
    · simp only [hx, if_true, List.mem_cons] at h
      rcases h with h | h
      · subst h; exact List.nil_infix
      · exact (seg_within c xs h).trans (List.suffix_cons x xs).isInfix
    · simp only [hx, if_false] at h
      cases hs : splitSlash xs with
      | nil => exact absurd hs (splitSlash_ne_nil xs)
      | cons hd tl =>
        rw [hs] at h
        simp only [List.mem_cons] at h
        have hhd : hd <+: xs := by
          clear h
          induction xs generalizing hd tl with
          | nil =>
            simp only [splitSlash, List.cons.injEq] at hs
            rw [← hs.1]
          | cons y ys ih =>
            unfold splitSlash at hs
            by_cases hy : y = 47
            · simp only [hy, if_true, List.cons.injEq] at hs
              rw [← hs.1]; exact List.nil_prefix
            · simp only [hy, if_false] at hs
              cases hs2 : splitSlash ys with
              | nil => exact absurd hs2 (splitSlash_ne_nil ys)
              | cons hd2 tl2 =>
                rw [hs2] at hs
                simp only [List.cons.injEq] at hs
                rw [← hs.1]
                exact (List.prefix_cons_inj y).2 (ih hd2 tl2 hs2)
        rcases h with h | h
        · subst h
          exact ((List.prefix_cons_inj x).2 hhd).isInfix
        · have : c ∈ splitSlash xs := by rw [hs]; exact List.mem_cons_of_mem _ h
          exact (seg_within c xs this).trans (List.suffix_cons x xs).isInfix

theorem CreatedWithin.of_eq {S : List Byte → Prop} {w w1 : World} (h : w1.created = w.created) :
    CreatedWithin S w w1 := fun _ hq => Or.inl (h ▸ hq)

theorem CreatedWithin.trans {S : List Byte → Prop} {w w1 w2 : World}
    (h1 : CreatedWithin S w w1) (h2 : CreatedWithin S w1 w2) : CreatedWithin S w w2 := by
  intro q hq
  rcases h2 q hq with h | h
  · exact h1 q h
  · exact Or.inr h

theorem CreatedWithin.mono {S T : List Byte → Prop} {w w1 : World}
    (h : CreatedWithin S w w1) (hst : ∀ q, S q → T q) : CreatedWithin T w w1 := by
  intro q hq
  rcases h q hq with h | h
  · exact Or.inl h
  · exact Or.inr (hst q h)

theorem sys_mkdir_cw (path : List Byte) (w : World) :
    CreatedWithin (fun q => q = cstr path) w (sys_mkdir path w).2 := by
  rcases sys_mkdir_cases path w with ⟨fs1, _, _, h3⟩ | ⟨e, h1, _⟩
  · rw [h3]
    intro q hq
    simp only [List.mem_append, List.mem_singleton] at hq
    exact hq
  · rw [h1]
    exact CreatedWithin.of_eq rfl

theorem ensure_directory_cw (path : List Byte) (w : World) :
    CreatedWithin (fun q => q = cstr path) w (ensure_directory path w).2 := by
  unfold ensure_directory
  have hm := sys_mkdir_cw path w
  rcases hres : sys_mkdir path w with ⟨r, w1⟩
  rw [hres] at hm
  cases r with
  | ok u => exact hm
  | error e =>
    dsimp only
    split
    · have hs := sys_stat_world path w1
      rcases hst : sys_stat path w1 with ⟨r2, w2⟩
      rw [hst] at hs
      dsimp only at hs
      have hc : w2.created = w1.created := by rw [hs]
      cases r2 with
      | error e2 => exact hm.trans (CreatedWithin.of_eq hc)
      | ok st =>
        dsimp only
        split <;> exact hm.trans (CreatedWithin.of_eq hc)
    · exact hm

theorem ensure_parent_dirs_loop_cw (buffer : List Byte) :
    ∀ (n i : Nat) (w : World),
      CreatedWithin (fun q => ∃ j, q = cstr (buffer.take j)) w
        (ensure_parent_dirs_loop buffer n i w).2 := by
  intro n
  induction n with
  | zero => intro i w; exact CreatedWithin.of_eq rfl
  | succ n ih =>
    intro i w
    simp only [ensure_parent_dirs_loop]
    split
    · have hm := (sys_mkdir_cw (buffer.take i) w).mono
        (T := fun q => ∃ j, q = cstr (buffer.take j)) (fun q hq => ⟨i, hq⟩)
      rcases hres : sys_mkdir (buffer.take i) w with ⟨r, w1⟩
      rw [hres] at hm
      cases r with
      | ok u => exact hm.trans (ih (i + 1) w1)
      | error e =>
        dsimp only
        split
        · exact hm
        · exact hm.trans (ih (i + 1) w1)
    · exact ih (i + 1) w

theorem ensure_parent_dirs_cw (path : List Byte) (w : World) :
    CreatedWithin (fun q => ∃ j, q = (cstr path).take j) w (ensure_parent_dirs path w).2 := by
  unfold ensure_parent_dirs
  split
  · exact CreatedWithin.of_eq rfl
  · refine (ensure_parent_dirs_loop_cw (cstr path) _ 1 w).mono ?_
    rintro q ⟨j, hj⟩
    refine ⟨j, ?_⟩
    rw [hj]
    apply cstr_of_no_nul
    intro h0
    exact cstr_no_nul path (List.mem_of_mem_take h0)

theorem sys_open_trunc_cw (path : List Byte) (w : World) :
    CreatedWithin (fun q => q = cstr path) w (sys_open_trunc path w).2 := by
  unfold sys_open_trunc
  rw [fault_eq]
  cases w.faults.head?.getD false with
  | true => exact CreatedWithin.of_eq rfl
  | false =>
    dsimp only
    split
    · exact CreatedWithin.of_eq rfl
    · split
      · exact CreatedWithin.of_eq rfl
      · split
        · split
          · intro q hq
            simp only [List.mem_append, List.mem_singleton] at hq
            exact hq
          · exact CreatedWithin.of_eq rfl
        · exact CreatedWithin.of_eq rfl
        · exact CreatedWithin.of_eq rfl

theorem sys_write_created (fd : List (List Byte)) (data : List Byte) (w : World) :
    (sys_write fd data w).2.created = w.created := by
  unfold sys_write
  rw [fault_eq]
  cases w.faults.head?.getD false with
  | true => rfl
  | false =>
    dsimp only
    split
    · split <;> rfl
    · rfl

theorem recv_file_loop_created : ∀ (fuel : Nat) (fd : List (List Byte)) (remaining : Nat)
    (w : World), (recv_file_loop fuel fd remaining w).2.created = w.created := by
  intro fuel
  induction fuel with
  | zero => intro fd remaining w; rfl
  | succ f ih =>
    intro fd remaining w
    simp only [recv_file_loop]
    split
    · obtain ⟨i1, h1⟩ := recv_all_world
        (if remaining < FILE_CHUNK_SIZE then remaining else FILE_CHUNK_SIZE) w
      rcases hr : recv_all (if remaining < FILE_CHUNK_SIZE then remaining else FILE_CHUNK_SIZE) w
        with ⟨r, w1⟩
      rw [hr] at h1
      dsimp only at h1
      have hc1 : w1.created = w.created := by rw [h1]
      cases r with
      | error e => exact hc1
      | ok buffer =>
        dsimp only
        have hw := sys_write_created fd buffer w1
        rcases hwr : sys_write fd buffer w1 with ⟨r2, w2⟩
        rw [hwr] at hw
        dsimp only at hw
        cases r2 with
        | error e => exact hw.trans hc1
        | ok u =>
          dsimp only
          rw [ih, hw, hc1]
    · rfl

theorem safe_full (target pb : List Byte) (h : ¬ strstr pb (lit "..") = true) :
    (∀ q, q = cstr (cstr target ++ 47 :: cstr pb) → SafeCreated target q) ∧
    (∀ q, (∃ j, q = (cstr (cstr target ++ 47 :: cstr pb)).take j) → SafeCreated target q) := by
  have hni : ¬ [46, 46] <:+: cstr pb := fun e => h ((strstr_dotdot_iff pb).2 e)
  rw [cstr_join]
  constructor
  · intro q hq
    exact Or.inl ⟨cstr pb, hq, hni⟩
  · rintro q ⟨j, hj⟩
    by_cases hle : j ≤ (cstr target).length
    · refine Or.inr ⟨j, ?_⟩
      rw [hj, List.take_append_eq_append_take]
      have : j - (cstr target).length = 0 := by omega
      simp [this]
    · refine Or.inl ⟨(cstr pb).take (j - (cstr target).length - 1), ?_, ?_⟩
      · rw [hj, List.take_append_eq_append_take]
        have h1 : (cstr target).take j = cstr target := List.take_of_length_le (by omega)
        obtain ⟨k, hk⟩ : ∃ k, j - (cstr target).length = k + 1 :=
          ⟨j - (cstr target).length - 1, by omega⟩
        rw [h1, hk, List.take_succ_cons]
        simp
      · intro hinf
        exact hni (hinf.trans (List.take_prefix _ _).isInfix)

theorem receive_entry_cw (target line : List Byte) (w : World) :
    CreatedWithin (SafeCreated target) w (receive_entry target line w).2 := by
  unfold receive_entry
  split
  · exact CreatedWithin.of_eq rfl
  · split
    · exact CreatedWithin.of_eq rfl
    · rename_i type path_len size _
      split
      · exact CreatedWithin.of_eq rfl
      · obtain ⟨a, ha⟩ := sys_malloc_world (path_len + 1) w
        rcases hm : sys_malloc (path_len + 1) w with ⟨r1, w1⟩
        rw [hm] at ha
        dsimp only at ha
        have c1 : w1.created = w.created := by rw [ha]
        cases r1 with
        | error e => exact CreatedWithin.of_eq c1
        | ok u =>
          dsimp only
          obtain ⟨i2, h2⟩ := recv_all_world path_len w1
          rcases hr : recv_all path_len w1 with ⟨r2, w2⟩
          rw [hr] at h2
          dsimp only at h2
          have c2 : w2.created = w.created := by rw [h2]; exact c1
          cases r2 with
          | error e => exact CreatedWithin.of_eq c2
          | ok path_buffer =>
            dsimp only
            split
            · exact CreatedWithin.of_eq c2
            · rename_i hstr
              obtain ⟨s1, s2⟩ := safe_full target path_buffer hstr
              have hj : join_paths target path_buffer PATH_MAX = .error .ENAMETOOLONG ∨
                  join_paths target path_buffer PATH_MAX =
                    .ok (cstr target ++ 47 :: cstr path_buffer) := by
                unfold join_paths
                split
                · exact Or.inl rfl
                · exact Or.inr rfl
              have base : CreatedWithin (SafeCreated target) w w2 := CreatedWithin.of_eq c2
              rcases hj with hj | hj
              · rw [hj]
                exact base
              · rw [hj]
                dsimp only
                split
                · have hd := (ensure_directory_cw (cstr target ++ 47 :: cstr path_buffer) w2).mono s1
                  rcases he : ensure_directory (cstr target ++ 47 :: cstr path_buffer) w2
                    with ⟨r3, w3⟩
                  rw [he] at hd
                  cases r3 <;> exact base.trans hd
                · split
                  · have hp := (ensure_parent_dirs_cw (cstr target ++ 47 :: cstr path_buffer)
                      w2).mono s2
                    rcases he : ensure_parent_dirs (cstr target ++ 47 :: cstr path_buffer) w2
                      with ⟨r3, w3⟩
                    rw [he] at hp
                    cases r3 with
                    | error e => exact base.trans hp
                    | ok u3 =>
                      dsimp only
                      have ho := (sys_open_trunc_cw (cstr target ++ 47 :: cstr path_buffer)
                        w3).mono s1
                      rcases hopen : sys_open_trunc (cstr target ++ 47 :: cstr path_buffer) w3
                        with ⟨r4, w4⟩
                      rw [hopen] at ho
                      cases r4 with
                      | error e => exact (base.trans hp).trans ho
                      | ok fd =>
                        dsimp only
                        have hf := recv_file_loop_created (w4.inp.length + 1) fd size w4
                        rcases hloop : recv_file_loop (w4.inp.length + 1) fd size w4
                          with ⟨r5, w5⟩
                        rw [hloop] at hf
                        dsimp only at hf
                        cases r5 <;>
                          exact ((base.trans hp).trans ho).trans (CreatedWithin.of_eq hf)
                  · exact base

theorem receive_loop_cw (target : List Byte) : ∀ (fuel : Nat) (w : World),
    CreatedWithin (SafeCreated target) w (receive_loop fuel target w).2 := by
  intro fuel
  induction fuel with
  | zero => intro w; exact CreatedWithin.of_eq rfl
  | succ f ih =>
    intro w
    simp only [receive_loop]
    obtain ⟨i1, h1⟩ := recv_line_world MCSYNC_MAX_LINE w
    rcases hl : recv_line MCSYNC_MAX_LINE w with ⟨r, w1⟩
    rw [hl] at h1
    dsimp only at h1
    have c1 : w1.created = w.created := by rw [h1]
    cases r with
    | error e => exact CreatedWithin.of_eq c1
    | ok line =>
      dsimp only
      have he := receive_entry_cw target line w1
      rcases hre : receive_entry target line w1 with ⟨r2, w2⟩
      rw [hre] at he
      have base : CreatedWithin (SafeCreated target) w w1 := CreatedWithin.of_eq c1
      cases r2 with
      | some res => exact base.trans he
      | none => exact (base.trans he).trans (ih w2)

/-- Everything `receive_world_entries` creates is a safe path string. -/
theorem receive_world_entries_cw (target : List Byte) (w : World) :
    CreatedWithin (SafeCreated target) w (receive_world_entries target w).2 :=
  receive_loop_cw target _ w

theorem receive_entry_reject (target line path rest : List Byte) (w : World) (type : Int)
    (size : Nat) (hline : sscanf_entry line = some (type, path.length, size))
    (hinp : w.inp = path ++ rest) (hseg : [46, 46] <:+: cstr path) :
    ∃ e w1, receive_entry target line w = (some (.error e), w1) ∧ w1.fs = w.fs ∧
      w1.created = w.created := by
  have hend : ¬ strcmp_eq line (lit "END") = true := by
    intro h
    have hc := (strcmp_eq_iff line (lit "END") (by decide)).1 h
    have hs : scan_literal (lit "ENTRY") (lit "END") = none := by decide
    simp [sscanf_entry, hc, hs] at hline
  unfold receive_entry
  rw [if_neg hend, hline]
  dsimp only
  split
  · exact ⟨_, _, rfl, rfl, rfl⟩
  · obtain ⟨a, ha⟩ := sys_malloc_world (path.length + 1) w
    rcases hm : sys_malloc (path.length + 1) w with ⟨r1, w1⟩
    rw [hm] at ha
    dsimp only at ha
    cases r1 with
    | error e => exact ⟨_, _, rfl, by rw [ha], by rw [ha]⟩
    | ok u =>
      dsimp only
      have hr := recv_all_ok path rest w1 (by rw [ha]; exact hinp)
      rw [hr]
      dsimp only
      rw [if_pos ((strstr_dotdot_iff path).2 hseg)]
      exact ⟨_, _, rfl, by rw [ha], by rw [ha]⟩

/-- C3 (as amended): when the C string of an entry's path bytes (the bytes
before a NUL, if there is one) has a `..` segment, `receive_world_entries`
fails on that entry and the file system and the list of created paths stay
as they were; and every path string it ever creates is `target_dir/p` with
no `..` anywhere in `p`, or a leading part of `target_dir` itself (a missing
ancestor made by `ensure_parent_dirs`). -/
theorem path_traversal_defence (target line path rest : List Byte) (w : World) (type : Int)
    (size : Nat) (hl : 10 ∉ line) (hlen : line.length + 1 < MCSYNC_MAX_LINE)
    (hinp : w.inp = line ++ 10 :: (path ++ rest))
    (hline : sscanf_entry line = some (type, path.length, size))
    (hseg : hasDotDotSegment (cstr path)) :
    (∃ e, (receive_world_entries target w).1 = .error e) ∧
    (receive_world_entries target w).2.fs = w.fs ∧
    (receive_world_entries target w).2.created = w.created ∧
    (∀ (t : List Byte) (w0 : World), ∀ q ∈ (receive_world_entries t w0).2.created,
      q ∈ w0.created ∨ SafeCreated t q) := by
  have hrl := recv_line_ok line (path ++ rest) w hl hlen hinp
  obtain ⟨e, w1, h1, h2, h3⟩ := receive_entry_reject target line path rest
    { w with inp := path ++ rest } type size hline rfl (seg_within _ _ hseg)
  have hrun : receive_world_entries target w = (.error e, w1) := by
    unfold receive_world_entries
    simp only [receive_loop, hrl, h1]
  rw [hrun]
  exact ⟨⟨e, rfl⟩, h2, h3, fun t w0 => receive_world_entries_cw t w0⟩

theorem path_traversal_defence_witness :
    (∃ e, (receive_world_entries (lit "stage")
        ⟨.dir [(lit "stage", .dir [])], lit "ENTRY 1 11 3\n../../x.txtabcEND\n",
          [], [], [], [], 0, []⟩).1 = .error e) ∧
    (receive_world_entries (lit "stage")
        ⟨.dir [(lit "stage", .dir [])], lit "ENTRY 1 11 3\n../../x.txtabcEND\n",
          [], [], [], [], 0, []⟩).2.fs = .dir [(lit "stage", .dir [])] ∧
    (receive_world_entries (lit "stage")
        ⟨.dir [(lit "stage", .dir [])], lit "ENTRY 1 11 3\n../../x.txtabcEND\n",
          [], [], [], [], 0, []⟩).2.created = [] ∧
    (∀ (t : List Byte) (w0 : World), ∀ q ∈ (receive_world_entries t w0).2.created,
      q ∈ w0.created ∨ SafeCreated t q) :=
  path_traversal_defence (lit "stage") (lit "ENTRY 1 11 3") (lit "../../x.txt") (lit "abcEND\n")
    ⟨.dir [(lit "stage", .dir [])], lit "ENTRY 1 11 3\n../../x.txtabcEND\n", [], [], [], [], 0, []⟩
    1 3 (by decide) (by decide) (by decide) (by decide) (by decide)

/-- C3 (counterexample): the five path bytes `a`, NUL, `/`, `.`, `.` have a
`..` segment, yet `receive_world_entries` succeeds and creates `t/a`; and
with a target `dst/sub` that does not exist, the file entry `f` makes it
create `dst` and `dst/sub`, which are not of the form `target_dir/p`. -/
theorem path_traversal_defence_counterexample :
    hasDotDotSegment [97, 0, 47, 46, 46] ∧
    (receive_world_entries (lit "t")
        ⟨.dir [(lit "t", .dir [])], lit "ENTRY 2 5 0\n" ++ [97, 0, 47, 46, 46] ++ lit "END\n",
          [], [], [], [], 0, []⟩).1 = .ok () ∧
    (receive_world_entries (lit "t")
        ⟨.dir [(lit "t", .dir [])], lit "ENTRY 2 5 0\n" ++ [97, 0, 47, 46, 46] ++ lit "END\n",
          [], [], [], [], 0, []⟩).2.fs = .dir [(lit "t", .dir [(lit "a", .dir [])])] ∧
    (receive_world_entries (lit "dst/sub")
        ⟨.dir [], lit "ENTRY 1 1 2\nfhiEND\n", [], [], [], [], 0, []⟩).2.created =
      [lit "dst", lit "dst/sub", lit "dst/sub/f"] := by
  refine ⟨by decide, by rfl, by decide!, by decide!⟩

/-! ### Well-formed trees and locations inside a directory -/

theorem Node.get_prefix_some : ∀ (p q : List (List Byte)) (fs : Node),
    p <+: q → (fs.get q).isSome = true → (fs.get p).isSome = true := by
  intro p q fs hpq hq
  obtain ⟨r, rfl⟩ := hpq
  rw [Node.get_append] at hq
  cases hg : fs.get p with
  | none => simp [hg] at hq
  | some t => rfl

theorem Node.put_prefix_some : ∀ (p q : List (List Byte)) (fs v fs1 : Node),
    fs.put p v = some fs1 → q <+: p → (fs1.get q).isSome = true := by
  intro p q fs v fs1 h hqp
  exact Node.get_prefix_some q p fs1 hqp (by rw [Node.get_put_self p fs v fs1 h]; rfl)

theorem Node.get_del_indep : ∀ (p q : List (List Byte)) (fs fs1 : Node),
    fs.del p = some fs1 → Indep p q → fs1.get q = fs.get q
  | [], q, fs, fs1, _, hi => absurd (List.nil_prefix) hi.1
  | _ :: _, [], fs, fs1, _, hi => absurd (List.nil_prefix) hi.2
  | c :: cs, d :: ds, .file _, fs1, h, _ => by simp [Node.del] at h
  | c :: cs, d :: ds, .dir kids, fs1, h, hi => by
    simp only [Node.del] at h
    cases hk : kidsGet c kids with
    | none => simp [hk] at h
    | some k =>
      rw [hk] at h
      dsimp only at h
      by_cases hcd : c = d
      · subst hcd
        have hi2 : Indep cs ds := hi.cons
        by_cases hcs : cs = []
        · subst hcs
          exact absurd (List.nil_prefix) hi2.1
        · rw [if_neg hcs] at h
          cases hp : k.del cs with
          | none => simp [hp] at h
          | some k1 =>
            simp only [hp, Option.some.injEq] at h
            subst h
            simp only [Node.get, kidsGet_kidsSet_self, hk]
            exact Node.get_del_indep cs ds k k1 hp hi2
      · by_cases hcs : cs = []
        · simp only [hcs, if_true, Option.some.injEq] at h
          subst h
          simp only [Node.get, kidsGet_kidsDel_ne c d hcd]
        · rw [if_neg hcs] at h
          cases hp : k.del cs with
          | none => simp [hp] at h
          | some k1 =>
            simp only [hp, Option.some.injEq] at h
            subst h
            simp only [Node.get, kidsGet_kidsSet_ne c d k1 hcd]

theorem kidsWf_cons (n : List Byte) (k : Node) (ks : List (List Byte × Node)) :
    kidsWf ((n, k) :: ks) = true ↔
      validName n = true ∧ kidsGet n ks = none ∧ k.wf = true ∧ kidsWf ks = true := by
  simp [kidsWf, and_assoc]

theorem Node.wf_dir (kids : List (List Byte × Node)) : (Node.dir kids).wf = kidsWf kids := by
  simp [Node.wf]

theorem kidsWf_get : ∀ (kids : List (List Byte × Node)) (c : List Byte) (k : Node),
    kidsWf kids = true → kidsGet c kids = some k → k.wf = true ∧ validName c = true
  | [], c, k, _, h => by simp [kidsGet] at h
  | (n, x) :: rest, c, k, hw, h => by
    obtain ⟨h1, _, h3, h4⟩ := (kidsWf_cons n x rest).1 hw
    by_cases hn : n = c
    · simp only [kidsGet, hn, if_true, Option.some.injEq] at h
      subst h hn
      exact ⟨h3, h1⟩
    · simp only [kidsGet, hn, if_false] at h
      exact kidsWf_get rest c k h4 h

theorem kidsWf_names : ∀ (kids : List (List Byte × Node)), kidsWf kids = true →
    (∀ e ∈ kids, validName e.1 = true) ∧ (kids.map Prod.fst).Nodup
  | [], _ => by simp
  | (n, x) :: rest, hw => by
    obtain ⟨h1, h2, _, h4⟩ := (kidsWf_cons n x rest).1 hw
    obtain ⟨ih1, ih2⟩ := kidsWf_names rest h4
    refine ⟨?_, ?_⟩
    · intro e he
      rcases List.mem_cons.1 he with he | he
      · subst he; exact h1
      · exact ih1 e he
    · simp only [List.map_cons, List.nodup_cons]
      refine ⟨?_, ih2⟩
      intro hmem
      obtain ⟨e, he, hen⟩ := List.mem_map.1 hmem
      have : kidsGet n rest ≠ none := by
        clear ih1 ih2 h4 hw
        induction rest with
        | nil => simp at he
        | cons y ys ih =>
          obtain ⟨m, z⟩ := y
          by_cases hm : m = n
          · simp [kidsGet, hm]
          · simp only [kidsGet, hm, if_false] at h2 ⊢
            rcases List.mem_cons.1 he with he | he
            · subst he; exact absurd hen hm
            · exact ih h2 (List.mem_map.2 ⟨e, he, hen⟩) he
      exact this h2

theorem Node.wf_get : ∀ (p : List (List Byte)) (fs t : Node),
    fs.wf = true → fs.get p = some t → t.wf = true
  | [], fs, t, hw, h => by
    rw [Node.get_nil] at h
    cases h
    exact hw
  | c :: cs, .file _, t, _, h => by simp [Node.get] at h
  | c :: cs, .dir kids, t, hw, h => by
    simp only [Node.get] at h
    cases hk : kidsGet c kids with
    | none => simp [hk] at h
    | some k =>
      rw [hk] at h
      exact Node.wf_get cs k t (kidsWf_get kids c k (by rwa [Node.wf_dir] at hw) hk).1 h

theorem kidsWf_set : ∀ (kids : List (List Byte × Node)) (c : List Byte) (v : Node),
    kidsWf kids = true → validName c = true → v.wf = true → kidsWf (kidsSet c v kids) = true
  | [], c, v, _, hc, hv => by simp [kidsSet, kidsWf, hc, hv, kidsGet]
  | (n, x) :: rest, c, v, hw, hc, hv => by
    obtain ⟨h1, h2, h3, h4⟩ := (kidsWf_cons n x rest).1 hw
    by_cases hn : n = c
    · simp only [kidsSet, hn, if_true]
      subst hn
      exact (kidsWf_cons _ _ _).2 ⟨h1, h2, hv, h4⟩
    · simp only [kidsSet, hn, if_false]
      refine (kidsWf_cons _ _ _).2 ⟨h1, ?_, h3, kidsWf_set rest c v h4 hc hv⟩
      rw [kidsGet_kidsSet_ne c n v (fun e => hn e.symm)]
      exact h2

theorem kidsWf_del : ∀ (kids : List (List Byte × Node)) (c : List Byte),
    kidsWf kids = true → kidsWf (kidsDel c kids) = true
  | [], c, _ => by simp [kidsDel, kidsWf]
  | (n, x) :: rest, c, hw => by
    obtain ⟨h1, h2, h3, h4⟩ := (kidsWf_cons n x rest).1 hw
    by_cases hn : n = c
    · simp only [kidsDel, hn, if_true]
      exact h4
    · simp only [kidsDel, hn, if_false]
      refine (kidsWf_cons _ _ _).2 ⟨h1, ?_, h3, kidsWf_del rest c h4⟩
      rw [kidsGet_kidsDel_ne c n (fun e => hn e.symm)]
      exact h2

theorem Node.wf_put : ∀ (p : List (List Byte)) (fs v fs1 : Node),
    fs.wf = true → v.wf = true → (∀ c ∈ p, validName c = true) → fs.put p v = some fs1 →
    fs1.wf = true
  | [], fs, v, fs1, _, hv, _, h => by
    rw [Node.put_nil] at h
    cases h
    exact hv
  | c :: cs, .file _, v, fs1, _, _, _, h => by simp [Node.put] at h
  | c :: cs, .dir kids, v, fs1, hw, hv, hp, h => by
    simp only [Node.put] at h
    rw [Node.wf_dir] at hw
    have hc : validName c = true := hp c (by simp)
    cases hk : kidsGet c kids with
    | none =>
      rw [hk] at h
      by_cases hcs : cs = []
      · simp only [hcs, if_true, Option.some.injEq] at h
        subst h
        rw [Node.wf_dir]
        exact kidsWf_set kids c v hw hc hv
      · simp [hcs] at h
    | some k =>
      rw [hk] at h
      cases hq : k.put cs v with
      | none => simp [hq] at h
      | some k1 =>
        simp only [hq, Option.some.injEq] at h
        subst h
        rw [Node.wf_dir]
        exact kidsWf_set kids c k1 hw hc
          (Node.wf_put cs k v k1 (kidsWf_get kids c k hw hk).1 hv
            (fun x hx => hp x (by simp [hx])) hq)

theorem Node.wf_del : ∀ (p : List (List Byte)) (fs fs1 : Node),
    fs.wf = true → fs.del p = some fs1 → fs1.wf = true
  | [], fs, fs1, _, h => by cases fs <;> simp [Node.del] at h
  | c :: cs, .file _, fs1, _, h => by simp [Node.del] at h
  | c :: cs, .dir kids, fs1, hw, h => by
    simp only [Node.del] at h
    rw [Node.wf_dir] at hw
    cases hk : kidsGet c kids with
    | none => simp [hk] at h
    | some k =>
      rw [hk] at h
      dsimp only at h
      by_cases hcs : cs = []
      · simp only [hcs, if_true, Option.some.injEq] at h
        subst h
        rw [Node.wf_dir]
        exact kidsWf_del kids c hw
      · rw [if_neg hcs] at h
        cases hq : k.del cs with
        | none => simp [hq] at h
        | some k1 =>
          simp only [hq, Option.some.injEq] at h
          subst h
          rw [Node.wf_dir]
          obtain ⟨hkw, hcv⟩ := kidsWf_get kids c k hw hk
          exact kidsWf_set kids c k1 hw hcv (Node.wf_del cs k k1 hkw hq)

theorem splitSlash_no_slash_mem : ∀ (s c : List Byte), c ∈ splitSlash s → 47 ∉ c
  | [], c, h => by
    simp only [splitSlash, List.mem_singleton] at h
    subst h
    simp
  | x :: xs, c, h => by
    unfold splitSlash at h
    by_cases hx : x = 47
    · simp only [hx, if_true, List.mem_cons] at h
      rcases h with h | h
      · subst h; simp
      · exact splitSlash_no_slash_mem xs c h
    · simp only [hx, if_false] at h
      cases hs : splitSlash xs with
      | nil => exact absurd hs (splitSlash_ne_nil xs)
      | cons hd tl =>
        rw [hs] at h
        simp only [List.mem_cons] at h
        rcases h with h | h
        · subst h
          have : 47 ∉ hd := splitSlash_no_slash_mem xs hd (by rw [hs]; simp)
          intro hmem
          rcases List.mem_cons.1 hmem with e | e
          · exact hx e.symm
          · exact this e
        · exact splitSlash_no_slash_mem xs c (by rw [hs]; exact List.mem_cons_of_mem _ h)

theorem walk_valid_all : ∀ (comps cur : List (List Byte)),
    (∀ c ∈ cur, validName c = true) → (∀ c ∈ comps, 47 ∉ c ∧ 0 ∉ c) →
    ∀ c ∈ walk cur comps, validName c = true
  | [], cur, hcur, _ => by simpa [walk] using hcur
  | x :: xs, cur, hcur, hcomps => by
    have hx := hcomps x (by simp)
    have hxs : ∀ c ∈ xs, 47 ∉ c ∧ 0 ∉ c := fun c hc => hcomps c (by simp [hc])
    simp only [walk]
    split
    · exact walk_valid_all xs cur hcur hxs
    · rename_i h1
      split
      · exact walk_valid_all xs _ (fun c hc => hcur c (List.mem_of_mem_dropLast hc)) hxs
      · rename_i h2
        refine walk_valid_all xs _ ?_ hxs
        intro c hc
        rcases List.mem_append.1 hc with hc | hc
        · exact hcur c hc
        · simp only [List.mem_singleton] at hc
          subst hc
          rw [validName_iff]
          exact ⟨fun e => h1 (Or.inl e), hx.1, hx.2, fun e => h1 (Or.inr e), h2⟩

/-- Every name on a resolved path is a valid entry name. -/
theorem resolve_valid (s : List Byte) : ∀ c ∈ resolve s, validName c = true := by
  unfold resolve
  refine walk_valid_all _ [] (by simp) ?_
  intro c hc
  refine ⟨splitSlash_no_slash_mem _ c hc, ?_⟩
  intro h0
  exact cstr_no_nul s ((seg_within c _ hc).subset h0)

theorem walk_grows : ∀ (comps cur : List (List Byte)),
    [46, 46] ∉ comps → cur <+: walk cur comps
  | [], cur, _ => by simp [walk]
  | x :: xs, cur, h => by
    have hx : x ≠ [46, 46] := fun e => h (by simp [e])
    have hxs : [46, 46] ∉ xs := fun e => h (by simp [e])
    simp only [walk]
    by_cases h1 : x = [] ∨ x = [46]
    · rw [if_pos h1]
      exact walk_grows xs cur hxs
    · rw [if_neg h1, if_neg hx]
      exact (List.prefix_append cur [x]).trans (walk_grows xs _ hxs)

/-! ### Changes confined to a directory -/

theorem Indep.of_prefix {σ ρ q : List (List Byte)} (h : σ <+: ρ) (hi : Indep σ q) :
    Indep ρ q := by
  constructor
  · intro hρq
    exact hi.1 (h.trans hρq)
  · intro hqρ
    rcases List.prefix_or_prefix_of_prefix h hqρ with h1 | h1
    · exact hi.1 h1
    · exact hi.2 h1

theorem Kept.refl (σ : List (List Byte)) (fs : Node) (h : fs.wf = true) : Kept σ fs fs :=
  ⟨h, fun _ _ => rfl⟩

theorem Kept.put {σ : List (List Byte)} {fs0 fs fs1 : Node} (hk : Kept σ fs0 fs)
    (hp : PutUnder σ fs fs1) : Kept σ fs0 fs1 := by
  rcases hp with rfl | ⟨ρ, v, hσ, hval, hv, hput⟩
  · exact hk
  · refine ⟨Node.wf_put ρ fs v fs1 hk.1 hv hval hput, ?_⟩
    intro q hq
    rw [Node.get_put_indep ρ q fs v fs1 hput (hq.of_prefix hσ)]
    exact hk.2 q hq

theorem Kept.del {σ : List (List Byte)} {fs0 fs fs1 : Node} (hk : Kept σ fs0 fs)
    (hp : DelUnder σ fs fs1) : Kept σ fs0 fs1 := by
  rcases hp with rfl | ⟨ρ, hσ, hdel⟩
  · exact hk
  · refine ⟨Node.wf_del ρ fs fs1 hk.1 hdel, ?_⟩
    intro q hq
    rw [Node.get_del_indep ρ q fs fs1 hdel (hq.of_prefix hσ)]
    exact hk.2 q hq

theorem PutUnder.some {σ : List (List Byte)} {fs fs1 : Node} (hp : PutUnder σ fs fs1)
    (h : (fs.get σ).isSome = true) : (fs1.get σ).isSome = true := by
  rcases hp with rfl | ⟨ρ, v, hσ, _, _, hput⟩
  · exact h
  · exact Node.put_prefix_some ρ σ fs v fs1 hput hσ

theorem Node.wf_empty : (Node.dir []).wf = true := by simp [Node.wf, kidsWf]

theorem Node.wf_file (data : List Byte) : (Node.file data).wf = true := by simp [Node.wf]

theorem sys_mkdir_fs (path : List Byte) (w : World) :
    (sys_mkdir path w).2.fs = w.fs ∨
    (w.fs.get (resolve path) = none ∧
      w.fs.put (resolve path) (.dir []) = some (sys_mkdir path w).2.fs) := by
  rcases sys_mkdir_cases path w with ⟨fs1, h1, h2, h3⟩ | ⟨e, h1, _⟩
  · rw [h3]; exact Or.inr ⟨h1, h2⟩
  · rw [h1]; exact Or.inl rfl

theorem sys_mkdir_under (σ : List (List Byte)) (path : List Byte) (w : World)
    (h : (resolve path <+: σ ∧ (w.fs.get σ).isSome = true) ∨ σ <+: resolve path) :
    PutUnder σ w.fs (sys_mkdir path w).2.fs := by
  rcases sys_mkdir_fs path w with h1 | ⟨h1, h2⟩
  · exact Or.inl h1
  · rcases h with ⟨hp, hs⟩ | hp
    · have := Node.get_prefix_some _ _ w.fs hp hs
      rw [h1] at this
      cases this
    · exact Or.inr ⟨_, _, hp, resolve_valid path, Node.wf_empty, h2⟩

theorem ensure_directory_fs (path : List Byte) (w : World) :
    (ensure_directory path w).2.fs = (sys_mkdir path w).2.fs := by
  unfold ensure_directory
  rcases hres : sys_mkdir path w with ⟨r, w1⟩
  cases r with
  | ok u => rfl
  | error e =>
    dsimp only
    split
    · have hs := sys_stat_world path w1
      rcases hst : sys_stat path w1 with ⟨r2, w2⟩
      rw [hst] at hs
      dsimp only at hs
      cases r2 with
      | error e2 => dsimp only; rw [hs]
      | ok st => dsimp only; split <;> (dsimp only; rw [hs])
    · rfl

theorem sys_open_trunc_under (σ : List (List Byte)) (path : List Byte) (w : World)
    (h : σ <+: resolve path) :
    PutUnder σ w.fs (sys_open_trunc path w).2.fs ∧
    ∀ fd w1, sys_open_trunc path w = (.ok fd, w1) → fd = resolve path := by
  unfold sys_open_trunc
  rw [fault_eq]
  cases w.faults.head?.getD false with
  | true => exact ⟨Or.inl rfl, fun fd w1 e => by simp at e⟩
  | false =>
    dsimp only
    split
    · exact ⟨Or.inl rfl, fun fd w1 e => by simp at e⟩
    · split
      · exact ⟨Or.inl rfl, fun fd w1 e => by simp at e⟩
      · split
        · split
          · rename_i fs1 hput
            refine ⟨Or.inr ⟨_, _, h, resolve_valid path, Node.wf_file [], hput⟩, ?_⟩
            intro fd w1 e
            simp only [Prod.mk.injEq, Except.ok.injEq] at e
            exact e.1.symm
          · exact ⟨Or.inl rfl, fun fd w1 e => by simp at e⟩
        · exact ⟨Or.inl rfl, fun fd w1 e => by simp at e⟩
        · exact ⟨Or.inl rfl, fun fd w1 e => by simp at e⟩

theorem sys_write_under (σ : List (List Byte)) (fd : List (List Byte)) (data : List Byte)
    (w : World) (h : σ <+: fd) (hv : ∀ c ∈ fd, validName c = true) :
    PutUnder σ w.fs (sys_write fd data w).2.fs := by
  unfold sys_write
  rw [fault_eq]
  cases w.faults.head?.getD false with
  | true => exact Or.inl rfl
  | false =>
    dsimp only
    split
    · split
      · rename_i fs1 hput
        exact Or.inr ⟨_, _, h, hv, Node.wf_file _, hput⟩
      · exact Or.inl rfl
    · exact Or.inl rfl

theorem Staged.step {σ : List (List Byte)} {fs0 fs fs1 : Node} (hk : Staged σ fs0 fs)
    (hp : PutUnder σ fs fs1) : Staged σ fs0 fs1 :=
  ⟨hk.1.put hp, hp.some hk.2⟩

theorem Staged.same_fs {σ : List (List Byte)} {fs0 fs fs1 : Node} (hk : Staged σ fs0 fs)
    (h : fs1 = fs) : Staged σ fs0 fs1 := h ▸ hk

theorem no_seg_of_not_within (p : List Byte) (h : ¬ [46, 46] <:+: p) : [46, 46] ∉ splitSlash p :=
  fun hm => h (seg_within _ _ hm)

theorem resolve_join (a b : List Byte) :
    resolve (cstr a ++ 47 :: cstr b) = walk (resolve a) (splitSlash (cstr b)) := by
  unfold resolve
  rw [cstr_join, splitSlash_append, walk_append]

/-- The joined path of an entry without `..` lies inside the target. -/
theorem resolve_join_under (a b : List Byte) (h : ¬ [46, 46] <:+: cstr b) :
    resolve a <+: resolve (cstr a ++ 47 :: cstr b) := by
  rw [resolve_join]
  exact walk_grows _ _ (no_seg_of_not_within _ h)

theorem take_slash_split (t : List Byte) (i : Nat) (h : t.get? i = some 47) :
    t = t.take i ++ 47 :: t.drop (i + 1) := by
  have hlt : i < t.length := by
    rcases Nat.lt_or_ge i t.length with h1 | h1
    · exact h1
    · rw [List.get?_eq_none.2 h1] at h; cases h
  have hd : t.drop i = 47 :: t.drop (i + 1) := by
    rw [List.drop_eq_getElem_cons hlt]
    congr 1
    rw [List.get?_eq_getElem?, List.getElem?_eq_getElem hlt] at h
    exact Option.some.inj h
  conv_lhs => rw [← List.take_append_drop i t, hd]

theorem resolve_take_prefix (t : List Byte) (i : Nat) (h0 : 0 ∉ t) (h : t.get? i = some 47)
    (hnd : [46, 46] ∉ splitSlash (t.drop (i + 1))) :
    resolve (t.take i) <+: resolve t := by
  have hsplit := take_slash_split t i h
  have hc1 : cstr (t.take i) = t.take i :=
    cstr_of_no_nul _ (fun e => h0 (List.mem_of_mem_take e))
  have hc2 : cstr t = t := cstr_of_no_nul _ h0
  unfold resolve
  rw [hc1, hc2]
  conv_rhs => rw [hsplit, splitSlash_append, walk_append]
  exact walk_grows _ _ hnd

theorem splitSlash_drop_subset (t : List Byte) (i : Nat) (h : t.get? i = some 47) :
    ∀ c ∈ splitSlash (t.drop (i + 1)), c ∈ splitSlash t := by
  intro c hc
  rw [take_slash_split t i h, splitSlash_append]
  exact List.mem_append_right _ hc

/-- Every leading part of a joined path that ends before a slash denotes
an ancestor of the target, the target itself or a location inside it. -/
theorem joined_prefix_cases (tmp pb : List Byte) (i : Nat) (hnd : noDotDot tmp)
    (hni : ¬ [46, 46] <:+: cstr pb)
    (h : (cstr tmp ++ 47 :: cstr pb).get? i = some 47) :
    resolve ((cstr tmp ++ 47 :: cstr pb).take i) <+: resolve tmp ∨
    resolve tmp <+: resolve ((cstr tmp ++ 47 :: cstr pb).take i) := by
  have h0 : 0 ∉ cstr tmp ++ 47 :: cstr pb := by
    rw [← cstr_join]; exact cstr_no_nul _
  have hall : [46, 46] ∉ splitSlash (cstr tmp ++ 47 :: cstr pb) := by
    rw [splitSlash_append]
    intro hm
    rcases List.mem_append.1 hm with hm | hm
    · exact hnd hm
    · exact no_seg_of_not_within _ hni hm
  have hpre := resolve_take_prefix _ i h0 h
    (fun hm => hall (splitSlash_drop_subset _ i h _ hm))
  have hfull : resolve tmp <+: resolve (cstr tmp ++ 47 :: cstr pb) :=
    resolve_join_under tmp pb hni
  rcases List.prefix_or_prefix_of_prefix hpre hfull with h1 | h1
  · exact Or.inl h1
  · exact Or.inr h1

theorem ensure_parent_dirs_loop_staged (σ : List (List Byte)) (fs0 : Node) (buffer : List Byte)
    (hb : ∀ j, buffer.get? j = some 47 →
      resolve (buffer.take j) <+: σ ∨ σ <+: resolve (buffer.take j)) :
    ∀ (n i : Nat) (w : World), Staged σ fs0 w.fs →
      Staged σ fs0 (ensure_parent_dirs_loop buffer n i w).2.fs := by
  intro n
  induction n with
  | zero => intro i w h; exact h
  | succ n ih =>
    intro i w h
    simp only [ensure_parent_dirs_loop]
    by_cases hslash : buffer.get? i = some 47
    · rw [if_pos hslash]
      have hm : PutUnder σ w.fs (sys_mkdir (buffer.take i) w).2.fs := by
        apply sys_mkdir_under
        rcases hb i hslash with h1 | h1
        · exact Or.inl ⟨h1, h.2⟩
        · exact Or.inr h1
      have hs := h.step hm
      rcases hres : sys_mkdir (buffer.take i) w with ⟨r, w1⟩
      rw [hres] at hs
      cases r with
      | ok u => exact ih (i + 1) w1 hs
      | error e =>
        dsimp only
        split
        · exact hs
        · exact ih (i + 1) w1 hs
    · rw [if_neg hslash]
      exact ih (i + 1) w h

theorem recv_all_fs (n : Nat) (w : World) : (recv_all n w).2.fs = w.fs := by
  obtain ⟨i, h⟩ := recv_all_world n w
  rw [h]

theorem recv_line_fs (n : Nat) (w : World) : (recv_line n w).2.fs = w.fs := by
  obtain ⟨i, h⟩ := recv_line_world n w
  rw [h]

theorem sys_malloc_fs (n : Nat) (w : World) : (sys_malloc n w).2.fs = w.fs := by
  obtain ⟨i, h⟩ := sys_malloc_world n w
  rw [h]

theorem recv_file_loop_staged (σ : List (List Byte)) (fs0 : Node) (fd : List (List Byte))
    (hfd : σ <+: fd) (hv : ∀ c ∈ fd, validName c = true) :
    ∀ (fuel remaining : Nat) (w : World), Staged σ fs0 w.fs →
      Staged σ fs0 (recv_file_loop fuel fd remaining w).2.fs := by
  intro fuel
  induction fuel with
  | zero => intro remaining w h; exact h
  | succ f ih =>
    intro remaining w h
    simp only [recv_file_loop]
    split
    · have h1 := recv_all_fs (if remaining < FILE_CHUNK_SIZE then remaining else FILE_CHUNK_SIZE) w
      rcases hr : recv_all (if remaining < FILE_CHUNK_SIZE then remaining else FILE_CHUNK_SIZE) w
        with ⟨r, w1⟩
      rw [hr] at h1
      dsimp only at h1
      have hs1 : Staged σ fs0 w1.fs := h.same_fs h1
      cases r with
      | error e => exact hs1
      | ok buffer =>
        dsimp only
        have hw := hs1.step (sys_write_under σ fd buffer w1 hfd hv)
        rcases hwr : sys_write fd buffer w1 with ⟨r2, w2⟩
        rw [hwr] at hw
        cases r2 with
        | error e => exact hw
        | ok u => exact ih _ w2 hw
    · exact h

theorem receive_entry_staged (σ : List (List Byte)) (fs0 : Node) (target line : List Byte)
    (w : World) (hσ : resolve target = σ) (hnd : noDotDot target) (h : Staged σ fs0 w.fs) :
    Staged σ fs0 (receive_entry target line w).2.fs := by
  unfold receive_entry
  split
  · exact h
  · split
    · exact h
    · rename_i type path_len size _
      split
      · exact h
      · have h1 := sys_malloc_fs (path_len + 1) w
        rcases hm : sys_malloc (path_len + 1) w with ⟨r1, w1⟩
        rw [hm] at h1
        dsimp only at h1
        have s1 : Staged σ fs0 w1.fs := h.same_fs h1
        cases r1 with
        | error e => exact s1
        | ok u =>
          dsimp only
          have h2 := recv_all_fs path_len w1
          rcases hr : recv_all path_len w1 with ⟨r2, w2⟩
          rw [hr] at h2
          dsimp only at h2
          have s2 : Staged σ fs0 w2.fs := s1.same_fs h2
          cases r2 with
          | error e => exact s2
          | ok path_buffer =>
            dsimp only
            split
            · exact s2
            · rename_i hstr
              have hni : ¬ [46, 46] <:+: cstr path_buffer :=
                fun e => hstr ((strstr_dotdot_iff path_buffer).2 e)
              have hunder : σ <+: resolve (cstr target ++ 47 :: cstr path_buffer) := by
                rw [← hσ]; exact resolve_join_under target path_buffer hni
              have hj : join_paths target path_buffer PATH_MAX = .error .ENAMETOOLONG ∨
                  join_paths target path_buffer PATH_MAX =
                    .ok (cstr target ++ 47 :: cstr path_buffer) := by
                unfold join_paths
                split
                · exact Or.inl rfl
                · exact Or.inr rfl
              rcases hj with hj | hj
              · rw [hj]
                exact s2
              · rw [hj]
                dsimp only
                split
                · have hd := s2.step (sys_mkdir_under σ _ w2 (Or.inr hunder))
                  rw [← ensure_directory_fs] at hd
                  rcases he : ensure_directory (cstr target ++ 47 :: cstr path_buffer) w2
                    with ⟨r3, w3⟩
                  rw [he] at hd
                  cases r3 <;> exact hd
                · split
                  · have hp : Staged σ fs0
                        (ensure_parent_dirs (cstr target ++ 47 :: cstr path_buffer) w2).2.fs := by
                      unfold ensure_parent_dirs
                      split
                      · exact s2
                      · apply ensure_parent_dirs_loop_staged σ fs0 _ _ _ _ _ s2
                        intro j hj2
                        rw [cstr_join] at hj2 ⊢
                        rw [← hσ]
                        exact joined_prefix_cases target path_buffer j hnd hni hj2
                    rcases he : ensure_parent_dirs (cstr target ++ 47 :: cstr path_buffer) w2
                      with ⟨r3, w3⟩
                    rw [he] at hp
                    cases r3 with
                    | error e => exact hp
                    | ok u3 =>
                      dsimp only
                      obtain ⟨ho1, ho2⟩ := sys_open_trunc_under σ
                        (cstr target ++ 47 :: cstr path_buffer) w3 hunder
                      have hs4 := hp.step ho1
                      rcases hopen : sys_open_trunc (cstr target ++ 47 :: cstr path_buffer) w3
                        with ⟨r4, w4⟩
                      rw [hopen] at hs4 ho2
                      cases r4 with
                      | error e => exact hs4
                      | ok fd =>
                        dsimp only
                        have hfd := ho2 fd w4 rfl
                        have hf := recv_file_loop_staged σ fs0 fd (hfd ▸ hunder)
                          (hfd ▸ resolve_valid _) (w4.inp.length + 1) size w4 hs4
                        rcases hloop : recv_file_loop (w4.inp.length + 1) fd size w4
                          with ⟨r5, w5⟩
                        rw [hloop] at hf
                        cases r5 <;> exact hf
                  · exact s2

theorem receive_loop_staged (σ : List (List Byte)) (fs0 : Node) (target : List Byte)
    (hσ : resolve target = σ) (hnd : noDotDot target) :
    ∀ (fuel : Nat) (w : World), Staged σ fs0 w.fs →
      Staged σ fs0 (receive_loop fuel target w).2.fs := by
  intro fuel
  induction fuel with
  | zero => intro w h; exact h
  | succ f ih =>
    intro w h
    simp only [receive_loop]
    have h1 := recv_line_fs MCSYNC_MAX_LINE w
    rcases hl : recv_line MCSYNC_MAX_LINE w with ⟨r, w1⟩
    rw [hl] at h1
    dsimp only at h1
    have s1 : Staged σ fs0 w1.fs := h.same_fs h1
    cases r with
    | error e => exact s1
    | ok line =>
      dsimp only
      have he := receive_entry_staged σ fs0 target line w1 hσ hnd s1
      rcases hre : receive_entry target line w1 with ⟨r2, w2⟩
      rw [hre] at he
      cases r2 with
      | some res => exact he
      | none => exact ih w2 he

theorem sys_opendir_entries (path : List Byte) (w w1 : World) (entries : List (List Byte))
    (h : sys_opendir path w = (.ok entries, w1)) :
    w1 = { w with faults := w.faults.tail } ∧
    ∃ kids, w.fs.get (resolve path) = some (.dir kids) ∧
      entries = [46] :: [46, 46] :: kids.map Prod.fst := by
  unfold sys_opendir at h
  rw [fault_eq] at h
  cases hb : w.faults.head?.getD false with
  | true => simp [hb] at h
  | false =>
    simp only [hb] at h
    split at h
    · simp at h
    · cases hg : w.fs.get (resolve path) with
      | none => simp [hg] at h
      | some t =>
        cases t with
        | file data => simp [hg] at h
        | dir kids =>
          simp only [hg, Prod.mk.injEq, Except.ok.injEq] at h
          exact ⟨h.2.symm, kids, rfl, h.1.symm⟩

theorem sys_opendir_fs (path : List Byte) (w : World) : (sys_opendir path w).2.fs = w.fs := by
  unfold sys_opendir
  rw [fault_eq]
  cases w.faults.head?.getD false with
  | true => rfl
  | false =>
    dsimp only
    split
    · rfl
    · split <;> rfl

theorem sys_rmdir_under (σ : List (List Byte)) (path : List Byte) (w : World)
    (h : σ <+: resolve path) : DelUnder σ w.fs (sys_rmdir path w).2.fs := by
  unfold sys_rmdir
  rw [fault_eq]
  cases w.faults.head?.getD false with
  | true => exact Or.inl rfl
  | false =>
    dsimp only
    split
    · exact Or.inl rfl
    · split
      · exact Or.inl rfl
      · split
        · split
          · rename_i fs1 hdel
            exact Or.inr ⟨_, h, hdel⟩
          · exact Or.inl rfl
        · exact Or.inl rfl
        · exact Or.inl rfl
        · exact Or.inl rfl

theorem sys_unlink_under (σ : List (List Byte)) (path : List Byte) (w : World)
    (h : σ <+: resolve path) : DelUnder σ w.fs (sys_unlink path w).2.fs := by
  unfold sys_unlink
  rw [fault_eq]
  cases w.faults.head?.getD false with
  | true => exact Or.inl rfl
  | false =>
    dsimp only
    split
    · exact Or.inl rfl
    · split
      · split
        · rename_i fs1 hdel
          exact Or.inr ⟨_, h, hdel⟩
        · exact Or.inl rfl
      · exact Or.inl rfl
      · exact Or.inl rfl

theorem remove_children_kept (σ : List (List Byte)) (fs0 : Node)
    (self : List Byte → World → Res Unit) (path : List Byte) (hσ : σ <+: resolve path)
    (hself : ∀ child w, σ <+: resolve child → Kept σ fs0 w.fs → Kept σ fs0 (self child w).2.fs) :
    ∀ (entries : List (List Byte)) (w : World),
      (∀ e ∈ entries, e = [46] ∨ e = [46, 46] ∨ validName e = true) →
      Kept σ fs0 w.fs → Kept σ fs0 (remove_children self path entries w).2.fs := by
  intro entries
  induction entries with
  | nil => intro w _ h; exact h
  | cons e rest ih =>
    intro w hall h
    have hrest : ∀ x ∈ rest, x = [46] ∨ x = [46, 46] ∨ validName x = true :=
      fun x hx => hall x (by simp [hx])
    simp only [remove_children]
    split
    · exact ih w hrest h
    · rename_i hskip
      have hv : validName e = true := by
        rcases hall e (by simp) with h1 | h1 | h1
        · subst h1; exact absurd (Or.inl (by decide)) hskip
        · subst h1; exact absurd (Or.inr (by decide)) hskip
        · exact h1
      have hj : join_paths path e PATH_MAX = .error .ENAMETOOLONG ∨
          join_paths path e PATH_MAX = .ok (cstr path ++ 47 :: e) := by
        unfold join_paths
        rw [validName_cstr e hv]
        split
        · exact Or.inl rfl
        · exact Or.inr rfl
      rcases hj with hj | hj
      · rw [hj]; exact h
      · rw [hj]
        dsimp only
        have hchild : σ <+: resolve (cstr path ++ 47 :: e) := by
          rw [resolve_join_valid path e hv]
          exact hσ.trans (List.prefix_append _ _)
        have hk := hself (cstr path ++ 47 :: e) w hchild h
        rcases hres : self (cstr path ++ 47 :: e) w with ⟨r, w1⟩
        rw [hres] at hk
        cases r with
        | error err => exact hk
        | ok u => exact ih w1 hrest hk

theorem remove_rec_kept (σ : List (List Byte)) (fs0 : Node) :
    ∀ (depth : Nat) (path : List Byte) (w : World), σ <+: resolve path →
      Kept σ fs0 w.fs → Kept σ fs0 (remove_rec depth path w).2.fs := by
  intro depth
  induction depth with
  | zero => intro path w _ h; exact h
  | succ d ih =>
    intro path w hσ h
    simp only [remove_rec]
    have hs := sys_stat_world path w
    rcases hst : sys_stat path w with ⟨r, w1⟩
    rw [hst] at hs
    dsimp only at hs
    have hfs1 : w1.fs = w.fs := by rw [hs]
    have k1 : Kept σ fs0 w1.fs := hfs1 ▸ h
    cases r with
    | error e =>
      dsimp only
      split <;> exact k1
    | ok st =>
      dsimp only
      split
      · have ho := sys_opendir_fs path w1
        rcases hop : sys_opendir path w1 with ⟨r2, w2⟩
        rw [hop] at ho
        dsimp only at ho
        have k2 : Kept σ fs0 w2.fs := ho ▸ k1
        cases r2 with
        | error e => exact k2
        | ok entries =>
          dsimp only
          obtain ⟨_, kids, hg, hent⟩ := sys_opendir_entries path w1 w2 entries hop
          have hkw : kidsWf kids = true := by
            have := Node.wf_get _ _ _ k1.1 hg
            rwa [Node.wf_dir] at this
          have hall : ∀ e ∈ entries, e = [46] ∨ e = [46, 46] ∨ validName e = true := by
            intro e he
            rw [hent] at he
            rcases List.mem_cons.1 he with he | he
            · exact Or.inl he
            · rcases List.mem_cons.1 he with he | he
              · exact Or.inr (Or.inl he)
              · obtain ⟨x, hx, rfl⟩ := List.mem_map.1 he
                exact Or.inr (Or.inr ((kidsWf_names kids hkw).1 x hx))
          have hc := remove_children_kept σ fs0 (remove_rec d) path hσ
            (fun child w hch hk => ih child w hch hk) entries w2 hall k2
          rcases hrc : remove_children (remove_rec d) path entries w2 with ⟨r3, w3⟩
          rw [hrc] at hc
          cases r3 with
          | error e => exact hc
          | ok u => exact hc.del (sys_rmdir_under σ path w3 hσ)
      · exact k1.del (sys_unlink_under σ path w1 hσ)

/-- Whatever fails, `remove_recursive` changes nothing outside the tree it
is asked to remove. -/
theorem remove_recursive_kept (σ : List (List Byte)) (fs0 : Node) (path : List Byte) (w : World)
    (hσ : σ <+: resolve path) (h : Kept σ fs0 w.fs) :
    Kept σ fs0 (remove_recursive path w).2.fs :=
  remove_rec_kept σ fs0 _ path w hσ h

/-! ### The staging directory of a push -/

theorem worldName_valid (name : List Byte) (h : IsWorldName name) (hdot : name ≠ [46]) :
    validName name = true := by
  rw [validName_iff]
  refine ⟨h.1, ?_, worldName_no_nul name h, hdot, ?_⟩
  · intro h47
    have := h.2.1 47 h47
    simp [IsAsciiAlnum] at this
  · intro e
    exact h.2.2 (e ▸ List.infix_refl _)

theorem isalnum_ne (c : Byte) (h : isalnum c = true) : c ≠ 47 ∧ c ≠ 0 := by
  simp only [isalnum, Bool.or_eq_true, Bool.and_eq_true, decide_eq_true_eq] at h
  constructor
  · intro e; subst e; simp at h
  · intro e; subst e; simp at h

/-- The name of the staging directory. -/
theorem stage_valid (name suffix : List Byte) (h : IsWorldName name)
    (hs : suffix.all isalnum = true) :
    validName (46 :: (name ++ lit ".tmp" ++ suffix)) = true := by
  have h47 : 47 ∉ name := by
    intro e
    have := h.2.1 47 e
    simp [IsAsciiAlnum] at this
  have h0 := worldName_no_nul name h
  have hsuf : ∀ c ∈ suffix, c ≠ 47 ∧ c ≠ 0 :=
    fun c hc => isalnum_ne c (List.all_eq_true.1 hs c hc)
  have htmp : lit ".tmp" = [46, 116, 109, 112] := by decide
  have hne : name ≠ [] := h.1
  rw [validName_iff, htmp]
  refine ⟨by simp, ?_, ?_, ?_, ?_⟩
  · simp only [List.mem_cons, List.mem_append, not_or]
    refine ⟨by decide, ⟨h47, ?_⟩, ?_⟩
    · simp
    · exact fun e => (hsuf 47 e).1 rfl
  · simp only [List.mem_cons, List.mem_append, not_or]
    refine ⟨by decide, ⟨h0, ?_⟩, ?_⟩
    · simp
    · exact fun e => (hsuf 0 e).2 rfl
  · intro e
    simp only [List.cons.injEq, true_and, List.append_eq_nil, List.cons_ne_nil, and_false,
      false_and] at e
  · intro e
    simp only [List.cons.injEq, true_and] at e
    have hl := congrArg List.length e
    simp only [List.length_append, List.length_cons, List.length_nil, List.length_singleton] at hl
    omega

theorem stage_ne_name (name suffix : List Byte) :
    46 :: (name ++ lit ".tmp" ++ suffix) ≠ name := by
  intro e
  have hl := congrArg List.length e
  simp only [List.length_append, List.length_cons] at hl
  omega

theorem Indep.siblings (π : List (List Byte)) (a b : List Byte) (h : a ≠ b) :
    Indep (π ++ [a]) (π ++ [b]) := by
  constructor
  · intro hp
    have := (List.prefix_append_right_inj π).1 hp
    rw [List.prefix_cons_iff] at this
    simp at this
    exact h this
  · intro hp
    have := (List.prefix_append_right_inj π).1 hp
    rw [List.prefix_cons_iff] at this
    simp at this
    exact h this.symm

theorem tmp_template_take (storage name : List Byte) (hn : 0 ∉ name) :
    cstr (tmp_template storage name) = tmp_template storage name ∧
    (tmp_template storage name).take ((tmp_template storage name).length - 6) =
      cstr storage ++ 47 :: (46 :: (name ++ lit ".tmp")) ∧
    (tmp_template storage name).length ≥ 6 ∧
    (tmp_template storage name).drop ((tmp_template storage name).length - 6) = lit "XXXXXX" := by
  have hc : cstr name = name := cstr_of_no_nul name hn
  have e1 : lit "/." = [47, 46] := by decide
  have e2 : lit ".tmpXXXXXX" = lit ".tmp" ++ lit "XXXXXX" := by decide
  have e3 : (lit "XXXXXX").length = 6 := by decide
  have hform : tmp_template storage name =
      (cstr storage ++ 47 :: (46 :: (name ++ lit ".tmp"))) ++ lit "XXXXXX" := by
    simp [tmp_template, hc, e1, e2]
  have hlen : (tmp_template storage name).length - 6 =
      (cstr storage ++ 47 :: (46 :: (name ++ lit ".tmp"))).length := by
    rw [hform, List.length_append, e3]; omega
  refine ⟨?_, ?_, ?_, ?_⟩
  · apply cstr_of_no_nul
    rw [hform]
    have h4 : (0 : Byte) ∉ lit ".tmp" := by decide
    have h6 : (0 : Byte) ∉ lit "XXXXXX" := by decide
    simp only [List.mem_append, List.mem_cons, not_or]
    exact ⟨⟨cstr_no_nul storage, by decide, by decide, hn, h4⟩, h6⟩
  · rw [hlen, hform, List.take_left]
  · rw [hform, List.length_append, e3]; omega
  · rw [hlen, hform, List.drop_left]

/-- The path string of the staging directory for a suffix. -/
theorem sys_mkdtemp_cases (storage name : List Byte) (w : World) (hn : 0 ∉ name) :
    (∃ e w1, sys_mkdtemp (tmp_template storage name) w = (.error e, w1) ∧ w1.fs = w.fs) ∨
    (∃ w1, sys_mkdtemp (tmp_template storage name) w =
        (.ok (cstr storage ++ 47 :: (46 :: (name ++ lit ".tmp" ++ w.tmpSuffix))), w1) ∧
      w.tmpSuffix.all isalnum = true ∧
      w.fs.get (resolve (cstr storage ++ 47 :: (46 :: (name ++ lit ".tmp" ++ w.tmpSuffix))))
        = none ∧
      w.fs.put (resolve (cstr storage ++ 47 :: (46 :: (name ++ lit ".tmp" ++ w.tmpSuffix))))
        (.dir []) = some w1.fs) := by
  obtain ⟨t1, t2, t3, t4⟩ := tmp_template_take storage name hn
  have hform : (cstr storage ++ 47 :: (46 :: (name ++ lit ".tmp"))) ++ w.tmpSuffix =
      cstr storage ++ 47 :: (46 :: (name ++ lit ".tmp" ++ w.tmpSuffix)) := by simp
  unfold sys_mkdtemp
  rw [fault_eq]
  cases w.faults.head?.getD false with
  | true => exact Or.inl ⟨_, _, rfl, rfl⟩
  | false =>
    dsimp only
    rw [t1]
    have hc1 : ¬ ((tmp_template storage name).length < 6 ∨
        (tmp_template storage name).drop ((tmp_template storage name).length - 6)
          ≠ lit "XXXXXX") := by
      rw [t4]; simp; omega
    rw [if_neg hc1]
    by_cases hc2 : w.tmpSuffix.length ≠ 6 ∨ w.tmpSuffix.all isalnum = false
    · rw [if_pos hc2]
      exact Or.inl ⟨_, _, rfl, rfl⟩
    · rw [if_neg hc2, t2, hform]
      have hal : w.tmpSuffix.all isalnum = true := by
        cases h : w.tmpSuffix.all isalnum with
        | true => rfl
        | false => exact absurd (Or.inr h) hc2
      rcases mkdir_at_cases (cstr storage ++ 47 :: (46 :: (name ++ lit ".tmp" ++ w.tmpSuffix)))
        { w with faults := w.faults.tail } with ⟨fs1, h1, h2, h3⟩ | ⟨e, h1, _⟩
      · rw [h3]
        exact Or.inr ⟨_, rfl, hal, h1, h2⟩
      · rw [h1]
        exact Or.inl ⟨_, _, rfl, rfl⟩

theorem send_fmt_fs (t : List Byte) (w : World) : (send_fmt t w).2.fs = w.fs := by
  unfold send_fmt send_all send
  split <;> rfl

theorem noDotDot_stage (storage stage : List Byte) (hnd : noDotDot storage)
    (hv : validName stage = true) : noDotDot (cstr storage ++ 47 :: stage) := by
  obtain ⟨_, h2, h3, _, h5⟩ := (validName_iff stage).1 hv
  unfold noDotDot at hnd ⊢
  have hc : cstr (cstr storage ++ 47 :: stage) = cstr storage ++ 47 :: stage := by
    have := cstr_join storage stage
    rwa [cstr_of_no_nul stage h3] at this
  rw [hc, splitSlash_append, splitSlash_no_slash stage h2]
  intro hm
  rcases List.mem_append.1 hm with hm | hm
  · exact hnd hm
  · simp only [List.mem_singleton] at hm
    exact h5 hm.symm

theorem ensure_directory_keeps (storage name : List Byte) (w : World) (hwf : w.fs.wf = true) :
    (ensure_directory storage w).2.fs.wf = true ∧
    (ensure_directory storage w).2.fs.get (resolve storage ++ [name]) =
      w.fs.get (resolve storage ++ [name]) := by
  rw [ensure_directory_fs]
  rcases sys_mkdir_fs storage w with h | ⟨h1, h2⟩
  · rw [h]; exact ⟨hwf, rfl⟩
  · refine ⟨Node.wf_put _ _ _ _ hwf Node.wf_empty (resolve_valid storage) h2, ?_⟩
    rw [Node.get_append, Node.get_append, Node.get_put_self _ _ _ _ h2, h1]
    simp [Node.get, kidsGet]

theorem send_file_loop_spec : ∀ (fuel : Nat) (data : List Byte) (w : World),
    data.length < fuel →
    send_file_loop fuel data w = (.ok (), { w with out := w.out ++ data }) := by
  intro fuel
  induction fuel with
  | zero => intro data w h; omega
  | succ f ih =>
    intro data w h
    simp only [send_file_loop]
    by_cases hd : data = []
    · subst hd
      simp
    · have hc : data.take FILE_CHUNK_SIZE ≠ [] := by
        cases data with
        | nil => exact absurd rfl hd
        | cons c cs => simp [FILE_CHUNK_SIZE]
      rw [if_neg hc]
      simp only [send_all, send]
      have hl : (data.drop FILE_CHUNK_SIZE).length < f := by
        rw [List.length_drop]
        have : 0 < data.length := List.length_pos.2 hd
        simp only [FILE_CHUNK_SIZE]
        omega
      rw [ih _ _ hl]
      simp [List.append_assoc]

theorem entry_line_length (t p s : Nat) (ht : t < 10) (hp : p < PATH_MAX) (hs : s < 2 ^ 64) :
    (entry_line t p s).length < MCSYNC_MAX_LINE := by
  have h1 := decimal_length_le 0 t (by simpa using ht)
  have h2 := decimal_length_le 3 p (lt_of_lt_of_le hp (by decide))
  have h3 := decimal_length_u64 s hs
  have e : (lit "ENTRY ").length = 6 := by decide
  simp only [entry_line, List.length_append, List.length_cons, e, List.length_nil,
    MCSYNC_MAX_LINE]
  omega

theorem occursIn_dd_append (b : List Byte) : ∀ (a : List Byte),
    occursIn [46, 46] (a ++ 47 :: b) = (occursIn [46, 46] a || occursIn [46, 46] b)
  | [] => by simp [occursIn, startsWith]
  | [x] => by
    have ih := occursIn_dd_append b []
    simp only [List.nil_append] at ih
    simp [occursIn, startsWith, ih]
  | x :: y :: a => by
    have ih := occursIn_dd_append b (y :: a)
    simp only [List.cons_append] at ih
    have s1 : ∀ rest, startsWith (x :: y :: rest) [46, 46] = (decide (x = 46) && decide (y = 46)) := by
      intro rest; simp [startsWith]
    show (startsWith (x :: y :: (a ++ 47 :: b)) [46, 46] ||
        occursIn [46, 46] (y :: (a ++ 47 :: b))) =
      ((startsWith (x :: y :: a) [46, 46] || occursIn [46, 46] (y :: a)) || occursIn [46, 46] b)
    rw [s1, s1, ih, Bool.or_assoc]

theorem no_dd_join (a b : List Byte) (ha : ¬ [46, 46] <:+: a) (hb : ¬ [46, 46] <:+: b) :
    ¬ [46, 46] <:+: a ++ 47 :: b := by
  rw [← occursIn_iff] at ha hb ⊢
  rw [occursIn_dd_append]
  simp [ha, hb]

theorem child_rel_ne_nil (rel n : List Byte) (hn : n ≠ []) : child_rel rel n ≠ [] := by
  unfold child_rel
  split
  · exact hn
  · simp

theorem fullOf_child (τ rel n : List Byte) (hn : n ≠ []) :
    fullOf τ (child_rel rel n) = fullOf τ rel ++ 47 :: n := by
  unfold fullOf
  rw [if_neg (child_rel_ne_nil rel n hn)]
  unfold child_rel
  by_cases h : rel = []
  · simp [h]
  · simp [h]

theorem RelAt.child {τ : List Byte} {σ : List (List Byte)} {rel : List Byte}
    {ρ : List (List Byte)} (h : RelAt τ σ rel ρ) (hτ : 0 ∉ τ) (n : List Byte)
    (hv : validName n = true) (hdd : ¬ [46, 46] <:+: n) :
    RelAt τ σ (child_rel rel n) (ρ ++ [n]) := by
  obtain ⟨h1, h2, h3⟩ := h
  obtain ⟨v1, v2, v3, v4, v5⟩ := (validName_iff n).1 hv
  refine ⟨?_, ?_, ?_⟩
  · unfold child_rel
    split
    · exact v3
    · simp only [List.mem_append, List.mem_cons, not_or]
      exact ⟨h1, by decide, v3⟩
  · unfold child_rel
    split
    · exact hdd
    · exact no_dd_join rel n h2 hdd
  · rw [fullOf_child τ rel n v1]
    have hfull0 : 0 ∉ fullOf τ rel := by
      unfold fullOf
      split
      · exact hτ
      · simp only [List.mem_append, List.mem_cons, not_or]
        exact ⟨hτ, by decide, h1⟩
    have := resolve_join_valid (fullOf τ rel) n hv
    rw [cstr_of_no_nul _ hfull0] at this
    rw [this, h3, List.append_assoc]

theorem RelAt.root (τ : List Byte) : RelAt τ (resolve τ) [] [] := by
  refine ⟨by simp, ?_, by simp [fullOf]⟩
  intro h
  have := List.IsInfix.length_le h
  simp at this

theorem head_test (rel : List Byte) (h0 : 0 ∉ rel) :
    (rel.head? = none ∨ rel.head? = some 0) ↔ rel = [] := by
  cases rel with
  | nil => simp
  | cons c cs =>
    have : c ≠ 0 := fun e => h0 (by simp [e])
    simp [this]

theorem child_relative_eq (rel n : List Byte) (h0 : 0 ∉ rel) (hv : validName n = true)
    (hlen : (child_rel rel n).length < PATH_MAX) :
    (if rel.head? = none ∨ rel.head? = some 0 then Except.ok ((cstr n).take (PATH_MAX - 1))
      else join_paths rel n PATH_MAX) = .ok (child_rel rel n) := by
  have hcn := validName_cstr n hv
  by_cases h : rel = []
  · rw [if_pos ((head_test rel h0).2 h)]
    subst h
    simp only [child_rel, if_true] at hlen ⊢
    rw [hcn, List.take_of_length_le (by omega)]
  · rw [if_neg (fun e => h ((head_test rel h0).1 e))]
    simp only [child_rel, h, if_false] at hlen ⊢
    have := join_paths_ok rel n PATH_MAX (by
      rw [hcn, cstr_of_no_nul rel h0]
      simp only [List.length_append, List.length_cons] at hlen
      omega)
    rw [this, hcn, cstr_of_no_nul rel h0]

theorem full_path_eq (base rel : List Byte) (h0 : 0 ∉ rel)
    (hlen : (fullOf (cstr base) rel).length < PATH_MAX) :
    (if rel.head? = none ∨ rel.head? = some 0 then Except.ok ((cstr base).take (PATH_MAX - 1))
      else join_paths base rel PATH_MAX) = .ok (fullOf (cstr base) rel) := by
  by_cases h : rel = []
  · rw [if_pos ((head_test rel h0).2 h)]
    simp only [fullOf, h, if_true] at hlen ⊢
    rw [List.take_of_length_le (by omega)]
  · rw [if_neg (fun e => h ((head_test rel h0).1 e))]
    simp only [fullOf, h, if_false] at hlen ⊢
    have := join_paths_ok base rel PATH_MAX (by
      rw [cstr_of_no_nul rel h0]
      simp only [List.length_append, List.length_cons] at hlen
      omega)
    rw [this, cstr_of_no_nul rel h0]

theorem fullOf_no_nul (τ rel : List Byte) (hτ : 0 ∉ τ) (h0 : 0 ∉ rel) : 0 ∉ fullOf τ rel := by
  unfold fullOf
  split
  · exact hτ
  · simp only [List.mem_append, List.mem_cons, not_or]
    exact ⟨hτ, by decide, h0⟩

theorem fullOf_length (τ rel : List Byte) : (fullOf τ rel).length ≤ τ.length + 1 + rel.length := by
  unfold fullOf
  split
  · omega
  · simp only [List.length_append, List.length_cons]; omega

theorem fullOf_child_length (τ rel n : List Byte) (hn : n ≠ []) :
    (fullOf τ (child_rel rel n)).length = τ.length + 1 + (child_rel rel n).length := by
  unfold fullOf
  rw [if_neg (child_rel_ne_nil rel n hn)]
  simp only [List.length_append, List.length_cons]
  omega

theorem sys_open_read_ok (path : List Byte) (w : World) (data : List Byte)
    (hf : w.faults = []) (hlen : strlen path < PATH_MAX)
    (hg : w.fs.get (resolve path) = some (.file data)) :
    sys_open_read path w = (.ok data, w) := by
  have hl : ¬ strlen path ≥ PATH_MAX := by omega
  simp [sys_open_read, fault_nil w hf, hl, hg]

theorem send_children_spec (base rel : List Byte) (ρ : List (List Byte))
    (kids : List (List Byte × Node)) (fs : Node) (self : List Byte → World → Res Unit)
    (hrel : RelAt (cstr base) (resolve base) rel ρ)
    (hdir : fs.get (resolve base ++ ρ) = some (.dir kids))
    (hself : ∀ n ks w, w.faults = [] → w.fs = fs → kidsGet n kids = some (.dir ks) →
      validName n = true → ¬ [46, 46] <:+: n →
      (Node.dir ks).fits ((cstr base).length + 1) (child_rel rel n) →
      self (child_rel rel n) w = (.ok (), { w with out := w.out ++ ser_kids (child_rel rel n) ks })) :
    ∀ (rest : List (List Byte × Node)) (w : World), w.faults = [] → w.fs = fs →
      (∀ e ∈ rest, validName e.1 = true ∧ kidsGet e.1 kids = some e.2) →
      kidsFit ((cstr base).length + 1) rel rest →
      send_children self (fullOf (cstr base) rel) rel (rest.map Prod.fst) w =
        (.ok (), { w with out := w.out ++ ser_kids rel rest }) := by
  have hτ : 0 ∉ cstr base := cstr_no_nul base
  have hfull0 := fullOf_no_nul (cstr base) rel hτ hrel.1
  have hcfull : cstr (fullOf (cstr base) rel) = fullOf (cstr base) rel :=
    cstr_of_no_nul _ hfull0
  have hres : resolve (fullOf (cstr base) rel) = resolve base ++ ρ := hrel.2.2
  intro rest
  induction rest with
  | nil => intro w _ _ _ _; simp [send_children, ser_kids]
  | cons e rest ih =>
    intro w hf hfs hall hfit
    obtain ⟨n, k⟩ := e
    obtain ⟨hv, hget⟩ := hall (n, k) (by simp)
    have hrest : ∀ e ∈ rest, validName e.1 = true ∧ kidsGet e.1 kids = some e.2 :=
      fun e he => hall e (by simp [he])
    simp only [kidsFit] at hfit
    obtain ⟨hdd, hkfit, hfitrest⟩ := hfit
    obtain ⟨v1, _, v3, _, _⟩ := (validName_iff n).1 hv
    obtain ⟨s1, s2⟩ := validName_strcmp n hv
    have hchild := hrel.child hτ n hv hdd
    have hclen : (cstr base).length + 1 + (child_rel rel n).length < PATH_MAX := by
      cases k with
      | file data => simp only [Node.fits] at hkfit; exact hkfit.1
      | dir ks => simp only [Node.fits] at hkfit; exact hkfit.1
    have hcl : (child_rel rel n).length < PATH_MAX := by omega
    have hcrel := child_relative_eq rel n hrel.1 hv hcl
    have hflen := fullOf_child_length (cstr base) rel n v1
    rw [fullOf_child (cstr base) rel n v1] at hflen
    have hjoin : join_paths (fullOf (cstr base) rel) n PATH_MAX =
        .ok (fullOf (cstr base) rel ++ 47 :: n) := by
      have := join_paths_ok (fullOf (cstr base) rel) n PATH_MAX (by
        rw [hcfull, validName_cstr n hv]
        simp only [List.length_append, List.length_cons] at hflen
        omega)
      rw [this, hcfull, validName_cstr n hv]
    have hstat := sys_stat_entry (fullOf (cstr base) rel) n w kids hf hv
      (by rw [hcfull]; simp only [List.length_append, List.length_cons] at hflen; omega)
      (by rw [hres, hfs]; exact hdir)
    rw [hcfull, hget] at hstat
    have hstrlen : strlen (child_rel rel n) = (child_rel rel n).length := by
      simp only [strlen, cstr_of_no_nul _ hchild.1]
    simp only [List.map_cons, send_children, s1, s2, Bool.false_eq_true, or_self, if_false,
      hcrel, hjoin, hstat, hstrlen, List.take_length]
    cases k with
    | dir ks =>
      dsimp only
      have hline := entry_line_length 2 (child_rel rel n).length 0 (by decide) hcl (by decide)
      simp only [if_true, send_fmt_short _ _ hline, send_all, send]
      have h3 := hself n ks
        { w with out := w.out ++ entry_line 2 (child_rel rel n).length 0 ++ child_rel rel n }
        hf hfs hget hv hdd hkfit
      dsimp only at h3
      rw [h3]
      dsimp only
      have h4 := ih
        { w with out := w.out ++ entry_line 2 (child_rel rel n).length 0 ++ child_rel rel n ++
            ser_kids (child_rel rel n) ks }
        hf hfs hrest hfitrest
      dsimp only at h4
      rw [h4]
      simp [ser_kids, ser_node, List.append_assoc]
    | file data =>
      simp only [Node.fits] at hkfit
      have hline := entry_line_length 1 (child_rel rel n).length data.length (by decide) hcl
        hkfit.2
      have hopen := sys_open_read_ok (fullOf (cstr base) rel ++ 47 :: n)
        { w with out := w.out ++ entry_line 1 (child_rel rel n).length data.length ++
            child_rel rel n } data hf
        (by
          have h0 : 0 ∉ fullOf (cstr base) rel ++ 47 :: n := by
            simp only [List.mem_append, List.mem_cons, not_or]
            exact ⟨hfull0, by decide, v3⟩
          simp only [strlen, cstr_of_no_nul _ h0]
          simp only [List.length_append, List.length_cons] at hflen ⊢
          omega)
        (by
          show w.fs.get _ = _
          rw [← fullOf_child (cstr base) rel n v1, hchild.2.2, hfs, ← List.append_assoc,
            Node.get_append, hdir]
          simp only [Node.get, hget])
      simp only [Bool.false_eq_true, if_false, send_fmt_short _ _ hline, send_all, send, hopen]
      rw [send_file_loop_spec _ _ _ (Nat.lt_succ_self _)]
      dsimp only
      have h4 := ih
        { w with out := w.out ++ entry_line 1 (child_rel rel n).length data.length ++
            child_rel rel n ++ data }
        hf hfs hrest hfitrest
      dsimp only at h4
      rw [h4]
      simp [ser_kids, ser_node, List.append_assoc]

theorem kidsGet_of_mem : ∀ (kids : List (List Byte × Node)), kidsWf kids = true →
    ∀ e ∈ kids, kidsGet e.1 kids = some e.2
  | [], _, e, he => by simp at he
  | (n, x) :: rest, hw, e, he => by
    obtain ⟨_, h2, _, h4⟩ := (kidsWf_cons n x rest).1 hw
    rcases List.mem_cons.1 he with he | he
    · subst he
      simp [kidsGet]
    · have ih := kidsGet_of_mem rest h4 e he
      have hne : n ≠ e.1 := by
        intro heq
        rw [← heq, h2] at ih
        cases ih
      simp [kidsGet, hne, ih]

theorem kidsDepth_get : ∀ (kids : List (List Byte × Node)) (n : List Byte) (k : Node),
    kidsGet n kids = some k → k.depth ≤ kidsDepth kids
  | [], n, k, h => by simp [kidsGet] at h
  | (m, x) :: rest, n, k, h => by
    simp only [kidsDepth]
    by_cases hm : m = n
    · simp only [kidsGet, hm, if_true, Option.some.injEq] at h
      subst h
      exact Nat.le_max_left _ _
    · simp only [kidsGet, hm, if_false] at h
      exact (kidsDepth_get rest n k h).trans (Nat.le_max_right _ _)

theorem Node.depth_get : ∀ (p : List (List Byte)) (fs t : Node),
    fs.get p = some t → t.depth ≤ fs.depth
  | [], fs, t, h => by
    rw [Node.get_nil] at h
    cases h
    exact Nat.le_refl _
  | c :: cs, .file _, t, h => by simp [Node.get] at h
  | c :: cs, .dir kids, t, h => by
    simp only [Node.get] at h
    cases hk : kidsGet c kids with
    | none => simp [hk] at h
    | some k =>
      rw [hk] at h
      have h1 := Node.depth_get cs k t h
      have h2 := kidsDepth_get kids c k hk
      simp only [Node.depth]
      omega

theorem send_directory_rec_spec (base : List Byte) (fs : Node) :
    ∀ (depth : Nat) (rel : List Byte) (ρ : List (List Byte)) (kids : List (List Byte × Node))
      (w : World), w.faults = [] → w.fs = fs →
      RelAt (cstr base) (resolve base) rel ρ →
      fs.get (resolve base ++ ρ) = some (.dir kids) → kidsWf kids = true →
      kidsDepth kids < depth → (Node.dir kids).fits ((cstr base).length + 1) rel →
      send_directory_rec depth base rel w = (.ok (), { w with out := w.out ++ ser_kids rel kids }) := by
  intro depth
  induction depth with
  | zero => intro rel ρ kids w _ _ _ _ _ hd _; omega
  | succ d ih =>
    intro rel ρ kids w hf hfs hrel hdir hwf hdepth hfit
    simp only [Node.fits] at hfit
    obtain ⟨hlen, hkfit⟩ := hfit
    have hfl : (fullOf (cstr base) rel).length < PATH_MAX :=
      lt_of_le_of_lt (fullOf_length _ _) (by omega)
    have hfull0 := fullOf_no_nul (cstr base) rel (cstr_no_nul base) hrel.1
    have hopen := sys_opendir_ok (fullOf (cstr base) rel) w kids hf
      (by simp only [strlen, cstr_of_no_nul _ hfull0]; exact hfl)
      (by rw [hrel.2.2, hfs]; exact hdir)
    have d1 : strcmp_eq [46] (lit ".") = true := by decide
    have d2 : strcmp_eq [46, 46] (lit "..") = true := by decide
    simp only [send_directory_rec, full_path_eq base rel hrel.1 hfl, hopen, send_children, d1, d2,
      true_or, or_true, if_true]
    refine send_children_spec base rel ρ kids fs (send_directory_rec d base) hrel hdir ?_
      kids w hf hfs ?_ hkfit
    · intro n ks w1 hf1 hfs1 hget hv hdd hfit1
      refine ih (child_rel rel n) (ρ ++ [n]) ks w1 hf1 hfs1
        (hrel.child (cstr_no_nul base) n hv hdd) ?_ ?_ ?_ hfit1
      · rw [← List.append_assoc, Node.get_append, hdir]
        simp only [Node.get, hget]
      · have := (kidsWf_get kids n _ hwf hget).1
        rwa [Node.wf_dir] at this
      · have := kidsDepth_get kids n _ hget
        simp only [Node.depth] at this
        omega
    · intro e he
      exact ⟨(kidsWf_names kids hwf).1 e he, kidsGet_of_mem kids hwf e he⟩

/-- The stream `send_directory_entries` emits for a tree. -/
theorem send_directory_entries_spec (base : List Byte) (w : World)
    (kids : List (List Byte × Node)) (hf : w.faults = [])
    (hdir : w.fs.get (resolve base) = some (.dir kids)) (hwf : kidsWf kids = true)
    (hfit : (Node.dir kids).fits ((cstr base).length + 1) []) :
    send_directory_entries base w = (.ok (), { w with out := w.out ++ ser_kids [] kids }) := by
  unfold send_directory_entries
  refine send_directory_rec_spec base w.fs _ [] [] kids w hf rfl ?_ (by simpa using hdir) hwf ?_ hfit
  · have := RelAt.root (cstr base)
    rwa [show resolve (cstr base) = resolve base by simp [resolve, cstr_idem]] at this
  · have h1 := Node.depth_get _ _ _ hdir
    simp only [Node.depth] at h1
    omega

/-! ### Building a tree entry by entry -/

theorem Node.put_some_of_get : ∀ (p : List (List Byte)) (fs t v : Node),
    fs.get p = some t → ∃ fs1, fs.put p v = some fs1
  | [], fs, t, v, _ => ⟨v, Node.put_nil fs v⟩
  | c :: cs, .file _, t, v, h => by simp [Node.get] at h
  | c :: cs, .dir kids, t, v, h => by
    simp only [Node.get] at h
    cases hk : kidsGet c kids with
    | none => simp [hk] at h
    | some k =>
      rw [hk] at h
      obtain ⟨k1, hk1⟩ := Node.put_some_of_get cs k t v h
      exact ⟨.dir (kidsSet c k1 kids), by simp only [Node.put, hk, hk1]⟩

theorem Node.put_put_same : ∀ (p : List (List Byte)) (fs a b fs1 : Node),
    fs.put p a = some fs1 → fs1.put p b = fs.put p b
  | [], fs, a, b, fs1, _ => by rw [Node.put_nil, Node.put_nil]
  | c :: cs, .file _, a, b, fs1, h => by simp [Node.put] at h
  | c :: cs, .dir kids, a, b, fs1, h => by
    simp only [Node.put] at h
    cases hk : kidsGet c kids with
    | none =>
      rw [hk] at h
      by_cases hcs : cs = []
      · simp only [hcs, if_true, Option.some.injEq] at h
        subst h hcs
        simp only [Node.put, kidsGet_kidsSet_self, hk, Node.put_nil, if_true]
        congr 2
        clear hk
        induction kids with
        | nil => simp [kidsSet]
        | cons e rest ih =>
          obtain ⟨m, x⟩ := e
          by_cases hm : m = c
          · simp [kidsSet, hm]
          · simp [kidsSet, hm, ih]
      · simp [hcs] at h
    | some k =>
      rw [hk] at h
      cases hq : k.put cs a with
      | none => simp [hq] at h
      | some k1 =>
        simp only [hq, Option.some.injEq] at h
        subst h
        have ih := Node.put_put_same cs k a b k1 hq
        simp only [Node.put, kidsGet_kidsSet_self, hk, ih]
        have hset : ∀ x, kidsSet c x (kidsSet c k1 kids) = kidsSet c x kids := by
          intro x
          clear hk
          induction kids with
          | nil => simp [kidsSet]
          | cons e rest ih2 =>
            obtain ⟨m, y⟩ := e
            by_cases hm : m = c
            · simp [kidsSet, hm]
            · simp [kidsSet, hm, ih2]
        cases k.put cs b with
        | none => rfl
        | some k2 => simp only [hset]

theorem Node.put_snoc : ∀ (p : List (List Byte)) (c : List Byte) (fs v : Node)
    (kids : List (List Byte × Node)), fs.get p = some (.dir kids) →
    fs.put (p ++ [c]) v = fs.put p (.dir (kidsSet c v kids))
  | [], c, fs, v, kids, h => by
    rw [Node.get_nil] at h
    cases h
    simp only [List.nil_append, Node.put]
    cases hk : kidsGet c kids with
    | none => simp
    | some k => simp [Node.put_nil]
  | d :: ds, c, .file _, v, kids, h => by simp [Node.get] at h
  | d :: ds, c, .dir ks, v, kids, h => by
    simp only [Node.get] at h
    cases hk : kidsGet d ks with
    | none => simp [hk] at h
    | some k =>
      rw [hk] at h
      have ih := Node.put_snoc ds c k v kids h
      simp only [List.cons_append, Node.put, hk, List.append_eq, ih]

/-- Adding a new entry at the end of the directory at `p`. -/
theorem Node.put_new_entry (p : List (List Byte)) (c : List Byte) (fs v : Node)
    (kids : List (List Byte × Node)) (h : fs.get p = some (.dir kids))
    (hnew : kidsGet c kids = none) :
    fs.put (p ++ [c]) v = fs.put p (.dir (kids ++ [(c, v)])) := by
  rw [Node.put_snoc p c fs v kids h, kidsSet_new c v kids hnew]

/-- Replacing the last entry of the directory at `p`. -/
theorem Node.put_last_entry (p : List (List Byte)) (c : List Byte) (fs u v : Node)
    (kids : List (List Byte × Node)) (h : fs.get p = some (.dir (kids ++ [(c, u)])))
    (hnew : kidsGet c kids = none) :
    fs.put (p ++ [c]) v = fs.put p (.dir (kids ++ [(c, v)])) := by
  rw [Node.put_snoc p c fs v _ h, kidsSet_last c u v kids hnew]

theorem Node.get_snoc (p : List (List Byte)) (c : List Byte) (fs : Node)
    (kids : List (List Byte × Node)) (h : fs.get p = some (.dir kids)) :
    fs.get (p ++ [c]) = kidsGet c kids := by
  rw [Node.get_append, h]
  simp only [Node.get]
  cases kidsGet c kids with
  | none => rfl
  | some k => rfl

theorem kidsSet_same (c : List Byte) (k : Node) :
    ∀ kids, kidsGet c kids = some k → kidsSet c k kids = kids
  | [], h => by simp [kidsGet] at h
  | (n, x) :: rest, h => by
    by_cases hn : n = c
    · simp only [kidsGet, hn, if_true, Option.some.injEq] at h
      subst h
      simp [kidsSet, hn]
    · simp only [kidsGet, hn, if_false] at h
      simp [kidsSet, hn, kidsSet_same c k rest h]

/-- Storing the node that is already there changes nothing. -/
theorem Node.put_get_same : ∀ (p : List (List Byte)) (fs t fs1 : Node),
    fs.get p = some t → fs.put p t = some fs1 → fs1 = fs
  | [], fs, t, fs1, h, hp => by
    rw [Node.get_nil] at h
    rw [Node.put_nil] at hp
    cases h
    cases hp
    rfl
  | c :: cs, .file _, t, fs1, h, _ => by simp [Node.get] at h
  | c :: cs, .dir kids, t, fs1, h, hp => by
    simp only [Node.get] at h
    simp only [Node.put] at hp
    cases hk : kidsGet c kids with
    | none => simp [hk] at h
    | some k =>
      rw [hk] at h hp
      cases hq : k.put cs t with
      | none => simp [hq] at hp
      | some k1 =>
        simp only [hq, Option.some.injEq] at hp
        have := Node.put_get_same cs k t k1 h hq
        subst this
        rw [← hp, kidsSet_same c k1 kids hk]

/-! ### Reading back an `ENTRY` line -/

theorem scan_literal_append : ∀ (f r : List Byte), scan_literal f (f ++ r) = some r
  | [], r => by cases r <;> rfl
  | c :: cs, r => by simp [scan_literal, scan_literal_append cs r]

theorem entry_line_eq (t p s : Nat) : entry_line t p s = entry_text t p s ++ [10] := by
  have e : lit "ENTRY " = lit "ENTRY" ++ [32] := by decide
  simp [entry_line, entry_text, e, List.append_assoc]

theorem isdigit_ne (c : Byte) (h : isdigit c = true) : c ≠ 0 ∧ c ≠ 10 := by
  simp only [isdigit, Bool.and_eq_true, decide_eq_true_eq] at h
  constructor
  · intro e; subst e; exact absurd h.1 (by decide)
  · intro e; subst e; exact absurd h.1 (by decide)

theorem entry_text_clean (t p s : Nat) : 0 ∉ entry_text t p s ∧ 10 ∉ entry_text t p s := by
  have hd : ∀ n, (0 : Byte) ∉ decimal n ∧ (10 : Byte) ∉ decimal n := by
    intro n
    exact ⟨fun h => (isdigit_ne 0 (decimal_all_digits n 0 h)).1 rfl,
      fun h => (isdigit_ne 10 (decimal_all_digits n 10 h)).2 rfl⟩
  have h1 : (0 : Byte) ∉ lit "ENTRY" := by decide
  have h2 : (10 : Byte) ∉ lit "ENTRY" := by decide
  unfold entry_text
  simp only [List.mem_append, List.mem_cons, not_or, List.append_nil]
  exact ⟨⟨h1, by decide, (hd t).1, by decide, (hd p).1, by decide, (hd s).1⟩,
    ⟨h2, by decide, (hd t).2, by decide, (hd p).2, by decide, (hd s).2⟩⟩

theorem entry_text_length (t p s : Nat) (ht : t < 10) (hp : p < PATH_MAX) (hs : s < 2 ^ 64) :
    (entry_text t p s).length + 1 < MCSYNC_MAX_LINE := by
  have := entry_line_length t p s ht hp hs
  rw [entry_line_eq, List.length_append] at this
  exact this

theorem sscanf_entry_text (t p s : Nat) (ht : t < 2 ^ 31) (hp : p < 2 ^ 64) (hs : s < 2 ^ 64) :
    sscanf_entry (entry_text t p s) = some ((t : Int), p, s) := by
  have hc : cstr (entry_text t p s) = entry_text t p s :=
    cstr_of_no_nul _ (entry_text_clean t p s).1
  have hnd : ∀ (l : List Byte) (c : Byte), (32 :: l).head? = some c → isdigit c = false := by
    intro l c h
    simp only [List.head?_cons, Option.some.injEq] at h
    subst h
    decide
  unfold sscanf_entry
  rw [hc]
  unfold entry_text
  rw [scan_literal_append]
  dsimp only
  rw [scan_int_decimal t _ ht (hnd _)]
  dsimp only
  rw [scan_ulong_decimal p _ hp (hnd _)]
  dsimp only
  rw [scan_ulong_decimal s [] hs (by simp)]

theorem entry_text_not_end (t p s : Nat) : strcmp_eq (entry_text t p s) (lit "END") = false := by
  have hc : cstr (entry_text t p s) = entry_text t p s :=
    cstr_of_no_nul _ (entry_text_clean t p s).1
  have e1 : cstr (lit "END") = [69, 78, 68] := by decide
  have e2 : lit "ENTRY" = [69, 78, 84, 82, 89] := by decide
  unfold strcmp_eq
  rw [hc, e1]
  simp [entry_text, e2]

/-! ### The materializer's system calls when nothing fails -/

theorem sys_mkdir_existing (path : List Byte) (w : World) (hf : w.faults = [])
    (hlen : strlen path < PATH_MAX) (hex : (w.fs.get (resolve path)).isSome = true) :
    sys_mkdir path w = (.error .EEXIST, w) := by
  have hl : ¬ strlen path ≥ PATH_MAX := by omega
  cases hg : w.fs.get (resolve path) with
  | none => rw [hg] at hex; cases hex
  | some t => simp [sys_mkdir, mkdir_at, fault_nil w hf, hl, hg]

theorem sys_mkdir_new (path : List Byte) (w : World) (fs1 : Node)
    (p : List (List Byte)) (n : List Byte) (kids : List (List Byte × Node))
    (hf : w.faults = []) (hlen : strlen path < PATH_MAX) (hres : resolve path = p ++ [n])
    (hpar : w.fs.get p = some (.dir kids)) (hnew : kidsGet n kids = none)
    (hput : w.fs.put p (.dir (kids ++ [(n, .dir [])])) = some fs1) :
    sys_mkdir path w =
      (.ok (), { w with fs := fs1, created := w.created ++ [cstr path] }) := by
  have hl : ¬ strlen path ≥ PATH_MAX := by omega
  have hg : w.fs.get (p ++ [n]) = none := by rw [Node.get_snoc p n w.fs kids hpar, hnew]
  have hp2 : w.fs.put (p ++ [n]) (.dir []) = some fs1 := by
    rw [Node.put_new_entry p n w.fs _ kids hpar hnew, hput]
  simp [sys_mkdir, mkdir_at, fault_nil w hf, hl, hres, hg, List.dropLast_concat, hpar, hp2]

theorem ensure_parent_dirs_loop_noop (buffer : List Byte) (hb : buffer.length < PATH_MAX)
    (h0 : 0 ∉ buffer) :
    ∀ (n i : Nat) (w : World), w.faults = [] →
      (∀ j, buffer.get? j = some 47 → (w.fs.get (resolve (buffer.take j))).isSome = true) →
      ensure_parent_dirs_loop buffer n i w = (.ok (), w) := by
  intro n
  induction n with
  | zero => intro i w _ _; rfl
  | succ n ih =>
    intro i w hf hex
    simp only [ensure_parent_dirs_loop]
    by_cases hs : buffer.get? i = some 47
    · rw [if_pos hs]
      have hlen : strlen (buffer.take i) < PATH_MAX := by
        have hc : cstr (buffer.take i) = buffer.take i :=
          cstr_of_no_nul _ (fun e => h0 (List.mem_of_mem_take e))
        simp only [strlen, hc, List.length_take]
        omega
      rw [sys_mkdir_existing _ w hf hlen (hex i hs)]
      simp only [ne_eq, not_true_eq_false, if_false]
      exact ih (i + 1) w hf hex
    · rw [if_neg hs]
      exact ih (i + 1) w hf hex

theorem sys_open_trunc_new (path : List Byte) (w : World) (fs1 : Node)
    (p : List (List Byte)) (n : List Byte) (kids : List (List Byte × Node))
    (hf : w.faults = []) (hlen : strlen path < PATH_MAX) (hres : resolve path = p ++ [n])
    (hpar : w.fs.get p = some (.dir kids)) (hnew : kidsGet n kids = none)
    (hput : w.fs.put p (.dir (kids ++ [(n, .file [])])) = some fs1) :
    sys_open_trunc path w =
      (.ok (p ++ [n]), { w with fs := fs1, created := w.created ++ [cstr path] }) := by
  have hl : ¬ strlen path ≥ PATH_MAX := by omega
  have hg : w.fs.get (p ++ [n]) = none := by rw [Node.get_snoc p n w.fs kids hpar, hnew]
  have hp2 : w.fs.put (p ++ [n]) (.file []) = some fs1 := by
    rw [Node.put_new_entry p n w.fs _ kids hpar hnew, hput]
  simp [sys_open_trunc, fault_nil w hf, hl, hres, hg, List.dropLast_concat, hpar, hp2]

/-- The chunk loop copies exactly the announced bytes, in order. -/
theorem recv_file_loop_spec (fd : List (List Byte)) :
    ∀ (fuel : Nat) (data old rest : List Byte) (w : World) (fs1 : Node),
      data.length < fuel → w.faults = [] → w.inp = data ++ rest →
      w.fs.get fd = some (.file old) → w.fs.put fd (.file (old ++ data)) = some fs1 →
      recv_file_loop fuel fd data.length w = (.ok (), { w with inp := rest, fs := fs1 }) := by
  intro fuel
  induction fuel with
  | zero => intro data old rest w fs1 h; omega
  | succ f ih =>
    intro data old rest w fs1 hfuel hf hinp hget hput
    simp only [recv_file_loop]
    by_cases hd : data.length > 0
    · rw [if_pos hd]
      generalize hk : (if data.length < FILE_CHUNK_SIZE then data.length else FILE_CHUNK_SIZE) = k
      have hk1 : 0 < k ∧ k ≤ data.length := by
        rw [← hk]; simp only [FILE_CHUNK_SIZE]; split <;> omega
      have hsplit : w.inp = data.take k ++ (data.drop k ++ rest) := by
        rw [hinp, ← List.append_assoc, List.take_append_drop]
      have htl : (data.take k).length = k := by rw [List.length_take]; omega
      have hr := recv_all_ok (data.take k) (data.drop k ++ rest) w hsplit
      rw [htl] at hr
      rw [hr]
      dsimp only
      obtain ⟨fs2, hfs2⟩ := Node.put_some_of_get fd w.fs _ (.file (old ++ data.take k)) hget
      have hw : sys_write fd (data.take k) { w with inp := data.drop k ++ rest } =
          (.ok (), { w with inp := data.drop k ++ rest, fs := fs2 }) := by
        simp [sys_write, World.fault, hf, hget, hfs2]
      rw [hw]
      dsimp only
      have hlen2 : data.length - k = (data.drop k).length := by rw [List.length_drop]
      rw [hlen2]
      have := ih (data.drop k) (old ++ data.take k) rest
        { w with inp := data.drop k ++ rest, fs := fs2 } fs1
        (by rw [List.length_drop]; omega) hf rfl
        (Node.get_put_self fd w.fs _ fs2 hfs2)
        (by
          show fs2.put fd _ = _
          rw [Node.put_put_same fd w.fs _ _ fs2 hfs2, List.append_assoc,
            List.take_append_drop]
          exact hput)
      rw [this]
    · have hnil : data = [] := List.length_eq_zero.1 (by omega)
      subst hnil
      rw [if_neg hd]
      simp only [List.append_nil] at hput
      simp only [List.nil_append] at hinp
      have hsame : fs1 = w.fs := Node.put_get_same fd w.fs _ fs1 hget hput
      subst hsame
      rw [← hinp]

/-! ### One entry of a serialized tree, read back -/

theorem child_full_facts (target rel n : List Byte) (σ ρ : List (List Byte))
    (hrel : RelAt (cstr target) σ rel ρ) (hv : validName n = true) (hdd : ¬ [46, 46] <:+: n)
    (hlen : (cstr target).length + 1 + (child_rel rel n).length < PATH_MAX) :
    join_paths target (child_rel rel n) PATH_MAX = .ok (cstr target ++ 47 :: child_rel rel n) ∧
    strlen (cstr target ++ 47 :: child_rel rel n) < PATH_MAX ∧
    resolve (cstr target ++ 47 :: child_rel rel n) = (σ ++ ρ) ++ [n] ∧
    cstr (child_rel rel n) = child_rel rel n ∧
    strstr (child_rel rel n) (lit "..") = false ∧
    (child_rel rel n).length ≠ 0 ∧ (child_rel rel n).length < PATH_MAX := by
  have hchild := hrel.child (cstr_no_nul target) n hv hdd
  have hne := child_rel_ne_nil rel n ((validName_iff n).1 hv).1
  have hc : cstr (child_rel rel n) = child_rel rel n := cstr_of_no_nul _ hchild.1
  have hfull : fullOf (cstr target) (child_rel rel n) = cstr target ++ 47 :: child_rel rel n := by
    simp [fullOf, hne]
  have h0 : 0 ∉ cstr target ++ 47 :: child_rel rel n := by
    rw [← hfull]; exact fullOf_no_nul _ _ (cstr_no_nul target) hchild.1
  refine ⟨?_, ?_, ?_, hc, ?_, ?_, by omega⟩
  · have := join_paths_ok target (child_rel rel n) PATH_MAX (by rw [hc]; exact hlen)
    rw [this, hc]
  · simp only [strlen, cstr_of_no_nul _ h0, List.length_append, List.length_cons]
    omega
  · rw [← hfull, hchild.2.2, List.append_assoc]
  · cases hs : strstr (child_rel rel n) (lit "..") with
    | false => rfl
    | true =>
      have := (strstr_dotdot_iff _).1 hs
      rw [hc] at this
      exact absurd this hchild.2.1
  · exact fun e => hne (List.length_eq_zero.1 e)

theorem receive_entry_dir (target rel n rest : List Byte) (σ ρ : List (List Byte))
    (done : List (List Byte × Node)) (w : World) (fs1 : Node)
    (hf : w.faults = []) (hrel : RelAt (cstr target) σ rel ρ) (hv : validName n = true)
    (hdd : ¬ [46, 46] <:+: n)
    (hlen : (cstr target).length + 1 + (child_rel rel n).length < PATH_MAX)
    (hinp : w.inp = child_rel rel n ++ rest)
    (hpar : w.fs.get (σ ++ ρ) = some (.dir done)) (hnew : kidsGet n done = none)
    (hput : w.fs.put (σ ++ ρ) (.dir (done ++ [(n, .dir [])])) = some fs1) :
    ∃ w1, receive_entry target (entry_text 2 (child_rel rel n).length 0) w = (none, w1) ∧
      w1.faults = [] ∧ w1.inp = rest ∧ w1.fs = fs1 := by
  obtain ⟨hj, hsl, hres, hc, hstr, hne, hlt⟩ := child_full_facts target rel n σ ρ hrel hv hdd hlen
  obtain ⟨fs, inp, out, faults, tmp, allocs, conns, created⟩ := w
  dsimp only at hf hinp hpar hput
  subst hf hinp
  have hscan := sscanf_entry_text 2 (child_rel rel n).length 0 (by norm_num)
    (lt_trans hlt (by decide)) (by norm_num)
  have hmk := sys_mkdir_new (cstr target ++ 47 :: child_rel rel n)
    ⟨fs, rest, out, [], tmp, allocs ++ [(child_rel rel n).length + 1], conns, created⟩
    fs1 (σ ++ ρ) n done rfl hsl hres hpar hnew hput
  have hcond : ¬ ((child_rel rel n).length = 0 ∨ (child_rel rel n).length ≥ PATH_MAX) := by
    omega
  simp only [receive_entry, entry_text_not_end, Bool.false_eq_true, if_false, hscan, hcond,
    sys_malloc, World.fault, recv_all_mk, hstr, hj, Nat.cast_ofNat, if_true, ensure_directory,
    hmk]
  exact ⟨_, rfl, rfl, rfl, rfl⟩

theorem parent_prefixes_exist (target rel n : List Byte) (σ ρ : List (List Byte)) (fs : Node)
    (hnd : noDotDot target)
    (hrel : RelAt (cstr target) σ rel ρ) (hv : validName n = true)
    (hex : (fs.get (σ ++ ρ)).isSome = true) :
    ∀ j, (cstr target ++ 47 :: child_rel rel n).get? j = some 47 →
      (fs.get (resolve ((cstr target ++ 47 :: child_rel rel n).take j))).isSome = true := by
  obtain ⟨v1, v2, v3, _, _⟩ := (validName_iff n).1 hv
  have hτ := cstr_no_nul target
  have hX0 := fullOf_no_nul (cstr target) rel hτ hrel.1
  have hfull : cstr target ++ 47 :: child_rel rel n = fullOf (cstr target) rel ++ 47 :: n := by
    rw [← fullOf_child (cstr target) rel n v1]
    simp [fullOf, child_rel_ne_nil rel n v1]
  have hXdd : [46, 46] ∉ splitSlash (fullOf (cstr target) rel) := by
    unfold fullOf
    split
    · exact hnd
    · rw [splitSlash_append]
      intro hm
      rcases List.mem_append.1 hm with hm | hm
      · exact hnd hm
      · exact no_seg_of_not_within _ hrel.2.1 hm
  intro j hj
  rw [hfull] at hj ⊢
  by_cases hlt : j < (fullOf (cstr target) rel).length
  · have hjX : (fullOf (cstr target) rel).get? j = some 47 := by
      rw [List.get?_eq_getElem?] at hj ⊢
      rwa [List.getElem?_append_left hlt] at hj
    have htake : (fullOf (cstr target) rel ++ 47 :: n).take j = (fullOf (cstr target) rel).take j := by
      rw [List.take_append_of_le_length (by omega)]
    rw [htake]
    have hpre := resolve_take_prefix _ j hX0 hjX
      (fun hm => hXdd (splitSlash_drop_subset _ j hjX _ hm))
    rw [hrel.2.2] at hpre
    exact Node.get_prefix_some _ _ fs hpre hex
  · have hge : (fullOf (cstr target) rel).length ≤ j := by omega
    have heq : j = (fullOf (cstr target) rel).length := by
      rcases Nat.eq_or_lt_of_le hge with h | h
      · exact h.symm
      · exfalso
        rw [List.get?_eq_getElem?, List.getElem?_append_right hge] at hj
        obtain ⟨k, hk⟩ : ∃ k, j - (fullOf (cstr target) rel).length = k + 1 :=
          ⟨j - (fullOf (cstr target) rel).length - 1, by omega⟩
        rw [hk, List.getElem?_cons_succ] at hj
        have hmem : (47 : Byte) ∈ n := by
          rcases List.getElem?_eq_some_iff.1 hj with ⟨hlt2, hval⟩
          rw [← hval]
          exact List.getElem_mem _
        exact v2 hmem
    rw [heq, List.take_left]
    have : resolve (fullOf (cstr target) rel) = σ ++ ρ := hrel.2.2
    rw [this]
    exact hex

theorem receive_entry_file (target rel n data rest : List Byte) (σ ρ : List (List Byte))
    (done : List (List Byte × Node)) (w : World) (fs1 : Node)
    (hf : w.faults = []) (hnd : noDotDot target)
    (hrel : RelAt (cstr target) σ rel ρ) (hv : validName n = true)
    (hdd : ¬ [46, 46] <:+: n)
    (hlen : (cstr target).length + 1 + (child_rel rel n).length < PATH_MAX)
    (hsize : data.length < 2 ^ 64)
    (hinp : w.inp = child_rel rel n ++ (data ++ rest))
    (hpar : w.fs.get (σ ++ ρ) = some (.dir done)) (hnew : kidsGet n done = none)
    (hput : w.fs.put (σ ++ ρ) (.dir (done ++ [(n, .file data)])) = some fs1) :
    ∃ w1, receive_entry target (entry_text 1 (child_rel rel n).length data.length) w = (none, w1) ∧
      w1.faults = [] ∧ w1.inp = rest ∧ w1.fs = fs1 := by
  obtain ⟨hj, hsl, hres, hc, hstr, hne, hlt⟩ := child_full_facts target rel n σ ρ hrel hv hdd hlen
  have hchild := hrel.child (cstr_no_nul target) n hv hdd
  have hcne := child_rel_ne_nil rel n ((validName_iff n).1 hv).1
  have h0 : 0 ∉ cstr target ++ 47 :: child_rel rel n := by
    have := fullOf_no_nul (cstr target) (child_rel rel n) (cstr_no_nul target) hchild.1
    simpa [fullOf, hcne] using this
  have hcf : cstr (cstr target ++ 47 :: child_rel rel n) = cstr target ++ 47 :: child_rel rel n :=
    cstr_of_no_nul _ h0
  obtain ⟨fs, inp, out, faults, tmp, allocs, conns, created⟩ := w
  dsimp only at hf hinp hpar hput
  subst hf hinp
  have hscan := sscanf_entry_text 1 (child_rel rel n).length data.length (by norm_num)
    (lt_trans hlt (by decide)) hsize
  have hcond : ¬ ((child_rel rel n).length = 0 ∨ (child_rel rel n).length ≥ PATH_MAX) := by
    omega
  obtain ⟨fs2, hfs2⟩ := Node.put_some_of_get (σ ++ ρ) fs _
    (.dir (done ++ [(n, .file [])])) hpar
  have hpre := parent_prefixes_exist target rel n σ ρ fs hnd hrel hv (by rw [hpar]; rfl)
  have hsl2 : (cstr target ++ 47 :: child_rel rel n).length < PATH_MAX := by
    have := hsl
    rwa [strlen, hcf] at this
  have hepd : ensure_parent_dirs (cstr target ++ 47 :: child_rel rel n)
      ⟨fs, data ++ rest, out, [], tmp, allocs ++ [(child_rel rel n).length + 1], conns, created⟩ =
      (.ok (), ⟨fs, data ++ rest, out, [], tmp, allocs ++ [(child_rel rel n).length + 1], conns,
        created⟩) := by
    unfold ensure_parent_dirs
    have hc2 : ¬ (strlen (cstr target ++ 47 :: child_rel rel n) = 0 ∨
        strlen (cstr target ++ 47 :: child_rel rel n) ≥ PATH_MAX) := by
      have : strlen (cstr target ++ 47 :: child_rel rel n) ≠ 0 := by
        simp [strlen, hcf]
      omega
    rw [if_neg hc2, hcf]
    exact ensure_parent_dirs_loop_noop _ hsl2 h0 _ _ _ rfl hpre
  have hopen := sys_open_trunc_new (cstr target ++ 47 :: child_rel rel n)
    ⟨fs, data ++ rest, out, [], tmp, allocs ++ [(child_rel rel n).length + 1], conns, created⟩
    fs2 (σ ++ ρ) n done rfl hsl hres hpar hnew hfs2
  have hg2 : fs2.get ((σ ++ ρ) ++ [n]) = some (.file []) := by
    apply Node.get_put_self _ fs
    rw [Node.put_new_entry (σ ++ ρ) n fs _ done hpar hnew, hfs2]
  have hp2 : fs2.put ((σ ++ ρ) ++ [n]) (.file ([] ++ data)) = some fs1 := by
    rw [Node.put_last_entry (σ ++ ρ) n fs2 (.file []) _ done
      (Node.get_put_self _ _ _ _ hfs2) hnew, Node.put_put_same _ _ _ _ _ hfs2]
    exact hput
  have hloop := recv_file_loop_spec ((σ ++ ρ) ++ [n]) ((data ++ rest).length + 1) data [] rest
    ⟨fs2, data ++ rest, out, [], tmp, allocs ++ [(child_rel rel n).length + 1], conns,
      created ++ [cstr (cstr target ++ 47 :: child_rel rel n)]⟩ fs1
    (by simp only [List.length_append]; omega) rfl rfl hg2 hp2
  dsimp only at hopen hloop
  have h12 : ¬ ((1 : Int) = 2) := by decide
  simp only [receive_entry, entry_text_not_end, Bool.false_eq_true, if_false, hscan, hcond,
    sys_malloc, World.fault, recv_all_mk, hstr, hj, Nat.cast_one, h12, if_true, hepd, hopen,
    hloop]
  exact ⟨_, rfl, rfl, rfl, rfl⟩

/-! ### A serialized tree, read back -/

theorem receive_loop_step (target rest : List Byte) (t p s : Nat) (w : World) (fuel : Nat)
    (ht : t < 10) (hp : p < PATH_MAX) (hs : s < 2 ^ 64)
    (hinp : w.inp = entry_line t p s ++ rest) :
    receive_loop (fuel + 1) target w =
      match receive_entry target (entry_text t p s) { w with inp := rest } with
      | (some r, w2) => (r, w2)
      | (none, w2) => receive_loop fuel target w2 := by
  have hl := recv_line_ok (entry_text t p s) rest w (entry_text_clean t p s).2
    (entry_text_length t p s ht hp hs)
    (by rw [hinp, entry_line_eq, List.append_assoc]; rfl)
  rw [receive_loop, hl]

theorem recvNode_file (target : List Byte) (σ : List (List Byte)) (hnd : noDotDot target)
    (data : List Byte) : RecvNode target σ (.file data) := by
  intro rel n rest ρ done w fs1 fuel hf hrel hv hdd _ hfit hinp hpar hnew hput
  simp only [Node.fits] at hfit
  have hlen : (cstr target).length + 1 + (child_rel rel n).length < PATH_MAX := hfit.1
  have hinp2 : w.inp = entry_line 1 (child_rel rel n).length data.length ++
      (child_rel rel n ++ (data ++ rest)) := by
    rw [hinp, ser_node, List.append_assoc, List.append_assoc]
  obtain ⟨w1, h1, h2, h3, h4⟩ := receive_entry_file target rel n data rest σ ρ done
    { w with inp := child_rel rel n ++ (data ++ rest) } fs1 hf hnd hrel hv hdd hlen hfit.2 rfl
    hpar hnew hput
  refine ⟨w1, ?_, h2, h3, h4⟩
  have hstep := receive_loop_step target _ 1 (child_rel rel n).length data.length w fuel
    (by decide) (by omega) hfit.2 hinp2
  simp only [Node.count]
  rw [hstep, h1]

theorem recvNode_dir (target : List Byte) (σ : List (List Byte))
    (kids : List (List Byte × Node)) (hk : RecvKids target σ kids) :
    RecvNode target σ (.dir kids) := by
  intro rel n rest ρ done w fs1 fuel hf hrel hv hdd hwf hfit hinp hpar hnew hput
  simp only [Node.fits] at hfit
  have hlen : (cstr target).length + 1 + (child_rel rel n).length < PATH_MAX := hfit.1
  have hinp2 : w.inp = entry_line 2 (child_rel rel n).length 0 ++
      (child_rel rel n ++ (ser_kids (child_rel rel n) kids ++ rest)) := by
    rw [hinp, ser_node, List.append_assoc, List.append_assoc]
  obtain ⟨fs2, hfs2⟩ := Node.put_some_of_get (σ ++ ρ) w.fs _
    (.dir (done ++ [(n, .dir [])])) hpar
  obtain ⟨w1, h1, h2, h3, h4⟩ := receive_entry_dir target rel n
    (ser_kids (child_rel rel n) kids ++ rest) σ ρ done
    { w with inp := child_rel rel n ++ (ser_kids (child_rel rel n) kids ++ rest) } fs2 hf hrel
    hv hdd hlen rfl hpar hnew hfs2
  have hstep := receive_loop_step target _ 2 (child_rel rel n).length 0 w
    (fuel + kidsCount kids) (by decide) (by omega) (by norm_num) hinp2
  have hchild := hrel.child (cstr_no_nul target) n hv hdd
  have hg1 : w1.fs.get (σ ++ (ρ ++ [n])) = some (.dir []) := by
    rw [h4, ← List.append_assoc]
    apply Node.get_put_self _ w.fs
    rw [Node.put_new_entry (σ ++ ρ) n w.fs _ done hpar hnew, hfs2]
  have hp1 : w1.fs.put (σ ++ (ρ ++ [n])) (.dir ([] ++ kids)) = some fs1 := by
    rw [h4, ← List.append_assoc, List.nil_append,
      Node.put_last_entry (σ ++ ρ) n fs2 (.dir []) _ done
        (Node.get_put_self _ _ _ _ hfs2) hnew, Node.put_put_same _ _ _ _ _ hfs2]
    exact hput
  obtain ⟨w2, g1, g2, g3, g4⟩ := hk (child_rel rel n) rest (ρ ++ [n]) [] w1 fs1 fuel h2 hchild
    (by rwa [Node.wf_dir] at hwf) hfit.2 h3 hg1 (fun m hm => by simp [kidsGet] at hm) hp1
  refine ⟨w2, ?_, g2, g3, g4⟩
  simp only [Node.count]
  rw [← Nat.add_assoc, hstep, h1]
  exact g1

theorem recvKids_nil (target : List Byte) (σ : List (List Byte)) : RecvKids target σ [] := by
  intro rel rest ρ done w fs1 fuel hf _ _ _ hinp hpar _ hput
  refine ⟨w, rfl, hf, by simpa [ser_kids] using hinp, ?_⟩
  rw [List.append_nil] at hput
  exact (Node.put_get_same _ _ _ _ hpar hput).symm

theorem recvKids_cons (target : List Byte) (σ : List (List Byte)) (n : List Byte) (k : Node)
    (ks : List (List Byte × Node)) (hk : RecvNode target σ k) (hks : RecvKids target σ ks) :
    RecvKids target σ ((n, k) :: ks) := by
  intro rel rest ρ done w fs1 fuel hf hrel hwf hfit hinp hpar hfresh hput
  obtain ⟨hv, hnks, hkwf, hkswf⟩ := (kidsWf_cons n k ks).1 hwf
  simp only [kidsFit] at hfit
  obtain ⟨hdd, hkfit, hksfit⟩ := hfit
  have hnew : kidsGet n done = none := by
    cases hg : kidsGet n done with
    | none => rfl
    | some x =>
      have := hfresh n (by rw [hg]; rfl)
      simp [kidsGet] at this
  obtain ⟨fs2, hfs2⟩ := Node.put_some_of_get (σ ++ ρ) w.fs _ (.dir (done ++ [(n, k)])) hpar
  have hinp2 : w.inp = ser_node (child_rel rel n) k ++ (ser_kids rel ks ++ rest) := by
    rw [hinp, ser_kids, List.append_assoc]
  obtain ⟨w1, h1, h2, h3, h4⟩ := hk rel n (ser_kids rel ks ++ rest) ρ done w fs2
    (fuel + kidsCount ks) hf hrel hv hdd hkwf hkfit hinp2 hpar hnew hfs2
  have hg1 : w1.fs.get (σ ++ ρ) = some (.dir (done ++ [(n, k)])) := by
    rw [h4]; exact Node.get_put_self _ _ _ _ hfs2
  have hfresh1 : ∀ m, (kidsGet m (done ++ [(n, k)])).isSome = true → kidsGet m ks = none := by
    intro m hm
    rw [kidsGet_append] at hm
    cases hg : kidsGet m done with
    | some x =>
      have := hfresh m (by rw [hg]; rfl)
      simp only [kidsGet] at this
      by_cases hnm : n = m
      · rw [if_pos hnm] at this; cases this
      · rwa [if_neg hnm] at this
    | none =>
      rw [hg] at hm
      simp only [kidsGet] at hm
      by_cases hnm : n = m
      · rw [← hnm]; exact hnks
      · rw [if_neg hnm] at hm; cases hm
  have hp1 : w1.fs.put (σ ++ ρ) (.dir ((done ++ [(n, k)]) ++ ks)) = some fs1 := by
    rw [h4, Node.put_put_same _ _ _ _ _ hfs2, List.append_assoc]
    exact hput
  obtain ⟨w2, g1, g2, g3, g4⟩ := hks rel rest ρ (done ++ [(n, k)]) w1 fs1 fuel h2 hrel hkswf
    hksfit h3 hg1 hfresh1 hp1
  refine ⟨w2, ?_, g2, g3, g4⟩
  simp only [kidsCount]
  rw [show fuel + (k.count + kidsCount ks) = fuel + kidsCount ks + k.count by omega, h1]
  exact g1

theorem recvNode_of_count (target : List Byte) (σ : List (List Byte)) (hnd : noDotDot target) :
    ∀ (c : Nat) (k : Node), k.count ≤ c → RecvNode target σ k := by
  intro c
  induction c with
  | zero =>
    intro k hk
    cases k <;> simp [Node.count] at hk
  | succ c ih =>
    have hkids : ∀ kids : List (List Byte × Node), kidsCount kids ≤ c →
        RecvKids target σ kids := by
      intro kids
      induction kids with
      | nil => intro _; exact recvKids_nil target σ
      | cons x ks ihk =>
        obtain ⟨n, k⟩ := x
        intro hc
        simp only [kidsCount] at hc
        exact recvKids_cons target σ n k ks (ih k (by omega)) (ihk (by omega))
    intro k hk
    cases k with
    | file data => exact recvNode_file target σ hnd data
    | dir kids =>
      simp only [Node.count] at hk
      exact recvNode_dir target σ kids (hkids kids (by omega))

theorem recvKids_all (target : List Byte) (σ : List (List Byte)) (hnd : noDotDot target) :
    ∀ kids : List (List Byte × Node), RecvKids target σ kids
  | [] => recvKids_nil target σ
  | (n, k) :: ks =>
    recvKids_cons target σ n k ks (recvNode_of_count target σ hnd k.count k (Nat.le_refl _))
      (recvKids_all target σ hnd ks)

/-! ### Round trip of an entry stream -/

theorem ser_node_count (c : Nat) : ∀ (k : Node), k.count ≤ c →
    ∀ rel, k.count ≤ (ser_node rel k).length := by
  induction c with
  | zero =>
    intro k hk
    cases k <;> simp [Node.count] at hk
  | succ c ih =>
    have hkids : ∀ kids : List (List Byte × Node), kidsCount kids ≤ c →
        ∀ rel, kidsCount kids ≤ (ser_kids rel kids).length := by
      intro kids
      induction kids with
      | nil => intro _ _; simp [kidsCount]
      | cons x ks ihk =>
        obtain ⟨n, k⟩ := x
        intro hc rel
        simp only [kidsCount] at hc ⊢
        have h1 := ih k (by omega) (child_rel rel n)
        have h2 := ihk (by omega) rel
        simp only [ser_kids, List.length_append]
        omega
    intro k hk rel
    cases k with
    | file data =>
      simp only [Node.count, ser_node, entry_line_eq, List.length_append, List.length_singleton]
      omega
    | dir kids =>
      simp only [Node.count] at hk ⊢
      have := hkids kids (by omega) rel
      simp only [ser_node, entry_line_eq, List.length_append, List.length_singleton]
      omega

theorem ser_kids_count (rel : List Byte) (kids : List (List Byte × Node)) :
    kidsCount kids ≤ (ser_kids rel kids).length := by
  have := ser_node_count (kidsCount kids + 1) (.dir kids) (by simp [Node.count]) rel
  simp only [Node.count, ser_node, entry_line_eq, List.length_append,
    List.length_singleton] at this
  induction kids with
  | nil => simp [kidsCount]
  | cons x ks ih =>
    obtain ⟨n, k⟩ := x
    simp only [kidsCount, ser_kids, List.length_append]
    have h1 := ser_node_count k.count k (Nat.le_refl _) (child_rel rel n)
    have h2 := ih (by
      have := ser_node_count (kidsCount ks + 1) (.dir ks) (by simp [Node.count]) rel
      simpa only [Node.count, ser_node, entry_line_eq, List.length_append,
        List.length_singleton] using this)
    omega

theorem receive_loop_end (target more : List Byte) (w : World) (fuel : Nat)
    (hinp : w.inp = lit "END\n" ++ more) :
    receive_loop (fuel + 1) target w = (.ok (), { w with inp := more }) := by
  have hl := recv_line_ok (lit "END") more w (by decide) (by decide)
    (by rw [hinp]; rfl)
  have he : strcmp_eq (lit "END") (lit "END") = true := by decide
  rw [receive_loop, hl]
  simp only [receive_entry, he, if_true]

/-- C1 (amended): round trip of an entry stream. For a well-formed directory
tree whose entry names contain no `..`, whose paths fit in `PATH_MAX` below
both the source and the target directory and whose files are shorter than
2^64 bytes, with no failing system call: `send_directory_entries` succeeds
and emits the stream `ser_kids [] kids`; `receive_world_entries` on that
stream followed by `END`, into an existing empty target directory whose path
has no `..` segment, succeeds, consumes exactly the stream and leaves the
target directory with the same entries, in the same order, with the same
structure and the same file bytes, the rest of the file system unchanged. -/
theorem round_trip_entry_stream (base target more : List Byte) (ws wr : World)
    (kids : List (List Byte × Node))
    (hfs : ws.faults = []) (hout : ws.out = [])
    (hbase : ws.fs.get (resolve base) = some (.dir kids)) (hwf : kidsWf kids = true)
    (hfit_s : (Node.dir kids).fits ((cstr base).length + 1) [])
    (hfit_r : (Node.dir kids).fits ((cstr target).length + 1) [])
    (hfr : wr.faults = []) (hnd : noDotDot target)
    (htgt : wr.fs.get (resolve target) = some (.dir []))
    (hinp : wr.inp = (send_directory_entries base ws).2.out ++ lit "END\n" ++ more) :
    (send_directory_entries base ws).1 = .ok () ∧
    ∃ w1, receive_world_entries target wr = (.ok (), w1) ∧ w1.inp = more ∧
      wr.fs.put (resolve target) (.dir kids) = some w1.fs ∧
      w1.fs.get (resolve target) = some (.dir kids) := by
  have hsend := send_directory_entries_spec base ws kids hfs hbase hwf hfit_s
  rw [hsend] at hinp ⊢
  dsimp only at hinp
  rw [hout, List.nil_append, List.append_assoc] at hinp
  refine ⟨rfl, ?_⟩
  obtain ⟨fs1, hfs1⟩ := Node.put_some_of_get (resolve target) wr.fs _ (.dir kids) htgt
  have hcount := ser_kids_count [] kids
  simp only [Node.fits] at hfit_r
  obtain ⟨w1, h1, h2, h3, h4⟩ := recvKids_all target (resolve target) hnd kids [] (lit "END\n" ++ more)
    [] [] wr fs1 ((ser_kids [] kids).length - kidsCount kids + more.length + 4 + 1) hfr
    (by
      have := RelAt.root (cstr target)
      unfold resolve at this ⊢
      rwa [cstr_idem] at this)
    hwf hfit_r.2 hinp (by rw [List.append_nil]; exact htgt)
    (fun m hm => by simp [kidsGet] at hm) (by rw [List.append_nil, List.nil_append]; exact hfs1)
  have hfuel : wr.inp.length + 1 =
      (ser_kids [] kids).length - kidsCount kids + more.length + 4 + 1 + kidsCount kids := by
    rw [hinp]
    simp only [List.length_append]
    have : (lit "END\n").length = 4 := by decide
    omega
  refine ⟨{ w1 with inp := more }, ?_, rfl, ?_, ?_⟩
  · rw [receive_world_entries, hfuel, h1, receive_loop_end target more w1 _ h3]
  · rw [h4]; exact hfs1
  · rw [h4]; exact Node.get_put_self _ _ _ _ hfs1

theorem round_trip_entry_stream_witness :
    (send_directory_entries (lit "s")
        ⟨.dir [(lit "s", .dir [(lit "a", .file [0, 255]), (lit "d", .dir [(lit "b", .file [])])])],
          [], [], [], [], [], 0, []⟩).1 = .ok () ∧
    ∃ w1, receive_world_entries (lit "t")
        ⟨.dir [(lit "t", .dir [])],
          (send_directory_entries (lit "s")
            ⟨.dir [(lit "s",
                .dir [(lit "a", .file [0, 255]), (lit "d", .dir [(lit "b", .file [])])])],
              [], [], [], [], [], 0, []⟩).2.out ++ lit "END\n" ++ [],
          [], [], [], [], 0, []⟩ = (.ok (), w1) ∧ w1.inp = [] ∧
      (Node.dir [(lit "t", .dir [])]).put (resolve (lit "t"))
          (.dir [(lit "a", .file [0, 255]), (lit "d", .dir [(lit "b", .file [])])]) =
        some w1.fs ∧
      w1.fs.get (resolve (lit "t")) =
        some (.dir [(lit "a", .file [0, 255]), (lit "d", .dir [(lit "b", .file [])])]) :=
  round_trip_entry_stream (lit "s") (lit "t") []
    ⟨.dir [(lit "s", .dir [(lit "a", .file [0, 255]), (lit "d", .dir [(lit "b", .file [])])])],
      [], [], [], [], [], 0, []⟩
    ⟨.dir [(lit "t", .dir [])],
      (send_directory_entries (lit "s")
        ⟨.dir [(lit "s",
            .dir [(lit "a", .file [0, 255]), (lit "d", .dir [(lit "b", .file [])])])],
          [], [], [], [], [], 0, []⟩).2.out ++ lit "END\n" ++ [],
      [], [], [], [], 0, []⟩
    [(lit "a", .file [0, 255]), (lit "d", .dir [(lit "b", .file [])])]
    rfl rfl (by decide) (by decide)
    (by simp only [Node.fits, kidsFit]; decide)
    (by simp only [Node.fits, kidsFit]; decide)
    rfl (by decide) (by decide) rfl

/-- C1 (counterexample): the directory `s` holds one file named `a..b`, a
valid entry name that is not a `..` segment. `send_directory_entries`
emits its entry, and `receive_world_entries` on that stream followed by
`END` fails with `EINVAL` and leaves the empty target directory empty. -/
theorem round_trip_entry_stream_counterexample :
    kidsWf [(lit "a..b", .file [104, 105])] = true ∧
    (send_directory_entries (lit "s")
        ⟨.dir [(lit "s", .dir [(lit "a..b", .file [104, 105])])], [], [], [], [], [], 0,
          []⟩).1 = .ok () ∧
    (send_directory_entries (lit "s")
        ⟨.dir [(lit "s", .dir [(lit "a..b", .file [104, 105])])], [], [], [], [], [], 0,
          []⟩).2.out = lit "ENTRY 1 4 2\na..bhi" ∧
    (receive_world_entries (lit "t")
        ⟨.dir [(lit "t", .dir [])], lit "ENTRY 1 4 2\na..bhi" ++ lit "END\n",
          [], [], [], [], 0, []⟩).1 = .error .EINVAL ∧
    (receive_world_entries (lit "t")
        ⟨.dir [(lit "t", .dir [])], lit "ENTRY 1 4 2\na..bhi" ++ lit "END\n",
          [], [], [], [], 0, []⟩).2.fs = .dir [(lit "t", .dir [])] := by
  refine ⟨by decide, by rfl, by decide!, by rfl, by decide!⟩

/-! ### System calls seen from the directory they work in -/

theorem walk_split : ∀ (comps cur : List (List Byte)),
    [46, 46] ∉ comps → walk cur comps = cur ++ walk [] comps
  | [], cur, _ => by simp [walk]
  | x :: xs, cur, h => by
    have hx : x ≠ [46, 46] := fun e => h (by simp [e])
    have hxs : [46, 46] ∉ xs := fun e => h (by simp [e])
    simp only [walk]
    by_cases h1 : x = [] ∨ x = [46]
    · rw [if_pos h1, if_pos h1]
      exact walk_split xs cur hxs
    · rw [if_neg h1, if_neg h1, if_neg hx, if_neg hx, walk_split xs (cur ++ [x]) hxs,
        walk_split xs ([] ++ [x]) hxs]
      simp

theorem Node.put_under : ∀ (σ ρ : List (List Byte)) (fs X v fs1 : Node),
    fs.get σ = some X → fs.put (σ ++ ρ) v = some fs1 →
    ∃ X1, X.put ρ v = some X1 ∧ fs1.get σ = some X1
  | [], ρ, fs, X, v, fs1, hg, hp => by
    rw [Node.get_nil] at hg
    cases hg
    exact ⟨fs1, hp, Node.get_nil fs1⟩
  | c :: cs, ρ, .file _, X, v, fs1, hg, _ => by simp [Node.get] at hg
  | c :: cs, ρ, .dir kids, X, v, fs1, hg, hp => by
    simp only [Node.get] at hg
    simp only [List.cons_append, Node.put, List.append_eq] at hp
    cases hk : kidsGet c kids with
    | none => rw [hk] at hg; cases hg
    | some k =>
      rw [hk] at hg hp
      dsimp only at hg hp
      cases hkp : k.put (cs ++ ρ) v with
      | none => rw [hkp] at hp; cases hp
      | some k1 =>
        rw [hkp] at hp
        dsimp only at hp
        cases hp
        obtain ⟨X1, h1, h2⟩ := Node.put_under cs ρ k X v k1 hg hkp
        refine ⟨X1, h1, ?_⟩
        simp only [Node.get, kidsGet_kidsSet_self c k1 kids]
        exact h2

theorem sys_mkdir_sub (σ ρ : List (List Byte)) (X : Node) (path : List Byte) (w w1 : World)
    (r : Except Errno Unit) (hX : w.fs.get σ = some X) (hres : resolve path = σ ++ ρ)
    (h : sys_mkdir path w = (r, w1)) :
    w1.inp = w.inp ∧
    ((r = .ok () ∧ X.get ρ = none ∧
        ∃ X1, X.put ρ (.dir []) = some X1 ∧ w1.fs.get σ = some X1) ∨
     (∃ e, r = .error e ∧ w1.fs = w.fs ∧ (e = .EEXIST → (X.get ρ).isSome = true))) := by
  have hget : w.fs.get (resolve path) = X.get ρ := by rw [hres, Node.get_append, hX]
  rcases sys_mkdir_cases path w with ⟨fs1, hg, hp, he⟩ | ⟨e, he, hex⟩
  · rw [he] at h
    cases h
    refine ⟨rfl, Or.inl ⟨rfl, by rw [← hget]; exact hg, ?_⟩⟩
    rw [hres] at hp
    exact Node.put_under σ ρ w.fs X _ fs1 hX hp
  · rw [he] at h
    cases h
    refine ⟨rfl, Or.inr ⟨e, rfl, rfl, ?_⟩⟩
    intro hee
    obtain ⟨t, ht⟩ := hex hee
    rw [← hget, ht]
    rfl

theorem sys_mkdir_tolerant (σ ρ : List (List Byte)) (X : Node) (path : List Byte)
    (w w1 : World) (r : Except Errno Unit) (hX : w.fs.get σ = some X)
    (hres : resolve path = σ ++ ρ) (h : sys_mkdir path w = (r, w1))
    (hr : r = .ok () ∨ r = .error .EEXIST) :
    w1.inp = w.inp ∧ ∃ X1, X.withDir ρ = some X1 ∧ w1.fs.get σ = some X1 := by
  obtain ⟨hi, hc⟩ := sys_mkdir_sub σ ρ X path w w1 r hX hres h
  refine ⟨hi, ?_⟩
  rcases hc with ⟨_, hn, X1, hp, hg⟩ | ⟨e, he, hfs, hex⟩
  · exact ⟨X1, by simp only [Node.withDir, hn]; exact hp, hg⟩
  · have hee : e = .EEXIST := by
      rcases hr with hr | hr
      · rw [he] at hr; cases hr
      · rw [he] at hr; cases hr; rfl
    have hs := hex hee
    cases hg : X.get ρ with
    | none => rw [hg] at hs; cases hs
    | some t => exact ⟨X, by simp only [Node.withDir, hg], by rw [hfs]; exact hX⟩

theorem ensure_directory_sub (σ ρ : List (List Byte)) (X : Node) (path : List Byte)
    (w w1 : World) (hX : w.fs.get σ = some X) (hres : resolve path = σ ++ ρ)
    (h : ensure_directory path w = (.ok (), w1)) :
    w1.inp = w.inp ∧ ∃ X1, X.withDir ρ = some X1 ∧ w1.fs.get σ = some X1 := by
  unfold ensure_directory at h
  rcases hm : sys_mkdir path w with ⟨r, w2⟩
  rw [hm] at h
  cases r with
  | ok u =>
    dsimp only at h
    cases h
    exact sys_mkdir_tolerant σ ρ X path w w1 _ hX hres hm (Or.inl rfl)
  | error e =>
    dsimp only at h
    by_cases he : e = .EEXIST
    · rw [if_pos he] at h
      rw [he] at hm
      obtain ⟨hi, X1, h1, h2⟩ := sys_mkdir_tolerant σ ρ X path w w2 _ hX hres hm (Or.inr rfl)
      have hsw := sys_stat_world path w2
      rcases hs : sys_stat path w2 with ⟨r2, w3⟩
      rw [hs] at h hsw
      dsimp only at hsw h
      cases r2 with
      | error e2 => cases h
      | ok st =>
        dsimp only at h
        split at h
        · cases h
        · cases h
          subst hsw
          exact ⟨hi, X1, h1, h2⟩
    · rw [if_neg he] at h
      cases h

theorem sys_open_trunc_sub (σ ρ : List (List Byte)) (X : Node) (path : List Byte)
    (w w1 : World) (fd : List (List Byte)) (hX : w.fs.get σ = some X)
    (hres : resolve path = σ ++ ρ) (h : sys_open_trunc path w = (.ok fd, w1)) :
    fd = σ ++ ρ ∧ w1.inp = w.inp ∧
      ∃ X1, X.put ρ (.file []) = some X1 ∧ w1.fs.get σ = some X1 := by
  unfold sys_open_trunc at h
  rw [fault_eq] at h
  cases hb : w.faults.head?.getD false with
  | true => rw [hb] at h; cases h
  | false =>
    rw [hb] at h
    dsimp only at h
    split at h
    · cases h
    · split at h
      · cases h
      · split at h
        · split at h
          · rename_i fs1 hp
            cases h
            rw [hres] at hp
            exact ⟨hres, rfl, Node.put_under σ ρ w.fs X _ fs1 hX hp⟩
          · cases h
        · cases h
        · cases h

theorem sys_write_sub (σ ρ : List (List Byte)) (X : Node) (data : List Byte)
    (w w1 : World) (hX : w.fs.get σ = some X)
    (h : sys_write (σ ++ ρ) data w = (.ok (), w1)) :
    w1.inp = w.inp ∧ ∃ old X1, X.get ρ = some (.file old) ∧
      X.put ρ (.file (old ++ data)) = some X1 ∧ w1.fs.get σ = some X1 := by
  unfold sys_write at h
  rw [fault_eq] at h
  cases hb : w.faults.head?.getD false with
  | true => rw [hb] at h; cases h
  | false =>
    rw [hb] at h
    dsimp only at h
    split at h
    · rename_i old hg
      split at h
      · rename_i fs1 hp
        cases h
        rw [Node.get_append, hX] at hg
        obtain ⟨X1, h1, h2⟩ := Node.put_under σ ρ w.fs X _ fs1 hX hp
        exact ⟨rfl, old, X1, hg, h1, h2⟩
      · cases h
    · cases h

/-! ### Two materializations of the same bytes -/

theorem recv_file_loop_coupled (σA σB ρ : List (List Byte)) :
    ∀ (fuel remaining : Nat) (wA wB wA1 wB1 : World), Coupled σA σB wA wB →
      recv_file_loop fuel (σA ++ ρ) remaining wA = (.ok (), wA1) →
      recv_file_loop fuel (σB ++ ρ) remaining wB = (.ok (), wB1) →
      Coupled σA σB wA1 wB1 := by
  intro fuel
  induction fuel with
  | zero =>
    intro remaining wA wB wA1 wB1 hc hA hB
    simp only [recv_file_loop] at hA hB
    cases hA
    cases hB
    exact hc
  | succ fuel ih =>
    intro remaining wA wB wA1 wB1 hc hA hB
    simp only [recv_file_loop] at hA hB
    by_cases hr : remaining > 0
    · rw [if_pos hr] at hA hB
      obtain ⟨hi, X, hXA, hXB⟩ := hc
      generalize (if remaining < FILE_CHUNK_SIZE then remaining else FILE_CHUNK_SIZE) = c
        at hA hB
      rw [recv_all_eq] at hA hB
      by_cases hn : c ≤ wA.inp.length
      · rw [if_pos hn] at hA
        rw [if_pos (by rw [← hi]; exact hn)] at hB
        dsimp only at hA hB
        rcases hwA : sys_write (σA ++ ρ) (wA.inp.take c) { wA with inp := wA.inp.drop c } with
          ⟨rA, wA2⟩
        rcases hwB : sys_write (σB ++ ρ) (wB.inp.take c) { wB with inp := wB.inp.drop c } with
          ⟨rB, wB2⟩
        rw [hwA] at hA
        rw [hwB] at hB
        cases rA with
        | error e => cases hA
        | ok u =>
          cases rB with
          | error e => cases hB
          | ok v =>
            dsimp only at hA hB
            obtain ⟨a1, oldA, XA, a2, a3, a4⟩ := sys_write_sub σA ρ X _
              { wA with inp := wA.inp.drop c } wA2 hXA hwA
            obtain ⟨b1, oldB, XB, b2, b3, b4⟩ := sys_write_sub σB ρ X _
              { wB with inp := wB.inp.drop c } wB2 hXB hwB
            rw [a2] at b2
            cases b2
            rw [← hi, a3] at b3
            cases b3
            refine ih _ wA2 wB2 wA1 wB1 ⟨?_, XA, a4, b4⟩ hA hB
            rw [a1, b1]
            show wA.inp.drop _ = wB.inp.drop _
            rw [hi]
      · rw [if_neg hn] at hA
        cases hA
    · rw [if_neg hr] at hA hB
      cases hA
      cases hB
      exact hc

theorem ensure_parent_dirs_loop_coupled (σA σB : List (List Byte)) (bA bB : List Byte)
    (oA oB : Nat)
    (hb : ∀ j, bA.get? (oA + j) = bB.get? (oB + j) ∧
      ∃ ρ, resolve (bA.take (oA + j)) = σA ++ ρ ∧ resolve (bB.take (oB + j)) = σB ++ ρ) :
    ∀ (n j : Nat) (wA wB wA1 wB1 : World), Coupled σA σB wA wB →
      ensure_parent_dirs_loop bA n (oA + j) wA = (.ok (), wA1) →
      ensure_parent_dirs_loop bB n (oB + j) wB = (.ok (), wB1) →
      Coupled σA σB wA1 wB1 := by
  intro n
  induction n with
  | zero =>
    intro j wA wB wA1 wB1 hc hA hB
    simp only [ensure_parent_dirs_loop] at hA hB
    cases hA
    cases hB
    exact hc
  | succ n ih =>
    intro j wA wB wA1 wB1 hc hA hB
    simp only [ensure_parent_dirs_loop] at hA hB
    obtain ⟨hget, ρ, hrA, hrB⟩ := hb j
    by_cases hs : bA.get? (oA + j) = some 47
    · rw [if_pos hs] at hA
      rw [if_pos (by rw [← hget]; exact hs)] at hB
      obtain ⟨hi, X, hXA, hXB⟩ := hc
      rcases hmA : sys_mkdir (bA.take (oA + j)) wA with ⟨rA, wA2⟩
      rcases hmB : sys_mkdir (bB.take (oB + j)) wB with ⟨rB, wB2⟩
      rw [hmA] at hA
      rw [hmB] at hB
      have hokA : rA = .ok () ∨ rA = .error .EEXIST := by
        cases rA with
        | ok u => exact Or.inl rfl
        | error e =>
          dsimp only at hA
          by_cases he : e = .EEXIST
          · rw [he]; exact Or.inr rfl
          · rw [if_pos he] at hA; cases hA
      have hokB : rB = .ok () ∨ rB = .error .EEXIST := by
        cases rB with
        | ok u => exact Or.inl rfl
        | error e =>
          dsimp only at hB
          by_cases he : e = .EEXIST
          · rw [he]; exact Or.inr rfl
          · rw [if_pos he] at hB; cases hB
      obtain ⟨a1, XA, a2, a3⟩ := sys_mkdir_tolerant σA ρ X _ wA wA2 rA hXA hrA hmA hokA
      obtain ⟨b1, XB, b2, b3⟩ := sys_mkdir_tolerant σB ρ X _ wB wB2 rB hXB hrB hmB hokB
      rw [a2] at b2
      cases b2
      have hc2 : Coupled σA σB wA2 wB2 := ⟨by rw [a1, b1, hi], XA, a3, b3⟩
      have hA2 : ensure_parent_dirs_loop bA n (oA + (j + 1)) wA2 = (.ok (), wA1) := by
        cases rA with
        | ok u => exact hA
        | error e =>
          dsimp only at hA
          by_cases he : e = .EEXIST
          · rw [if_neg (not_not.2 he)] at hA; exact hA
          · rw [if_pos he] at hA; cases hA
      have hB2 : ensure_parent_dirs_loop bB n (oB + (j + 1)) wB2 = (.ok (), wB1) := by
        cases rB with
        | ok u => exact hB
        | error e =>
          dsimp only at hB
          by_cases he : e = .EEXIST
          · rw [if_neg (not_not.2 he)] at hB; exact hB
          · rw [if_pos he] at hB; cases hB
      exact ih (j + 1) wA2 wB2 wA1 wB1 hc2 hA2 hB2
    · rw [if_neg hs] at hA
      rw [if_neg (by rw [← hget]; exact hs)] at hB
      exact ih (j + 1) wA wB wA1 wB1 hc hA hB

theorem ensure_parent_dirs_loop_existing (buffer : List Byte) :
    ∀ (n i : Nat) (w w1 : World),
      (∀ j, i ≤ j → j < i + n → buffer.get? j = some 47 →
        (w.fs.get (resolve (buffer.take j))).isSome = true) →
      ensure_parent_dirs_loop buffer n i w = (.ok (), w1) → w1.fs = w.fs ∧ w1.inp = w.inp := by
  intro n
  induction n with
  | zero =>
    intro i w w1 _ h
    simp only [ensure_parent_dirs_loop] at h
    cases h
    exact ⟨rfl, rfl⟩
  | succ n ih =>
    intro i w w1 hex h
    simp only [ensure_parent_dirs_loop] at h
    by_cases hs : buffer.get? i = some 47
    · rw [if_pos hs] at h
      have hsome := hex i (Nat.le_refl _) (by omega) hs
      rcases sys_mkdir_cases (buffer.take i) w with ⟨fs1, hg, _, _⟩ | ⟨e, he, _⟩
      · rw [hg] at hsome
        cases hsome
      · rw [he] at h
        dsimp only at h
        by_cases hee : e = .EEXIST
        · rw [if_neg (not_not.2 hee)] at h
          obtain ⟨h1, h2⟩ := ih (i + 1) { w with faults := w.faults.tail } w1
            (fun j hj1 hj2 hj3 => hex j (by omega) (by omega) hj3) h
          exact ⟨h1, h2⟩
        · rw [if_pos hee] at h
          cases h
    · rw [if_neg hs] at h
      exact ih (i + 1) w w1 (fun j hj1 hj2 hj3 => hex j (by omega) (by omega) hj3) h

theorem ensure_parent_dirs_loop_split (buffer : List Byte) :
    ∀ (k m i : Nat) (w : World),
      ensure_parent_dirs_loop buffer (k + m) i w =
        match ensure_parent_dirs_loop buffer k i w with
        | (.ok _, w1) => ensure_parent_dirs_loop buffer m (i + k) w1
        | (.error e, w1) => (.error e, w1) := by
  intro k
  induction k with
  | zero =>
    intro m i w
    simp [ensure_parent_dirs_loop]
  | succ k ih =>
    intro m i w
    rw [show k + 1 + m = (k + m) + 1 by omega]
    simp only [ensure_parent_dirs_loop]
    have hi : i + (k + 1) = i + 1 + k := by omega
    by_cases hs : buffer.get? i = some 47
    · rw [if_pos hs, if_pos hs]
      rcases sys_mkdir (buffer.take i) w with ⟨r, w2⟩
      cases r with
      | ok u =>
        dsimp only
        rw [ih, hi]
      | error e =>
        dsimp only
        by_cases hee : e = .EEXIST
        · rw [if_neg (not_not.2 hee), if_neg (not_not.2 hee), ih, hi]
        · rw [if_pos hee, if_pos hee]
    · rw [if_neg hs, if_neg hs, ih, hi]

theorem resolve_cstr (t : List Byte) : resolve (cstr t) = resolve t := by
  unfold resolve
  rw [cstr_idem]

theorem joined_get (tc p : List Byte) (j : Nat) :
    (tc ++ 47 :: p).get? (1 + tc.length + j) = p.get? j := by
  rw [List.get?_eq_getElem?, List.get?_eq_getElem?,
    List.getElem?_append_right (by omega),
    show 1 + tc.length + j - tc.length = j + 1 by omega, List.getElem?_cons_succ]

theorem joined_take (tc p : List Byte) (j : Nat) :
    (tc ++ 47 :: p).take (1 + tc.length + j) = tc ++ 47 :: p.take j := by
  rw [show 1 + tc.length + j = tc.length + (j + 1) by omega, List.take_append]
  rfl

theorem joined_take_resolve (t p : List Byte) (j : Nat) (hp0 : 0 ∉ p)
    (hpd : ¬ [46, 46] <:+: p) :
    resolve ((cstr t ++ 47 :: p).take (1 + (cstr t).length + j)) =
      resolve t ++ walk [] (splitSlash (p.take j)) := by
  have h0 : 0 ∉ p.take j := fun h => hp0 (List.mem_of_mem_take h)
  have hd : ¬ [46, 46] <:+: p.take j := fun h =>
    hpd (h.trans (List.take_prefix j p).isInfix)
  have := resolve_join t (p.take j)
  rw [cstr_of_no_nul _ h0] at this
  rw [joined_take, this, walk_split _ _ (no_seg_of_not_within _ hd)]

theorem joined_existing (t p : List Byte) (fs : Node) (hnd : noDotDot t)
    (hex : (fs.get (resolve t)).isSome = true) :
    ∀ j, 1 ≤ j → j < 1 + (cstr t).length → (cstr t ++ 47 :: p).get? j = some 47 →
      (fs.get (resolve ((cstr t ++ 47 :: p).take j))).isSome = true := by
  intro j _ hj2 hj
  by_cases hlt : j < (cstr t).length
  · have hjt : (cstr t).get? j = some 47 := by
      rw [List.get?_eq_getElem?] at hj ⊢
      rwa [List.getElem?_append_left hlt] at hj
    rw [List.take_append_of_le_length (by omega)]
    have hpre := resolve_take_prefix (cstr t) j (cstr_no_nul t) hjt
      (fun hm => hnd (splitSlash_drop_subset _ j hjt _ hm))
    rw [resolve_cstr] at hpre
    exact Node.get_prefix_some _ _ fs hpre hex
  · have : j = (cstr t).length := by omega
    rw [this, List.take_left, resolve_cstr]
    exact hex

theorem ensure_parent_dirs_coupled (tA tB p : List Byte) (σA σB : List (List Byte))
    (hσA : resolve tA = σA) (hσB : resolve tB = σB) (hndA : noDotDot tA) (hndB : noDotDot tB)
    (hp0 : 0 ∉ p) (hpd : ¬ [46, 46] <:+: p) (wA wB wA1 wB1 : World)
    (hc : Coupled σA σB wA wB)
    (hA : ensure_parent_dirs (cstr tA ++ 47 :: p) wA = (.ok (), wA1))
    (hB : ensure_parent_dirs (cstr tB ++ 47 :: p) wB = (.ok (), wB1)) :
    Coupled σA σB wA1 wB1 := by
  have hfull : ∀ t : List Byte, cstr (cstr t ++ 47 :: p) = cstr t ++ 47 :: p := by
    intro t
    apply cstr_of_no_nul
    intro h
    rcases List.mem_append.1 h with h | h
    · exact cstr_no_nul t h
    · rcases List.mem_cons.1 h with h | h
      · cases h
      · exact hp0 h
  have hlen : ∀ t : List Byte, strlen (cstr t ++ 47 :: p) - 1 = (cstr t).length + p.length := by
    intro t
    simp only [strlen, hfull, List.length_append, List.length_cons]
    omega
  obtain ⟨hi, X, hXA, hXB⟩ := hc
  unfold ensure_parent_dirs at hA hB
  split at hA
  · cases hA
  split at hB
  · cases hB
  rw [hfull, hlen, ensure_parent_dirs_loop_split] at hA hB
  rcases h1A : ensure_parent_dirs_loop (cstr tA ++ 47 :: p) (cstr tA).length 1 wA with ⟨rA, wA2⟩
  rcases h1B : ensure_parent_dirs_loop (cstr tB ++ 47 :: p) (cstr tB).length 1 wB with ⟨rB, wB2⟩
  rw [h1A] at hA
  rw [h1B] at hB
  cases rA with
  | error e => cases hA
  | ok u =>
    cases rB with
    | error e => cases hB
    | ok v =>
      dsimp only at hA hB
      obtain ⟨a1, a2⟩ := ensure_parent_dirs_loop_existing _ _ 1 wA wA2
        (joined_existing tA p wA.fs hndA (by rw [hσA, hXA]; rfl)) h1A
      obtain ⟨b1, b2⟩ := ensure_parent_dirs_loop_existing _ _ 1 wB wB2
        (joined_existing tB p wB.fs hndB (by rw [hσB, hXB]; rfl)) h1B
      have hc2 : Coupled σA σB wA2 wB2 :=
        ⟨by rw [a2, b2, hi], X, by rw [a1]; exact hXA, by rw [b1]; exact hXB⟩
      refine ensure_parent_dirs_loop_coupled σA σB _ _ (1 + (cstr tA).length)
        (1 + (cstr tB).length) ?_ p.length 0 wA2 wB2 wA1 wB1 hc2 hA hB
      intro j
      refine ⟨by rw [joined_get, joined_get], walk [] (splitSlash (p.take j)), ?_, ?_⟩
      · rw [joined_take_resolve tA p j hp0 hpd, hσA]
      · rw [joined_take_resolve tB p j hp0 hpd, hσB]

/-- What a round of the entry loop that does not fail has done. -/
theorem receive_entry_inv (t line : List Byte) (w w1 : World)
    (x : Option (Except Errno Unit)) (h : receive_entry t line w = (x, w1))
    (hx : ∀ e, x ≠ some (.error e)) :
    (strcmp_eq line (lit "END") = true ∧ x = some (.ok ()) ∧ w1 = w) ∨
    (strcmp_eq line (lit "END") = false ∧ x = none ∧
      ∃ (type : Int) (path_len size : Nat) (wm : World) (pb : List Byte) (w2 : World),
        sscanf_entry line = some (type, path_len, size) ∧
        sys_malloc (path_len + 1) w = (.ok (), wm) ∧
        recv_all path_len wm = (.ok pb, w2) ∧ strstr pb (lit "..") = false ∧
        ((type = 2 ∧ ensure_directory (cstr t ++ 47 :: cstr pb) w2 = (.ok (), w1)) ∨
         (type = 1 ∧ ∃ w3 w4 fd,
            ensure_parent_dirs (cstr t ++ 47 :: cstr pb) w2 = (.ok (), w3) ∧
            sys_open_trunc (cstr t ++ 47 :: cstr pb) w3 = (.ok fd, w4) ∧
            recv_file_loop (w4.inp.length + 1) fd size w4 = (.ok (), w1)))) := by
  unfold receive_entry at h
  cases hend : strcmp_eq line (lit "END") with
  | true =>
    rw [hend] at h
    simp only [if_true] at h
    cases h
    exact Or.inl ⟨rfl, rfl, rfl⟩
  | false =>
    rw [hend] at h
    simp only [Bool.false_eq_true, if_false] at h
    right
    cases hs : sscanf_entry line with
    | none =>
      rw [hs] at h
      cases h
      exact absurd rfl (hx _)
    | some tps =>
      obtain ⟨type, path_len, size⟩ := tps
      rw [hs] at h
      dsimp only at h
      split at h
      · cases h
        exact absurd rfl (hx _)
      rcases hm : sys_malloc (path_len + 1) w with ⟨rm, wm⟩
      rw [hm] at h
      cases rm with
      | error e => cases h; exact absurd rfl (hx _)
      | ok u =>
        dsimp only at h
        rcases hr : recv_all path_len wm with ⟨rr, w2⟩
        rw [hr] at h
        cases rr with
        | error e => cases h; exact absurd rfl (hx _)
        | ok pb =>
          dsimp only at h
          cases hstr : strstr pb (lit "..") with
          | true =>
            rw [hstr] at h
            simp only [if_true] at h
            cases h
            exact absurd rfl (hx _)
          | false =>
            rw [hstr] at h
            simp only [Bool.false_eq_true, if_false] at h
            by_cases hlen : (cstr t ++ 47 :: cstr pb).length ≥ PATH_MAX
            · have hj : join_paths t pb PATH_MAX = .error .ENAMETOOLONG := by
                unfold join_paths
                rw [if_pos hlen]
              rw [hj] at h
              cases h
              exact absurd rfl (hx _)
            have hj : join_paths t pb PATH_MAX = .ok (cstr t ++ 47 :: cstr pb) := by
              unfold join_paths
              rw [if_neg hlen]
            rw [hj] at h
            dsimp only at h
            by_cases h2 : type = 2
            · rw [if_pos h2] at h
              rcases hd : ensure_directory (cstr t ++ 47 :: cstr pb) w2 with ⟨rd, w3⟩
              rw [hd] at h
              cases rd with
              | error e => cases h; exact absurd rfl (hx _)
              | ok u2 =>
                cases h
                exact ⟨rfl, rfl, type, path_len, size, wm, pb, w2, rfl, hm, hr, hstr,
                  Or.inl ⟨h2, hd⟩⟩
            · rw [if_neg h2] at h
              by_cases h1 : type = 1
              · rw [if_pos h1] at h
                rcases hp : ensure_parent_dirs (cstr t ++ 47 :: cstr pb) w2 with ⟨rp, w3⟩
                rw [hp] at h
                cases rp with
                | error e => cases h; exact absurd rfl (hx _)
                | ok u2 =>
                  dsimp only at h
                  rcases ho : sys_open_trunc (cstr t ++ 47 :: cstr pb) w3 with ⟨ro, w4⟩
                  rw [ho] at h
                  cases ro with
                  | error e => cases h; exact absurd rfl (hx _)
                  | ok fd =>
                    dsimp only at h
                    rcases hl : recv_file_loop (w4.inp.length + 1) fd size w4 with ⟨rl, w5⟩
                    rw [hl] at h
                    cases rl with
                    | error e => cases h; exact absurd rfl (hx _)
                    | ok u3 =>
                      cases h
                      exact ⟨rfl, rfl, type, path_len, size, wm, pb, w2, rfl, hm, hr, hstr,
                        Or.inr ⟨h1, w3, w4, fd, hp, ho, hl⟩⟩
              · rw [if_neg h1] at h
                cases h
                exact absurd rfl (hx _)

theorem recv_all_inv (n : Nat) (w w2 : World) (pb : List Byte)
    (h : recv_all n w = (.ok pb, w2)) :
    pb = w.inp.take n ∧ w2 = { w with inp := w.inp.drop n } := by
  rw [recv_all_eq] at h
  split at h
  · cases h
    exact ⟨rfl, rfl⟩
  · cases h

theorem sys_malloc_inv (n : Nat) (w w1 : World) (r : Except Errno Unit)
    (h : sys_malloc n w = (r, w1)) : w1.fs = w.fs ∧ w1.inp = w.inp := by
  obtain ⟨a, ha⟩ := sys_malloc_world n w
  rw [h] at ha
  dsimp only at ha
  rw [ha]
  exact ⟨rfl, rfl⟩

theorem resolve_joined (t pb : List Byte) (hpd : ¬ [46, 46] <:+: cstr pb) :
    resolve (cstr t ++ 47 :: cstr pb) = resolve t ++ walk [] (splitSlash (cstr pb)) := by
  rw [resolve_join, walk_split _ _ (no_seg_of_not_within _ hpd)]

theorem receive_entry_coupled (tA tB line : List Byte) (σA σB : List (List Byte))
    (hσA : resolve tA = σA) (hσB : resolve tB = σB) (hndA : noDotDot tA) (hndB : noDotDot tB)
    (wA wB wA1 wB1 : World) (xA xB : Option (Except Errno Unit))
    (hc : Coupled σA σB wA wB)
    (hA : receive_entry tA line wA = (xA, wA1)) (hB : receive_entry tB line wB = (xB, wB1))
    (hxA : ∀ e, xA ≠ some (.error e)) (hxB : ∀ e, xB ≠ some (.error e)) :
    xA = xB ∧ Coupled σA σB wA1 wB1 := by
  rcases receive_entry_inv tA line wA wA1 xA hA hxA with
    ⟨a1, a2, a3⟩ | ⟨a1, a2, typeA, plA, szA, wmA, pbA, w2A, a3, a4, a5, a6, a7⟩
  · rcases receive_entry_inv tB line wB wB1 xB hB hxB with
      ⟨b1, b2, b3⟩ | ⟨b1, _⟩
    · rw [a2, b2, a3, b3]
      exact ⟨rfl, hc⟩
    · rw [a1] at b1
      cases b1
  · rcases receive_entry_inv tB line wB wB1 xB hB hxB with
      ⟨b1, _⟩ | ⟨b1, b2, typeB, plB, szB, wmB, pbB, w2B, b3, b4, b5, b6, b7⟩
    · rw [a1] at b1
      cases b1
    · refine ⟨by rw [a2, b2], ?_⟩
      rw [a3] at b3
      cases b3
      obtain ⟨hi, X, hXA, hXB⟩ := hc
      obtain ⟨m1, m2⟩ := sys_malloc_inv _ wA wmA _ a4
      obtain ⟨n1, n2⟩ := sys_malloc_inv _ wB wmB _ b4
      obtain ⟨r1, r2⟩ := recv_all_inv _ wmA w2A pbA a5
      obtain ⟨s1, s2⟩ := recv_all_inv _ wmB w2B pbB b5
      have hpb : pbB = pbA := by rw [r1, s1, m2, n2, hi]
      subst hpb
      have hc2 : Coupled σA σB w2A w2B := by
        rw [r2, s2]
        refine ⟨?_, X, ?_, ?_⟩
        · show wmA.inp.drop _ = wmB.inp.drop _
          rw [m2, n2, hi]
        · show wmA.fs.get σA = some X
          rw [m1]; exact hXA
        · show wmB.fs.get σB = some X
          rw [n1]; exact hXB
      have hpd : ¬ [46, 46] <:+: cstr pbB := by
        intro hin
        have := (strstr_dotdot_iff pbB).2 hin
        rw [a6] at this
        cases this
      have hrA := resolve_joined tA pbB hpd
      have hrB := resolve_joined tB pbB hpd
      rw [hσA] at hrA
      rw [hσB] at hrB
      obtain ⟨hi2, X2, hX2A, hX2B⟩ := hc2
      rcases a7 with ⟨ta, da⟩ | ⟨ta, w3A, w4A, fdA, pa, oa, la⟩
      · rcases b7 with ⟨_, db⟩ | ⟨tb, _⟩
        · obtain ⟨e1, XA, e2, e3⟩ := ensure_directory_sub σA _ X2 _ w2A wA1 hX2A hrA da
          obtain ⟨f1, XB, f2, f3⟩ := ensure_directory_sub σB _ X2 _ w2B wB1 hX2B hrB db
          rw [e2] at f2
          cases f2
          exact ⟨by rw [e1, f1, hi2], XA, e3, f3⟩
        · rw [ta] at tb
          cases tb
      · rcases b7 with ⟨tb, _⟩ | ⟨_, w3B, w4B, fdB, pb, ob, lb⟩
        · rw [ta] at tb
          cases tb
        · have hc3 := ensure_parent_dirs_coupled tA tB (cstr pbB) σA σB hσA hσB hndA hndB
            (cstr_no_nul pbB) hpd w2A w2B w3A w3B ⟨hi2, X2, hX2A, hX2B⟩ pa pb
          obtain ⟨hi3, X3, hX3A, hX3B⟩ := hc3
          obtain ⟨e0, e1, XA, e2, e3⟩ := sys_open_trunc_sub σA _ X3 _ w3A w4A fdA hX3A hrA oa
          obtain ⟨f0, f1, XB, f2, f3⟩ := sys_open_trunc_sub σB _ X3 _ w3B w4B fdB hX3B hrB ob
          rw [e2] at f2
          cases f2
          have hi4 : w4A.inp = w4B.inp := by rw [e1, f1, hi3]
          rw [e0] at la
          rw [f0, ← hi4] at lb
          exact recv_file_loop_coupled σA σB _ _ _ w4A w4B wA1 wB1 ⟨hi4, XA, e3, f3⟩ la lb

theorem recv_line_inv (n : Nat) (w w1 : World) (r : Except Errno (List Byte))
    (h : recv_line n w = (r, w1)) : w1.fs = w.fs := by
  have := recv_line_fs n w
  rw [h] at this
  exact this

theorem recv_line_loop_inp : ∀ (room : Nat) (buf : List Byte) (wA wB : World),
    wA.inp = wB.inp →
    (recv_line_loop room buf wA).1 = (recv_line_loop room buf wB).1 ∧
    (recv_line_loop room buf wA).2.inp = (recv_line_loop room buf wB).2.inp := by
  intro room
  induction room with
  | zero => intro buf wA wB hi; exact ⟨rfl, hi⟩
  | succ r ih =>
    intro buf wA wB hi
    simp only [recv_line_loop, recv]
    rw [← hi]
    cases hA : wA.inp with
    | nil => exact ⟨rfl, rfl⟩
    | cons c cs =>
      simp only [List.take_succ_cons, List.take_zero, List.drop_succ_cons, List.drop_zero]
      by_cases hc : c = 10
      · simp [hc]
      · simp only [hc, if_false]
        exact ih (buf ++ [c]) { wA with inp := cs } { wB with inp := cs } rfl

theorem recv_line_inp (n : Nat) (wA wB : World) (hi : wA.inp = wB.inp) :
    (recv_line n wA).1 = (recv_line n wB).1 ∧
    (recv_line n wA).2.inp = (recv_line n wB).2.inp :=
  recv_line_loop_inp _ _ wA wB hi

theorem receive_loop_coupled (tA tB : List Byte) (σA σB : List (List Byte))
    (hσA : resolve tA = σA) (hσB : resolve tB = σB) (hndA : noDotDot tA)
    (hndB : noDotDot tB) :
    ∀ (fuel : Nat) (wA wB wA1 wB1 : World), Coupled σA σB wA wB →
      receive_loop fuel tA wA = (.ok (), wA1) → receive_loop fuel tB wB = (.ok (), wB1) →
      Coupled σA σB wA1 wB1 := by
  intro fuel
  induction fuel with
  | zero =>
    intro wA wB wA1 wB1 _ hA _
    simp only [receive_loop] at hA
    cases hA
  | succ fuel ih =>
    intro wA wB wA1 wB1 hc hA hB
    simp only [receive_loop] at hA hB
    obtain ⟨hi, X, hXA, hXB⟩ := hc
    rcases hlA : recv_line MCSYNC_MAX_LINE wA with ⟨rA, wA2⟩
    rcases hlB : recv_line MCSYNC_MAX_LINE wB with ⟨rB, wB2⟩
    have hfA := recv_line_inv _ _ _ _ hlA
    have hfB := recv_line_inv _ _ _ _ hlB
    obtain ⟨l1, l2⟩ := recv_line_inp MCSYNC_MAX_LINE wA wB hi
    rw [hlA, hlB] at l1 l2
    dsimp only at l1 l2
    rw [hlA] at hA
    rw [hlB] at hB
    subst l1
    cases rA with
    | error e => cases hA
    | ok line =>
      dsimp only at hA hB
      rcases heA : receive_entry tA line wA2 with ⟨xA, wA3⟩
      rcases heB : receive_entry tB line wB2 with ⟨xB, wB3⟩
      rw [heA] at hA
      rw [heB] at hB
      have hxA : ∀ e, xA ≠ some (.error e) := by
        intro e hx
        rw [hx] at hA
        cases hA
      have hxB : ∀ e, xB ≠ some (.error e) := by
        intro e hx
        rw [hx] at hB
        cases hB
      obtain ⟨hxx, hc3⟩ := receive_entry_coupled tA tB line σA σB hσA hσB hndA hndB wA2 wB2
        wA3 wB3 xA xB ⟨l2, X, by rw [hfA]; exact hXA, by rw [hfB]; exact hXB⟩ heA heB hxA hxB
      subst hxx
      cases xA with
      | some r =>
        dsimp only at hA hB
        cases hA
        cases hB
        exact hc3
      | none =>
        dsimp only at hA hB
        exact ih wA3 wB3 wA1 wB1 hc3 hA hB

/-! ### What a successful removal and a successful `rename` leave -/

theorem kidsGet_kidsDel_self (c : List Byte) :
    ∀ kids, kidsWf kids = true → kidsGet c (kidsDel c kids) = none
  | [], _ => by simp [kidsDel, kidsGet]
  | (n, k) :: rest, hw => by
    obtain ⟨_, h2, _, h4⟩ := (kidsWf_cons n k rest).1 hw
    by_cases hn : n = c
    · simp only [kidsDel, hn, if_true]
      rw [← hn]
      exact h2
    · simp only [kidsDel, hn, if_false, kidsGet]
      exact kidsGet_kidsDel_self c rest h4

theorem Node.get_del_self : ∀ (p : List (List Byte)) (fs fs1 : Node),
    fs.wf = true → fs.del p = some fs1 → fs1.get p = none
  | [], fs, fs1, _, h => by cases fs <;> simp [Node.del] at h
  | c :: cs, .file _, fs1, _, h => by simp [Node.del] at h
  | c :: cs, .dir kids, fs1, hw, h => by
    simp only [Node.del] at h
    rw [Node.wf_dir] at hw
    cases hk : kidsGet c kids with
    | none => rw [hk] at h; cases h
    | some k =>
      rw [hk] at h
      dsimp only at h
      by_cases hcs : cs = []
      · rw [if_pos hcs] at h
        cases h
        simp only [Node.get, kidsGet_kidsDel_self c kids hw]
      · rw [if_neg hcs] at h
        cases hd : k.del cs with
        | none => rw [hd] at h; cases h
        | some k1 =>
          rw [hd] at h
          cases h
          simp only [Node.get, kidsGet_kidsSet_self]
          exact Node.get_del_self cs k k1 (kidsWf_get kids c k hw hk).1 hd

theorem sys_stat_inv (path : List Byte) (w w1 : World) (r : Except Errno Stat)
    (h : sys_stat path w = (r, w1)) :
    w1.fs = w.fs ∧ w1.inp = w.inp ∧
    (∀ st, r = .ok st → ∃ node, w.fs.get (resolve path) = some node ∧ st.is_dir = node.isDir) ∧
    (r = .error .ENOENT → w.fs.get (resolve path) = none) := by
  unfold sys_stat at h
  rw [fault_eq] at h
  cases hb : w.faults.head?.getD false with
  | true =>
    rw [hb] at h
    cases h
    exact ⟨rfl, rfl, fun st hst => (by cases hst), fun he => (by cases he)⟩
  | false =>
    rw [hb] at h
    dsimp only at h
    split at h
    · cases h
      exact ⟨rfl, rfl, fun st hst => (by cases hst), fun he => (by cases he)⟩
    · split at h
      · rename_i kids hg
        cases h
        exact ⟨rfl, rfl, fun st hst => (by cases hst; exact ⟨_, hg, rfl⟩), fun he => (by cases he)⟩
      · rename_i data hg
        cases h
        exact ⟨rfl, rfl, fun st hst => (by cases hst; exact ⟨_, hg, rfl⟩), fun he => (by cases he)⟩
      · rename_i hg
        cases h
        exact ⟨rfl, rfl, fun st hst => (by cases hst), fun _ => hg⟩

theorem sys_rmdir_inv (path : List Byte) (w w1 : World)
    (h : sys_rmdir path w = (.ok (), w1)) :
    w1.inp = w.inp ∧ w.fs.del (resolve path) = some w1.fs ∧
    (splitSlash (cstr path)).getLast? ≠ some [46] := by
  unfold sys_rmdir at h
  rw [fault_eq] at h
  cases hb : w.faults.head?.getD false with
  | true => rw [hb] at h; cases h
  | false =>
    rw [hb] at h
    dsimp only at h
    split at h
    · cases h
    · split at h
      · cases h
      · rename_i hdot
        split at h
        · split at h
          · rename_i fs1 hd
            cases h
            exact ⟨rfl, hd, hdot⟩
          · cases h
        · cases h
        · cases h
        · cases h

theorem sys_unlink_inv (path : List Byte) (w w1 : World)
    (h : sys_unlink path w = (.ok (), w1)) :
    w1.inp = w.inp ∧ w.fs.del (resolve path) = some w1.fs := by
  unfold sys_unlink at h
  rw [fault_eq] at h
  cases hb : w.faults.head?.getD false with
  | true => rw [hb] at h; cases h
  | false =>
    rw [hb] at h
    dsimp only at h
    split at h
    · cases h
    · split at h
      · split at h
        · rename_i fs1 hd
          cases h
          exact ⟨rfl, hd⟩
        · cases h
      · cases h
      · cases h

/-- A removal that reports success leaves nothing at the path. -/
theorem remove_rec_gone (depth : Nat) (path : List Byte) (w w1 : World)
    (hwf : w.fs.wf = true) (h : remove_rec depth path w = (.ok (), w1)) :
    w1.fs.get (resolve path) = none := by
  cases depth with
  | zero => simp only [remove_rec] at h; cases h
  | succ d =>
    simp only [remove_rec] at h
    rcases hst : sys_stat path w with ⟨r, w2⟩
    obtain ⟨s1, _, s3, s4⟩ := sys_stat_inv path w w2 r hst
    rw [hst] at h
    have k1 : Kept (resolve path) w.fs w2.fs := by
      rw [s1]; exact Kept.refl _ _ hwf
    cases r with
    | error e =>
      dsimp only at h
      by_cases he : e = .ENOENT
      · rw [if_pos he] at h
        cases h
        rw [s1]
        exact s4 (by rw [he])
      · rw [if_neg he] at h
        cases h
    | ok st =>
      dsimp only at h
      split at h
      · have ho := sys_opendir_fs path w2
        rcases hop : sys_opendir path w2 with ⟨r2, w3⟩
        rw [hop] at ho h
        dsimp only at ho
        have k2 : Kept (resolve path) w.fs w3.fs := ho ▸ k1
        cases r2 with
        | error e => cases h
        | ok entries =>
          dsimp only at h
          obtain ⟨_, kids, hg, hent⟩ := sys_opendir_entries path w2 w3 entries hop
          have hkw : kidsWf kids = true := by
            have := Node.wf_get _ _ _ k1.1 hg
            rwa [Node.wf_dir] at this
          have hall : ∀ e ∈ entries, e = [46] ∨ e = [46, 46] ∨ validName e = true := by
            intro e he
            rw [hent] at he
            rcases List.mem_cons.1 he with he | he
            · exact Or.inl he
            · rcases List.mem_cons.1 he with he | he
              · exact Or.inr (Or.inl he)
              · obtain ⟨x, hx, rfl⟩ := List.mem_map.1 he
                exact Or.inr (Or.inr ((kidsWf_names kids hkw).1 x hx))
          have hc := remove_children_kept (resolve path) w.fs (remove_rec d) path
            (List.prefix_refl _)
            (fun child w hch hk => remove_rec_kept _ _ d child w hch hk) entries w3 hall k2
          rcases hrc : remove_children (remove_rec d) path entries w3 with ⟨r3, w4⟩
          rw [hrc] at hc h
          cases r3 with
          | error e => cases h
          | ok u =>
            dsimp only at h hc
            obtain ⟨_, hd, _⟩ := sys_rmdir_inv path w4 w1 h
            exact Node.get_del_self _ _ _ hc.1 hd
      · obtain ⟨_, hd⟩ := sys_unlink_inv path w2 w1 h
        exact Node.get_del_self _ _ _ k1.1 hd

theorem remove_recursive_gone (path : List Byte) (w w1 : World)
    (hwf : w.fs.wf = true) (h : remove_recursive path w = (.ok (), w1)) :
    w1.fs.get (resolve path) = none :=
  remove_rec_gone _ path w w1 hwf h

/-- The directory itself cannot be removed under the name `.`: a removal of
an existing directory through such a path never reports success. -/
theorem remove_rec_dot (depth : Nat) (path : List Byte) (w w1 : World)
    (kids : List (List Byte × Node))
    (hdot : (splitSlash (cstr path)).getLast? = some [46])
    (hg : w.fs.get (resolve path) = some (.dir kids)) :
    remove_rec depth path w ≠ (.ok (), w1) := by
  intro h
  cases depth with
  | zero => simp only [remove_rec] at h; cases h
  | succ d =>
    simp only [remove_rec] at h
    rcases hst : sys_stat path w with ⟨r, w2⟩
    obtain ⟨s1, _, s3, s4⟩ := sys_stat_inv path w w2 r hst
    rw [hst] at h
    cases r with
    | error e =>
      dsimp only at h
      by_cases he : e = .ENOENT
      · have := s4 (by rw [he])
        rw [hg] at this
        cases this
      · rw [if_neg he] at h
        cases h
    | ok st =>
      dsimp only at h
      obtain ⟨node, hn, hdir⟩ := s3 st rfl
      rw [hg] at hn
      cases hn
      have hd : st.is_dir = true := hdir
      rw [hd] at h
      simp only [if_true] at h
      rcases hop : sys_opendir path w2 with ⟨r2, w3⟩
      rw [hop] at h
      cases r2 with
      | error e => cases h
      | ok entries =>
        dsimp only at h
        rcases hrc : remove_children (remove_rec d) path entries w3 with ⟨r3, w4⟩
        rw [hrc] at h
        cases r3 with
        | error e => cases h
        | ok u =>
          dsimp only at h
          exact (sys_rmdir_inv path w4 w1 h).2.2 hdot

/-- A successful `rename` between two entries of one directory. -/
theorem sys_rename_inv (src dst : List Byte) (w w1 : World) (π : List (List Byte))
    (a b : List Byte) (hs : resolve src = π ++ [a]) (hd : resolve dst = π ++ [b])
    (hab : a ≠ b) (hwf : w.fs.wf = true) (h : sys_rename src dst w = (.ok (), w1)) :
    ∃ node, w.fs.get (π ++ [a]) = some node ∧ w1.fs.get (π ++ [b]) = some node ∧
      w1.fs.get (π ++ [a]) = none ∧ w1.fs.wf = true ∧
      ∀ q, Indep (π ++ [a]) q → Indep (π ++ [b]) q → w1.fs.get q = w.fs.get q := by
  have hne : π ++ [a] ≠ π ++ [b] := by
    intro e
    have := List.append_cancel_left e
    simp only [List.cons.injEq, and_true] at this
    exact hab this
  unfold sys_rename at h
  rw [fault_eq] at h
  cases hb : w.faults.head?.getD false with
  | true => rw [hb] at h; cases h
  | false =>
    rw [hb] at h
    dsimp only at h
    split at h
    · cases h
    · rw [hs, hd] at h
      cases hg : w.fs.get (π ++ [a]) with
      | none => rw [hg] at h; cases h
      | some node =>
        rw [hg] at h
        dsimp only at h
        rw [if_neg hne] at h
        split at h
        · cases h
        · split at h
          · cases h
          · have hmove : rename_move (π ++ [a]) (π ++ [b]) node
                { w with faults := w.faults.tail } = (.ok (), w1) := by
              split at h
              · cases h
              · cases h
              · cases h
              · exact h
            unfold rename_move at hmove
            dsimp only at hmove
            cases hdel : w.fs.del (π ++ [a]) with
            | none => rw [hdel] at hmove; cases hmove
            | some fs1 =>
              rw [hdel] at hmove
              dsimp only at hmove
              split at hmove
              · cases hput : fs1.put (π ++ [b]) node with
                | none => rw [hput] at hmove; cases hmove
                | some fs2 =>
                  rw [hput] at hmove
                  cases hmove
                  have hv : ∀ c ∈ π ++ [b], validName c = true := by
                    rw [← hd]; exact resolve_valid dst
                  have hwf1 : fs1.wf = true := Node.wf_del _ _ _ hwf hdel
                  refine ⟨node, rfl, Node.get_put_self _ _ _ _ hput, ?_,
                    Node.wf_put _ _ _ _ hwf1 (Node.wf_get _ _ _ hwf hg) hv hput, ?_⟩
                  · show fs2.get (π ++ [a]) = none
                    rw [Node.get_put_indep _ _ _ _ _ hput (Indep.siblings π b a (Ne.symm hab))]
                    exact Node.get_del_self _ _ _ hwf hdel
                  · intro q hqa hqb
                    show fs2.get q = w.fs.get q
                    rw [Node.get_put_indep _ _ _ _ _ hput hqb,
                      Node.get_del_indep _ _ _ _ hdel hqa]
              · cases hmove
              · cases hmove

theorem sys_mkdtemp_inp (t : List Byte) (w : World) : (sys_mkdtemp t w).2.inp = w.inp := by
  unfold sys_mkdtemp
  rw [fault_eq]
  cases w.faults.head?.getD false with
  | true => rfl
  | false =>
    dsimp only
    split
    · rfl
    · split
      · rfl
      · rcases mkdir_at_cases
          ((cstr t).take ((cstr t).length - 6) ++ w.tmpSuffix)
          { w with faults := w.faults.tail } with ⟨fs1, _, _, he⟩ | ⟨e, he, _⟩
        · rw [he]
        · rw [he]

/-! ### A push that is answered with `OK` and `DONE` -/

theorem neg_one_ne_zero (a b : World) : ((-1 : Int), a) ≠ (0, b) := by
  intro h
  have := congrArg Prod.fst h
  simp at this

theorem ret_send_error_out (m : String) (w w1 : World) (r : Int)
    (hm : (lit "ERR " ++ lit m ++ [10]).length < MCSYNC_MAX_LINE)
    (h : ret (send_error m w) = (r, w1)) :
    w1.out = w.out ++ (lit "ERR " ++ lit m ++ [10]) := by
  rw [send_error_eq m w hm] at h
  unfold ret at h
  cases h
  rfl

/-- The steps of a push that the server answers with `OK` and `DONE`. -/
theorem handle_push_ok_inv (storage line name rest : List Byte) (w w1 : World)
    (hline : sscanf_word_lu "PUSH" line = some name.length) (hvalid : IsWorldName name)
    (hinp : w.inp = name ++ rest)
    (h : handle_push storage line w = (0, w1)) (hout : w1.out = w.out ++ lit "OK\nDONE\n") :
    ∃ (wn w2 w3 w4 w5 w6 : World) (tmp : List Byte),
      wn.fs = w.fs ∧ wn.inp = rest ∧
      ensure_directory storage wn = (.ok (), w2) ∧
      sys_mkdtemp (tmp_template storage name) w2 = (.ok tmp, w3) ∧
      receive_world_entries tmp w3 = (.ok (), w4) ∧
      remove_recursive (cstr storage ++ 47 :: name) w4 = (.ok (), w5) ∧
      sys_rename tmp (cstr storage ++ 47 :: name) w5 = (.ok (), w6) ∧
      w1.fs = w6.fs := by
  have hcn : cstr name = name := cstr_of_no_nul name (worldName_no_nul name hvalid)
  unfold handle_push at h
  rw [hline] at h
  dsimp only at h
  by_cases hlen : name.length = 0 ∨ name.length ≥ PATH_MAX
  · rw [if_pos hlen] at h
    have := ret_send_error_out "InvalidName" w w1 0 (by decide) h
    rw [hout] at this
    have := List.append_cancel_left this
    exact absurd this (by decide)
  rw [if_neg hlen] at h
  obtain ⟨al, hal⟩ := sys_malloc_world (name.length + 1) w
  rcases hm : sys_malloc (name.length + 1) w with ⟨rm, wm⟩
  rw [hm] at h hal
  dsimp only at hal
  cases rm with
  | error e =>
    dsimp only at h
    have := ret_send_error_out "OutOfMemory" wm w1 0 (by decide) h
    rw [hout, hal] at this
    have := List.append_cancel_left this
    exact absurd this (by decide)
  | ok u =>
    dsimp only at h
    rw [recv_all_ok name rest wm (by rw [hal]; exact hinp)] at h
    dsimp only at h
    have hsan : ¬ sanitize_name name < 0 := by
      rw [sanitize_name_neg_iff, hcn]
      exact fun hh => hh hvalid
    rw [if_neg hsan] at h
    unfold push_store at h
    rw [send_fmt_short _ _ (by decide)] at h
    dsimp only at h
    split at h
    · exact absurd h (neg_one_ne_zero _ _)
    rcases hd : ensure_directory storage
      { wm with inp := rest, out := wm.out ++ lit "OK\n" } with ⟨rd, w2⟩
    rw [hd] at h
    cases rd with
    | error e => exact absurd h (neg_one_ne_zero _ _)
    | ok u2 =>
      dsimp only at h
      rcases ht : sys_mkdtemp (tmp_template storage name) w2 with ⟨rt, w3⟩
      rw [ht] at h
      cases rt with
      | error e => exact absurd h (neg_one_ne_zero _ _)
      | ok tmp =>
        dsimp only at h
        rcases hr : receive_world_entries tmp w3 with ⟨rr, w4⟩
        rw [hr] at h
        cases rr with
        | error e => exact absurd h (neg_one_ne_zero _ _)
        | ok u3 =>
          dsimp only at h
          unfold push_activate at h
          unfold join_paths at h
          rw [hcn] at h
          by_cases hj : (cstr storage ++ 47 :: name).length ≥ PATH_MAX
          · rw [if_pos hj] at h
            exact absurd h (neg_one_ne_zero _ _)
          rw [if_neg hj] at h
          dsimp only at h
          rcases hrm : remove_recursive (cstr storage ++ 47 :: name) w4 with ⟨r5, w5⟩
          rw [hrm] at h
          cases r5 with
          | error e => exact absurd h (neg_one_ne_zero _ _)
          | ok u4 =>
            dsimp only at h
            rcases hrn : sys_rename tmp (cstr storage ++ 47 :: name) w5 with ⟨r6, w6⟩
            rw [hrn] at h
            cases r6 with
            | error e => exact absurd h (neg_one_ne_zero _ _)
            | ok u5 =>
              dsimp only at h
              rw [send_fmt_short _ _ (by decide)] at h
              dsimp only at h
              cases h
              refine ⟨_, w2, w3, w4, w5, w6, tmp, ?_, ?_, hd, ht, hr, hrm, hrn, rfl⟩
              · show wm.fs = w.fs
                rw [hal]
              · rfl

theorem Node.get_strict_prefix_dir (q : List (List Byte)) (c : List Byte)
    (r : List (List Byte)) (fs : Node) (h : (fs.get (q ++ c :: r)).isSome = true) :
    ∃ kids, fs.get q = some (.dir kids) := by
  rw [Node.get_append] at h
  cases hg : fs.get q with
  | none => rw [hg] at h; cases h
  | some t =>
    rw [hg] at h
    cases t with
    | file d => simp [Node.get] at h
    | dir kids => exact ⟨kids, rfl⟩

theorem Node.get_none_append (p r : List (List Byte)) (fs : Node) (h : fs.get p = none) :
    fs.get (p ++ r) = none := by
  rw [Node.get_append, h]

/-- What the steps of an answered push establish. -/
theorem push_steps (storage name : List Byte) (wn w2 w3 w4 w5 w6 : World) (tmp : List Byte)
    (hwf : wn.fs.wf = true) (hnd : noDotDot storage) (hvalid : IsWorldName name)
    (e1 : ensure_directory storage wn = (.ok (), w2))
    (e2 : sys_mkdtemp (tmp_template storage name) w2 = (.ok tmp, w3))
    (e3 : receive_world_entries tmp w3 = (.ok (), w4))
    (e4 : remove_recursive (cstr storage ++ 47 :: name) w4 = (.ok (), w5))
    (e5 : sys_rename tmp (cstr storage ++ 47 :: name) w5 = (.ok (), w6)) :
    validName name = true ∧
    ∃ (stage : List Byte) (M : Node), validName stage = true ∧ stage ≠ name ∧
      resolve tmp = resolve storage ++ [stage] ∧ noDotDot tmp ∧
      w3.inp = wn.inp ∧ (w2.fs = wn.fs ∨ wn.fs.get (resolve storage) = none) ∧
      w2.fs.get (resolve storage ++ [stage]) = none ∧
      w3.fs.get (resolve storage ++ [stage]) = some (.dir []) ∧
      w4.fs.get (resolve storage ++ [stage]) = some M ∧
      w6.fs.get (resolve storage ++ [name]) = some M ∧
      w6.fs.get (resolve storage ++ [stage]) = none ∧ w6.fs.wf = true ∧
      ∀ q, Indep (resolve storage ++ [stage]) q → Indep (resolve storage ++ [name]) q →
        w6.fs.get q = w2.fs.get q := by
  have h0 := worldName_no_nul name hvalid
  -- the staging directory
  rcases sys_mkdtemp_cases storage name w2 h0 with ⟨e, wx, hx, _⟩ | ⟨wx, hx, hsuf, hnone, hput⟩
  · rw [hx] at e2
    cases e2
  rw [hx] at e2
  cases e2
  have hsv := stage_valid name w2.tmpSuffix hvalid hsuf
  have hrt := resolve_join_valid storage _ hsv
  rw [hrt] at hnone hput
  have hndt := noDotDot_stage storage _ hnd hsv
  -- the storage directory
  have hk := ensure_directory_keeps storage name wn hwf
  rw [e1] at hk
  have hwf2 : w2.fs.wf = true := hk.1
  have hinp2 : w2.inp = wn.inp := by
    obtain ⟨hi, _⟩ := ensure_directory_sub [] (resolve storage) wn.fs storage wn w2
      (Node.get_nil _) (by simp) e1
    exact hi
  have hinp3 : w3.inp = wn.inp := by
    have := sys_mkdtemp_inp (tmp_template storage name) w2
    rw [hx] at this
    rw [← hinp2]
    exact this
  have hfs2 : w2.fs = wn.fs ∨ wn.fs.get (resolve storage) = none := by
    rcases ensure_directory_ok storage wn w2 e1 with ⟨h, _⟩ | ⟨h, _⟩
    · exact Or.inl h
    · exact Or.inr h
  -- the materialization
  have hv3 : ∀ c ∈ resolve storage ++ [46 :: (name ++ lit ".tmp" ++ w2.tmpSuffix)],
      validName c = true := by
    rw [← hrt]; exact resolve_valid _
  have hwf3 : w3.fs.wf = true := Node.wf_put _ _ _ _ hwf2 Node.wf_empty hv3 hput
  have hg3 := Node.get_put_self _ _ _ _ hput
  have hst := receive_loop_staged _ w3.fs _ hrt hndt (w3.inp.length + 1) w3
    ⟨Kept.refl _ _ hwf3, by rw [hg3]; rfl⟩
  unfold receive_world_entries at e3
  rw [e3] at hst
  obtain ⟨⟨hwf4, hk4⟩, hsome4⟩ := hst
  dsimp only at hwf4 hk4 hsome4
  obtain ⟨M, hM⟩ := Option.isSome_iff_exists.1 hsome4
  -- the name is not `.`
  have hdot : name ≠ [46] := by
    intro hn
    obtain ⟨kids, hkids⟩ := Node.get_strict_prefix_dir _ _ [] w4.fs hsome4
    have hres : resolve (cstr storage ++ 47 :: name) = resolve storage := by
      have := resolve_join storage name
      rw [cstr_of_no_nul name h0] at this
      rw [this, hn]
      simp [splitSlash, walk]
    have hc : cstr (cstr storage ++ 47 :: name) = cstr storage ++ 47 :: name := by
      have := cstr_join storage name
      rwa [cstr_of_no_nul name h0] at this
    have hlast : (splitSlash (cstr (cstr storage ++ 47 :: name))).getLast? = some [46] := by
      rw [hc, splitSlash_append, hn]
      simp [splitSlash]
    exact remove_rec_dot _ _ w4 w5 kids hlast (by rw [hres]; exact hkids) e4
  have hnv := worldName_valid name hvalid hdot
  have hrn := resolve_join_valid storage name hnv
  have hne := stage_ne_name name w2.tmpSuffix
  -- the removal of the old tree
  have hk5 := remove_recursive_kept (resolve storage ++ [name]) w4.fs _ w4
    (by rw [hrn]) (Kept.refl _ _ hwf4)
  rw [e4] at hk5
  obtain ⟨hwf5, hk5⟩ := hk5
  dsimp only at hwf5 hk5
  have hg5 : w5.fs.get (resolve storage ++ [46 :: (name ++ lit ".tmp" ++ w2.tmpSuffix)]) =
      some M := by
    rw [hk5 _ (Indep.siblings _ _ _ (Ne.symm hne))]
    exact hM
  -- the activation
  obtain ⟨node, r1, r2, r3, r4, r5⟩ := sys_rename_inv _ _ w5 w6 (resolve storage) _ name
    hrt hrn hne hwf5 e5
  rw [hg5] at r1
  cases r1
  refine ⟨hnv, _, M, hsv, hne, hrt, hndt, hinp3, hfs2, hnone, hg3, hM, r2, r3, r4, ?_⟩
  intro q hq1 hq2
  rw [r5 q hq1 hq2, hk5 q hq2, hk4 q hq1]
  exact Node.get_put_indep _ _ _ _ _ hput hq1

/-! ### Push idempotence -/

theorem pair_of_fst {α β : Type} (p : α × β) (a : α) (h : p.1 = a) : p = (a, p.2) := by
  cases p
  cases h
  rfl

theorem prefix_of_sibling (π q : List (List Byte)) (x : List Byte)
    (h1 : ¬ (π ++ [x]) <+: q) (h3 : ¬ q <+: π) : Indep (π ++ [x]) q := by
  refine ⟨h1, ?_⟩
  intro h
  rcases List.prefix_concat_iff.1 h with h | h
  · exact h1 (h ▸ List.prefix_refl _)
  · exact h3 h

theorem dir_above (π q : List (List Byte)) (x : List Byte) (fs : Node)
    (hq : q <+: π) (h : (fs.get (π ++ [x])).isSome = true) :
    ∃ kids, fs.get q = some (.dir kids) := by
  obtain ⟨r, rfl⟩ := hq
  cases r with
  | nil =>
    rw [List.append_nil] at h
    exact Node.get_strict_prefix_dir q x [] fs h
  | cons c cs =>
    rw [List.append_assoc, List.cons_append] at h
    exact Node.get_strict_prefix_dir q c (cs ++ [x]) fs h

/-- C8: push idempotence. The storage directory path has no `..` segment
and the file system is well formed. A push of the valid world name `name`
with the entry bytes `rest` is answered with `OK` and `DONE` and leaves the
state `w1`; a second push of the same name with the same bytes, started in
any state `v` that has the file system of `w1`, is answered with `OK` and
`DONE` too and leaves `w2`. Then a look at any location shows the same in
`w2` as in `w1`: the same worlds, and in every world the same directories
and the same files with the same bytes. -/
theorem push_idempotent (storage line name rest : List Byte) (w w1 v w2 : World)
    (hwf : w.fs.wf = true) (hnd : noDotDot storage)
    (hline : sscanf_word_lu "PUSH" line = some name.length) (hvalid : IsWorldName name)
    (hinp : w.inp = name ++ rest)
    (h1 : handle_push storage line w = (0, w1)) (hout1 : w1.out = w.out ++ lit "OK\nDONE\n")
    (hv : v.fs = w1.fs) (hvinp : v.inp = name ++ rest)
    (h2 : handle_push storage line v = (0, w2)) (hout2 : w2.out = v.out ++ lit "OK\nDONE\n") :
    ∀ q, look w2.fs q = look w1.fs q := by
  obtain ⟨an, a2, a3, a4, a5, a6, tA, af, ai, ae1, ae2, ae3, ae4, ae5, afin⟩ :=
    handle_push_ok_inv storage line name rest w w1 hline hvalid hinp h1 hout1
  obtain ⟨bn, b2, b3, b4, b5, b6, tB, bf, bi, be1, be2, be3, be4, be5, bfin⟩ :=
    handle_push_ok_inv storage line name rest v w2 hline hvalid hvinp h2 hout2
  obtain ⟨_, sA, MA, _, _, A3, A4, A5, _, _, A8, A9, A10, _, A12, _⟩ :=
    push_steps storage name an a2 a3 a4 a5 a6 tA (by rw [af]; exact hwf) hnd hvalid
      ae1 ae2 ae3 ae4 ae5
  have hwf1 : w1.fs.wf = true := by rw [afin]; exact A12
  obtain ⟨_, sB, MB, _, _, B3, B4, B5, B6, B7, B8, B9, B10, B11, _, B13⟩ :=
    push_steps storage name bn b2 b3 b4 b5 b6 tB (by rw [bf, hv]; exact hwf1) hnd hvalid
      be1 be2 be3 be4 be5
  have hn1 : w1.fs.get (resolve storage ++ [name]) = some MA := by rw [afin]; exact A10
  have hS : (w1.fs.get (resolve storage)).isSome = true :=
    Node.get_prefix_some _ _ _ (List.prefix_append _ _) (by rw [hn1]; rfl)
  have hb2 : b2.fs = w1.fs := by
    rcases B6 with h | h
    · rw [h, bf, hv]
    · rw [bf, hv] at h
      rw [h] at hS
      cases hS
  have hM : MB = MA := by
    have hc : Coupled (resolve storage ++ [sA]) (resolve storage ++ [sB]) a3 b3 :=
      ⟨by rw [A5, B5, ai, bi], .dir [], A8, B8⟩
    unfold receive_world_entries at ae3 be3
    have hfuel : b3.inp.length = a3.inp.length := by rw [A5, B5, ai, bi]
    rw [hfuel] at be3
    obtain ⟨_, X, hXA, hXB⟩ := receive_loop_coupled tA tB _ _ A3 B3 A4 B4 _ a3 b3 a4 b4 hc
      ae3 be3
    rw [A9] at hXA
    rw [B9] at hXB
    cases hXA
    cases hXB
    rfl
  subst hM
  intro q
  unfold look
  by_cases hq1 : (resolve storage ++ [name]) <+: q
  · obtain ⟨r, rfl⟩ := hq1
    rw [Node.get_append _ _ w2.fs, Node.get_append _ _ w1.fs, hn1, bfin, B10]
  · by_cases hq2 : (resolve storage ++ [sB]) <+: q
    · obtain ⟨r, rfl⟩ := hq2
      have hb : w1.fs.get (resolve storage ++ [sB]) = none := by rw [← hb2]; exact B7
      rw [Node.get_none_append _ _ _ hb, bfin, Node.get_none_append _ _ _ B11]
    · by_cases hq3 : q <+: resolve storage
      · obtain ⟨k1, hk1⟩ := dir_above _ q name w1.fs hq3 (by rw [hn1]; rfl)
        obtain ⟨k2, hk2⟩ := dir_above _ q name w2.fs hq3 (by rw [bfin, B10]; rfl)
        rw [hk1, hk2]
      · rw [bfin, B13 q (prefix_of_sibling _ q sB hq2 hq3)
          (prefix_of_sibling _ q name hq1 hq3), hb2]

theorem push_idempotent_witness :
    look (handle_push (lit "store") (lit "PUSH 1")
        ⟨(handle_push (lit "store") (lit "PUSH 1")
            ⟨.dir [(lit "store", .dir [(lit "w", .dir [(lit "a", .file (lit "old"))])])],
              lit "w" ++ lit "ENTRY 2 1 0\ndENTRY 1 3 2\nd/fhiEND\n", [], [], lit "AbC123",
              [], 0, []⟩).2.fs,
          lit "w" ++ lit "ENTRY 2 1 0\ndENTRY 1 3 2\nd/fhiEND\n", [], [], lit "zzzzzz",
          [], 0, []⟩).2.fs [lit "store", lit "w", lit "d", lit "f"] =
      look (handle_push (lit "store") (lit "PUSH 1")
        ⟨.dir [(lit "store", .dir [(lit "w", .dir [(lit "a", .file (lit "old"))])])],
          lit "w" ++ lit "ENTRY 2 1 0\ndENTRY 1 3 2\nd/fhiEND\n", [], [], lit "AbC123",
          [], 0, []⟩).2.fs [lit "store", lit "w", lit "d", lit "f"] :=
  push_idempotent (lit "store") (lit "PUSH 1") (lit "w")
    (lit "ENTRY 2 1 0\ndENTRY 1 3 2\nd/fhiEND\n")
    ⟨.dir [(lit "store", .dir [(lit "w", .dir [(lit "a", .file (lit "old"))])])],
      lit "w" ++ lit "ENTRY 2 1 0\ndENTRY 1 3 2\nd/fhiEND\n", [], [], lit "AbC123",
      [], 0, []⟩
    (handle_push (lit "store") (lit "PUSH 1")
      ⟨.dir [(lit "store", .dir [(lit "w", .dir [(lit "a", .file (lit "old"))])])],
        lit "w" ++ lit "ENTRY 2 1 0\ndENTRY 1 3 2\nd/fhiEND\n", [], [], lit "AbC123",
        [], 0, []⟩).2
    ⟨(handle_push (lit "store") (lit "PUSH 1")
        ⟨.dir [(lit "store", .dir [(lit "w", .dir [(lit "a", .file (lit "old"))])])],
          lit "w" ++ lit "ENTRY 2 1 0\ndENTRY 1 3 2\nd/fhiEND\n", [], [], lit "AbC123",
          [], 0, []⟩).2.fs,
      lit "w" ++ lit "ENTRY 2 1 0\ndENTRY 1 3 2\nd/fhiEND\n", [], [], lit "zzzzzz",
      [], 0, []⟩
    (handle_push (lit "store") (lit "PUSH 1")
      ⟨(handle_push (lit "store") (lit "PUSH 1")
          ⟨.dir [(lit "store", .dir [(lit "w", .dir [(lit "a", .file (lit "old"))])])],
            lit "w" ++ lit "ENTRY 2 1 0\ndENTRY 1 3 2\nd/fhiEND\n", [], [], lit "AbC123",
            [], 0, []⟩).2.fs,
        lit "w" ++ lit "ENTRY 2 1 0\ndENTRY 1 3 2\nd/fhiEND\n", [], [], lit "zzzzzz",
        [], 0, []⟩).2
    (by decide) (by decide) (by decide) (by decide) rfl
    (pair_of_fst _ 0 (by decide!)) (by decide!) (by dsimp only) rfl
    (pair_of_fst _ 0 (by decide!)) (by decide!) [lit "store", lit "w", lit "d", lit "f"]

/-! ### `recv_line` in closed form -/

theorem recv_line_loop_eq : ∀ (room : Nat) (buf : List Byte) (w : World),
    recv_line_loop room buf w =
      if (w.inp.takeWhile (fun c => decide (c ≠ 10))).length < room then
        if (w.inp.takeWhile (fun c => decide (c ≠ 10))).length < w.inp.length then
          (.ok (buf ++ w.inp.takeWhile (fun c => decide (c ≠ 10))),
            { w with inp := w.inp.drop ((w.inp.takeWhile (fun c => decide (c ≠ 10))).length + 1) })
        else (.error .ECONNRESET, { w with inp := [] })
      else (.error .EMSGSIZE, { w with inp := w.inp.drop room }) := by
  intro room
  induction room with
  | zero =>
    intro buf w
    simp [recv_line_loop]
  | succ r ih =>
    intro buf w
    obtain ⟨fs, inp, out, faults, tmp, allocs, conns, created⟩ := w
    cases inp with
    | nil => simp [recv_line_loop, recv]
    | cons c cs =>
      by_cases hc : c = 10
      · simp [recv_line_loop, recv, hc]
      · have := ih (buf ++ [c]) ⟨fs, cs, out, faults, tmp, allocs, conns, created⟩
        simp only [recv_line_loop, recv, List.take_succ_cons, List.take_zero,
          List.drop_succ_cons, List.drop_zero, hc, if_false, this]
        have hne : c ≠ 10 := hc
        simp only [List.takeWhile_cons, decide_eq_true_eq, hc, not_false_eq_true, decide_True,
          if_true, List.length_cons, Nat.add_lt_add_iff_right, List.append_assoc,
          List.singleton_append, List.drop_succ_cons, ne_eq, if_pos hne]

/-- C15: `recv_line` framing. With `l` the bytes of the stream before its
first newline (all of it when there is none): when `l` is shorter than
`max_len - 1` and a newline follows, `recv_line` succeeds, the buffer holds
exactly `l` and exactly `l` and the newline are consumed; when `l` is
shorter than `max_len - 1` and the stream ends without a newline, it fails
with a connection error; otherwise `max_len - 1` bytes have accumulated
without a newline and it fails with `EMSGSIZE`. -/
theorem recv_line_framing (max_len : Nat) (w : World) :
    recv_line max_len w =
      if (w.inp.takeWhile (fun c => decide (c ≠ 10))).length < max_len - 1 then
        if (w.inp.takeWhile (fun c => decide (c ≠ 10))).length < w.inp.length then
          (.ok (w.inp.takeWhile (fun c => decide (c ≠ 10))),
            { w with inp := w.inp.drop ((w.inp.takeWhile (fun c => decide (c ≠ 10))).length + 1) })
        else (.error .ECONNRESET, { w with inp := [] })
      else (.error .EMSGSIZE, { w with inp := w.inp.drop (max_len - 1) }) := by
  rw [recv_line, recv_line_loop_eq]
  rfl

/-! ### What the materializer takes from the connection -/

theorem sys_mkdir_inp (path : List Byte) (w : World) : (sys_mkdir path w).2.inp = w.inp := by
  rcases sys_mkdir_cases path w with ⟨fs1, _, _, he⟩ | ⟨e, he, _⟩ <;> rw [he]

theorem sys_stat_inp (path : List Byte) (w : World) : (sys_stat path w).2.inp = w.inp := by
  rw [sys_stat_world]

theorem ensure_directory_inp (path : List Byte) (w : World) :
    (ensure_directory path w).2.inp = w.inp := by
  unfold ensure_directory
  have hm := sys_mkdir_inp path w
  rcases hmk : sys_mkdir path w with ⟨r, w1⟩
  rw [hmk] at hm
  cases r with
  | ok u => exact hm
  | error e =>
    dsimp only
    split
    · have hs := sys_stat_inp path w1
      rcases hst : sys_stat path w1 with ⟨r2, w2⟩
      rw [hst] at hs
      cases r2 with
      | error e2 => exact hs.trans hm
      | ok st =>
        dsimp only
        split <;> exact hs.trans hm
    · exact hm

theorem ensure_parent_dirs_loop_inp (buffer : List Byte) : ∀ (n i : Nat) (w : World),
    (ensure_parent_dirs_loop buffer n i w).2.inp = w.inp := by
  intro n
  induction n with
  | zero => intro i w; rfl
  | succ n ih =>
    intro i w
    simp only [ensure_parent_dirs_loop]
    split
    · have hm := sys_mkdir_inp (buffer.take i) w
      rcases hmk : sys_mkdir (buffer.take i) w with ⟨r, w1⟩
      rw [hmk] at hm
      cases r with
      | ok u => exact (ih (i + 1) w1).trans hm
      | error e =>
        dsimp only
        split
        · exact hm
        · exact (ih (i + 1) w1).trans hm
    · exact ih (i + 1) w

theorem ensure_parent_dirs_inp (path : List Byte) (w : World) :
    (ensure_parent_dirs path w).2.inp = w.inp := by
  unfold ensure_parent_dirs
  split
  · rfl
  · exact ensure_parent_dirs_loop_inp _ _ _ w

theorem sys_open_trunc_inp (path : List Byte) (w : World) :
    (sys_open_trunc path w).2.inp = w.inp := by
  unfold sys_open_trunc
  rw [fault_eq]
  cases w.faults.head?.getD false with
  | true => rfl
  | false =>
    dsimp only
    repeat' split
    all_goals rfl

theorem sys_write_inp (fd : List (List Byte)) (data : List Byte) (w : World) :
    (sys_write fd data w).2.inp = w.inp := by
  unfold sys_write
  rw [fault_eq]
  cases w.faults.head?.getD false with
  | true => rfl
  | false =>
    dsimp only
    repeat' split
    all_goals rfl

theorem recv_all_suffix (n : Nat) (w : World) : (recv_all n w).2.inp <:+ w.inp := by
  rw [recv_all_eq]
  split
  · exact List.drop_suffix _ _
  · exact List.nil_suffix

theorem recv_file_loop_suffix : ∀ (fuel : Nat) (fd : List (List Byte)) (remaining : Nat)
    (w : World), (recv_file_loop fuel fd remaining w).2.inp <:+ w.inp := by
  intro fuel
  induction fuel with
  | zero => intro fd remaining w; exact List.suffix_refl _
  | succ fuel ih =>
    intro fd remaining w
    simp only [recv_file_loop]
    split
    · generalize (if remaining < FILE_CHUNK_SIZE then remaining else FILE_CHUNK_SIZE) = c
      have hr := recv_all_suffix c w
      rcases hra : recv_all c w with ⟨r, w1⟩
      rw [hra] at hr
      cases r with
      | error e => exact hr
      | ok buffer =>
        dsimp only
        have hw := sys_write_inp fd buffer w1
        rcases hwr : sys_write fd buffer w1 with ⟨r2, w2⟩
        rw [hwr] at hw
        dsimp only at hw hr
        cases r2 with
        | error e => dsimp only; rw [hw]; exact hr
        | ok u =>
          dsimp only
          exact (ih fd _ w2).trans (hw ▸ hr)
    · exact List.suffix_refl _

theorem receive_entry_none_suffix (t line : List Byte) (w w1 : World)
    (h : receive_entry t line w = (none, w1)) : w1.inp <:+ w.inp := by
  rcases receive_entry_inv t line w w1 none h (fun e he => by cases he) with
    ⟨_, hx, _⟩ | ⟨_, _, type, pl, sz, wm, pb, w2, _, a4, a5, _, a7⟩
  · cases hx
  · obtain ⟨_, m2⟩ := sys_malloc_inv _ w wm _ a4
    obtain ⟨_, r2⟩ := recv_all_inv _ wm w2 pb a5
    have h2 : w2.inp <:+ w.inp := by
      rw [r2, ← m2]
      exact List.drop_suffix _ _
    rcases a7 with ⟨_, da⟩ | ⟨_, w3, w4, fd, pa, oa, la⟩
    · have := ensure_directory_inp (cstr t ++ 47 :: cstr pb) w2
      rw [da] at this
      dsimp only at this
      rw [this]
      exact h2
    · have h3 := ensure_parent_dirs_inp (cstr t ++ 47 :: cstr pb) w2
      rw [pa] at h3
      have h4 := sys_open_trunc_inp (cstr t ++ 47 :: cstr pb) w3
      rw [oa] at h4
      have h5 := recv_file_loop_suffix (w4.inp.length + 1) fd sz w4
      rw [la] at h5
      dsimp only at h3 h4 h5
      rw [h4, h3] at h5
      exact h5.trans h2

theorem takeWhile_newline : ∀ (inp : List Byte),
    (inp.takeWhile (fun c => decide (c ≠ 10))).length < inp.length →
    inp = inp.takeWhile (fun c => decide (c ≠ 10)) ++
      10 :: inp.drop ((inp.takeWhile (fun c => decide (c ≠ 10))).length + 1)
  | [], h => by simp at h
  | c :: cs, h => by
    by_cases hc : c = 10
    · simp [hc]
    · have hne : c ≠ 10 := hc
      simp only [List.takeWhile_cons, decide_eq_true_eq, ne_eq, hc, not_false_eq_true,
        decide_True, if_true, List.length_cons, Nat.add_lt_add_iff_right, List.cons_append,
        List.drop_succ_cons, List.cons.injEq, true_and] at h ⊢
      exact takeWhile_newline cs h

theorem recv_line_ok_inv (n : Nat) (w w1 : World) (line : List Byte)
    (h : recv_line n w = (.ok line, w1)) :
    w.inp = line ++ 10 :: w1.inp ∧ 10 ∉ line ∧ w1 = { w with inp := w1.inp } := by
  rw [recv_line, recv_line_loop_eq, List.nil_append] at h
  split at h
  · split at h
    · rename_i _ hlt
      cases h
      refine ⟨takeWhile_newline w.inp hlt, ?_, rfl⟩
      intro hm
      have := List.mem_takeWhile_imp hm
      simp at this
    · cases h
  · cases h

/-- A materialization that returns success has read a line whose C string
is `END` last. -/
theorem receive_loop_ok_end (t : List Byte) : ∀ (fuel : Nat) (w w1 : World),
    receive_loop fuel t w = (.ok (), w1) →
    ∃ pre l, w.inp = pre ++ l ++ 10 :: w1.inp ∧ cstr l = lit "END" ∧ 10 ∉ l := by
  intro fuel
  induction fuel with
  | zero =>
    intro w w1 h
    simp only [receive_loop] at h
    cases h
  | succ fuel ih =>
    intro w w1 h
    simp only [receive_loop] at h
    rcases hl : recv_line MCSYNC_MAX_LINE w with ⟨r, w2⟩
    rw [hl] at h
    cases r with
    | error e => cases h
    | ok line =>
      dsimp only at h
      obtain ⟨hi, hn, _⟩ := recv_line_ok_inv _ w w2 line hl
      rcases he : receive_entry t line w2 with ⟨x, w3⟩
      rw [he] at h
      cases x with
      | some r =>
        dsimp only at h
        cases h
        rcases receive_entry_inv t line w2 w1 _ he (fun e he2 => by cases he2) with
          ⟨a1, _, a3⟩ | ⟨_, hx, _⟩
        · refine ⟨[], line, ?_, (strcmp_eq_iff line _ (by decide)).1 a1, hn⟩
          rw [a3, List.nil_append]
          exact hi
        · cases hx
      | none =>
        dsimp only at h
        obtain ⟨pre, l, h1, h2, h3⟩ := ih w3 w1 h
        obtain ⟨c, hc⟩ := receive_entry_none_suffix t line w2 w3 he
        refine ⟨line ++ 10 :: c ++ pre, l, ?_, h2, h3⟩
        rw [hi, ← hc, h1]
        simp

/-! ### Entry lines -/

theorem sscanf_entry_end (line : List Byte) (h : cstr line = lit "END") :
    sscanf_entry line = none := by
  unfold sscanf_entry
  rw [h]
  rfl

/-- C11 (amended): entry-line grammar. In every round of the loop of
`receive_world_entries`, for a complete line shorter than the line buffer:
when the C string of the line is `END` the function returns success; when
it is not and the scan `ENTRY %d %lu %llu` does not convert three numbers,
the function fails with `EPROTO`; in both cases nothing but the line has
been taken from the connection and the file system is untouched. In every
other case the round goes on with the parsed entry. And whenever
`receive_world_entries` returns success, the last line it has read is one
whose C string is `END`. -/
theorem entry_line_grammar (target line rest : List Byte) (w w0 w1 : World) (fuel : Nat)
    (hl : 10 ∉ line) (hlen : line.length + 1 < MCSYNC_MAX_LINE)
    (hinp : w.inp = line ++ 10 :: rest)
    (hok : receive_world_entries target w0 = (.ok (), w1)) :
    (receive_loop (fuel + 1) target w =
      if cstr line = lit "END" then (.ok (), { w with inp := rest })
      else if sscanf_entry line = none then (.error .EPROTO, { w with inp := rest })
      else
        match receive_entry target line { w with inp := rest } with
        | (some r, w2) => (r, w2)
        | (none, w2) => receive_loop fuel target w2) ∧
    ∃ pre l, w0.inp = pre ++ l ++ 10 :: w1.inp ∧ cstr l = lit "END" ∧ 10 ∉ l := by
  refine ⟨?_, receive_loop_ok_end target _ w0 w1 hok⟩
  rw [receive_loop, recv_line_ok line rest w hl hlen hinp]
  dsimp only
  by_cases hend : cstr line = lit "END"
  · rw [if_pos hend]
    have : strcmp_eq line (lit "END") = true := (strcmp_eq_iff line _ (by decide)).2 hend
    simp only [receive_entry, this, if_true]
  · rw [if_neg hend]
    by_cases hs : sscanf_entry line = none
    · rw [if_pos hs]
      have : strcmp_eq line (lit "END") = false := by
        cases hc : strcmp_eq line (lit "END") with
        | false => rfl
        | true => exact absurd ((strcmp_eq_iff line _ (by decide)).1 hc) hend
      simp only [receive_entry, this, hs, Bool.false_eq_true, if_false]
    · rw [if_neg hs]

theorem entry_line_grammar_witness :
    (receive_loop (0 + 1) (lit "t")
        ⟨.dir [(lit "t", .dir [])], lit "ENTRY 1 2" ++ 10 :: lit "abc", [], [], [], [], 0, []⟩ =
      if cstr (lit "ENTRY 1 2") = lit "END" then
        (.ok (), ⟨.dir [(lit "t", .dir [])], lit "abc", [], [], [], [], 0, []⟩)
      else if sscanf_entry (lit "ENTRY 1 2") = none then
        (.error .EPROTO, ⟨.dir [(lit "t", .dir [])], lit "abc", [], [], [], [], 0, []⟩)
      else
        match receive_entry (lit "t") (lit "ENTRY 1 2")
          ⟨.dir [(lit "t", .dir [])], lit "abc", [], [], [], [], 0, []⟩ with
        | (some r, w2) => (r, w2)
        | (none, w2) => receive_loop 0 (lit "t") w2) ∧
    ∃ pre l, lit "ENTRY 2 1 0\ndEND\nx" = pre ++ l ++ 10 :: lit "x" ∧ cstr l = lit "END" ∧
      10 ∉ l :=
  entry_line_grammar (lit "t") (lit "ENTRY 1 2") (lit "abc")
    ⟨.dir [(lit "t", .dir [])], lit "ENTRY 1 2" ++ 10 :: lit "abc", [], [], [], [], 0, []⟩
    ⟨.dir [(lit "t", .dir [])], lit "ENTRY 2 1 0\ndEND\nx", [], [], [], [], 0, []⟩
    ⟨.dir [(lit "t", .dir [(lit "d", .dir [])])], lit "x", [], [], [], [1 + 1], 0,
      [lit "t/d"]⟩
    0 (by decide) (by decide) rfl (by decide!)

/-- C11 (counterexample): the line `ENTRY 2 1 0 junk`, with a token after
the three numbers, and the line `ENTRY2 1 0`, without a blank after the
word, are taken as directory entries and the directory `t/d` is made; and
the line whose bytes are `END`, NUL, `x` is not the line `END`, yet ends the
materialization with success. -/
theorem entry_line_grammar_counterexample :
    (receive_world_entries (lit "t")
        ⟨.dir [(lit "t", .dir [])], lit "ENTRY 2 1 0 junk\ndEND\n", [], [], [], [], 0,
          []⟩).1 = .ok () ∧
    (receive_world_entries (lit "t")
        ⟨.dir [(lit "t", .dir [])], lit "ENTRY 2 1 0 junk\ndEND\n", [], [], [], [], 0,
          []⟩).2.fs = .dir [(lit "t", .dir [(lit "d", .dir [])])] ∧
    (receive_world_entries (lit "t")
        ⟨.dir [(lit "t", .dir [])], lit "ENTRY2 1 0\ndEND\n", [], [], [], [], 0,
          []⟩).2.fs = .dir [(lit "t", .dir [(lit "d", .dir [])])] ∧
    lit "END" ++ 0 :: lit "x" ≠ lit "END" ∧
    (receive_world_entries (lit "t")
        ⟨.dir [(lit "t", .dir [])], lit "END" ++ 0 :: lit "x" ++ [10], [], [], [], [], 0,
          []⟩).1 = .ok () := by
  refine ⟨by rfl, by decide!, by decide!, by decide, by rfl⟩

/-! ### Entries of an unknown kind -/

/-- C12 (amended): unknown entry kind. A line that the scan reads as an
entry whose kind is neither 1 nor 2 makes the materialization fail without
creating, truncating or writing anything. The error is that of the first
check that fails, in the order of the code: `ENAMETOOLONG` for a path length
of 0 or of `PATH_MAX` or more, `ENOMEM` when the path buffer cannot be
allocated, a connection error when fewer than `pathLen` bytes follow,
`EINVAL` when the path holds `..`, `ENAMETOOLONG` when the joined path does
not fit, and `EPROTO` only when all of these pass. -/
theorem unknown_kind_fails (target line rest : List Byte) (w : World) (fuel : Nat)
    (k : Int) (p s : Nat)
    (hl : 10 ∉ line) (hlen : line.length + 1 < MCSYNC_MAX_LINE)
    (hinp : w.inp = line ++ 10 :: rest)
    (hscan : sscanf_entry line = some (k, p, s)) (hk1 : k ≠ 1) (hk2 : k ≠ 2) :
    (receive_loop (fuel + 1) target w).1 =
      .error (if p = 0 ∨ p ≥ PATH_MAX then .ENAMETOOLONG
        else if w.faults.head? = some true then .ENOMEM
        else if rest.length < p then .ECONNRESET
        else if strstr (rest.take p) (lit "..") = true then .EINVAL
        else if (cstr target ++ 47 :: cstr (rest.take p)).length ≥ PATH_MAX then .ENAMETOOLONG
        else .EPROTO) ∧
    (receive_loop (fuel + 1) target w).2.fs = w.fs ∧
    (receive_loop (fuel + 1) target w).2.created = w.created := by
  have hend : strcmp_eq line (lit "END") = false := by
    cases hc : strcmp_eq line (lit "END") with
    | false => rfl
    | true =>
      have := sscanf_entry_end line ((strcmp_eq_iff line _ (by decide)).1 hc)
      rw [hscan] at this
      cases this
  rw [receive_loop, recv_line_ok line rest w hl hlen hinp]
  dsimp only
  unfold receive_entry
  rw [hend, hscan]
  simp only [Bool.false_eq_true, if_false]
  by_cases hp : p = 0 ∨ p ≥ PATH_MAX
  · rw [if_pos hp, if_pos hp]
    exact ⟨rfl, rfl, rfl⟩
  rw [if_neg hp, if_neg hp]
  unfold sys_malloc
  rw [fault_eq]
  obtain ⟨fs, inp, out, faults, tmp, allocs, conns, created⟩ := w
  dsimp only at hinp ⊢
  cases faults with
  | cons f fr =>
    cases f with
    | true => simp
    | false =>
      simp only [List.head?_cons, Option.getD_some, List.tail_cons, Option.some.injEq,
        Bool.false_eq_true, if_false]
      rw [recv_all_eq]
      dsimp only
      by_cases hn : p ≤ rest.length
      · rw [if_pos hn, if_neg (by omega)]
        dsimp only
        by_cases hs : strstr (rest.take p) (lit "..") = true
        · rw [if_pos hs, if_pos hs]
          exact ⟨rfl, rfl, rfl⟩
        · rw [if_neg hs, if_neg hs]
          unfold join_paths
          by_cases hj : (cstr target ++ 47 :: cstr (rest.take p)).length ≥ PATH_MAX
          · rw [if_pos hj, if_pos hj]
            exact ⟨rfl, rfl, rfl⟩
          · rw [if_neg hj, if_neg hj]
            dsimp only
            rw [if_neg hk2, if_neg hk1]
            exact ⟨rfl, rfl, rfl⟩
      · rw [if_neg hn, if_pos (by omega)]
        exact ⟨rfl, rfl, rfl⟩
  | nil =>
    simp only [List.head?_nil, Option.getD_none, List.tail_nil, reduceCtorEq, if_false]
    rw [recv_all_eq]
    dsimp only
    by_cases hn : p ≤ rest.length
    · rw [if_pos hn, if_neg (by omega)]
      dsimp only
      by_cases hs : strstr (rest.take p) (lit "..") = true
      · rw [if_pos hs, if_pos hs]
        exact ⟨rfl, rfl, rfl⟩
      · rw [if_neg hs, if_neg hs]
        unfold join_paths
        by_cases hj : (cstr target ++ 47 :: cstr (rest.take p)).length ≥ PATH_MAX
        · rw [if_pos hj, if_pos hj]
          exact ⟨rfl, rfl, rfl⟩
        · rw [if_neg hj, if_neg hj]
          dsimp only
          rw [if_neg hk2, if_neg hk1]
          exact ⟨rfl, rfl, rfl⟩
    · rw [if_neg hn, if_pos (by omega)]
      exact ⟨rfl, rfl, rfl⟩

theorem unknown_kind_fails_witness :
    (receive_loop (3 + 1) (lit "t")
        ⟨.dir [(lit "t", .dir [])], lit "ENTRY 3 1 0" ++ 10 :: lit "dEND\n", [], [], [], [], 0,
          []⟩).1 =
      .error (if 1 = 0 ∨ 1 ≥ PATH_MAX then .ENAMETOOLONG
        else if ([] : List Bool).head? = some true then .ENOMEM
        else if (lit "dEND\n").length < 1 then .ECONNRESET
        else if strstr ((lit "dEND\n").take 1) (lit "..") = true then .EINVAL
        else if (cstr (lit "t") ++ 47 :: cstr ((lit "dEND\n").take 1)).length ≥ PATH_MAX then
          .ENAMETOOLONG
        else .EPROTO) ∧
    (receive_loop (3 + 1) (lit "t")
        ⟨.dir [(lit "t", .dir [])], lit "ENTRY 3 1 0" ++ 10 :: lit "dEND\n", [], [], [], [], 0,
          []⟩).2.fs = .dir [(lit "t", .dir [])] ∧
    (receive_loop (3 + 1) (lit "t")
        ⟨.dir [(lit "t", .dir [])], lit "ENTRY 3 1 0" ++ 10 :: lit "dEND\n", [], [], [], [], 0,
          []⟩).2.created = [] :=
  unknown_kind_fails (lit "t") (lit "ENTRY 3 1 0") (lit "dEND\n")
    ⟨.dir [(lit "t", .dir [])], lit "ENTRY 3 1 0" ++ 10 :: lit "dEND\n", [], [], [], [], 0, []⟩
    3 3 1 0 (by decide) (by decide) rfl (by decide!) (by decide) (by decide)

/-- C12 (counterexample): the entry line `ENTRY 3 0 0` fails with
`ENAMETOOLONG`, and the entry line `ENTRY 3 2 0` followed by the path `..`
fails with `EINVAL`, not with `EPROTO`. -/
theorem unknown_kind_fails_counterexample :
    sscanf_entry (lit "ENTRY 3 0 0") = some (3, 0, 0) ∧
    (receive_world_entries (lit "t")
        ⟨.dir [(lit "t", .dir [])], lit "ENTRY 3 0 0\n", [], [], [], [], 0, []⟩).1 =
      .error .ENAMETOOLONG ∧
    sscanf_entry (lit "ENTRY 3 2 0") = some (3, 2, 0) ∧
    (receive_world_entries (lit "t")
        ⟨.dir [(lit "t", .dir [])], lit "ENTRY 3 2 0\n..", [], [], [], [], 0, []⟩).1 =
      .error .EINVAL := by
  refine ⟨by decide!, by decide!, by decide!, by decide!⟩

/-! ### The chunk loop -/

/-- C13: the chunked file copy is exact. With the file open at `fd`, at least
`s` bytes in the stream and no failing call, the chunk loop of the
materializer, which copies at most 65536 bytes per round, succeeds, takes
exactly the first `s` bytes from the stream, appends exactly those bytes in
order to the file (which is empty when it has just been opened), leaves the
stream at the byte after them, and gives the same result as reading all `s`
bytes and writing them in a single step. -/
theorem chunked_copy_exact (fd : List (List Byte)) (s : Nat) (old : List Byte) (w : World)
    (hf : w.faults = []) (hs : s ≤ w.inp.length) (hfile : w.fs.get fd = some (.file old)) :
    ∃ fs1, w.fs.put fd (.file (old ++ w.inp.take s)) = some fs1 ∧
      fs1.get fd = some (.file (old ++ w.inp.take s)) ∧
      recv_file_loop (w.inp.length + 1) fd s w =
        (.ok (), { w with inp := w.inp.drop s, fs := fs1 }) ∧
      copy_in_one_step fd s w = recv_file_loop (w.inp.length + 1) fd s w := by
  obtain ⟨fs1, hfs1⟩ := Node.put_some_of_get fd w.fs _ (.file (old ++ w.inp.take s)) hfile
  have hlen : (w.inp.take s).length = s := by rw [List.length_take]; omega
  have hsplit : w.inp = w.inp.take s ++ w.inp.drop s := (List.take_append_drop s w.inp).symm
  have hloop := recv_file_loop_spec fd (w.inp.length + 1) (w.inp.take s) old (w.inp.drop s) w fs1
    (by rw [hlen]; omega) hf hsplit hfile hfs1
  rw [hlen] at hloop
  refine ⟨fs1, hfs1, Node.get_put_self _ _ _ _ hfs1, hloop, ?_⟩
  rw [hloop]
  unfold copy_in_one_step
  have hr := recv_all_ok (w.inp.take s) (w.inp.drop s) w hsplit
  rw [hlen] at hr
  rw [hr]
  simp [sys_write, World.fault, hf, hfile, hfs1]

theorem chunked_copy_exact_witness :
    ∃ fs1,
      (World.mk (.dir [(lit "f", .file [])]) (List.replicate 131073 7 ++ lit "END\n") [] []
          [] [] 0 []).fs.put [lit "f"]
        (.file ([] ++ (World.mk (.dir [(lit "f", .file [])])
          (List.replicate 131073 7 ++ lit "END\n") [] [] [] [] 0 []).inp.take 131073)) =
        some fs1 ∧
      fs1.get [lit "f"] = some (.file ([] ++ (World.mk (.dir [(lit "f", .file [])])
          (List.replicate 131073 7 ++ lit "END\n") [] [] [] [] 0 []).inp.take 131073)) ∧
      recv_file_loop ((World.mk (.dir [(lit "f", .file [])])
            (List.replicate 131073 7 ++ lit "END\n") [] [] [] [] 0 []).inp.length + 1)
          [lit "f"] 131073
          (World.mk (.dir [(lit "f", .file [])]) (List.replicate 131073 7 ++ lit "END\n") [] []
            [] [] 0 []) =
        (.ok (), { World.mk (.dir [(lit "f", .file [])])
            (List.replicate 131073 7 ++ lit "END\n") [] [] [] [] 0 [] with
          inp := (World.mk (.dir [(lit "f", .file [])])
            (List.replicate 131073 7 ++ lit "END\n") [] [] [] [] 0 []).inp.drop 131073,
          fs := fs1 }) ∧
      copy_in_one_step [lit "f"] 131073
          (World.mk (.dir [(lit "f", .file [])]) (List.replicate 131073 7 ++ lit "END\n") [] []
            [] [] 0 []) =
        recv_file_loop ((World.mk (.dir [(lit "f", .file [])])
            (List.replicate 131073 7 ++ lit "END\n") [] [] [] [] 0 []).inp.length + 1)
          [lit "f"] 131073
          (World.mk (.dir [(lit "f", .file [])]) (List.replicate 131073 7 ++ lit "END\n") [] []
            [] [] 0 []) :=
  chunked_copy_exact [lit "f"] 131073 []
    (World.mk (.dir [(lit "f", .file [])]) (List.replicate 131073 7 ++ lit "END\n") [] [] [] []
      0 [])
    rfl (by simp only [List.length_append, List.length_replicate]; exact Nat.le_add_right _ _)
    (by decide)

/-! ### Names that `sanitize_name` accepts -/

/-- Every accepted name other than `.` is a single path component and names
a proper child of the storage directory. -/
theorem sanitize_name_child (storage name : List Byte) (h : sanitize_name name = 0)
    (hdot : cstr name ≠ [46]) :
    47 ∉ cstr name ∧ cstr name ≠ [46, 46] ∧ validName (cstr name) = true ∧
    resolve (cstr storage ++ 47 :: cstr name) = resolve storage ++ [cstr name] := by
  have hw : IsWorldName (cstr name) := by
    by_contra hn
    have := (sanitize_name_neg_iff name).2 hn
    rw [h] at this
    exact absurd this (by decide)
  have hv := worldName_valid (cstr name) hw hdot
  obtain ⟨_, h2, _, _, h5⟩ := (validName_iff (cstr name)).1 hv
  exact ⟨h2, h5, hv, resolve_join_valid storage (cstr name) hv⟩

/-- C16 (the code at the failing input): `sanitize_name` accepts the name
`.`; the path `store/.` is the storage directory itself; a `PULL` of `.`
streams every stored world back; and a `PUSH` of `.` removes every stored
world before it fails with `ERR ServerError`. -/
theorem sanitize_name_accepts_dot :
    sanitize_name (lit ".") = 0 ∧
    resolve (cstr (lit "store") ++ 47 :: cstr (lit ".")) = resolve (lit "store") ∧
    (handle_pull (lit "store") (lit "PULL 1")
        ⟨.dir [(lit "store", .dir [(lit "v", .dir [(lit "x", .file (lit "x"))]),
            (lit "w", .dir [(lit "a", .file (lit "a"))])])],
          lit ".", [], [], [], [], 0, []⟩).2.out =
      lit "FOUND\nENTRY 2 1 0\nvENTRY 1 3 1\nv/xxENTRY 2 1 0\nwENTRY 1 3 1\nw/aaEND\nDONE\n" ∧
    (handle_push (lit "store") (lit "PUSH 1")
        ⟨.dir [(lit "store", .dir [(lit "v", .dir [(lit "x", .file (lit "x"))]),
            (lit "w", .dir [(lit "a", .file (lit "a"))])])],
          lit ".END\n", [], [], lit "AbC123", [], 0, []⟩).2.out = lit "OK\nERR ServerError\n" ∧
    (handle_push (lit "store") (lit "PUSH 1")
        ⟨.dir [(lit "store", .dir [(lit "v", .dir [(lit "x", .file (lit "x"))]),
            (lit "w", .dir [(lit "a", .file (lit "a"))])])],
          lit ".END\n", [], [], lit "AbC123", [], 0, []⟩).2.fs = .dir [(lit "store", .dir [])] := by
  refine ⟨by decide, by decide, by decide!, by decide!, by decide!⟩

/-! ### What the serializer sends, whatever fails -/

theorem Emits.none (w w1 : World) (e : Errno) (full : List Byte) (hfs : w1.fs = w.fs)
    (hout : w1.out = w.out) : Emits w w1 (.error e) full :=
  ⟨hfs, [], by rw [hout, List.append_nil], List.nil_prefix, fun h => by cases h⟩

theorem Emits.done (w w1 : World) (hfs : w1.fs = w.fs) (hout : w1.out = w.out) :
    Emits w w1 (.ok ()) [] :=
  ⟨hfs, [], by rw [hout, List.append_nil], List.prefix_refl _, fun _ => rfl⟩

/-- After the bytes `a` have been sent, what follows adds to them. -/
theorem Emits.after {w w1 w2 : World} {r : Except Errno Unit} {b : List Byte}
    (a : List Byte) (hfs : w1.fs = w.fs) (hout : w1.out = w.out ++ a) (h : Emits w1 w2 r b) :
    Emits w w2 r (a ++ b) := by
  obtain ⟨h1, em, h2, h3, h4⟩ := h
  refine ⟨h1.trans hfs, a ++ em, ?_, (List.prefix_append_right_inj a).2 h3, ?_⟩
  · rw [h2, hout, List.append_assoc]
  · intro hr
    rw [h4 hr]

/-- A call that fails has sent a leading part of any longer text as well. -/
theorem Emits.fail {w w1 : World} {e : Errno} {a : List Byte} (b : List Byte)
    (h : Emits w w1 (.error e) a) : Emits w w1 (.error e) (a ++ b) := by
  obtain ⟨h1, em, h2, h3, _⟩ := h
  exact ⟨h1, em, h2, h3.trans (List.prefix_append a b), fun hr => by cases hr⟩

/-- A successful part followed by the rest. -/
theorem Emits.seq {w w1 w2 : World} {r : Except Errno Unit} {a b : List Byte}
    (h1 : Emits w w1 (.ok ()) a) (h2 : Emits w1 w2 r b) : Emits w w2 r (a ++ b) := by
  obtain ⟨f1, em, o1, _, e1⟩ := h1
  have := e1 rfl
  subst this
  exact Emits.after em f1 o1 h2

theorem send_fmt_cases (t : List Byte) (w w1 : World) (r : Except Errno Unit)
    (h : send_fmt t w = (r, w1)) :
    (r = .ok () ∧ w1 = { w with out := w.out ++ t }) ∨ (∃ e, r = .error e ∧ w1 = w) := by
  unfold send_fmt at h
  split at h
  · cases h
    exact Or.inr ⟨_, rfl, rfl⟩
  · simp only [send_all, send] at h
    cases h
    exact Or.inl ⟨rfl, rfl⟩

theorem sys_stat_ok_inv (path : List Byte) (w w1 : World) (st : Stat)
    (h : sys_stat path w = (.ok st, w1)) :
    w1 = { w with faults := w.faults.tail } ∧
    ((∃ kids, w.fs.get (resolve path) = some (.dir kids) ∧ st = ⟨true, 0⟩) ∨
     (∃ data, w.fs.get (resolve path) = some (.file data) ∧ st = ⟨false, data.length⟩)) := by
  have hw := sys_stat_world path w
  rw [h] at hw
  refine ⟨hw, ?_⟩
  unfold sys_stat at h
  rw [fault_eq] at h
  cases hb : w.faults.head?.getD false with
  | true => rw [hb] at h; cases h
  | false =>
    rw [hb] at h
    dsimp only at h
    split at h
    · cases h
    · split at h
      · rename_i kids hg
        cases h
        exact Or.inl ⟨kids, hg, rfl⟩
      · rename_i data hg
        cases h
        exact Or.inr ⟨data, hg, rfl⟩
      · cases h

theorem sys_open_read_inv (path : List Byte) (w w1 : World) (r : Except Errno (List Byte))
    (h : sys_open_read path w = (r, w1)) :
    w1 = { w with faults := w.faults.tail } ∧
    ∀ data, r = .ok data → w.fs.get (resolve path) = some (.file data) := by
  unfold sys_open_read at h
  rw [fault_eq] at h
  cases hb : w.faults.head?.getD false with
  | true =>
    rw [hb] at h
    cases h
    exact ⟨rfl, fun data hd => by cases hd⟩
  | false =>
    rw [hb] at h
    dsimp only at h
    split at h
    · cases h
      exact ⟨rfl, fun data hd => by cases hd⟩
    · split at h
      · rename_i data hg
        cases h
        exact ⟨rfl, fun d hd => by cases hd; exact hg⟩
      · cases h
        exact ⟨rfl, fun data hd => by cases hd⟩
      · cases h
        exact ⟨rfl, fun data hd => by cases hd⟩

theorem child_relative_inv (rel n cr : List Byte) (h0 : 0 ∉ rel) (hv : validName n = true)
    (hn : n.length < PATH_MAX - 1)
    (h : (if rel.head? = none ∨ rel.head? = some 0 then Except.ok ((cstr n).take (PATH_MAX - 1))
      else join_paths rel n PATH_MAX) = .ok cr) :
    cr = child_rel rel n ∧ (child_rel rel n).length < PATH_MAX := by
  have hcn := validName_cstr n hv
  by_cases hr : rel = []
  · rw [if_pos ((head_test rel h0).2 hr)] at h
    cases h
    subst hr
    rw [hcn, List.take_of_length_le (by omega)]
    refine ⟨by simp [child_rel], ?_⟩
    simp only [child_rel, if_true]
    omega
  · rw [if_neg (fun e => hr ((head_test rel h0).1 e))] at h
    unfold join_paths at h
    split at h
    · cases h
    · rename_i hlen
      cases h
      rw [hcn, cstr_of_no_nul rel h0] at hlen ⊢
      refine ⟨by simp [child_rel, hr], ?_⟩
      simp only [child_rel, hr, if_false]
      omega

theorem child_facts (base rel n : List Byte) (ρ : List (List Byte)) (h0 : 0 ∉ rel)
    (hres : resolve (fullOf (cstr base) rel) = resolve base ++ ρ) (hv : validName n = true) :
    0 ∉ child_rel rel n ∧
    resolve (fullOf (cstr base) (child_rel rel n)) = resolve base ++ (ρ ++ [n]) ∧
    cstr (fullOf (cstr base) rel) = fullOf (cstr base) rel ∧
    resolve (fullOf (cstr base) rel ++ 47 :: n) = (resolve base ++ ρ) ++ [n] := by
  obtain ⟨v1, _, v3, _, _⟩ := (validName_iff n).1 hv
  have hfull0 := fullOf_no_nul (cstr base) rel (cstr_no_nul base) h0
  have hc := cstr_of_no_nul _ hfull0
  have hj := resolve_join_valid (fullOf (cstr base) rel) n hv
  rw [hc, hres] at hj
  refine ⟨?_, ?_, hc, hj⟩
  · unfold child_rel
    split
    · exact v3
    · simp only [List.mem_append, List.mem_cons, not_or]
      exact ⟨h0, by decide, v3⟩
  · rw [fullOf_child (cstr base) rel n v1, hj, List.append_assoc]

theorem send_children_any (base rel : List Byte) (ρ : List (List Byte))
    (kids : List (List Byte × Node)) (fs : Node) (self : List Byte → World → Res Unit)
    (h0 : 0 ∉ rel) (hres : resolve (fullOf (cstr base) rel) = resolve base ++ ρ)
    (hdir : fs.get (resolve base ++ ρ) = some (.dir kids))
    (hself : ∀ n ks w r w1, w.fs = fs → kidsGet n kids = some (.dir ks) →
      validName n = true → self (child_rel rel n) w = (r, w1) →
      Emits w w1 r (ser_kids (child_rel rel n) ks)) :
    ∀ (rest : List (List Byte × Node)) (w w1 : World) (r : Except Errno Unit), w.fs = fs →
      (∀ e ∈ rest, validName e.1 = true ∧ kidsGet e.1 kids = some e.2) →
      send_children self (fullOf (cstr base) rel) rel (rest.map Prod.fst) w = (r, w1) →
      Emits w w1 r (ser_kids rel rest) := by
  intro rest
  induction rest with
  | nil =>
    intro w w1 r _ _ h
    simp only [List.map_nil, send_children] at h
    cases h
    exact Emits.done w w rfl rfl
  | cons e rest ih =>
    intro w w1 r hfs hall h
    obtain ⟨n, k⟩ := e
    obtain ⟨hv, hget⟩ := hall (n, k) (by simp)
    have hrest : ∀ e ∈ rest, validName e.1 = true ∧ kidsGet e.1 kids = some e.2 :=
      fun e he => hall e (by simp [he])
    obtain ⟨s1, s2⟩ := validName_strcmp n hv
    obtain ⟨c0, _, hcfull, hrj⟩ := child_facts base rel n ρ h0 hres hv
    have hcn := validName_cstr n hv
    simp only [List.map_cons, send_children, s1, s2, Bool.false_eq_true, or_self,
      if_false] at h
    cases hE : (if rel.head? = none ∨ rel.head? = some 0
        then Except.ok ((cstr n).take (PATH_MAX - 1))
        else join_paths rel n PATH_MAX) with
    | error e =>
      rw [hE] at h
      cases h
      exact Emits.none w w _ _ rfl rfl
    | ok cr =>
      rw [hE] at h
      dsimp only at h
      unfold join_paths at h
      rw [hcfull, hcn] at h
      by_cases hj : (fullOf (cstr base) rel ++ 47 :: n).length ≥ PATH_MAX
      · rw [if_pos hj] at h
        cases h
        exact Emits.none w w _ _ rfl rfl
      rw [if_neg hj] at h
      dsimp only at h
      have hnlen : n.length < PATH_MAX - 1 := by
        simp only [List.length_append, List.length_cons] at hj
        omega
      obtain ⟨hcr, hcl⟩ := child_relative_inv rel n cr h0 hv hnlen hE
      subst hcr
      have hstrlen : strlen (child_rel rel n) = (child_rel rel n).length := by
        simp only [strlen, cstr_of_no_nul _ c0]
      rw [hstrlen, List.take_length] at h
      rcases hst : sys_stat (fullOf (cstr base) rel ++ 47 :: n) w with ⟨rs, ws⟩
      rw [hst] at h
      have hsw := sys_stat_world (fullOf (cstr base) rel ++ 47 :: n) w
      rw [hst] at hsw
      dsimp only at hsw
      have hf1 : ws.fs = w.fs := by rw [hsw]
      have ho1 : ws.out = w.out := by rw [hsw]
      have hgk : w.fs.get (resolve (fullOf (cstr base) rel ++ 47 :: n)) = some k := by
        rw [hrj, hfs, Node.get_snoc _ n fs kids hdir, hget]
      cases rs with
      | error e =>
        cases h
        exact Emits.none _ _ _ _ hf1 ho1
      | ok st =>
        dsimp only at h
        obtain ⟨_, hkind⟩ := sys_stat_ok_inv _ w ws st hst
        rcases hkind with ⟨ks, hg, hst2⟩ | ⟨data, hg, hst2⟩
        · -- a directory
          rw [hgk] at hg
          cases hg
          subst hst2
          have hline := entry_line_length 2 (child_rel rel n).length 0 (by decide) hcl
            (by decide)
          simp only [if_true, send_fmt_short _ _ hline, send_all, send] at h
          rcases hs4 : self (child_rel rel n)
            { ws with out := ws.out ++ entry_line 2 (child_rel rel n).length 0 ++
                child_rel rel n } with ⟨r4, w4⟩
          rw [hs4] at h
          have e4 := hself n ks _ r4 w4 (by show ws.fs = fs; rw [hsw]; exact hfs) hget hv hs4
          have e5 : Emits w w4 r4
              (entry_line 2 (child_rel rel n).length 0 ++ child_rel rel n ++
                ser_kids (child_rel rel n) ks) :=
            Emits.after _ (by show ws.fs = w.fs; rw [hsw])
              (by show ws.out ++ _ ++ _ = w.out ++ _; rw [hsw, List.append_assoc]) e4
          have hser : ser_kids rel ((n, Node.dir ks) :: rest) =
              entry_line 2 (child_rel rel n).length 0 ++ child_rel rel n ++
                ser_kids (child_rel rel n) ks ++ ser_kids rel rest := by
            simp [ser_kids, ser_node]
          rw [hser]
          cases r4 with
          | error e =>
            cases h
            exact Emits.fail _ e5
          | ok u =>
            dsimp only at h
            have e6 := ih w4 w1 r (e4.1.trans (by show ws.fs = fs; rw [hsw]; exact hfs)) hrest h
            exact Emits.seq e5 e6
        · -- a regular file
          rw [hgk] at hg
          cases hg
          subst hst2
          simp only [Bool.false_eq_true, if_false] at h
          have hser : ser_kids rel ((n, Node.file data) :: rest) =
              entry_line 1 (child_rel rel n).length data.length ++ child_rel rel n ++
                (data ++ ser_kids rel rest) := by
            simp [ser_kids, ser_node]
          rw [hser]
          rcases hsf : send_fmt (entry_line 1 (child_rel rel n).length data.length) ws with
            ⟨rf, wf⟩
          rw [hsf] at h
          rcases send_fmt_cases _ ws wf rf hsf with ⟨hr, hw⟩ | ⟨e, hr, hw⟩
          · subst hr hw
            simp only [send_all, send] at h
            rcases hop : sys_open_read (fullOf (cstr base) rel ++ 47 :: n)
              { ws with out := ws.out ++ entry_line 1 (child_rel rel n).length data.length ++
                  child_rel rel n } with ⟨ro, w4⟩
            rw [hop] at h
            obtain ⟨hw4, hdata⟩ := sys_open_read_inv _ _ w4 ro hop
            have hfs4 : w4.fs = w.fs := by rw [hw4]; show ws.fs = w.fs; rw [hsw]
            have hout4 : w4.out = w.out ++
                (entry_line 1 (child_rel rel n).length data.length ++ child_rel rel n) := by
              rw [hw4]
              show ws.out ++ _ ++ _ = _
              rw [hsw, List.append_assoc]
            cases ro with
            | error e =>
              cases h
              exact Emits.after _ hfs4 hout4 (Emits.none _ _ _ _ rfl rfl)
            | ok d =>
              dsimp only at h
              have hd := hdata d rfl
              have hd2 : d = data := by
                have hg2 : w.fs.get (resolve (fullOf (cstr base) rel ++ 47 :: n)) =
                    some (.file d) := by
                  have : ws.fs = w.fs := by rw [hsw]
                  rw [← this]
                  exact hd
                rw [hgk] at hg2
                cases hg2
                rfl
              subst hd2
              rw [send_file_loop_spec _ _ _ (Nat.lt_succ_self _)] at h
              dsimp only at h
              have e6 := ih { w4 with out := w4.out ++ d } w1 r (hfs4.trans hfs) hrest h
              exact Emits.after _ hfs4 hout4 (@Emits.after w4 { w4 with out := w4.out ++ d } w1 r _ d rfl rfl e6)
          · subst hr hw
            cases h
            exact Emits.none _ _ _ _ hf1 ho1

theorem sys_opendir_world (path : List Byte) (w : World) :
    (sys_opendir path w).2 = { w with faults := w.faults.tail } := by
  unfold sys_opendir
  rw [fault_eq]
  cases w.faults.head?.getD false with
  | true => rfl
  | false =>
    dsimp only
    repeat' split
    all_goals rfl

theorem full_path_inv (base rel full : List Byte) (h0 : 0 ∉ rel)
    (hb : (cstr base).length < PATH_MAX)
    (h : (if rel.head? = none ∨ rel.head? = some 0
      then Except.ok ((cstr base).take (PATH_MAX - 1))
      else join_paths base rel PATH_MAX) = .ok full) :
    full = fullOf (cstr base) rel := by
  by_cases hr : rel = []
  · rw [if_pos ((head_test rel h0).2 hr)] at h
    cases h
    subst hr
    simp only [fullOf, if_true]
    rw [List.take_of_length_le (by omega)]
  · rw [if_neg (fun e => hr ((head_test rel h0).1 e))] at h
    unfold join_paths at h
    split at h
    · cases h
    · cases h
      rw [cstr_of_no_nul rel h0]
      simp [fullOf, hr]

theorem send_directory_rec_any (base : List Byte) (fs : Node)
    (hb : (cstr base).length < PATH_MAX) :
    ∀ (depth : Nat) (rel : List Byte) (ρ : List (List Byte))
      (kids : List (List Byte × Node)) (w w1 : World) (r : Except Errno Unit),
      w.fs = fs → 0 ∉ rel → resolve (fullOf (cstr base) rel) = resolve base ++ ρ →
      fs.get (resolve base ++ ρ) = some (.dir kids) → kidsWf kids = true →
      send_directory_rec depth base rel w = (r, w1) → Emits w w1 r (ser_kids rel kids) := by
  intro depth
  induction depth with
  | zero =>
    intro rel ρ kids w w1 r _ _ _ _ _ h
    simp only [send_directory_rec] at h
    cases h
    exact Emits.none _ _ _ _ rfl rfl
  | succ d ih =>
    intro rel ρ kids w w1 r hfs h0 hres hdir hwf h
    simp only [send_directory_rec] at h
    cases hE : (if rel.head? = none ∨ rel.head? = some 0
        then Except.ok ((cstr base).take (PATH_MAX - 1))
        else join_paths base rel PATH_MAX) with
    | error e =>
      rw [hE] at h
      cases h
      exact Emits.none _ _ _ _ rfl rfl
    | ok full =>
      rw [hE] at h
      dsimp only at h
      have hfull := full_path_inv base rel full h0 hb hE
      subst hfull
      have how := sys_opendir_world (fullOf (cstr base) rel) w
      rcases hop : sys_opendir (fullOf (cstr base) rel) w with ⟨ro, w2⟩
      rw [hop] at h how
      dsimp only at how
      have hf2 : w2.fs = w.fs := by rw [how]
      have ho2 : w2.out = w.out := by rw [how]
      cases ro with
      | error e =>
        cases h
        exact Emits.none _ _ _ _ hf2 ho2
      | ok entries =>
        dsimp only at h
        obtain ⟨_, kids2, hg, hent⟩ := sys_opendir_entries _ w w2 entries hop
        rw [hres, hfs, hdir] at hg
        cases hg
        subst hent
        have d1 : strcmp_eq [46] (lit ".") = true := by decide
        have d2 : strcmp_eq [46, 46] (lit "..") = true := by decide
        simp only [send_children, d1, d2, true_or, or_true, if_true] at h
        have key := send_children_any base rel ρ kids fs (send_directory_rec d base) h0 hres
          hdir
          (fun n ks w3 r3 w4 hfs3 hget hv hrun => by
            obtain ⟨c0, cres, _, _⟩ := child_facts base rel n ρ h0 hres hv
            refine ih (child_rel rel n) (ρ ++ [n]) ks w3 w4 r3 hfs3 c0 cres ?_ ?_ hrun
            · rw [← List.append_assoc, Node.get_snoc _ n fs kids hdir, hget]
            · have := (kidsWf_get kids n _ hwf hget).1
              rwa [Node.wf_dir] at this)
          kids w2 w1 r (hf2.trans hfs)
          (fun e he => ⟨(kidsWf_names kids hwf).1 e he, kidsGet_of_mem kids hwf e he⟩) h
        obtain ⟨k1, em, k2, k3, k4⟩ := key
        exact ⟨k1.trans hf2, em, by rw [k2, ho2], k3, k4⟩

/-- Whatever fails, `send_directory_entries` sends a leading part of the
entry stream of the tree, and all of it when it reports success. -/
theorem send_directory_entries_any (base : List Byte) (w w1 : World)
    (r : Except Errno Unit) (kids : List (List Byte × Node))
    (hb : strlen base < PATH_MAX) (hdir : w.fs.get (resolve base) = some (.dir kids))
    (hwf : kidsWf kids = true) (h : send_directory_entries base w = (r, w1)) :
    Emits w w1 r (ser_kids [] kids) := by
  unfold send_directory_entries at h
  exact send_directory_rec_any base w.fs hb _ [] [] kids w w1 r rfl (by simp)
    (by simp [fullOf, resolve_cstr]) (by simpa using hdir) hwf h

/-! ### The restricted round trip -/

/-- The materializer on the entry stream of a tree. -/
theorem receive_serialized (target more : List Byte) (wr : World)
    (kids : List (List Byte × Node)) (hwf : kidsWf kids = true)
    (hfit : (Node.dir kids).fits ((cstr target).length + 1) [])
    (hfr : wr.faults = []) (hnd : noDotDot target)
    (htgt : wr.fs.get (resolve target) = some (.dir []))
    (hinp : wr.inp = ser_kids [] kids ++ (lit "END\n" ++ more)) :
    ∃ w1, receive_world_entries target wr = (.ok (), w1) ∧ w1.inp = more ∧
      wr.fs.put (resolve target) (.dir kids) = some w1.fs ∧
      w1.fs.get (resolve target) = some (.dir kids) := by
  obtain ⟨fs1, hfs1⟩ := Node.put_some_of_get (resolve target) wr.fs _ (.dir kids) htgt
  have hcount := ser_kids_count [] kids
  simp only [Node.fits] at hfit
  obtain ⟨w1, h1, h2, h3, h4⟩ := recvKids_all target (resolve target) hnd kids []
    (lit "END\n" ++ more) [] [] wr fs1
    ((ser_kids [] kids).length - kidsCount kids + more.length + 4 + 1) hfr
    (by
      have := RelAt.root (cstr target)
      rwa [resolve_cstr] at this)
    hwf hfit.2 hinp (by rw [List.append_nil]; exact htgt)
    (fun m hm => by simp [kidsGet] at hm) (by rw [List.append_nil, List.nil_append]; exact hfs1)
  have hfuel : wr.inp.length + 1 =
      (ser_kids [] kids).length - kidsCount kids + more.length + 4 + 1 + kidsCount kids := by
    rw [hinp]
    simp only [List.length_append]
    have : (lit "END\n").length = 4 := by decide
    omega
  refine ⟨{ w1 with inp := more }, ?_, rfl, ?_, ?_⟩
  · rw [receive_world_entries, hfuel, h1, receive_loop_end target more w1 _ h3]
  · rw [h4]; exact hfs1
  · rw [h4]; exact Node.get_put_self _ _ _ _ hfs1

/-- C17: the restricted round trip. A directory `base` holds the well-formed
tree `kids`, in which no entry name contains `..`, every relative path
joined to the target directory is shorter than `PATH_MAX` and every file is
shorter than 2^64 bytes; `send_directory_entries` returns success on it,
whatever the order of the entries in the listings. When the bytes it has
sent, followed by the line `END`, are fed to `receive_world_entries` on an
existing empty target directory whose path has no `..` segment, and no call
of the materializer fails, the materialization returns success, has taken
the stream exactly up to and including the line `END`, and leaves the
target directory holding exactly the tree: the same entries with the same
kinds and the same bytes, empty directories included, and everything else
in the file system as it was. -/
theorem restricted_round_trip (base target more : List Byte) (ws ws1 wr : World)
    (kids : List (List Byte × Node))
    (hb : strlen base < PATH_MAX) (hbase : ws.fs.get (resolve base) = some (.dir kids))
    (hwf : kidsWf kids = true)
    (hsend : send_directory_entries base ws = (.ok (), ws1))
    (hfit : (Node.dir kids).fits ((cstr target).length + 1) [])
    (hfr : wr.faults = []) (hnd : noDotDot target)
    (htgt : wr.fs.get (resolve target) = some (.dir []))
    (hinp : wr.inp = ws1.out.drop ws.out.length ++ lit "END\n" ++ more) :
    ∃ w1, receive_world_entries target wr = (.ok (), w1) ∧ w1.inp = more ∧
      wr.fs.put (resolve target) (.dir kids) = some w1.fs ∧
      w1.fs.get (resolve target) = some (.dir kids) := by
  obtain ⟨_, em, ho, _, hall⟩ := send_directory_entries_any base ws ws1 _ kids hb hbase hwf hsend
  have hem := hall rfl
  subst hem
  rw [ho, List.drop_left, List.append_assoc] at hinp
  exact receive_serialized target more wr kids hwf hfit hfr hnd htgt hinp

theorem restricted_round_trip_witness :
    ∃ w1, receive_world_entries (lit "t")
        ⟨.dir [(lit "t", .dir [])],
          (send_directory_entries (lit "s")
            ⟨.dir [(lit "s", .dir [(lit "z", .file [0, 10, 255]), (lit "e", .dir []),
                (lit "d", .dir [(lit "b", .file [])])])],
              [], [], [], [], [], 0, []⟩).2.out.drop
            (World.mk (.dir [(lit "s", .dir [(lit "z", .file [0, 10, 255]), (lit "e", .dir []),
                (lit "d", .dir [(lit "b", .file [])])])])
              [] [] [] [] [] 0 []).out.length ++ lit "END\n" ++ lit "x",
          [], [], [], [], 0, []⟩ = (.ok (), w1) ∧ w1.inp = lit "x" ∧
      (World.mk (.dir [(lit "t", .dir [])])
          ((send_directory_entries (lit "s")
            ⟨.dir [(lit "s", .dir [(lit "z", .file [0, 10, 255]), (lit "e", .dir []),
                (lit "d", .dir [(lit "b", .file [])])])],
              [], [], [], [], [], 0, []⟩).2.out.drop
            (World.mk (.dir [(lit "s", .dir [(lit "z", .file [0, 10, 255]), (lit "e", .dir []),
                (lit "d", .dir [(lit "b", .file [])])])])
              [] [] [] [] [] 0 []).out.length ++ lit "END\n" ++ lit "x")
          [] [] [] [] 0 []).fs.put (resolve (lit "t"))
          (.dir [(lit "z", .file [0, 10, 255]), (lit "e", .dir []),
            (lit "d", .dir [(lit "b", .file [])])]) = some w1.fs ∧
      w1.fs.get (resolve (lit "t")) =
        some (.dir [(lit "z", .file [0, 10, 255]), (lit "e", .dir []),
          (lit "d", .dir [(lit "b", .file [])])]) :=
  restricted_round_trip (lit "s") (lit "t") (lit "x")
    ⟨.dir [(lit "s", .dir [(lit "z", .file [0, 10, 255]), (lit "e", .dir []),
        (lit "d", .dir [(lit "b", .file [])])])],
      [], [], [], [], [], 0, []⟩
    (send_directory_entries (lit "s")
      ⟨.dir [(lit "s", .dir [(lit "z", .file [0, 10, 255]), (lit "e", .dir []),
          (lit "d", .dir [(lit "b", .file [])])])],
        [], [], [], [], [], 0, []⟩).2
    ⟨.dir [(lit "t", .dir [])],
      (send_directory_entries (lit "s")
        ⟨.dir [(lit "s", .dir [(lit "z", .file [0, 10, 255]), (lit "e", .dir []),
            (lit "d", .dir [(lit "b", .file [])])])],
          [], [], [], [], [], 0, []⟩).2.out.drop
        (World.mk (.dir [(lit "s", .dir [(lit "z", .file [0, 10, 255]), (lit "e", .dir []),
            (lit "d", .dir [(lit "b", .file [])])])])
          [] [] [] [] [] 0 []).out.length ++ lit "END\n" ++ lit "x",
      [], [], [], [], 0, []⟩
    [(lit "z", .file [0, 10, 255]), (lit "e", .dir []), (lit "d", .dir [(lit "b", .file [])])]
    (by decide) (by decide) (by decide) (pair_of_fst _ _ (by decide!))
    (by simp only [Node.fits, kidsFit]; decide)
    rfl (by decide) (by decide) (by dsimp only)

/-! ### The entry sequence of a tree -/

/-- Induction over a tree and the entry lists of its directories. -/
theorem Node.induct (P : Node → Prop) (Q : List (List Byte × Node) → Prop)
    (hfile : ∀ d, P (.file d)) (hdir : ∀ ks, Q ks → P (.dir ks)) (hnil : Q [])
    (hcons : ∀ n k ks, P k → Q ks → Q ((n, k) :: ks)) :
    (∀ k, P k) ∧ (∀ ks, Q ks) := by
  have hcount : ∀ (c : Nat) (k : Node), k.count ≤ c → P k := by
    intro c
    induction c with
    | zero =>
      intro k hk
      cases k <;> simp [Node.count] at hk
    | succ c ih =>
      have hkids : ∀ kids : List (List Byte × Node), kidsCount kids ≤ c → Q kids := by
        intro kids
        induction kids with
        | nil => intro _; exact hnil
        | cons x ks ihk =>
          obtain ⟨n, k⟩ := x
          intro hc
          simp only [kidsCount] at hc
          exact hcons n k ks (ih k (by omega)) (ihk (by omega))
      intro k hk
      cases k with
      | file data => exact hfile data
      | dir kids =>
        simp only [Node.count] at hk
        exact hdir kids (hkids kids (by omega))
  have hP : ∀ k, P k := fun k => hcount k.count k (Nat.le_refl _)
  refine ⟨hP, ?_⟩
  intro ks
  induction ks with
  | nil => exact hnil
  | cons x ks ih =>
    obtain ⟨n, k⟩ := x
    exact hcons n k ks (hP k) ih

theorem rel_path_snoc (ρ : List (List Byte)) (n : List Byte) :
    rel_path (ρ ++ [n]) = child_rel (rel_path ρ) n := by
  simp [rel_path, List.foldl_append]

theorem entries_bytes_append : ∀ (a b : List Entry),
    entries_bytes (a ++ b) = entries_bytes a ++ entries_bytes b
  | [], b => rfl
  | e :: a, b => by
    have ih := entries_bytes_append a b
    simp only [List.cons_append, entries_bytes, List.append_eq, ih, List.append_assoc]

/-- The entry stream of a tree is the bytes of its entries in pre-order. -/
theorem ser_entries :
    (∀ k ρ, ser_node (rel_path ρ) k = entries_bytes (node_entries ρ k)) ∧
    (∀ ks ρ, ser_kids (rel_path ρ) ks = entries_bytes (kids_entries ρ ks)) := by
  apply Node.induct
  · intro d ρ
    simp [ser_node, node_entries, entries_bytes, entry_bytes]
  · intro ks ih ρ
    simp [ser_node, node_entries, entries_bytes, entry_bytes, ih ρ]
  · intro ρ
    rfl
  · intro n k ks ihk ihks ρ
    simp only [ser_kids, kids_entries, entries_bytes_append, ← rel_path_snoc, ihk, ihks]

theorem entries_loc :
    (∀ k ρ e, e ∈ node_entries ρ k → ρ <+: e.loc) ∧
    (∀ ks ρ e, e ∈ kids_entries ρ ks →
      ∃ n r, n ∈ ks.map Prod.fst ∧ e.loc = ρ ++ n :: r) := by
  apply Node.induct
  · intro d ρ e he
    simp only [node_entries, List.mem_singleton] at he
    rw [he]
  · intro ks ih ρ e he
    simp only [node_entries, List.mem_cons] at he
    rcases he with he | he
    · rw [he]
    · obtain ⟨n, r, _, hl⟩ := ih ρ e he
      rw [hl]
      exact List.prefix_append _ _
  · intro ρ e he
    simp [kids_entries] at he
  · intro n k ks ihk ihks ρ e he
    simp only [kids_entries, List.mem_append] at he
    rcases he with he | he
    · obtain ⟨r, hr⟩ := ihk (ρ ++ [n]) e he
      exact ⟨n, r, by simp, by rw [← hr]; simp⟩
    · obtain ⟨m, r, hm, hl⟩ := ihks ρ e he
      exact ⟨m, r, by simp only [List.map_cons, List.mem_cons]; exact Or.inr hm, hl⟩

theorem kidsGet_none_not_mem (n : List Byte) : ∀ (ks : List (List Byte × Node)),
    kidsGet n ks = none → n ∉ ks.map Prod.fst
  | [], _ => by simp
  | (m, k) :: rest, h => by
    by_cases hm : m = n
    · simp [kidsGet, hm] at h
    · simp only [kidsGet, hm, if_false] at h
      simp only [List.map_cons, List.mem_cons, not_or]
      exact ⟨fun e => hm e.symm, kidsGet_none_not_mem n rest h⟩

/-- In the entry sequence of a well-formed tree no entry comes before an
entry whose location is a leading part of its own: a directory comes before
everything inside it. -/
theorem entries_preorder :
    (∀ k ρ, k.wf = true →
      (node_entries ρ k).Pairwise (fun a b => ¬ b.loc <+: a.loc)) ∧
    (∀ ks ρ, kidsWf ks = true →
      (kids_entries ρ ks).Pairwise (fun a b => ¬ b.loc <+: a.loc)) := by
  apply Node.induct
  · intro d ρ _
    simp [node_entries]
  · intro ks ih ρ hwf
    rw [Node.wf_dir] at hwf
    simp only [node_entries, List.pairwise_cons]
    refine ⟨?_, ih ρ hwf⟩
    intro b hb hpre
    obtain ⟨n, r, _, hl⟩ := entries_loc.2 ks ρ b hb
    have := hpre.length_le
    rw [hl] at this
    simp only [List.length_append, List.length_cons] at this
    omega
  · intro ρ _
    simp [kids_entries]
  · intro n k ks ihk ihks ρ hwf
    obtain ⟨_, hn, hkwf, hkswf⟩ := (kidsWf_cons n k ks).1 hwf
    simp only [kids_entries, List.pairwise_append]
    refine ⟨ihk (ρ ++ [n]) hkwf, ihks ρ hkswf, ?_⟩
    intro a ha b hb hpre
    obtain ⟨ra, hra⟩ := entries_loc.1 k (ρ ++ [n]) a ha
    obtain ⟨m, rb, hm, hlb⟩ := entries_loc.2 ks ρ b hb
    rw [← hra, hlb, List.append_assoc, List.prefix_append_right_inj] at hpre
    simp only [List.singleton_append, List.cons_prefix_cons] at hpre
    exact kidsGet_none_not_mem n ks hn (hpre.1 ▸ hm)

theorem EntryOf.congr {X Y : Node} {r s : List (List Byte)} {e : Entry}
    (h : X.get r = Y.get s) : EntryOf X r e ↔ EntryOf Y s e := by
  unfold EntryOf
  rw [h]

theorem EntryOf.present {X : Node} {r : List (List Byte)} {e : Entry} (h : EntryOf X r e) :
    (X.get r).isSome = true := by
  rcases h with ⟨_, _, ks, hg⟩ | ⟨_, hg⟩ <;> rw [hg] <;> rfl

theorem get_cons_same (n : List Byte) (k : Node) (ks : List (List Byte × Node))
    (cs : List (List Byte)) : (Node.dir ((n, k) :: ks)).get (n :: cs) = k.get cs := by
  simp [Node.get, kidsGet]

theorem get_cons_ne (n c : List Byte) (k : Node) (ks : List (List Byte × Node))
    (cs : List (List Byte)) (h : n ≠ c) :
    (Node.dir ((n, k) :: ks)).get (c :: cs) = (Node.dir ks).get (c :: cs) := by
  simp [Node.get, kidsGet, h]

/-- The entries of a well-formed tree are exactly its directories and
regular files, each at its location, the root left out. -/
theorem entries_mem :
    (∀ k ρ e, k.wf = true →
      (e ∈ node_entries ρ k ↔ ∃ r, e.loc = ρ ++ r ∧ EntryOf k r e)) ∧
    (∀ ks ρ e, kidsWf ks = true →
      (e ∈ kids_entries ρ ks ↔ ∃ r, r ≠ [] ∧ e.loc = ρ ++ r ∧ EntryOf (.dir ks) r e)) := by
  apply Node.induct
  · intro d ρ e _
    simp only [node_entries, List.mem_singleton]
    constructor
    · intro he
      subst he
      exact ⟨[], by simp, Or.inr ⟨rfl, Node.get_nil _⟩⟩
    · rintro ⟨r, hl, hE⟩
      cases r with
      | nil =>
        rcases hE with ⟨_, _, ks, hg⟩ | ⟨hk, hg⟩
        · rw [Node.get_nil] at hg
          cases hg
        · rw [Node.get_nil] at hg
          obtain ⟨kind, loc, data⟩ := e
          simp only [Option.some.injEq, Node.file.injEq] at hg
          simp only [List.append_nil] at hl
          simp only at hk
          subst hg hl hk
          rfl
      | cons c cs =>
        have := hE.present
        simp [Node.get] at this
  · intro ks ih ρ e hwf
    rw [Node.wf_dir] at hwf
    simp only [node_entries, List.mem_cons]
    constructor
    · rintro (he | he)
      · subst he
        exact ⟨[], by simp, Or.inl ⟨rfl, rfl, ks, Node.get_nil _⟩⟩
      · obtain ⟨r, _, hl, hE⟩ := (ih ρ e hwf).1 he
        exact ⟨r, hl, hE⟩
    · rintro ⟨r, hl, hE⟩
      cases r with
      | nil =>
        left
        rcases hE with ⟨hk, hd, _⟩ | ⟨_, hg⟩
        · obtain ⟨kind, loc, data⟩ := e
          simp only [List.append_nil] at hl
          simp only at hk hd
          subst hk hd hl
          rfl
        · rw [Node.get_nil] at hg
          cases hg
      | cons c cs =>
        right
        exact (ih ρ e hwf).2 ⟨c :: cs, by simp, hl, hE⟩
  · intro ρ e _
    simp only [kids_entries, List.not_mem_nil, false_iff]
    rintro ⟨r, hr, _, hE⟩
    cases r with
    | nil => exact hr rfl
    | cons c cs =>
      have := hE.present
      simp [Node.get, kidsGet] at this
  · intro n k ks ihk ihks ρ e hwf
    obtain ⟨_, hn, hkwf, hkswf⟩ := (kidsWf_cons n k ks).1 hwf
    simp only [kids_entries, List.mem_append]
    constructor
    · rintro (he | he)
      · obtain ⟨r, hl, hE⟩ := (ihk (ρ ++ [n]) e hkwf).1 he
        refine ⟨n :: r, by simp, by rw [hl]; simp, ?_⟩
        exact (EntryOf.congr (get_cons_same n k ks r)).2 hE
      · obtain ⟨r, hr, hl, hE⟩ := (ihks ρ e hkswf).1 he
        cases r with
        | nil => exact absurd rfl hr
        | cons c cs =>
          have hnc : n ≠ c := by
            intro hnc
            have := hE.present
            rw [← hnc] at this
            simp [Node.get, hn] at this
          exact ⟨c :: cs, by simp, hl, (EntryOf.congr (get_cons_ne n c k ks cs hnc)).2 hE⟩
    · rintro ⟨r, hr, hl, hE⟩
      cases r with
      | nil => exact absurd rfl hr
      | cons c cs =>
        by_cases hnc : n = c
        · subst hnc
          left
          exact (ihk (ρ ++ [n]) e hkwf).2 ⟨cs, by rw [hl]; simp,
            (EntryOf.congr (get_cons_same n k ks cs)).1 hE⟩
        · right
          exact (ihks ρ e hkswf).2 ⟨c :: cs, by simp, hl,
            (EntryOf.congr (get_cons_ne n c k ks cs hnc)).1 hE⟩

/-! ### The serializer succeeds on what it can send -/

theorem send_children_ok (base rel : List Byte) (ρ : List (List Byte))
    (kids : List (List Byte × Node)) (fs : Node) (self : List Byte → World → Res Unit)
    (h0 : 0 ∉ rel) (hres : resolve (fullOf (cstr base) rel) = resolve base ++ ρ)
    (hdir : fs.get (resolve base ++ ρ) = some (.dir kids))
    (hself : ∀ n ks w, w.faults = [] → w.fs = fs → kidsGet n kids = some (.dir ks) →
      validName n = true →
      (Node.dir ks).sendable ((cstr base).length + 1) (child_rel rel n) →
      (self (child_rel rel n) w).1 = .ok () ∧ (self (child_rel rel n) w).2.faults = [] ∧
        (self (child_rel rel n) w).2.fs = fs) :
    ∀ (rest : List (List Byte × Node)) (w : World), w.faults = [] → w.fs = fs →
      (∀ e ∈ rest, validName e.1 = true ∧ kidsGet e.1 kids = some e.2) →
      kidsSendable ((cstr base).length + 1) rel rest →
      (send_children self (fullOf (cstr base) rel) rel (rest.map Prod.fst) w).1 = .ok () ∧
      (send_children self (fullOf (cstr base) rel) rel (rest.map Prod.fst) w).2.faults = [] ∧
      (send_children self (fullOf (cstr base) rel) rel (rest.map Prod.fst) w).2.fs = fs := by
  have hτ : 0 ∉ cstr base := cstr_no_nul base
  have hfull0 := fullOf_no_nul (cstr base) rel hτ h0
  have hcfull : cstr (fullOf (cstr base) rel) = fullOf (cstr base) rel :=
    cstr_of_no_nul _ hfull0
  intro rest
  induction rest with
  | nil => intro w hf hfs _ _; exact ⟨rfl, hf, hfs⟩
  | cons e rest ih =>
    intro w hf hfs hall hfit
    obtain ⟨n, k⟩ := e
    obtain ⟨hv, hget⟩ := hall (n, k) (by simp)
    have hrest : ∀ e ∈ rest, validName e.1 = true ∧ kidsGet e.1 kids = some e.2 :=
      fun e he => hall e (by simp [he])
    simp only [kidsSendable] at hfit
    obtain ⟨hkfit, hfitrest⟩ := hfit
    obtain ⟨v1, _, v3, _, _⟩ := (validName_iff n).1 hv
    obtain ⟨s1, s2⟩ := validName_strcmp n hv
    obtain ⟨c0, _, _, hrj⟩ := child_facts base rel n ρ h0 hres hv
    have hclen : (cstr base).length + 1 + (child_rel rel n).length < PATH_MAX := by
      cases k with
      | file data => simp only [Node.sendable] at hkfit; exact hkfit.1
      | dir ks => simp only [Node.sendable] at hkfit; exact hkfit.1
    have hcl : (child_rel rel n).length < PATH_MAX := by omega
    have hcrel := child_relative_eq rel n h0 hv hcl
    have hflen := fullOf_child_length (cstr base) rel n v1
    rw [fullOf_child (cstr base) rel n v1] at hflen
    have hjoin : join_paths (fullOf (cstr base) rel) n PATH_MAX =
        .ok (fullOf (cstr base) rel ++ 47 :: n) := by
      have := join_paths_ok (fullOf (cstr base) rel) n PATH_MAX (by
        rw [hcfull, validName_cstr n hv]
        simp only [List.length_append, List.length_cons] at hflen
        omega)
      rw [this, hcfull, validName_cstr n hv]
    have hstat := sys_stat_entry (fullOf (cstr base) rel) n w kids hf hv
      (by rw [hcfull]; simp only [List.length_append, List.length_cons] at hflen; omega)
      (by rw [hres, hfs]; exact hdir)
    rw [hcfull, hget] at hstat
    have hstrlen : strlen (child_rel rel n) = (child_rel rel n).length := by
      simp only [strlen, cstr_of_no_nul _ c0]
    simp only [List.map_cons, send_children, s1, s2, Bool.false_eq_true, or_self, if_false,
      hcrel, hjoin, hstat, hstrlen, List.take_length]
    cases k with
    | dir ks =>
      dsimp only
      have hline := entry_line_length 2 (child_rel rel n).length 0 (by decide) hcl (by decide)
      simp only [if_true, send_fmt_short _ _ hline, send_all, send]
      have h3 := hself n ks
        { w with out := w.out ++ entry_line 2 (child_rel rel n).length 0 ++ child_rel rel n }
        hf hfs hget hv hkfit
      rcases hs4 : self (child_rel rel n)
        { w with out := w.out ++ entry_line 2 (child_rel rel n).length 0 ++ child_rel rel n }
        with ⟨r4, w4⟩
      rw [hs4] at h3
      obtain ⟨h31, h32, h33⟩ := h3
      dsimp only at h31 h32 h33
      subst h31
      dsimp only
      exact ih w4 h32 h33 hrest hfitrest
    | file data =>
      simp only [Node.sendable] at hkfit
      have hline := entry_line_length 1 (child_rel rel n).length data.length (by decide) hcl
        hkfit.2
      have hopen := sys_open_read_ok (fullOf (cstr base) rel ++ 47 :: n)
        { w with out := w.out ++ entry_line 1 (child_rel rel n).length data.length ++
            child_rel rel n } data hf
        (by
          have h0f : 0 ∉ fullOf (cstr base) rel ++ 47 :: n := by
            simp only [List.mem_append, List.mem_cons, not_or]
            exact ⟨hfull0, by decide, v3⟩
          simp only [strlen, cstr_of_no_nul _ h0f]
          simp only [List.length_append, List.length_cons] at hflen ⊢
          omega)
        (by
          show w.fs.get _ = _
          rw [hrj, hfs, Node.get_snoc _ n fs kids hdir, hget])
      simp only [Bool.false_eq_true, if_false, send_fmt_short _ _ hline, send_all, send, hopen]
      rw [send_file_loop_spec _ _ _ (Nat.lt_succ_self _)]
      dsimp only
      exact ih _ hf hfs hrest hfitrest

theorem send_directory_rec_ok (base : List Byte) (fs : Node) :
    ∀ (depth : Nat) (rel : List Byte) (ρ : List (List Byte)) (kids : List (List Byte × Node))
      (w : World), w.faults = [] → w.fs = fs → 0 ∉ rel →
      resolve (fullOf (cstr base) rel) = resolve base ++ ρ →
      fs.get (resolve base ++ ρ) = some (.dir kids) → kidsWf kids = true →
      kidsDepth kids < depth → (Node.dir kids).sendable ((cstr base).length + 1) rel →
      (send_directory_rec depth base rel w).1 = .ok () ∧
      (send_directory_rec depth base rel w).2.faults = [] ∧
      (send_directory_rec depth base rel w).2.fs = fs := by
  intro depth
  induction depth with
  | zero => intro rel ρ kids w _ _ _ _ _ _ hd _; omega
  | succ d ih =>
    intro rel ρ kids w hf hfs h0 hres hdir hwf hdepth hfit
    simp only [Node.sendable] at hfit
    obtain ⟨hlen, hkfit⟩ := hfit
    have hfl : (fullOf (cstr base) rel).length < PATH_MAX :=
      lt_of_le_of_lt (fullOf_length _ _) (by omega)
    have hfull0 := fullOf_no_nul (cstr base) rel (cstr_no_nul base) h0
    have hopen := sys_opendir_ok (fullOf (cstr base) rel) w kids hf
      (by simp only [strlen, cstr_of_no_nul _ hfull0]; exact hfl)
      (by rw [hres, hfs]; exact hdir)
    have d1 : strcmp_eq [46] (lit ".") = true := by decide
    have d2 : strcmp_eq [46, 46] (lit "..") = true := by decide
    simp only [send_directory_rec, full_path_eq base rel h0 hfl, hopen, send_children, d1, d2,
      true_or, or_true, if_true]
    refine send_children_ok base rel ρ kids fs (send_directory_rec d base) h0 hres hdir ?_
      kids w hf hfs ?_ hkfit
    · intro n ks w1 hf1 hfs1 hget hv hfit1
      obtain ⟨c0, cres, _, _⟩ := child_facts base rel n ρ h0 hres hv
      refine ih (child_rel rel n) (ρ ++ [n]) ks w1 hf1 hfs1 c0 cres ?_ ?_ ?_ hfit1
      · rw [← List.append_assoc, Node.get_snoc _ n fs kids hdir, hget]
      · have := (kidsWf_get kids n _ hwf hget).1
        rwa [Node.wf_dir] at this
      · have := kidsDepth_get kids n _ hget
        simp only [Node.depth] at this
        omega
    · intro e he
      exact ⟨(kidsWf_names kids hwf).1 e he, kidsGet_of_mem kids hwf e he⟩

/-- With no failing call, `send_directory_entries` succeeds on every tree
whose paths and file sizes it can send. -/
theorem send_directory_entries_ok (base : List Byte) (w : World)
    (kids : List (List Byte × Node)) (hf : w.faults = [])
    (hdir : w.fs.get (resolve base) = some (.dir kids)) (hwf : kidsWf kids = true)
    (hfit : (Node.dir kids).sendable ((cstr base).length + 1) []) :
    (send_directory_entries base w).1 = .ok () := by
  unfold send_directory_entries
  refine (send_directory_rec_ok base w.fs _ [] [] kids w hf rfl (by simp)
    (by simp [fullOf, resolve_cstr]) (by simpa using hdir) hwf ?_ hfit).1
  have h1 := Node.depth_get _ _ _ hdir
  simp only [Node.depth] at h1
  omega

/-! ### Pre-order emission -/

/-- C14: pre-order emission. The directory `base` holds the well-formed tree
`kids`, whose paths below `base` are shorter than `PATH_MAX` and whose files
are shorter than 2^64 bytes. With no failing call `send_directory_entries`
succeeds and sends exactly the bytes of the entries `kids_entries [] kids`,
one after the other: for each entry the line `ENTRY 2 <pathLen> 0` and the
path for a directory, the line `ENTRY 1 <pathLen> <byteSize>`, the path and
the `byteSize` content bytes for a regular file, the path being the names
from the root of the tree with `/` between them. The entries are exactly
the directories and regular files of the tree, the root left out, and no
entry comes before an entry whose location is a leading part of its own:
every directory comes before everything inside it. And in any run from a
state `v` with the same file system, whatever fails, the bytes sent are a
leading part of these bytes, and all of them when the run reports success. -/
theorem preorder_emission (base : List Byte) (w v v1 : World) (r : Except Errno Unit)
    (kids : List (List Byte × Node))
    (hf : w.faults = []) (hdir : w.fs.get (resolve base) = some (.dir kids))
    (hwf : kidsWf kids = true)
    (hfit : (Node.dir kids).sendable ((cstr base).length + 1) [])
    (hv : v.fs = w.fs) (hrun : send_directory_entries base v = (r, v1)) :
    (send_directory_entries base w).1 = .ok () ∧
    (send_directory_entries base w).2.out = w.out ++ entries_bytes (kids_entries [] kids) ∧
    (kids_entries [] kids).Pairwise (fun a b => ¬ b.loc <+: a.loc) ∧
    (∃ em, v1.out = v.out ++ em ∧ em <+: entries_bytes (kids_entries [] kids) ∧
      (r = .ok () → em = entries_bytes (kids_entries [] kids))) ∧
    ∀ e, e ∈ kids_entries [] kids ↔ e.loc ≠ [] ∧ EntryOf (.dir kids) e.loc e := by
  have hb : strlen base < PATH_MAX := by
    simp only [Node.sendable] at hfit
    have := hfit.1
    simp only [strlen]
    omega
  have hser : ser_kids [] kids = entries_bytes (kids_entries [] kids) := ser_entries.2 kids []
  have hok := send_directory_entries_ok base w kids hf hdir hwf hfit
  have hany := send_directory_entries_any base w (send_directory_entries base w).2
    (send_directory_entries base w).1 kids hb hdir hwf Prod.mk.eta.symm
  obtain ⟨_, em, ho, _, hall⟩ := hany
  have hem := hall hok
  subst hem
  refine ⟨hok, by rw [ho, hser], entries_preorder.2 kids [] hwf, ?_, ?_⟩
  · obtain ⟨_, em2, ho2, hp2, hall2⟩ := send_directory_entries_any base v v1 r kids hb
      (by rw [hv]; exact hdir) hwf hrun
    rw [hser] at hp2 hall2
    exact ⟨em2, ho2, hp2, hall2⟩
  · intro e
    rw [entries_mem.2 kids [] e hwf]
    constructor
    · rintro ⟨r, hr, hl, hE⟩
      rw [List.nil_append] at hl
      rw [hl]
      exact ⟨hr, hE⟩
    · rintro ⟨hne, hE⟩
      exact ⟨e.loc, hne, by simp, hE⟩

theorem preorder_emission_witness :
    (send_directory_entries (lit "s")
        ⟨.dir [(lit "s", .dir [(lit "d", .dir [(lit "f", .file (lit "hi"))]),
            (lit "a..b", .file [7])])], [], [], [], [], [], 0, []⟩).1 = .ok () ∧
    (send_directory_entries (lit "s")
        ⟨.dir [(lit "s", .dir [(lit "d", .dir [(lit "f", .file (lit "hi"))]),
            (lit "a..b", .file [7])])], [], [], [], [], [], 0, []⟩).2.out =
      (World.mk (.dir [(lit "s", .dir [(lit "d", .dir [(lit "f", .file (lit "hi"))]),
            (lit "a..b", .file [7])])]) [] [] [] [] [] 0 []).out ++
        entries_bytes (kids_entries []
          [(lit "d", .dir [(lit "f", .file (lit "hi"))]), (lit "a..b", .file [7])]) ∧
    (kids_entries [] [(lit "d", .dir [(lit "f", .file (lit "hi"))]),
        (lit "a..b", .file [7])]).Pairwise (fun a b => ¬ b.loc <+: a.loc) ∧
    (∃ em,
      (send_directory_entries (lit "s")
        ⟨.dir [(lit "s", .dir [(lit "d", .dir [(lit "f", .file (lit "hi"))]),
            (lit "a..b", .file [7])])], [], [], [false, false, false, true], [], [], 0,
          []⟩).2.out =
        (World.mk (.dir [(lit "s", .dir [(lit "d", .dir [(lit "f", .file (lit "hi"))]),
            (lit "a..b", .file [7])])]) [] [] [false, false, false, true] [] [] 0 []).out ++
          em ∧
      em <+: entries_bytes (kids_entries []
          [(lit "d", .dir [(lit "f", .file (lit "hi"))]), (lit "a..b", .file [7])]) ∧
      ((send_directory_entries (lit "s")
        ⟨.dir [(lit "s", .dir [(lit "d", .dir [(lit "f", .file (lit "hi"))]),
            (lit "a..b", .file [7])])], [], [], [false, false, false, true], [], [], 0,
          []⟩).1 = .ok () →
        em = entries_bytes (kids_entries []
          [(lit "d", .dir [(lit "f", .file (lit "hi"))]), (lit "a..b", .file [7])]))) ∧
    entries_bytes (kids_entries []
        [(lit "d", .dir [(lit "f", .file (lit "hi"))]), (lit "a..b", .file [7])]) =
      lit "ENTRY 2 1 0\ndENTRY 1 3 2\nd/fhiENTRY 1 4 1\na..b" ++ [7] := by
  have h := preorder_emission (lit "s")
    ⟨.dir [(lit "s", .dir [(lit "d", .dir [(lit "f", .file (lit "hi"))]),
        (lit "a..b", .file [7])])], [], [], [], [], [], 0, []⟩
    ⟨.dir [(lit "s", .dir [(lit "d", .dir [(lit "f", .file (lit "hi"))]),
        (lit "a..b", .file [7])])], [], [], [false, false, false, true], [], [], 0, []⟩
    (send_directory_entries (lit "s")
      ⟨.dir [(lit "s", .dir [(lit "d", .dir [(lit "f", .file (lit "hi"))]),
          (lit "a..b", .file [7])])], [], [], [false, false, false, true], [], [], 0, []⟩).2
    (send_directory_entries (lit "s")
      ⟨.dir [(lit "s", .dir [(lit "d", .dir [(lit "f", .file (lit "hi"))]),
          (lit "a..b", .file [7])])], [], [], [false, false, false, true], [], [], 0, []⟩).1
    [(lit "d", .dir [(lit "f", .file (lit "hi"))]), (lit "a..b", .file [7])]
    rfl (by decide) (by decide) (by simp only [Node.sendable, kidsSendable]; decide)
    (by dsimp only) Prod.mk.eta.symm
  exact ⟨h.1, h.2.1, h.2.2.1, h.2.2.2.1, by decide!⟩

end McSync
